import Mathlib

/-!
# WAVM: the LLVM IR emitter (`Source/Runtime/LLVMEmitIR.cpp`)

A shallow embedding of `LLVMJIT::JITFunctionContext` and `LLVMJIT::emitModule`.

* LLVM values are references (`Value`): constants, globals, or the result of the
  instruction at a position of a basic block.  Every `irBuilder.CreateX` call appends one
  `Inst` to the block the builder currently points to.
* The C++ object holds fields that never change while an expression is emitted
  (`JITFunctionContext`) and fields that do (`EmitState`): the blocks of `llvmFunction`,
  the insertion point of `irBuilder`, and the linked list `branchContext`.
* `throw;`, a failed `assert` and an array read past its end end the emission with a
  `CompileError`.
* The host is a 64-bit one (`sizeof(uintptr) == 8`).
-/

namespace LLVMJIT

/-! ## AST types used by the emitter (declared in headers outside this file) -/

/-- The value types of the AST, as the emitter uses them (`TypeId::I8` ... `TypeId::Void`). -/
inductive TypeId where
  | I8 | I16 | I32 | I64 | F32 | F64 | Bool | Void
  deriving DecidableEq, Repr

/-- Width in bits of the LLVM type `asLLVMType(type)`: `iN`, `float`, `double`, `i1`. -/
def TypeId.bits : TypeId → Nat
  | .I8 => 8 | .I16 => 16 | .I32 => 32 | .I64 => 64
  | .F32 => 32 | .F64 => 64 | .Bool => 1 | .Void => 0

/-- Number of bytes a load or store of the LLVM type `asLLVMType(type)` touches. -/
def TypeId.byteWidth : TypeId → Nat
  | .I8 => 1 | .I16 => 2 | .I32 => 4 | .I64 => 8
  | .F32 => 4 | .F64 => 8 | .Bool => 1 | .Void => 0

/-- A `BranchTarget` object: `id` stands for its address, `type` is `branchTarget->type`. -/
structure BranchTarget where
  id : Nat
  type : TypeId
  deriving DecidableEq, Repr

/-- The `FunctionType` of the AST. -/
structure FunctionType where
  parameters : List TypeId
  returnType : TypeId
  deriving DecidableEq, Repr

/-- The four `visitLoad` overloads: the class template, and `load`, `loadZExt`, `loadSExt`
of `IntClass`. -/
inductive LoadOp where
  | anyLoad | intLoad | loadZExt | loadSExt
  deriving DecidableEq, Repr

/-- The operators `IMPLEMENT_UNARY_OP` is instantiated for. -/
inductive UnaryOp where
  | intNeg | intAbs | intBitwiseNot | intClz | intCtz | intPopcnt
  | floatNeg | floatAbs | floatCeil | floatFloor | floatTrunc | floatNearestInt | floatSqrt
  | boolBitwiseNot
  deriving DecidableEq, Repr

/-- The operators `IMPLEMENT_BINARY_OP` is instantiated for. -/
inductive BinaryOp where
  | intAdd | intSub | intMul | divs | divu | rems | remu
  | intBitwiseAnd | intBitwiseOr | intBitwiseXor | shl | shrSExt | shrZExt
  | floatAdd | floatSub | floatMul | floatDiv | floatRem | floatMin | floatMax | copySign
  | boolBitwiseAnd | boolBitwiseOr
  deriving DecidableEq, Repr

/-- The operators `IMPLEMENT_CAST_OP` is instantiated for. -/
inductive CastOp where
  | wrap | truncSignedFloat | truncUnsignedFloat | sext | zext | reinterpretFloat
  | reinterpretBool
  | convertSignedInt | convertUnsignedInt | promote | demote | reinterpretInt
  deriving DecidableEq, Repr

/-- The operators `IMPLEMENT_COMPARE_OP` is instantiated for. -/
inductive ComparisonOp where
  | eq | ne | lt | lts | ltu | le | les | leu | gt | gts | gtu | ge | ges | geu
  deriving DecidableEq, Repr

mutual
/-- The expression tree the emitter visits.  A field that the source reads from a typed
sub-expression (`store->value.type`, `switchExpression->key.type`, the type of
`cast->source` and of `discardResult->expression`) is a field of the node. -/
inductive Expression where
  | literal (type : TypeId) (value : Nat)
  | error (message : String)
  | getLocal (variableIndex : Nat)
  | setLocal (variableIndex : Nat) (value : Expression)
  | load (op : LoadOp) (address : Expression) (isFarAddress : Bool) (alignmentLog2 : Nat)
      (memoryType : TypeId)
  | store (isIntClass : Bool) (address : Expression) (isFarAddress : Bool)
      (alignmentLog2 : Nat) (value : Expression) (valueType : TypeId) (memoryType : TypeId)
  | callDirect (functionIndex : Nat) (parameters : ExpressionList)
  | callImport (functionIndex : Nat) (parameters : ExpressionList)
  | callIndirect (tableIndex : Nat) (functionIndex : Expression) (parameters : ExpressionList)
  | switch (key : Expression) (keyType : TypeId) (arms : SwitchArms) (defaultArmIndex : Nat)
      (endTarget : BranchTarget)
  | ifElse (condition thenExpression elseExpression : Expression)
  | label (endTarget : BranchTarget) (expression : Expression)
  | sequence (voidExpression resultExpression : Expression)
  | ret (value : Expression)
  | loop (expression : Expression) (breakTarget continueTarget : BranchTarget)
  | branch (branchTarget : BranchTarget) (value : Expression)
  | nop
  | discardResult (expression : Expression) (type : TypeId)
  | unary (op : UnaryOp) (operand : Expression)
  | binary (op : BinaryOp) (left right : Expression)
  | cast (op : CastOp) (source : Expression) (sourceType : TypeId)
  | comparison (op : ComparisonOp) (operandType : TypeId) (left right : Expression)
/-- The argument array of a call (`UntypedExpression** args`). -/
inductive ExpressionList where
  | nil
  | cons (head : Expression) (tail : ExpressionList)
/-- The array `switchExpression->arms` of `SwitchArm {key, value}`. -/
inductive SwitchArms where
  | nil
  | cons (key : Nat) (value : Expression) (rest : SwitchArms)
end

/-- The field `switchExpression->numArms`. -/
def SwitchArms.numArms : SwitchArms → Nat
  | .nil => 0
  | .cons _ _ rest => rest.numArms + 1

/-- The keys `arms[i].key`, in arm order. -/
def SwitchArms.keys : SwitchArms → List Nat
  | .nil => []
  | .cons key _ rest => key :: rest.keys

/-- A local variable of a function: `locals[i].type` (its name only labels the alloca). -/
structure LocalVariable where
  type : TypeId

/-- A function of the AST module. -/
structure Function where
  name : Option String
  type : FunctionType
  locals : List LocalVariable
  parameterLocalIndices : List Nat
  expression : Expression

/-- An entry of `astModule->functionImports`. -/
structure FunctionImport where
  module : String
  name : String
  type : FunctionType

/-- An entry of `astModule->functionTables`; `numFunctions` is the length of
`functionIndices`. -/
structure FunctionTable where
  type : FunctionType
  functionIndices : List Nat

/-- The field `astFunctionTable.numFunctions`. -/
def FunctionTable.numFunctions (t : FunctionTable) : Nat := t.functionIndices.length

/-- The AST module. -/
structure Module where
  functions : List Function
  functionImports : List FunctionImport
  functionTables : List FunctionTable
  exportNameToFunctionIndexMap : List (String × Nat)

/-! ## LLVM IR -/

/-- The LLVM intrinsics the emitter asks `getLLVMIntrinsic` for. -/
inductive IntrinsicID where
  | ctlz | cttz | ctpop | fabs | ceil | floor | trunc | nearbyint | sqrt | minnum | maxnum
  | copysign
  deriving DecidableEq, Repr

/-- A reference to an LLVM value. -/
inductive Value where
  /-- The `nullptr` that stands for "no value". -/
  | null
  /-- The global `voidDummy`. -/
  | voidDummy
  /-- The entry `typedZeroConstants[type]`. -/
  | typedZero (type : TypeId)
  /-- A constant made by `compileLiteral`: a constant of the LLVM type of `type`. -/
  | literal (type : TypeId) (value : Nat)
  /-- The constant pointer `jitModule.instanceMemoryBase`. -/
  | instanceMemoryBase
  /-- The function `jitModule.functions[index]`. -/
  | function (index : Nat)
  /-- The global `jitModule.functionImportPointers[index]`. -/
  | functionImportPointer (index : Nat)
  /-- The global `jitModule.functionTablePointers[index]`. -/
  | functionTablePointer (index : Nat)
  /-- An incoming argument of `llvmFunction`. -/
  | argument (index : Nat)
  /-- The declaration of an LLVM intrinsic (`getLLVMIntrinsic`). -/
  | intrinsic (id : IntrinsicID) (argTypes : List TypeId)
  /-- The result of the instruction at position `index` of basic block `block`. -/
  | inst (block : Nat) (index : Nat)
  deriving DecidableEq, Repr

/-- Opcodes of the LLVM cast instructions the emitter creates. -/
inductive LLVMCast where
  | ZExt | SExt | Trunc | FPToSI | FPToUI | SIToFP | UIToFP | FPExt | FPTrunc | BitCast
  deriving DecidableEq, Repr

/-- Opcodes of the LLVM one-operand instructions the emitter creates. -/
inductive LLVMUnary where
  | Neg | Not | FNeg
  deriving DecidableEq, Repr

/-- Opcodes of the LLVM two-operand instructions the emitter creates. -/
inductive LLVMBinary where
  | Add | Sub | Mul | SDiv | UDiv | SRem | URem | And | Or | Xor | Shl | AShr | LShr
  | FAdd | FSub | FMul | FDiv | FRem
  deriving DecidableEq, Repr

/-- Predicates of the LLVM compare instructions the emitter creates. -/
inductive LLVMCmp where
  | FCmpOEQ | FCmpONE | FCmpOLT | FCmpOLE | FCmpOGT | FCmpOGE
  | ICmpEQ | ICmpNE | ICmpSLT | ICmpULT | ICmpSLE | ICmpULE | ICmpSGT | ICmpUGT
  | ICmpSGE | ICmpUGE
  deriving DecidableEq, Repr

/-- An LLVM instruction.  `alignment` is what `setAlignment` was called with, if it was. -/
inductive Inst where
  | alloca (type : TypeId)
  | load (pointer : Value) (alignment : Option Nat)
  | store (value pointer : Value) (alignment : Option Nat)
  | cast (op : LLVMCast) (operand : Value) (destType : TypeId)
  | pointerCast (pointer : Value) (pointee : TypeId)
  | unary (op : LLVMUnary) (operand : Value)
  | binary (op : LLVMBinary) (left right : Value)
  | cmp (op : LLVMCmp) (left right : Value)
  | inBoundsGEP (pointer : Value) (indices : List Value)
  | call (function : Value) (args : List Value)
  | phi (type : TypeId) (incoming : List (Value × Nat))
  | br (dest : Nat)
  | condBr (condition : Value) (trueDest falseDest : Nat)
  | switch (value : Value) (defaultDest : Nat) (cases : List (Value × Nat))
  | ret (value : Option Value)
  deriving DecidableEq, Repr

/-- The terminator instructions. -/
def Inst.isTerminator : Inst → Bool
  | .br _ | .condBr _ _ _ | .switch _ _ _ | .ret _ => true
  | _ => false

/-- The basic blocks an instruction can transfer control to. -/
def Inst.successors : Inst → List Nat
  | .br dest => [dest]
  | .condBr _ t f => [t, f]
  | .switch _ d cases => d :: cases.map Prod.snd
  | _ => []

/-! ## The emitter's state -/

/-- How an emission ends when it does not produce a value. -/
inductive CompileError where
  /-- A `throw;` statement was reached. -/
  | thrown
  /-- An `assert` failed. -/
  | assertionFailed
  /-- An array was read past its end. -/
  | outOfBounds
  /-- A loop does not end. -/
  | doesNotEnd
  deriving DecidableEq, Repr

/-- An incoming edge of a branch target (`BranchResult`); `next` is the tail of the list
that holds it. -/
structure BranchResult where
  incomingBlock : Nat
  value : Value
  deriving DecidableEq, Repr

/-- An in-scope branch target (`BranchContext`); `outerContext` is the tail of the list
that holds it. -/
structure BranchContext where
  branchTarget : BranchTarget
  basicBlock : Nat
  results : List BranchResult
  deriving DecidableEq, Repr

/-- The part of a `JITModule` the function emitter reads. -/
structure JITModule where
  astModule : Module
  instanceMemoryAddressMask : Value
  /-- The elements of the constant array behind each `functionTablePointers[i]`. -/
  functionTablePointers : List (List Value)

/-- The fields of `JITFunctionContext` that stay fixed while an expression is emitted. -/
structure JITFunctionContext where
  jitModule : JITModule
  astFunction : Function
  localVariablePointers : List Value
  unreachableBlock : Nat

/-- The fields of `JITFunctionContext` that emission changes: the basic blocks of
`llvmFunction` (they are numbered in creation order, `blocks b` is the instruction list of
block `b`), the block `irBuilder` inserts into, and the list `branchContext` with the
innermost target first. -/
structure EmitState where
  numBlocks : Nat
  blocks : Nat → List Inst
  insertBlock : Nat
  branchContext : List BranchContext

/-- The outcome of an emission step. -/
abbrev EmitResult (α : Type) := Except CompileError (α × EmitState)

/-- Creates a basic block at the end of the function (`llvm::BasicBlock::Create`). -/
def createBasicBlock (s : EmitState) : Nat × EmitState :=
  (s.numBlocks, { s with numBlocks := s.numBlocks + 1 })

/-- Creates `n` basic blocks, one after the other; the result is the first of them. -/
def createBasicBlocks (n : Nat) (s : EmitState) : Nat × EmitState :=
  (s.numBlocks, { s with numBlocks := s.numBlocks + n })

/-- Creates an instruction at the insertion point (`irBuilder.CreateX`): the instruction
is appended to the block, and its result is the value at that position of the block. -/
def insert (i : Inst) (s : EmitState) : Value × EmitState :=
  (.inst s.insertBlock (s.blocks s.insertBlock).length,
   { s with blocks := fun b => if b = s.insertBlock then s.blocks b ++ [i] else s.blocks b })

/-- Moves the insertion point to the end of a block (`irBuilder.SetInsertPoint`). -/
def setInsertPoint (b : Nat) (s : EmitState) : EmitState := { s with insertBlock := b }

/-- Inserts a branch, and returns the old basic block. -/
def compileBranch (cx : JITFunctionContext) (dest : Nat) (s : EmitState) :
    Option Nat × EmitState :=
  let exitBlock := s.insertBlock
  if exitBlock = cx.unreachableBlock then (none, s)
  else (some exitBlock, (insert (.br dest) s).2)

/-- Inserts a conditional branch, and returns the old basic block. -/
def compileCondBranch (cx : JITFunctionContext) (condition : Value) (trueDest falseDest : Nat)
    (s : EmitState) : Option Nat × EmitState :=
  let exitBlock := s.insertBlock
  if exitBlock = cx.unreachableBlock then (none, s)
  else (some exitBlock, (insert (.condBr condition trueDest falseDest) s).2)

/-! ## Emission of expressions -/

/-- The constant `compileLiteral((uintN)value)`: the value is cut to the width of the type. -/
def compileLiteral (type : TypeId) (value : Nat) : Value := .literal type (value % 2 ^ type.bits)

/-- The test `isTypeClass(type,TypeClassId::Int)`. -/
def isIntType : TypeId → Bool
  | .I8 | .I16 | .I32 | .I64 => true
  | _ => false

/-- The test `isTypeClass(type,TypeClassId::Float)`. -/
def isFloatType : TypeId → Bool
  | .F32 | .F64 => true
  | _ => false

/-- The emission of a sub-expression for an expected type: what `dispatch(*this,e,type)`
does for one fixed `e`. -/
abbrev Dispatcher := TypeId → EmitState → EmitResult Value

/-- Emits the address computation of a load or store (`compileAddress`). -/
def compileAddress (cx : JITFunctionContext) (address : Dispatcher) (isFarAddress : Bool)
    (memoryType : TypeId) (s : EmitState) : EmitResult Value :=
  -- If the address is 32-bits, zext it to 64-bits.
  let byteIndexResult : EmitResult Value :=
    if isFarAddress then address .I64 s
    else
      match address .I32 s with
      | .error e => .error e
      | .ok (a, s1) => .ok (insert (.cast .ZExt a .I64) s1)
  match byteIndexResult with
  | .error e => .error e
  | .ok (byteIndex, s1) =>
    -- Mask the index to the address-space size.
    let (maskedByteIndex, s2) :=
      insert (.binary .And byteIndex cx.jitModule.instanceMemoryAddressMask) s1
    -- Cast the pointer to the appropriate type.
    let (bytePointer, s3) := insert (.inBoundsGEP .instanceMemoryBase [maskedByteIndex]) s2
    .ok (insert (.pointerCast bytePointer memoryType) s3)

/-- Emits a call once its arguments are emitted (`compileCall`); `args` emits the argument
expressions for the parameter types. -/
def compileCall (functionType : FunctionType) (function : Value)
    (args : List TypeId → EmitState → EmitResult (List Value)) (s : EmitState) :
    EmitResult Value :=
  match args functionType.parameters s with
  | .error e => .error e
  | .ok (llvmArgs, s1) => .ok (insert (.call function llvmArgs) s1)

/-- The visitor `visitLiteral`. -/
def visitLiteral (type : TypeId) (value : Nat) (s : EmitState) : EmitResult Value :=
  .ok (.literal type value, s)

/-- The visitor `visitError`. -/
def visitError (_s : EmitState) : EmitResult Value := .error .thrown

/-- The visitor `visitGetLocal`. -/
def visitGetLocal (cx : JITFunctionContext) (variableIndex : Nat) (s : EmitState) :
    EmitResult Value :=
  if variableIndex < cx.astFunction.locals.length then
    match cx.localVariablePointers[variableIndex]? with
    | none => .error .outOfBounds
    | some pointer => .ok (insert (.load pointer none) s)
  else .error .assertionFailed

/-- The visitor `visitSetLocal`. -/
def visitSetLocal (cx : JITFunctionContext) (variableIndex : Nat) (value : Dispatcher)
    (s : EmitState) : EmitResult Value :=
  match cx.astFunction.locals[variableIndex]? with
  | none => .error .assertionFailed
  | some localVariable =>
    match value localVariable.type s with
    | .error e => .error e
    | .ok (v, s1) =>
      match cx.localVariablePointers[variableIndex]? with
      | none => .error .outOfBounds
      | some pointer => .ok (v, (insert (.store v pointer none) s1).2)

/-- The four overloads of `visitLoad`. -/
def visitLoad (cx : JITFunctionContext) (type : TypeId) (op : LoadOp) (address : Dispatcher)
    (isFarAddress : Bool) (alignmentLog2 : Nat) (memoryType : TypeId) (s : EmitState) :
    EmitResult Value :=
  match op with
  | .anyLoad =>
    if type = memoryType then
      match compileAddress cx address isFarAddress memoryType s with
      | .error e => .error e
      | .ok (pointer, s1) => .ok (insert (.load pointer (some (1 <<< alignmentLog2))) s1)
    else .error .assertionFailed
  | .intLoad =>
    match compileAddress cx address isFarAddress memoryType s with
    | .error e => .error e
    | .ok (pointer, s1) =>
      let (memoryValue, s2) := insert (.load pointer (some (1 <<< alignmentLog2))) s1
      if isIntType memoryType then
        if type = memoryType then .ok (memoryValue, s2)
        else .ok (insert (.cast .Trunc memoryValue type) s2)
      else .error .assertionFailed
  | .loadZExt =>
    match compileAddress cx address isFarAddress memoryType s with
    | .error e => .error e
    | .ok (pointer, s1) =>
      let (memoryValue, s2) := insert (.load pointer (some (1 <<< alignmentLog2))) s1
      .ok (insert (.cast .ZExt memoryValue type) s2)
  | .loadSExt =>
    match compileAddress cx address isFarAddress memoryType s with
    | .error e => .error e
    | .ok (pointer, s1) =>
      let (memoryValue, s2) := insert (.load pointer (some (1 <<< alignmentLog2))) s1
      .ok (insert (.cast .SExt memoryValue type) s2)

/-- The two overloads of `visitStore`: the class template and the one of `IntClass`. -/
def visitStore (cx : JITFunctionContext) (isIntClass : Bool) (address : Dispatcher)
    (isFarAddress : Bool) (alignmentLog2 : Nat) (value : Dispatcher) (valueType : TypeId)
    (memoryType : TypeId) (s : EmitState) : EmitResult Value :=
  match value valueType s with
  | .error e => .error e
  | .ok (v, s1) =>
    if isIntClass then
      let truncated : EmitResult Value :=
        if valueType ≠ memoryType then
          if isIntType memoryType then .ok (insert (.cast .Trunc v memoryType) s1)
          else .error .assertionFailed
        else .ok (v, s1)
      match truncated with
      | .error e => .error e
      | .ok (memoryValue, s2) =>
        match compileAddress cx address isFarAddress memoryType s2 with
        | .error e => .error e
        | .ok (pointer, s3) => .ok (v, (insert (.store memoryValue pointer none) s3).2)
    else
      match compileAddress cx address isFarAddress memoryType s1 with
      | .error e => .error e
      | .ok (pointer, s2) =>
        .ok (v, (insert (.store v pointer (some (1 <<< alignmentLog2))) s2).2)

/-- The visitor `visitCall` for `callDirect`. -/
def visitCallDirect (cx : JITFunctionContext) (type : TypeId) (functionIndex : Nat)
    (parameters : List TypeId → EmitState → EmitResult (List Value)) (s : EmitState) :
    EmitResult Value :=
  match cx.jitModule.astModule.functions[functionIndex]? with
  | none => .error .outOfBounds
  | some calledFunction =>
    if calledFunction.type.returnType = type then
      compileCall calledFunction.type (.function functionIndex) parameters s
    else .error .assertionFailed

/-- The visitor `visitCall` for `callImport`. -/
def visitCallImport (cx : JITFunctionContext) (type : TypeId) (functionIndex : Nat)
    (parameters : List TypeId → EmitState → EmitResult (List Value)) (s : EmitState) :
    EmitResult Value :=
  match cx.jitModule.astModule.functionImports[functionIndex]? with
  | none => .error .outOfBounds
  | some astFunctionImport =>
    if astFunctionImport.type.returnType = type then
      compileCall astFunctionImport.type (.functionImportPointer functionIndex) parameters s
    else .error .assertionFailed

/-- The constant `compileLiteral((uint32)astFunctionTable.numFunctions-1)`: the subtraction
is done on 32-bit unsigned numbers. -/
def functionIndexMask (numFunctions : Nat) : Value :=
  compileLiteral .I32 (numFunctions % 2 ^ 32 + 2 ^ 32 - 1)

/-- The visitor `visitCallIndirect`. -/
def visitCallIndirect (cx : JITFunctionContext) (type : TypeId) (tableIndex : Nat)
    (functionIndex : Dispatcher)
    (parameters : List TypeId → EmitState → EmitResult (List Value)) (s : EmitState) :
    EmitResult Value :=
  match cx.jitModule.astModule.functionTables[tableIndex]? with
  | none => .error .assertionFailed
  | some astFunctionTable =>
    let functionTablePointer := Value.functionTablePointer tableIndex
    if astFunctionTable.type.returnType ≠ type then .error .assertionFailed
    else if ¬ (0 < astFunctionTable.numFunctions) then .error .assertionFailed
    else
      -- Compile the function index and mask it to be within the function table's bounds.
      match functionIndex .I32 s with
      | .error e => .error e
      | .ok (index, s1) =>
        let mask := functionIndexMask astFunctionTable.numFunctions
        let (maskedFunctionIndex, s2) := insert (.binary .And index mask) s1
        -- Get a pointer to the function pointer in the function table.
        let gepIndices := [compileLiteral .I32 0, maskedFunctionIndex]
        let (slot, s3) := insert (.inBoundsGEP functionTablePointer gepIndices) s2
        -- Load the function pointer from the table and call it.
        let (function, s4) := insert (.load slot none) s3
        compileCall astFunctionTable.type function parameters s4

/-- The cases `switchInstruction->addCase` is called with, in arm order: one for each arm
other than the default arm.  `index` is the index of the first key of the list. -/
def switchCases (keyType : TypeId) (defaultArmIndex armEntryBlocks : Nat) :
    Nat → List Nat → List (Value × Nat)
  | _, [] => []
  | index, key :: keys =>
    if index ≠ defaultArmIndex then
      (compileLiteral keyType key, armEntryBlocks + index) ::
        switchCases keyType defaultArmIndex armEntryBlocks (index + 1) keys
    else switchCases keyType defaultArmIndex armEntryBlocks (index + 1) keys

/-- Adds an incoming edge to the `results` of the context at depth `k` of the list of
in-scope contexts (0 is the innermost). -/
def addBranchResult (r : BranchResult) : Nat → List BranchContext → List BranchContext
  | _, [] => []
  | 0, c :: outer => { c with results := r :: c.results } :: outer
  | k + 1, c :: outer => c :: addBranchResult r k outer

/-- The incoming edges a phi node gets from a `results` list, in list order. -/
def phiIncoming (results : List BranchResult) : List (Value × Nat) :=
  results.map fun r => (r.value, r.incomingBlock)

/-- The body of the arm loop of `visitSwitch` for one arm, once the arm's value is
emitted: the branch out of the arm and, for the final arm, its edge to the successor. -/
def finishSwitchArm (cx : JITFunctionContext) (type : TypeId) (isFinalArm : Bool)
    (nextArmBlock successorBlock : Nat) (armValue : Value) (s : EmitState) : EmitState :=
  if isFinalArm then
    let (exitBlock, s1) := compileBranch cx successorBlock s
    match exitBlock with
    | some b =>
      if type ≠ .Void then
        { s1 with branchContext := addBranchResult ⟨b, armValue⟩ 0 s1.branchContext }
      else s1
    | none => s1
  else (compileBranch cx nextArmBlock s).2

/-- The visitor `visitSwitch`.  `key` emits the key, `arms` runs the loop over the arms
given the first arm block and the successor block.  The switch instruction is created with
the cases that the loop adds to it. -/
def visitSwitch (type : TypeId) (key : EmitState → EmitResult Value)
    (keyType : TypeId) (numArms : Nat) (armKeys : List Nat) (defaultArmIndex : Nat)
    (endTarget : BranchTarget) (arms : Nat → Nat → EmitState → EmitResult Unit)
    (s : EmitState) : EmitResult Value :=
  match key s with
  | .error e => .error e
  | .ok (value, s1) =>
    -- Create the basic blocks for each arm of the switch.
    let (armEntryBlocks, s2) := createBasicBlocks numArms s1
    -- Create and link the context for this switch's branch target.
    let (successorBlock, s3) := createBasicBlock s2
    let outerBranchContext := s3.branchContext
    let s4 := { s3 with branchContext := ⟨endTarget, successorBlock, []⟩ :: outerBranchContext }
    if endTarget.type ≠ type then .error .assertionFailed
    else if ¬ (0 < numArms) then .error .assertionFailed
    else if ¬ (defaultArmIndex < numArms) then .error .assertionFailed
    else
      let defaultBlock := armEntryBlocks + defaultArmIndex
      let cases := switchCases keyType defaultArmIndex armEntryBlocks 0 armKeys
      let (_, s5) := insert (.switch value defaultBlock cases) s4
      match arms armEntryBlocks successorBlock s5 with
      | .error e => .error e
      | .ok (_, s6) =>
        -- Remove the switch's branch target from the in-scope context list.
        match s6.branchContext with
        | [] => .error .assertionFailed
        | endBranchContext :: outer =>
          if outer.length ≠ outerBranchContext.length then .error .assertionFailed
          else
            let s7 := setInsertPoint successorBlock { s6 with branchContext := outer }
            if type = .Void then .ok (.voidDummy, s7)
            else .ok (insert (.phi type (phiIncoming endBranchContext.results)) s7)

/-- The incoming edge of a phi node for a block that `compileBranch` returned. -/
def exitEdge (value : Value) : Option Nat → List (Value × Nat)
  | some exitBlock => [(value, exitBlock)]
  | none => []

/-- The visitor `visitIfElse`. -/
def visitIfElse (cx : JITFunctionContext) (type : TypeId)
    (condition thenExpression elseExpression : Dispatcher) (s : EmitState) :
    EmitResult Value :=
  match condition .Bool s with
  | .error e => .error e
  | .ok (cond, s1) =>
    let (trueBlock, s2) := createBasicBlock s1
    let (falseBlock, s3) := createBasicBlock s2
    let (successorBlock, s4) := createBasicBlock s3
    let (_, s5) := compileCondBranch cx cond trueBlock falseBlock s4
    match thenExpression type (setInsertPoint trueBlock s5) with
    | .error e => .error e
    | .ok (trueValue, s6) =>
      let (trueExitBlock, s7) := compileBranch cx successorBlock s6
      match elseExpression type (setInsertPoint falseBlock s7) with
      | .error e => .error e
      | .ok (falseValue, s8) =>
        let (falseExitBlock, s9) := compileBranch cx successorBlock s8
        let s10 := setInsertPoint successorBlock s9
        if type = .Void then .ok (.voidDummy, s10)
        else
          .ok (insert (.phi type (exitEdge trueValue trueExitBlock ++
            exitEdge falseValue falseExitBlock)) s10)

/-- The visitor `visitLabel`. -/
def visitLabel (cx : JITFunctionContext) (type : TypeId) (endTarget : BranchTarget)
    (expression : Dispatcher) (s : EmitState) : EmitResult Value :=
  let (labelBlock, s1) := createBasicBlock s
  let (successorBlock, s2) := createBasicBlock s1
  let (_, s3) := compileBranch cx labelBlock s2
  let s4 := setInsertPoint labelBlock s3
  -- Create and link the context for this label's branch target.
  let outerBranchContext := s4.branchContext
  let s5 := { s4 with branchContext := ⟨endTarget, successorBlock, []⟩ :: outerBranchContext }
  -- Compile the label's value.
  match expression type s5 with
  | .error e => .error e
  | .ok (value, s6) =>
    -- Remove the label's branch target from the in-scope context list.
    match s6.branchContext with
    | [] => .error .assertionFailed
    | endBranchContext :: outer =>
      if outer.length ≠ outerBranchContext.length then .error .assertionFailed
      else
        let s7 := { s6 with branchContext := outer }
        -- Branch to the successor block.
        let (exitBlock, s8) := compileBranch cx successorBlock s7
        let s9 := setInsertPoint successorBlock s8
        -- Create a phi node that merges all the possible values yielded by the label.
        if type = .Void then .ok (.voidDummy, s9)
        else
          .ok (insert (.phi type (exitEdge value exitBlock ++
            phiIncoming endBranchContext.results)) s9)

/-- The visitor `visitSequence`. -/
def visitSequence (type : TypeId) (voidExpression resultExpression : Dispatcher)
    (s : EmitState) : EmitResult Value :=
  match voidExpression .Void s with
  | .error e => .error e
  | .ok (_, s1) => resultExpression type s1

/-- The visitor `visitReturn`. -/
def visitReturn (cx : JITFunctionContext) (type : TypeId) (value : Dispatcher)
    (s : EmitState) : EmitResult Value :=
  let returnValueResult : EmitResult Value :=
    if cx.astFunction.type.returnType = .Void then .ok (.null, s)
    else value cx.astFunction.type.returnType s
  match returnValueResult with
  | .error e => .error e
  | .ok (returnValue, s1) =>
    if s1.insertBlock ≠ cx.unreachableBlock then
      let s2 :=
        if cx.astFunction.type.returnType = .Void then (insert (.ret none) s1).2
        else (insert (.ret (some returnValue)) s1).2
      -- Set the insert point to the unreachable block.
      .ok (.typedZero type, setInsertPoint cx.unreachableBlock s2)
    else .ok (.typedZero type, s1)

/-- The visitor `visitLoop`. -/
def visitLoop (cx : JITFunctionContext) (type : TypeId) (expression : Dispatcher)
    (breakTarget continueTarget : BranchTarget) (s : EmitState) : EmitResult Value :=
  let (loopBlock, s1) := createBasicBlock s
  let (successorBlock, s2) := createBasicBlock s1
  -- Create and link the contexts for this loop's branch targets.
  let outerBranchContext := s2.branchContext
  let s3 := { s2 with branchContext :=
    ⟨breakTarget, successorBlock, []⟩ :: ⟨continueTarget, loopBlock, []⟩ :: outerBranchContext }
  let (_, s4) := compileBranch cx loopBlock s3
  match expression .Void (setInsertPoint loopBlock s4) with
  | .error e => .error e
  | .ok (_, s5) =>
    let (_, s6) := compileBranch cx loopBlock s5
    -- Remove the loop's branch targets from the in-scope context list.
    match s6.branchContext with
    | breakBranchContext :: _ :: outer =>
      if outer.length ≠ outerBranchContext.length then .error .assertionFailed
      else
        let s7 := setInsertPoint successorBlock { s6 with branchContext := outer }
        if type = .Void then .ok (.voidDummy, s7)
        else .ok (insert (.phi type (phiIncoming breakBranchContext.results)) s7)
    | _ => .error .assertionFailed

/-- The loop of `visitBranch` that walks the in-scope contexts from the innermost one
outwards: the depth and the context of the first one whose target is `branchTarget`. -/
def findTargetContext (branchTarget : BranchTarget) :
    List BranchContext → Option (Nat × BranchContext)
  | [] => none
  | c :: outer =>
    if c.branchTarget ≠ branchTarget then
      match findTargetContext branchTarget outer with
      | some (k, found) => some (k + 1, found)
      | none => none
    else some (0, c)

/-- The visitor `visitBranch`. -/
def visitBranch (cx : JITFunctionContext) (type : TypeId) (branchTarget : BranchTarget)
    (value : Dispatcher) (s : EmitState) : EmitResult Value :=
  -- Find the branch target context for this branch's target.
  match findTargetContext branchTarget s.branchContext with
  | none => .error .thrown
  | some (depth, targetContext) =>
    -- If the branch target has a non-void type, compile the branch's value.
    let valueResult : EmitResult Value :=
      if branchTarget.type = .Void then .ok (.voidDummy, s)
      else value targetContext.branchTarget.type s
    match valueResult with
    | .error e => .error e
    | .ok (v, s1) =>
      -- Insert the branch instruction.
      let (exitBlock, s2) := compileBranch cx targetContext.basicBlock s1
      -- Add the branch's value to the list of incoming values for the branch target.
      let s3 :=
        match exitBlock with
        | some b => { s2 with branchContext := addBranchResult ⟨b, v⟩ depth s2.branchContext }
        | none => s2
      -- Set the insert point to the unreachable block.
      .ok (.typedZero type, setInsertPoint cx.unreachableBlock s3)

/-- The visitor `visitNop`. -/
def visitNop (s : EmitState) : EmitResult Value := .ok (.voidDummy, s)

/-- The visitor `visitDiscardResult`. -/
def visitDiscardResult (expression : EmitState → EmitResult Value) (s : EmitState) :
    EmitResult Value :=
  match expression s with
  | .error e => .error e
  | .ok (_, s1) => .ok (.voidDummy, s1)

/-- The one-operand overload of `compileIntrinsic`. -/
def compileIntrinsic (intrinsicId : IntrinsicID) (operandType : TypeId) (firstOperand : Value)
    (s : EmitState) : Value × EmitState :=
  insert (.call (.intrinsic intrinsicId [operandType]) [firstOperand]) s

/-- The two-operand overload of `compileIntrinsic`. -/
def compileIntrinsic2 (intrinsicId : IntrinsicID) (operandType : TypeId)
    (firstOperand secondOperand : Value) (s : EmitState) : Value × EmitState :=
  insert (.call (.intrinsic intrinsicId [operandType, operandType])
    [firstOperand, secondOperand]) s

/-- The helper `compileIntAbs`; `type` is the type of the operand. -/
def compileIntAbs (type : TypeId) (operand : Value) (s : EmitState) : Value × EmitState :=
  let (mask, s1) := insert (.binary .AShr operand (.literal type (type.bits - 1))) s
  let (sum, s2) := insert (.binary .Add operand mask) s1
  insert (.binary .Xor sum mask) s2

/-- The instruction `IMPLEMENT_UNARY_OP` gives for each operator, on an emitted operand. -/
def compileUnaryOp (op : UnaryOp) (type : TypeId) (operand : Value) (s : EmitState) :
    Value × EmitState :=
  match op with
  | .intNeg => insert (.unary .Neg operand) s
  | .intAbs => compileIntAbs type operand s
  | .intBitwiseNot => insert (.unary .Not operand) s
  | .intClz => insert (.call (.intrinsic .ctlz [type]) [operand, .literal .Bool 0]) s
  | .intCtz => insert (.call (.intrinsic .cttz [type]) [operand, .literal .Bool 0]) s
  | .intPopcnt => compileIntrinsic .ctpop type operand s
  | .floatNeg => insert (.unary .FNeg operand) s
  | .floatAbs => compileIntrinsic .fabs type operand s
  | .floatCeil => compileIntrinsic .ceil type operand s
  | .floatFloor => compileIntrinsic .floor type operand s
  | .floatTrunc => compileIntrinsic .trunc type operand s
  | .floatNearestInt => compileIntrinsic .nearbyint type operand s
  | .floatSqrt => compileIntrinsic .sqrt type operand s
  | .boolBitwiseNot => insert (.unary .Not operand) s

/-- The instruction `IMPLEMENT_BINARY_OP` gives for each operator, on emitted operands. -/
def compileBinaryOp (op : BinaryOp) (type : TypeId) (left right : Value) (s : EmitState) :
    Value × EmitState :=
  match op with
  | .intAdd => insert (.binary .Add left right) s
  | .intSub => insert (.binary .Sub left right) s
  | .intMul => insert (.binary .Mul left right) s
  | .divs => insert (.binary .SDiv left right) s
  | .divu => insert (.binary .UDiv left right) s
  | .rems => insert (.binary .SRem left right) s
  | .remu => insert (.binary .URem left right) s
  | .intBitwiseAnd => insert (.binary .And left right) s
  | .intBitwiseOr => insert (.binary .Or left right) s
  | .intBitwiseXor => insert (.binary .Xor left right) s
  | .shl => insert (.binary .Shl left right) s
  | .shrSExt => insert (.binary .AShr left right) s
  | .shrZExt => insert (.binary .LShr left right) s
  | .floatAdd => insert (.binary .FAdd left right) s
  | .floatSub => insert (.binary .FSub left right) s
  | .floatMul => insert (.binary .FMul left right) s
  | .floatDiv => insert (.binary .FDiv left right) s
  | .floatRem => insert (.binary .FRem left right) s
  | .floatMin => compileIntrinsic2 .minnum type left right s
  | .floatMax => compileIntrinsic2 .maxnum type left right s
  | .copySign => compileIntrinsic2 .copysign type left right s
  | .boolBitwiseAnd => insert (.binary .And left right) s
  | .boolBitwiseOr => insert (.binary .Or left right) s

/-- The instruction `IMPLEMENT_CAST_OP` gives for each operator, on an emitted source. -/
def compileCastOp (op : CastOp) (destType : TypeId) (source : Value) (s : EmitState) :
    Value × EmitState :=
  match op with
  | .wrap => insert (.cast .Trunc source destType) s
  | .truncSignedFloat => insert (.cast .FPToSI source destType) s
  | .truncUnsignedFloat => insert (.cast .FPToUI source destType) s
  | .sext => insert (.cast .SExt source destType) s
  | .zext => insert (.cast .ZExt source destType) s
  | .reinterpretFloat => insert (.cast .BitCast source destType) s
  | .reinterpretBool => insert (.cast .ZExt source destType) s
  | .convertSignedInt => insert (.cast .SIToFP source destType) s
  | .convertUnsignedInt => insert (.cast .UIToFP source destType) s
  | .promote => insert (.cast .FPExt source destType) s
  | .demote => insert (.cast .FPTrunc source destType) s
  | .reinterpretInt => insert (.cast .BitCast source destType) s

/-- The instruction `IMPLEMENT_COMPARE_OP` gives for each operator, on emitted operands. -/
def compileComparisonOp (op : ComparisonOp) (operandType : TypeId) (left right : Value)
    (s : EmitState) : Value × EmitState :=
  match op with
  | .eq =>
    if isFloatType operandType then insert (.cmp .FCmpOEQ left right) s
    else insert (.cmp .ICmpEQ left right) s
  | .ne =>
    if isFloatType operandType then insert (.cmp .FCmpONE left right) s
    else insert (.cmp .ICmpNE left right) s
  | .lt => insert (.cmp .FCmpOLT left right) s
  | .lts => insert (.cmp .ICmpSLT left right) s
  | .ltu => insert (.cmp .ICmpULT left right) s
  | .le => insert (.cmp .FCmpOLE left right) s
  | .les => insert (.cmp .ICmpSLE left right) s
  | .leu => insert (.cmp .ICmpULE left right) s
  | .gt => insert (.cmp .FCmpOGT left right) s
  | .gts => insert (.cmp .ICmpSGT left right) s
  | .gtu => insert (.cmp .ICmpUGT left right) s
  | .ge => insert (.cmp .FCmpOGE left right) s
  | .ges => insert (.cmp .ICmpSGE left right) s
  | .geu => insert (.cmp .ICmpUGE left right) s

/-- The visitors `visitUnary` that `IMPLEMENT_UNARY_OP` defines. -/
def visitUnary (type : TypeId) (op : UnaryOp) (operand : Dispatcher) (s : EmitState) :
    EmitResult Value :=
  match operand type s with
  | .error e => .error e
  | .ok (v, s1) => .ok (compileUnaryOp op type v s1)

/-- The visitors `visitBinary` that `IMPLEMENT_BINARY_OP` defines. -/
def visitBinary (type : TypeId) (op : BinaryOp) (left right : Dispatcher) (s : EmitState) :
    EmitResult Value :=
  match left type s with
  | .error e => .error e
  | .ok (l, s1) =>
    match right type s1 with
    | .error e => .error e
    | .ok (r, s2) => .ok (compileBinaryOp op type l r s2)

/-- The visitors `visitCast` that `IMPLEMENT_CAST_OP` defines. -/
def visitCast (type : TypeId) (op : CastOp) (source : EmitState → EmitResult Value)
    (s : EmitState) : EmitResult Value :=
  match source s with
  | .error e => .error e
  | .ok (v, s1) => .ok (compileCastOp op type v s1)

/-- The visitors `visitComparison` that `IMPLEMENT_COMPARE_OP` defines. -/
def visitComparison (op : ComparisonOp) (operandType : TypeId) (left right : Dispatcher)
    (s : EmitState) : EmitResult Value :=
  match left operandType s with
  | .error e => .error e
  | .ok (l, s1) =>
    match right operandType s1 with
    | .error e => .error e
    | .ok (r, s2) => .ok (compileComparisonOp op operandType l r s2)

mutual
/-- Modelled from the spec: the AST dispatcher `dispatch(visitor,expression,type)`, which is
declared outside this file; it is a match on the kind of the expression that calls the
visitor of that kind. -/
def dispatch (cx : JITFunctionContext) : Expression → TypeId → EmitState → EmitResult Value
  | .literal ty value, _, s => visitLiteral ty value s
  | .error _, _, s => visitError s
  | .getLocal i, _, s => visitGetLocal cx i s
  | .setLocal i value, _, s => visitSetLocal cx i (fun ty st => dispatch cx value ty st) s
  | .load op address far align memoryType, type, s =>
    visitLoad cx type op (fun ty st => dispatch cx address ty st) far align memoryType s
  | .store isInt address far align value valueType memoryType, _, s =>
    visitStore cx isInt (fun ty st => dispatch cx address ty st) far align
      (fun ty st => dispatch cx value ty st) valueType memoryType s
  | .callDirect f parameters, type, s =>
    visitCallDirect cx type f (fun tys st => dispatchArguments cx parameters tys st) s
  | .callImport f parameters, type, s =>
    visitCallImport cx type f (fun tys st => dispatchArguments cx parameters tys st) s
  | .callIndirect table f parameters, type, s =>
    visitCallIndirect cx type table (fun ty st => dispatch cx f ty st)
      (fun tys st => dispatchArguments cx parameters tys st) s
  | .switch key keyType arms defaultArmIndex endTarget, type, s =>
    visitSwitch type (fun st => dispatch cx key keyType st) keyType arms.numArms arms.keys
      defaultArmIndex endTarget
      (fun armEntryBlocks successorBlock st =>
        visitSwitchArms cx type keyType defaultArmIndex arms.numArms armEntryBlocks
          successorBlock arms 0 st) s
  | .ifElse c t e, type, s =>
    visitIfElse cx type (fun ty st => dispatch cx c ty st) (fun ty st => dispatch cx t ty st)
      (fun ty st => dispatch cx e ty st) s
  | .label endTarget e, type, s =>
    visitLabel cx type endTarget (fun ty st => dispatch cx e ty st) s
  | .sequence a b, type, s =>
    visitSequence type (fun ty st => dispatch cx a ty st) (fun ty st => dispatch cx b ty st) s
  | .ret value, type, s => visitReturn cx type (fun ty st => dispatch cx value ty st) s
  | .loop e breakTarget continueTarget, type, s =>
    visitLoop cx type (fun ty st => dispatch cx e ty st) breakTarget continueTarget s
  | .branch target value, type, s =>
    visitBranch cx type target (fun ty st => dispatch cx value ty st) s
  | .nop, _, s => visitNop s
  | .discardResult e ty, _, s => visitDiscardResult (fun st => dispatch cx e ty st) s
  | .unary op operand, type, s => visitUnary type op (fun ty st => dispatch cx operand ty st) s
  | .binary op l r, type, s =>
    visitBinary type op (fun ty st => dispatch cx l ty st) (fun ty st => dispatch cx r ty st) s
  | .cast op source sourceType, type, s =>
    visitCast type op (fun st => dispatch cx source sourceType st) s
  | .comparison op operandType l r, _, s =>
    visitComparison op operandType (fun ty st => dispatch cx l ty st)
      (fun ty st => dispatch cx r ty st) s
/-- The loop of `compileCall` over the arguments: argument `i` is emitted for the type of
parameter `i`. -/
def dispatchArguments (cx : JITFunctionContext) :
    ExpressionList → List TypeId → EmitState → EmitResult (List Value)
  | _, [], s => .ok ([], s)
  | .nil, _ :: _, _ => .error .outOfBounds
  | .cons arg rest, parameter :: parameters, s =>
    match dispatch cx arg parameter s with
    | .error e => .error e
    | .ok (v, s1) =>
      match dispatchArguments cx rest parameters s1 with
      | .error e => .error e
      | .ok (vs, s2) => .ok (v :: vs, s2)
/-- The loop of `visitSwitch` over the arms, from arm `armIndex` on. -/
def visitSwitchArms (cx : JITFunctionContext) (type keyType : TypeId)
    (defaultArmIndex numArms armEntryBlocks successorBlock : Nat) :
    SwitchArms → Nat → EmitState → EmitResult Unit
  | .nil, _, s => .ok ((), s)
  | .cons _ value rest, armIndex, s =>
    if armIndex ≠ defaultArmIndex ∧ isIntType keyType = false then .error .thrown
    else
      let isFinalArm : Bool := armIndex + 1 = numArms
      -- The final arm is an expression of the same type as the switch, the others yield void.
      match dispatch cx value (if isFinalArm then type else .Void)
          (setInsertPoint (armEntryBlocks + armIndex) s) with
      | .error e => .error e
      | .ok (armValue, s1) =>
        visitSwitchArms cx type keyType defaultArmIndex numArms armEntryBlocks successorBlock
          rest (armIndex + 1)
          (finishSwitchArm cx type isFinalArm (armEntryBlocks + armIndex + 1) successorBlock
            armValue s1)
end

/-! ## Emission of a function and of a module -/

/-- The loop of `emit` that creates an alloca for each local and initializes it to zero. -/
def emitLocals : List LocalVariable → EmitState → List Value × EmitState
  | [], s => ([], s)
  | localVariable :: rest, s =>
    let (pointer, s1) := insert (.alloca localVariable.type) s
    let (_, s2) := insert (.store (.typedZero localVariable.type) pointer none) s1
    let (pointers, s3) := emitLocals rest s2
    (pointer :: pointers, s3)

/-- The loop of `emit` that moves the function arguments into the allocas of their locals,
from argument `parameterIndex` on; `numRemaining` arguments are left. -/
def emitArguments (parameterLocalIndices : List Nat) (localVariablePointers : List Value) :
    Nat → Nat → EmitState → Except CompileError EmitState
  | 0, _, s => .ok s
  | numRemaining + 1, parameterIndex, s =>
    match parameterLocalIndices[parameterIndex]? with
    | none => .error .outOfBounds
    | some localIndex =>
      match localVariablePointers[localIndex]? with
      | none => .error .outOfBounds
      | some pointer =>
        emitArguments parameterLocalIndices localVariablePointers numRemaining
          (parameterIndex + 1) (insert (.store (.argument parameterIndex) pointer none) s).2

/-- The state the constructor of `JITFunctionContext` leaves: the function holds the
unreachable block only, and no branch target is in scope. -/
def initialState : EmitState := (createBasicBlock ⟨0, fun _ => [], 0, []⟩).2

/-- The block the constructor of `JITFunctionContext` creates as `unreachableBlock`. -/
def initialUnreachableBlock : Nat := (createBasicBlock ⟨0, fun _ => [], 0, []⟩).1

/-- The function `JITFunctionContext::emit`, up to the deletion of the unreachable block:
the context with the allocas of the locals, and the state when the body is emitted. -/
def emitBody (jitModule : JITModule) (astFunction : Function) :
    Except CompileError (JITFunctionContext × EmitState) :=
  -- Create an initial basic block for the function.
  let (entryBasicBlock, s1) := createBasicBlock initialState
  let s2 := setInsertPoint entryBasicBlock s1
  -- Create allocas for all the locals and initialize them to zero.
  let (localVariablePointers, s3) := emitLocals astFunction.locals s2
  let cx : JITFunctionContext :=
    ⟨jitModule, astFunction, localVariablePointers, initialUnreachableBlock⟩
  -- Move the function arguments into the corresponding local variable allocas.
  match emitArguments astFunction.parameterLocalIndices localVariablePointers
      astFunction.type.parameters.length 0 s3 with
  | .error e => .error e
  | .ok s4 =>
    -- Traverse the function's expressions.
    match dispatch cx astFunction.expression astFunction.type.returnType s4 with
    | .error e => .error e
    | .ok (value, s5) =>
      -- If the final value of the function is reachable, return it.
      if s5.insertBlock ≠ cx.unreachableBlock then
        if astFunction.type.returnType = .Void then .ok (cx, (insert (.ret none) s5).2)
        else .ok (cx, (insert (.ret (some value)) s5).2)
      else .ok (cx, s5)

/-- The blocks of a function with their numbers, without block `erased`
(`eraseFromParent`). -/
def eraseBlock (erased : Nat) (s : EmitState) : List (Nat × List Inst) :=
  ((List.range s.numBlocks).filter fun b => b ≠ erased).map fun b => (b, s.blocks b)

/-- The function `JITFunctionContext::emit`: the numbered basic blocks of the LLVM
function. -/
def emit (jitModule : JITModule) (astFunction : Function) :
    Except CompileError (List (Nat × List Inst)) :=
  match emitBody jitModule astFunction with
  | .error e => .error e
  | .ok (cx, s) => .ok (eraseBlock cx.unreachableBlock s)

/-- The literal `emitModule` creates for the memory mask,
`(uint64)(Runtime::instanceAddressSpaceMaxBytes - 1)`; the subtraction is done on 64-bit
unsigned numbers.  `instanceAddressSpaceMaxBytes` is a variable of the runtime that is
defined outside this file. -/
def instanceMemoryAddressMask (instanceAddressSpaceMaxBytes : Nat) : Value :=
  compileLiteral .I64 (instanceAddressSpaceMaxBytes % 2 ^ 64 + 2 ^ 64 - 1)

/-- The test `(numFunctions & (numFunctions-1)) == 0` that `emitModule` asserts for each
function table; the subtraction is done on 64-bit unsigned numbers. -/
def tableSizeCheck (numFunctions : Nat) : Bool :=
  numFunctions &&& ((numFunctions + 2 ^ 64 - 1) % 2 ^ 64) = 0

/-- The loop of `emitModule` that fills `llvmFunctionTableElements`. -/
def functionTableElements (numModuleFunctions : Nat) :
    List Nat → Except CompileError (List Value)
  | [] => .ok []
  | functionIndex :: rest =>
    if functionIndex < numModuleFunctions then
      match functionTableElements numModuleFunctions rest with
      | .error e => .error e
      | .ok elements => .ok (.function functionIndex :: elements)
    else .error .assertionFailed

/-- The check of `llvm::ConstantArray::get(llvmFunctionTablePointerType, elements)`, which
asserts that every element is of the element type of the array.  The element type is the
pointer to `asLLVMType(astFunctionTable.type)`, and the element for the function index `f`
is `jitModule->functions[f]`, which `emitModule` created with the type
`asLLVMType(astFunction->type)`; the LLVM types of two function types are compared as the
function types are.  An array without elements is not checked. -/
def tableElementTypesCheck (functions : List Function) (astFunctionTable : FunctionTable) :
    Bool :=
  astFunctionTable.functionIndices.all fun functionIndex =>
    decide ((functions[functionIndex]?).map (fun astFunction => astFunction.type) =
      some astFunctionTable.type)

/-- The body of the loop of `emitModule` that creates the function table globals: the
elements of the constant array of one table.  The loop over the elements counts with a
`uint32`, so it ends only for a table of fewer than `2 ^ 32` functions. -/
def emitFunctionTable (functions : List Function) (astFunctionTable : FunctionTable) :
    Except CompileError (List Value) :=
  if astFunctionTable.numFunctions < 2 ^ 32 then
    match functionTableElements functions.length astFunctionTable.functionIndices with
    | .error e => .error e
    | .ok llvmFunctionTableElements =>
      -- Verify that the number of elements is a power of two.
      if tableSizeCheck astFunctionTable.numFunctions then
        -- Create a LLVM global variable that holds the array of function pointers.
        if tableElementTypesCheck functions astFunctionTable then .ok llvmFunctionTableElements
        else .error .assertionFailed
      else .error .assertionFailed
  else
    match functionTableElements functions.length
        (astFunctionTable.functionIndices.take (2 ^ 32)) with
    | .error e => .error e
    | .ok _ => .error .doesNotEnd

/-- The loop of `emitModule` that creates the function table globals. -/
def emitFunctionTables (functions : List Function) :
    List FunctionTable → Except CompileError (List (List Value))
  | [] => .ok []
  | astFunctionTable :: rest =>
    match emitFunctionTable functions astFunctionTable with
    | .error e => .error e
    | .ok table =>
      match emitFunctionTables functions rest with
      | .error e => .error e
      | .ok tables => .ok (table :: tables)

/-- The loop of `emitModule` that compiles each function in the module. -/
def emitFunctions (jitModule : JITModule) :
    List Function → Except CompileError (List (List (Nat × List Inst)))
  | [] => .ok []
  | astFunction :: rest =>
    match emit jitModule astFunction with
    | .error e => .error e
    | .ok llvmFunction =>
      match emitFunctions jitModule rest with
      | .error e => .error e
      | .ok llvmFunctions => .ok (llvmFunction :: llvmFunctions)

/-- The JIT module `emitModule` sets up before it compiles the functions. -/
def createJITModule (instanceAddressSpaceMaxBytes : Nat) (astModule : Module) :
    Except CompileError JITModule :=
  match emitFunctionTables astModule.functions astModule.functionTables with
  | .error e => .error e
  | .ok tables =>
    .ok ⟨astModule, instanceMemoryAddressMask instanceAddressSpaceMaxBytes, tables⟩

/-- The function `emitModule`: the JIT module and the LLVM function of each function of
the AST module. -/
def emitModule (instanceAddressSpaceMaxBytes : Nat) (astModule : Module) :
    Except CompileError (JITModule × List (List (Nat × List Inst))) :=
  match createJITModule instanceAddressSpaceMaxBytes astModule with
  | .error e => .error e
  | .ok jitModule =>
    match emitFunctions jitModule astModule.functions with
    | .error e => .error e
    | .ok llvmFunctions => .ok (jitModule, llvmFunctions)

/-! ## Execution of emitted instructions

The meaning of the LLVM instructions the emitter creates, as the LLVM language reference
gives it, for the integer, pointer and call instructions. -/

/-- The intrinsic exception types of the runtime (`WAVM_ENUM_INTRINSIC_EXCEPTION_TYPES`). -/
inductive IntrinsicException where
  | outOfBoundsMemoryAccess | outOfBoundsTableAccess | outOfBoundsDataSegmentAccess
  | outOfBoundsElemSegmentAccess | stackOverflow | integerDivideByZeroOrOverflow
  | invalidFloatOperation | invokeSignatureMismatch | reachedUnreachable
  | indirectCallSignatureMismatch | uninitializedTableElement | calledAbort
  | calledUnimplementedIntrinsic | outOfMemory | misalignedAtomicMemoryAccess
  | invalidArgument
  deriving DecidableEq, Repr

/-- A value at run time. -/
inductive RuntimeValue where
  /-- An integer of `bits` bits, as an unsigned number. -/
  | int (bits : Nat) (value : Nat)
  /-- A pointer to a `pointee` at `instanceMemoryBase + byteIndex`. -/
  | memoryPointer (byteIndex : Int) (pointee : TypeId)
  /-- The address of a function table global. -/
  | tablePointer (table : Nat)
  /-- The address of slot `slot` of a function table global. -/
  | tableSlotPointer (table : Nat) (slot : Int)
  /-- The address of the function `jitModule.functions[function]`. -/
  | functionPointer (function : Nat)
  deriving DecidableEq, Repr

/-- What executing one instruction does. -/
inductive Outcome where
  /-- The instruction yields a value. -/
  | value (v : RuntimeValue)
  /-- The instruction reads or writes the bytes `[byteIndex, byteIndex + numBytes)` of the
  instance memory. -/
  | accessesMemory (byteIndex : Int) (numBytes : Nat)
  /-- The instruction enters a function of the module. -/
  | entersFunction (function : Nat)
  /-- The instruction raises a runtime exception. -/
  | traps (exception : IntrinsicException)
  /-- The instruction has undefined behaviour in LLVM. -/
  | undefined
  /-- The meaning of the instruction is outside this model. -/
  | unknown
  deriving DecidableEq, Repr

/-- The values of the LLVM values computed so far. -/
abbrev Env := Value → Option RuntimeValue

/-- The run-time value of an operand: a constant has its own value, every other value has
the value the environment gives it. -/
def evalOperand (env : Env) : Value → Option RuntimeValue
  | .literal type value => some (.int type.bits value)
  | .typedZero type => some (.int type.bits 0)
  | .instanceMemoryBase => some (.memoryPointer 0 .I8)
  | .function index => some (.functionPointer index)
  | .functionTablePointer index => some (.tablePointer index)
  | v => env v

/-- The signed reading of an unsigned number of `bits` bits. -/
def toSigned (bits value : Nat) : Int :=
  if value < 2 ^ (bits - 1) then (value : Int) else (value : Int) - 2 ^ bits

/-- The unsigned number of `bits` bits that reads as the given signed number. -/
def ofSigned (bits : Nat) (value : Int) : Nat := (value % 2 ^ bits).toNat

/-- The LLVM two-operand integer instructions on operands of `bits` bits. -/
def execBinary (op : LLVMBinary) (bits x y : Nat) : Outcome :=
  match op with
  | .Add => .value (.int bits ((x + y) % 2 ^ bits))
  | .Sub => .value (.int bits ((x + 2 ^ bits - y) % 2 ^ bits))
  | .Mul => .value (.int bits ((x * y) % 2 ^ bits))
  | .And => .value (.int bits (x &&& y))
  | .Or => .value (.int bits (x ||| y))
  | .Xor => .value (.int bits (x ^^^ y))
  | .UDiv => if y = 0 then .undefined else .value (.int bits (x / y))
  | .URem => if y = 0 then .undefined else .value (.int bits (x % y))
  | .SDiv =>
    if y = 0 then .undefined
    else if x = 2 ^ (bits - 1) ∧ y = 2 ^ bits - 1 then .undefined
    else .value (.int bits (ofSigned bits (Int.tdiv (toSigned bits x) (toSigned bits y))))
  | .SRem =>
    if y = 0 then .undefined
    else if x = 2 ^ (bits - 1) ∧ y = 2 ^ bits - 1 then .undefined
    else .value (.int bits (ofSigned bits (Int.tmod (toSigned bits x) (toSigned bits y))))
  | .Shl => if bits ≤ y then .undefined else .value (.int bits ((x <<< y) % 2 ^ bits))
  | .LShr => if bits ≤ y then .undefined else .value (.int bits (x >>> y))
  | .AShr =>
    if bits ≤ y then .undefined
    else .value (.int bits (ofSigned bits (toSigned bits x / 2 ^ y)))
  | _ => .unknown

/-- Executes one instruction in an environment.  The index of a `getelementptr` is read as
a signed number; a load from a slot of a function table global yields the element of the
constant array. -/
def execInst (jitModule : JITModule) (env : Env) : Inst → Outcome
  | .cast .ZExt operand destType =>
    match evalOperand env operand with
    | some (.int _ x) => .value (.int destType.bits x)
    | _ => .unknown
  | .cast .SExt operand destType =>
    match evalOperand env operand with
    | some (.int bits x) => .value (.int destType.bits (ofSigned destType.bits (toSigned bits x)))
    | _ => .unknown
  | .cast .Trunc operand destType =>
    match evalOperand env operand with
    | some (.int _ x) => .value (.int destType.bits (x % 2 ^ destType.bits))
    | _ => .unknown
  | .pointerCast pointer pointee =>
    match evalOperand env pointer with
    | some (.memoryPointer byteIndex _) => .value (.memoryPointer byteIndex pointee)
    | _ => .unknown
  | .binary op left right =>
    match evalOperand env left, evalOperand env right with
    | some (.int bits x), some (.int bits2 y) =>
      if bits = bits2 then execBinary op bits x y else .unknown
    | _, _ => .unknown
  | .inBoundsGEP pointer [index] =>
    match evalOperand env pointer, evalOperand env index with
    | some (.memoryPointer byteIndex pointee), some (.int bits i) =>
      .value (.memoryPointer (byteIndex + toSigned bits i * pointee.byteWidth) pointee)
    | _, _ => .unknown
  | .inBoundsGEP pointer [first, index] =>
    match evalOperand env pointer, evalOperand env first, evalOperand env index with
    | some (.tablePointer table), some (.int _ 0), some (.int bits i) =>
      .value (.tableSlotPointer table (toSigned bits i))
    | _, _, _ => .unknown
  | .load pointer _ =>
    match evalOperand env pointer with
    | some (.memoryPointer byteIndex pointee) => .accessesMemory byteIndex pointee.byteWidth
    | some (.tableSlotPointer table slot) =>
      if slot < 0 then .undefined
      else
        match jitModule.functionTablePointers[table]? with
        | some elements =>
          match elements[slot.toNat]? with
          | some (.function index) => .value (.functionPointer index)
          | _ => .undefined
        | none => .undefined
    | _ => .unknown
  | .store _ pointer _ =>
    match evalOperand env pointer with
    | some (.memoryPointer byteIndex pointee) => .accessesMemory byteIndex pointee.byteWidth
    | _ => .unknown
  | .call function _ =>
    match evalOperand env function with
    | some (.functionPointer index) => .entersFunction index
    | _ => .unknown
  | _ => .unknown

/-- The value an outcome gives to the result of the instruction. -/
def Outcome.result : Outcome → Option RuntimeValue
  | .value v => some v
  | _ => none

/-- Executes a run of instructions of basic block `block` that starts at position `index`
of the block: the environment once they are executed. -/
def execInsts (jitModule : JITModule) (block : Nat) : Nat → List Inst → Env → Env
  | _, [], env => env
  | index, i :: rest, env =>
    execInsts jitModule block (index + 1) rest
      (fun v => if v = .inst block index then (execInst jitModule env i).result else env v)

/-! ## Inputs of the worked examples -/

namespace Example

/-- A module without functions and tables. -/
def emptyModule : Module := ⟨[], [], [], []⟩

/-- The JIT module of the empty module for an address space of 8 GiB. -/
def jitModule : JITModule := ⟨emptyModule, instanceMemoryAddressMask (2 ^ 33), []⟩

/-- A function without locals that returns an `i64`. -/
def function : Function := ⟨none, ⟨[], .I64⟩, [], [], .nop⟩

/-- The context of `function` in `jitModule`. -/
def context : JITFunctionContext := ⟨jitModule, function, [], 0⟩

/-- The state in which the body of a function without locals is emitted: block 0 is the
unreachable block, block 1 the entry block. -/
def entryState : EmitState := ⟨2, fun _ => [], 1, []⟩

/-- A dispatcher that emits nothing and yields the first argument of the function. -/
def argument0 : Dispatcher := fun _ s => .ok (.argument 0, s)

/-- An environment that gives the first argument of the function the 32-bit value `x`. -/
def argumentEnv (bits x : Nat) : Env := fun v => if v = .argument 0 then some (.int bits x) else none

/-- A load of an `i64` through the 64-bit address `2 ^ 33 - 1`. -/
def farLoad : Expression := .load .anyLoad (.literal .I64 (2 ^ 33 - 1)) true 0 .I64

end Example

/-! ## Notions used to state the properties -/

/-- The state after the instructions `code` are created at the insertion point, one after
the other. -/
def appendCode (code : List Inst) (s : EmitState) : EmitState :=
  { s with blocks := fun b => if b = s.insertBlock then s.blocks b ++ code else s.blocks b }

/-- The lowering of a memory address that the specification describes, as instructions of
block `b` from position `n` on: the address `a` as an unsigned 64-bit number (a 32-bit
address is zero-extended, a far address is used unchanged), the bitwise AND with the mask,
the index into the memory base, and the cast to a pointer to the memory type. -/
def maskedAddressCode (mask : Value) (isFarAddress : Bool) (a : Value) (memoryType : TypeId)
    (b n : Nat) : List Inst :=
  if isFarAddress then
    [.binary .And a mask, .inBoundsGEP .instanceMemoryBase [.inst b n],
     .pointerCast (.inst b (n + 1)) memoryType]
  else
    [.cast .ZExt a .I64, .binary .And (.inst b n) mask,
     .inBoundsGEP .instanceMemoryBase [.inst b (n + 1)],
     .pointerCast (.inst b (n + 2)) memoryType]

/-- The value of the masked byte index that `maskedAddressCode` computes. -/
def maskedByteIndex (isFarAddress : Bool) (b n : Nat) : Value :=
  if isFarAddress then .inst b n else .inst b (n + 1)

/-- The pointer that `maskedAddressCode` computes. -/
def maskedPointer (isFarAddress : Bool) (b n : Nat) : Value :=
  if isFarAddress then .inst b (n + 2) else .inst b (n + 3)

/-- The type an address expression is emitted for. -/
def addressType (isFarAddress : Bool) : TypeId := if isFarAddress then .I64 else .I32

/-- The LLVM instruction of each integer division and remainder operator. -/
def divisionOpcode : BinaryOp → Option LLVMBinary
  | .divs => some .SDiv
  | .divu => some .UDiv
  | .rems => some .SRem
  | .remu => some .URem
  | _ => none

/-- The instructions `visitCallIndirect` creates between the emission of the function
index `index` and the emission of the arguments, as instructions of block `b` from
position `n` on: the AND with the mask, the address of the table slot, and the load of the
function pointer. -/
def tableSlotCode (tableIndex numFunctions : Nat) (index : Value) (b n : Nat) : List Inst :=
  [.binary .And index (functionIndexMask numFunctions),
   .inBoundsGEP (.functionTablePointer tableIndex) [compileLiteral .I32 0, .inst b n],
   .load (.inst b (n + 1)) none]

namespace Example

/-- A module with the functions `fa` (number 0) and `fb` (number 1) of type `() → i32`, a
function of type `(i64) → i32` (number 2), and two function tables: table 0 of type
`() → i32` with the elements `[fa, fb, fa, fb]`, and table 1 of type `(i64) → i32` with the
function number 2 as its only element. -/
def tableModule : Module :=
  ⟨[⟨none, ⟨[], .I32⟩, [], [], .literal .I32 10⟩, ⟨none, ⟨[], .I32⟩, [], [], .literal .I32 20⟩,
    ⟨none, ⟨[.I64], .I32⟩, [⟨.I64⟩], [0], .literal .I32 30⟩],
   [], [⟨⟨[], .I32⟩, [0, 1, 0, 1]⟩, ⟨⟨[.I64], .I32⟩, [2]⟩], []⟩

/-- The JIT module of `tableModule` for an address space of 8 GiB. -/
def tableJITModule : JITModule :=
  ⟨tableModule, instanceMemoryAddressMask (2 ^ 33),
   [[.function 0, .function 1, .function 0, .function 1], [.function 2]]⟩

/-- The context of a function of type `() → i32` in `tableJITModule`. -/
def tableContext : JITFunctionContext :=
  ⟨tableJITModule, ⟨none, ⟨[], .I32⟩, [], [], .nop⟩, [], 0⟩

end Example

/-! ## Control flow of the emitted blocks -/

/-- Block `b` holds an instruction that can transfer control to block `J`. -/
def JumpsTo (s : EmitState) (b J : Nat) : Prop := ∃ i ∈ s.blocks b, J ∈ i.successors

/-- Block `b` holds a terminator instruction. -/
def Terminated (s : EmitState) (b : Nat) : Prop := ∃ i ∈ s.blocks b, i.isTerminator = true

/-- The blocks the incoming edges of a `results` list come from. -/
def incomingBlocks (results : List BranchResult) : List Nat :=
  results.map fun r => r.incomingBlock

/-- The edges that were added to the `results` of a context between `c` and `c'`: the
most recent ones, which the older ones follow. -/
def newResults (c c' : BranchContext) : List BranchResult :=
  c'.results.take (c'.results.length - c.results.length)

/-- How an in-scope context may change from state `s` to state `s'`: its target and its
block stay, and edges are added to its `results`, each from a block of its own that is
not the unreachable block, had no terminator in `s` and jumps to the block of the context
in `s'`. -/
def ContextStep (cx : JITFunctionContext) (s s' : EmitState) (c c' : BranchContext) : Prop :=
  c'.branchTarget = c.branchTarget ∧ c'.basicBlock = c.basicBlock ∧
  c'.results = newResults c c' ++ c.results ∧
  (incomingBlocks (newResults c c')).Nodup ∧
  ∀ b ∈ incomingBlocks (newResults c c'),
    b ≠ cx.unreachableBlock ∧ ¬ Terminated s b ∧ JumpsTo s' b c.basicBlock

/-- Between `s` and `s'` an edge from block `b` was added to the `results` of an in-scope
context whose block is `J`. -/
def NewEdge (s s' : EmitState) (J b : Nat) : Prop :=
  ∃ p ∈ List.zip s.branchContext s'.branchContext,
    p.1.basicBlock = J ∧ b ∈ incomingBlocks (newResults p.1 p.2)

/-- A step of the emission from `s` to `s'` that leaves the blocks in `F` as they are and
adds jumps to the blocks below `B` only together with an edge in the `results` of the
in-scope context of the block jumped to. -/
structure Step (cx : JITFunctionContext) (F : Nat → Prop) (B : Nat) (s s' : EmitState) :
    Prop where
  numBlocks_le : s.numBlocks ≤ s'.numBlocks
  blocks_extend : ∀ b, ∃ code, s'.blocks b = s.blocks b ++ code
  frozen : ∀ b, F b → s'.blocks b = s.blocks b
  contexts : List.Forall₂ (ContextStep cx s s') s.branchContext s'.branchContext
  edges : ∀ J b, J < B → JumpsTo s' b J → JumpsTo s b J ∨ NewEdge s s' J b

/-- The blocks an emission that starts in `s` leaves as they are: the blocks that exist in
`s`, but for the block at the insertion point and the unreachable block. -/
def Frozen (cx : JITFunctionContext) (s : EmitState) (b : Nat) : Prop :=
  b < s.numBlocks ∧ b ≠ s.insertBlock ∧ b ≠ cx.unreachableBlock

/-- The frame of the emission of an expression from `s` to `s'`: a step that leaves the
blocks of `Frozen cx s` as they are, adds jumps to the blocks of `s` only through the
in-scope contexts, and ends at the insertion point of `s`, at the unreachable block or in
a block created since. -/
structure Rel (cx : JITFunctionContext) (s s' : EmitState) : Prop where
  step : Step cx (Frozen cx s) s.numBlocks s s'
  insertBlock_cases : s'.insertBlock = s.insertBlock ∨
    s'.insertBlock = cx.unreachableBlock ∨ s.numBlocks ≤ s'.insertBlock

/-- The part of the invariant of the emitter state that does not depend on the insertion
point: the unreachable block exists, the blocks not yet created are empty, every jump
goes to a block that exists, and so does every in-scope context. -/
structure Inv0 (cx : JITFunctionContext) (s : EmitState) : Prop where
  unreachable_lt : cx.unreachableBlock < s.numBlocks
  fresh_empty : ∀ b, s.numBlocks ≤ b → s.blocks b = []
  targets_lt : ∀ b J, JumpsTo s b J → J < s.numBlocks
  contexts_lt : ∀ c ∈ s.branchContext, c.basicBlock < s.numBlocks

/-- The invariant of the emitter state between the emission of two expressions: `Inv0`,
and the insertion point is a block that exists and, unless it is the unreachable block,
has no terminator yet. -/
structure Inv (cx : JITFunctionContext) (s : EmitState) : Prop where
  inv0 : Inv0 cx s
  insertBlock_lt : s.insertBlock < s.numBlocks
  insert_open : s.insertBlock ≠ cx.unreachableBlock → ¬ Terminated s s.insertBlock

/-- An emission step keeps the frame: run in a state that satisfies the invariant, its
result state satisfies the invariant and is related to the first by `Rel`. -/
def Frames {α : Type} (cx : JITFunctionContext) (d : EmitState → EmitResult α) : Prop :=
  ∀ s v s', Inv cx s → d s = .ok (v, s') → Inv cx s' ∧ Rel cx s s'


/-- The state in which `visitLabel` emits the body of a label: the label block and the
successor block are created, the block at the insertion point branches to the label
block, the insertion point is the label block, and the context of the end target is the
innermost in-scope context. -/
def labelBodyState (cx : JITFunctionContext) (endTarget : BranchTarget) (s : EmitState) :
    EmitState :=
  let (labelBlock, s1) := createBasicBlock s
  let (successorBlock, s2) := createBasicBlock s1
  let (_, s3) := compileBranch cx labelBlock s2
  let s4 := setInsertPoint labelBlock s3
  { s4 with branchContext := ⟨endTarget, successorBlock, []⟩ :: s4.branchContext }

/-- The state in which `visitLoop` emits the body of a loop: the loop block and the
successor block are created, the contexts of the break target and of the continue target
are the two innermost in-scope contexts, the block at the insertion point branches to the
loop block, and the insertion point is the loop block. -/
def loopBodyState (cx : JITFunctionContext) (breakTarget continueTarget : BranchTarget)
    (s : EmitState) : EmitState :=
  let (loopBlock, s1) := createBasicBlock s
  let (successorBlock, s2) := createBasicBlock s1
  let s3 := { s2 with branchContext :=
    ⟨breakTarget, successorBlock, []⟩ :: ⟨continueTarget, loopBlock, []⟩ :: s2.branchContext }
  let (_, s4) := compileBranch cx loopBlock s3
  setInsertPoint loopBlock s4

/-- The block `compileBranch` returns in state `s`: the block at the insertion point,
unless that is the unreachable block. -/
def exitBlockOf (cx : JITFunctionContext) (s : EmitState) : Option Nat :=
  if s.insertBlock = cx.unreachableBlock then none else some s.insertBlock


/-- The state of the arm loop of `visitSwitch` before arm `k` is emitted, for the first arm
block `A` and the successor block `S`: the blocks of the arms from `k` on and the successor
block exist and are empty, and the context of the switch is the innermost in-scope
context. -/
structure ArmsReady (cx : JITFunctionContext) (A S k : Nat) (s : EmitState) : Prop where
  inv0 : Inv0 cx s
  unreachable_lt : cx.unreachableBlock < A
  successor_lt : S < s.numBlocks
  reserved : ∀ X, A + k ≤ X → X ≤ S → s.blocks X = []
  head : ∃ D outer, s.branchContext = D :: outer ∧ D.basicBlock = S

/-- What the arm loop of `visitSwitch` does from `s` to `s'`: a step that leaves the
blocks below `A` as they are, but for the unreachable block, and leaves the successor
block empty. -/
structure ArmsDone (cx : JITFunctionContext) (A S : Nat) (s s' : EmitState) : Prop where
  inv0 : Inv0 cx s'
  step : Step cx (fun b => b < A ∧ b ≠ cx.unreachableBlock) A s s'
  successor_empty : s'.blocks S = []


namespace Example

/-- A branch target of type `i32`. -/
def targetT : BranchTarget := ⟨0, .I32⟩

/-- A branch target of type `void` that is different from `targetT`. -/
def targetU : BranchTarget := ⟨1, .Void⟩

/-- A state with three blocks in which `targetT` is in scope for block 2, and the insertion
point is block 1. -/
def scopeState : EmitState := ⟨3, fun _ => [], 1, [⟨targetT, 2, []⟩]⟩

end Example

/-- The state `visitBranch` leaves when the branch resolves to the context `c` at depth `k`
and the emission of its value gave `v` and the state `s1`: if `s1` is reachable, the block at
the insertion point ends with a branch to the block of `c` and its edge is added to the
`results` of the context at depth `k`; the insertion point is the unreachable block. -/
def branchedState (cx : JITFunctionContext) (k : Nat) (c : BranchContext) (v : Value)
    (s1 : EmitState) : EmitState :=
  setInsertPoint cx.unreachableBlock
    (if s1.insertBlock = cx.unreachableBlock then s1
     else { appendCode [.br c.basicBlock] s1 with
            branchContext := addBranchResult ⟨s1.insertBlock, v⟩ k s1.branchContext })

/-- The context at depth `k` is the first in-scope context, from the innermost one outwards,
whose target is `branchTarget`. -/
def FirstMatch (branchTarget : BranchTarget) (l : List BranchContext) (k : Nat)
    (c : BranchContext) : Prop :=
  l[k]? = some c ∧ c.branchTarget = branchTarget ∧
    ∀ j c', j < k → l[j]? = some c' → c'.branchTarget ≠ branchTarget


namespace Example

/-- A label of type `i32` whose body is a branch to the end target of the label with the
value 7. -/
def labelWithBranch : Expression := .label targetT (.branch targetT (.literal .I32 7))

/-- A label of type `i32` whose body is a label with the same end target, whose body is a
branch to that target with the value 7. -/
def nestedLabels : Expression :=
  .label targetT (.label targetT (.branch targetT (.literal .I32 7)))

end Example


namespace Example

/-- A branch target of type `void` that is different from `targetU`. -/
def targetB : BranchTarget := ⟨2, .Void⟩

/-- A loop with the break target `targetB` and the continue target `targetU` whose body is
a branch to the continue target. -/
def loopWithContinue : Expression := .loop (.branch targetU .nop) targetB targetU

/-- A loop whose break target is also its continue target, and whose body is a branch to
that target. -/
def loopWithOneTarget : Expression := .loop (.branch targetU .nop) targetU targetU

end Example


/-- The part of `JITFunctionContext::emit` before the body of the function is emitted: the
context of the function, and the state in which `emit` dispatches the expression of the
function. -/
def bodyEntry (jitModule : JITModule) (astFunction : Function) :
    Except CompileError (JITFunctionContext × EmitState) :=
  let (entryBasicBlock, s1) := createBasicBlock initialState
  let s2 := setInsertPoint entryBasicBlock s1
  let (localVariablePointers, s3) := emitLocals astFunction.locals s2
  let cx : JITFunctionContext :=
    ⟨jitModule, astFunction, localVariablePointers, initialUnreachableBlock⟩
  match emitArguments astFunction.parameterLocalIndices localVariablePointers
      astFunction.type.parameters.length 0 s3 with
  | .error e => .error e
  | .ok s4 => .ok (cx, s4)


namespace Example

/-- A state in which the insertion point is the unreachable block, block 0. -/
def unreachableState : EmitState := ⟨2, fun _ => [], 0, []⟩

end Example


/-- The number of instructions of `maskedAddressCode`. -/
def maskedAddressLength (isFarAddress : Bool) : Nat := if isFarAddress then 3 else 4

/-- The conversion a `visitLoad` overload creates after the load instruction, which is the
instruction at position `n` of block `b`. -/
def loadConversion (op : LoadOp) (type memoryType : TypeId) (b n : Nat) : List Inst :=
  match op with
  | .anyLoad => []
  | .intLoad => if type = memoryType then [] else [.cast .Trunc (.inst b n) type]
  | .loadZExt => [.cast .ZExt (.inst b n) type]
  | .loadSExt => [.cast .SExt (.inst b n) type]

/-- The value a `visitLoad` overload hands back, when the load instruction is the
instruction at position `n` of block `b`. -/
def loadedValue (op : LoadOp) (type memoryType : TypeId) (b n : Nat) : Value :=
  .inst b (n + (loadConversion op type memoryType b n).length)

/-- The alignment `visitStore` sets on the store instruction: the overload of `IntClass`
calls no `setAlignment`. -/
def storeAlignment (isIntClass : Bool) (alignmentLog2 : Nat) : Option Nat :=
  if isIntClass then none else some (1 <<< alignmentLog2)

/-- The instructions the overload of `visitStore` for `IntClass` creates between the value
and the address: the truncation of the value `v`, when the type of the value is not the
memory type. -/
def storeConversion (isIntClass : Bool) (valueType memoryType : TypeId) (v : Value) :
    List Inst :=
  if isIntClass ∧ valueType ≠ memoryType then [.cast .Trunc v memoryType] else []

/-- The value `visitStore` stores, when the emission of the value `v` ends at position `n`
of block `b`. -/
def storedValue (isIntClass : Bool) (valueType memoryType : TypeId) (v : Value) (b n : Nat) :
    Value :=
  if isIntClass ∧ valueType ≠ memoryType then .inst b n else v


namespace Example

/-- A store of the `i32` value 7 to the `i32` at address 16, with `alignmentLog2 = 0`: the
overload of `visitStore` for `IntClass`. -/
def intStore : Expression := .store true (.literal .I32 16) false 0 (.literal .I32 7) .I32 .I32

end Example


/-! ## The runtime interface (`Runtime.h`) -/

namespace Runtime

/-- The values of `IR::ValueType` that `WAVM_ENUM_INTRINSIC_EXCEPTION_TYPES` names. -/
inductive ValueType where
  | anyref | i64
  deriving DecidableEq, Repr

/-- The list `WAVM_ENUM_INTRINSIC_EXCEPTION_TYPES`: for each `visit(name, ...)` of the
macro, in its order, the name and the parameter types that follow it. -/
def intrinsicExceptionTypes : List (IntrinsicException × List ValueType) :=
  [(.outOfBoundsMemoryAccess, [.anyref, .i64]),
   (.outOfBoundsTableAccess, [.anyref, .i64]),
   (.outOfBoundsDataSegmentAccess, [.anyref, .i64, .i64]),
   (.outOfBoundsElemSegmentAccess, [.anyref, .i64, .i64]),
   (.stackOverflow, []),
   (.integerDivideByZeroOrOverflow, []),
   (.invalidFloatOperation, []),
   (.invokeSignatureMismatch, []),
   (.reachedUnreachable, []),
   (.indirectCallSignatureMismatch, []),
   (.uninitializedTableElement, [.anyref, .i64]),
   (.calledAbort, []),
   (.calledUnimplementedIntrinsic, []),
   (.outOfMemory, []),
   (.misalignedAtomicMemoryAccess, [.i64]),
   (.invalidArgument, [])]

/-- The kinds of parameter in the table of intrinsic exceptions of the specification: a
reference to an object (`Memory-ref`, `Table-ref`), or an `i64`. -/
inductive SpecParameter where
  | reference | i64
  deriving DecidableEq, Repr

/-- The table of intrinsic exceptions of the specification, row by row: the name of the
exception and its parameters. -/
def specExceptionTable : List (String × List SpecParameter) :=
  [("OutOfBoundsMemoryAccess", [.reference, .i64]),
   ("OutOfBoundsTableAccess", [.reference, .i64]),
   ("OutOfBoundsDataSegmentAccess", [.reference, .i64, .i64]),
   ("OutOfBoundsElemSegmentAccess", [.reference, .i64, .i64]),
   ("StackOverflow", []),
   ("IntegerDivideByZeroOrOverflow", []),
   ("InvalidFloatOperation", []),
   ("InvokeSignatureMismatch", []),
   ("ReachedUnreachable", []),
   ("IndirectCallSignatureMismatch", []),
   ("UninitializedTableElement", [.reference, .i64]),
   ("CalledAbort", []),
   ("CalledUnimplementedIntrinsic", []),
   ("OutOfMemory", []),
   ("MisalignedAtomicMemoryAccess", [.i64]),
   ("InvalidArgument", [])]

/-- The name the specification gives an intrinsic exception type of the runtime: the name
in the macro with a capital first letter. -/
def specName : IntrinsicException → String
  | .outOfBoundsMemoryAccess => "OutOfBoundsMemoryAccess"
  | .outOfBoundsTableAccess => "OutOfBoundsTableAccess"
  | .outOfBoundsDataSegmentAccess => "OutOfBoundsDataSegmentAccess"
  | .outOfBoundsElemSegmentAccess => "OutOfBoundsElemSegmentAccess"
  | .stackOverflow => "StackOverflow"
  | .integerDivideByZeroOrOverflow => "IntegerDivideByZeroOrOverflow"
  | .invalidFloatOperation => "InvalidFloatOperation"
  | .invokeSignatureMismatch => "InvokeSignatureMismatch"
  | .reachedUnreachable => "ReachedUnreachable"
  | .indirectCallSignatureMismatch => "IndirectCallSignatureMismatch"
  | .uninitializedTableElement => "UninitializedTableElement"
  | .calledAbort => "CalledAbort"
  | .calledUnimplementedIntrinsic => "CalledUnimplementedIntrinsic"
  | .outOfMemory => "OutOfMemory"
  | .misalignedAtomicMemoryAccess => "MisalignedAtomicMemoryAccess"
  | .invalidArgument => "InvalidArgument"

/-- The kind of parameter of the specification that a parameter type of the runtime is. -/
def specParameter : ValueType → SpecParameter
  | .anyref => .reference
  | .i64 => .i64

/-- The parameter tuple the specification's taxonomy gives each exception type: a reference
and an `i64` for three of them, a reference and two `i64` for the two segment accesses, an
`i64` for the misaligned atomic access, and nothing for the other ten. -/
def specParameters : IntrinsicException → List SpecParameter
  | .outOfBoundsMemoryAccess | .outOfBoundsTableAccess | .uninitializedTableElement =>
    [.reference, .i64]
  | .outOfBoundsDataSegmentAccess | .outOfBoundsElemSegmentAccess => [.reference, .i64, .i64]
  | .misalignedAtomicMemoryAccess => [.i64]
  | _ => []

end Runtime


namespace Runtime

/-- A `Memory`, as the validation of an offset range sees it: the address of its data and
the number of bytes of its committed pages. -/
structure Memory where
  baseAddress : Nat
  committedBytes : Nat

/-- The width of `Uptr` in bits, on a 64-bit host. -/
def uptrBits : Nat := 64

/-- Modelled from the spec: `getValidatedMemoryOffsetRange`, which `Runtime.h` declares and
does not define.  It gives the address of the range when `offset + numBytes` is at most the
number of committed bytes of the memory, and fails otherwise. -/
def getValidatedMemoryOffsetRange (memory : Memory) (offset numBytes : Nat) : Option Nat :=
  if offset + numBytes ≤ memory.committedBytes then some (memory.baseAddress + offset) else none

/-- The function `memoryRef<Value>`; `sizeofValue` is `sizeof(Value)`. -/
def memoryRef (sizeofValue : Nat) (memory : Memory) (offset : Nat) : Option Nat :=
  getValidatedMemoryOffsetRange memory offset sizeofValue

/-- The function `memoryArrayPtr<Value>`; `sizeofValue` is `sizeof(Value)`.  The product
`numElements * sizeof(Value)` is a product of `Uptr`. -/
def memoryArrayPtr (sizeofValue : Nat) (memory : Memory) (offset numElements : Nat) :
    Option Nat :=
  getValidatedMemoryOffsetRange memory offset (numElements * sizeofValue % 2 ^ uptrBits)

end Runtime


namespace Runtime

/-- The identity of an object: an `ObjectType*` that is not null. -/
abbrev ObjectId := Nat

/-- How an operation of `GCPointer` goes wrong. -/
inductive GCError where
  /-- The operation names a `GCPointer` that was not constructed or is destroyed. -/
  | deadPointer
  /-- The call `removeGCRoot` is made for an object whose counter of root references is 0. -/
  | rootUnderflow
  deriving DecidableEq, Repr

/-- The state the operations of `GCPointer` act on: for each object the number of calls of
`addGCRoot` and of `removeGCRoot` made for it, and the `GCPointer` objects constructed so
far, in the order of their construction, each with its field `value` (`none` is `nullptr`)
or `none` when it is destroyed. -/
structure RootState where
  added : ObjectId → Nat
  removed : ObjectId → Nat
  pointers : List (Option (Option ObjectId))

/-- The state before any `GCPointer` is constructed. -/
def RootState.initial : RootState := ⟨fun _ => 0, fun _ => 0, []⟩

/-- Modelled from the spec: `addGCRoot`, which `Runtime.h` declares and does not define: it
increments the counter of root references of the object. -/
def addGCRoot (o : ObjectId) (s : RootState) : RootState :=
  { s with added := fun x => if x = o then s.added x + 1 else s.added x }

/-- Modelled from the spec: `removeGCRoot`, which `Runtime.h` declares and does not define:
it decrements the counter of root references of the object, and an underflow of the counter
is an error. -/
def removeGCRoot (o : ObjectId) (s : RootState) : Except GCError RootState :=
  if s.removed o < s.added o then
    .ok { s with removed := fun x => if x = o then s.removed x + 1 else s.removed x }
  else .error .rootUnderflow

/-- The statement `if(value) { addGCRoot(value); }`. -/
def addRootIfSet (value : Option ObjectId) (s : RootState) : RootState :=
  match value with
  | some o => addGCRoot o s
  | none => s

/-- The statement `if(value) { removeGCRoot(value); }`. -/
def removeRootIfSet (value : Option ObjectId) (s : RootState) : Except GCError RootState :=
  match value with
  | some o => removeGCRoot o s
  | none => .ok s

/-- The field `value` of the `GCPointer` number `p`. -/
def getValue (p : Nat) (s : RootState) : Except GCError (Option ObjectId) :=
  match s.pointers[p]? with
  | some (some value) => .ok value
  | _ => .error .deadPointer

/-- An assignment to the field `value` of the `GCPointer` number `p`. -/
def setValue (p : Nat) (value : Option ObjectId) (s : RootState) : RootState :=
  { s with pointers := s.pointers.set p (some value) }

/-- The storage of a new `GCPointer`, whose field `value` the constructor sets to `value`. -/
def newPointer (value : Option ObjectId) (s : RootState) : RootState :=
  { s with pointers := s.pointers ++ [some value] }

/-- The constructor `GCPointer()`. -/
def constructDefault (s : RootState) : Except GCError RootState := .ok (newPointer none s)

/-- The constructor `GCPointer(ObjectType* inValue)`. -/
def constructFromRaw (inValue : Option ObjectId) (s : RootState) : Except GCError RootState :=
  .ok (addRootIfSet inValue (newPointer inValue s))

/-- The constructor `GCPointer(const GCPointer<ObjectType>& inCopy)`. -/
def constructCopy (inCopy : Nat) (s : RootState) : Except GCError RootState :=
  match getValue inCopy s with
  | .error e => .error e
  | .ok value => .ok (addRootIfSet value (newPointer value s))

/-- The constructor `GCPointer(GCPointer<ObjectType>&& inMove)`. -/
def constructMove (inMove : Nat) (s : RootState) : Except GCError RootState :=
  match getValue inMove s with
  | .error e => .error e
  | .ok value => .ok (setValue inMove none (newPointer value s))

/-- The destructor `~GCPointer()`; the storage of the `GCPointer` ends with it. -/
def destroy (p : Nat) (s : RootState) : Except GCError RootState :=
  match getValue p s with
  | .error e => .error e
  | .ok value =>
    match removeRootIfSet value s with
    | .error e => .error e
    | .ok s1 => .ok { s1 with pointers := s1.pointers.set p none }

/-- The operator `operator=(ObjectType* inValue)`. -/
def assignRaw (p : Nat) (inValue : Option ObjectId) (s : RootState) : Except GCError RootState :=
  match getValue p s with
  | .error e => .error e
  | .ok value =>
    match removeRootIfSet value s with
    | .error e => .error e
    | .ok s1 => .ok (addRootIfSet inValue (setValue p inValue s1))

/-- The operator `operator=(const GCPointer<ObjectType>& inCopy)`; `inCopy` may be the
`GCPointer` that is assigned to. -/
def assignCopy (p inCopy : Nat) (s : RootState) : Except GCError RootState :=
  match getValue p s with
  | .error e => .error e
  | .ok value =>
    match removeRootIfSet value s with
    | .error e => .error e
    | .ok s1 =>
      match getValue inCopy s1 with
      | .error e => .error e
      | .ok copied => .ok (addRootIfSet copied (setValue p copied s1))

/-- The operator `operator=(GCPointer<ObjectType>&& inMove)`; `inMove` may be the
`GCPointer` that is assigned to. -/
def assignMove (p inMove : Nat) (s : RootState) : Except GCError RootState :=
  match getValue p s with
  | .error e => .error e
  | .ok value =>
    match removeRootIfSet value s with
    | .error e => .error e
    | .ok s1 =>
      match getValue inMove s1 with
      | .error e => .error e
      | .ok moved => .ok (setValue inMove none (setValue p moved s1))

/-- An operation on `GCPointer` objects, which are named by their number. -/
inductive Operation where
  | constructDefault
  | constructFromRaw (inValue : Option ObjectId)
  | constructCopy (inCopy : Nat)
  | constructMove (inMove : Nat)
  | destroy (p : Nat)
  | assignRaw (p : Nat) (inValue : Option ObjectId)
  | assignCopy (p inCopy : Nat)
  | assignMove (p inMove : Nat)
  deriving DecidableEq, Repr

/-- The `GCPointer` objects an operation names. -/
def Operation.operands : Operation → List Nat
  | .constructDefault | .constructFromRaw _ => []
  | .constructCopy q | .constructMove q => [q]
  | .destroy p | .assignRaw p _ => [p]
  | .assignCopy p q | .assignMove p q => [p, q]

/-- Executes an operation. -/
def Operation.apply : Operation → RootState → Except GCError RootState
  | .constructDefault, s => Runtime.constructDefault s
  | .constructFromRaw inValue, s => Runtime.constructFromRaw inValue s
  | .constructCopy inCopy, s => Runtime.constructCopy inCopy s
  | .constructMove inMove, s => Runtime.constructMove inMove s
  | .destroy p, s => Runtime.destroy p s
  | .assignRaw p inValue, s => Runtime.assignRaw p inValue s
  | .assignCopy p inCopy, s => Runtime.assignCopy p inCopy s
  | .assignMove p inMove, s => Runtime.assignMove p inMove s

/-- Executes a sequence of operations, one after the other. -/
def runOperations : List Operation → RootState → Except GCError RootState
  | [], s => .ok s
  | op :: rest, s =>
    match op.apply s with
    | .error e => .error e
    | .ok s1 => runOperations rest s1

/-- The number of live `GCPointer` objects whose field `value` is the object `o`. -/
def holders (o : ObjectId) (s : RootState) : Nat := s.pointers.count (some (some o))

/-- The balance of the root references: for each object, the calls of `addGCRoot` are as
many as the calls of `removeGCRoot` and the live `GCPointer` objects that hold the object
together. -/
def Balanced (s : RootState) : Prop := ∀ o, s.added o = s.removed o + holders o s

/-- The `GCPointer` an operation moves from. -/
def Operation.movedFrom : Operation → Option Nat
  | .constructMove q | .assignMove _ q => some q
  | _ => none

/-- The `GCPointer` number `p` is constructed and not destroyed. -/
def Live (p : Nat) (s : RootState) : Prop := ∃ value, s.pointers[p]? = some (some value)

end Runtime

namespace Example

/-- A sequence of operations on two `GCPointer` objects and the object 7: a construction
from the raw pointer, a copy construction, a copy assignment and a move assignment of a
`GCPointer` to itself, a move construction, and the destruction of all three. -/
def pointerOperations : List Runtime.Operation :=
  [.constructFromRaw (some 7), .constructCopy 0, .assignCopy 0 0, .assignMove 1 1,
   .constructMove 0, .destroy 0, .destroy 1, .destroy 2]

end Example


namespace Example

/-- A branch target of type `i64`. -/
def targetV : BranchTarget := ⟨3, .I64⟩

/-- A function that returns the `i64` value 1 and then has a label whose body adds 2 and 3:
the label is emitted while the insertion point is the unreachable block. -/
def deadCodeFunction : Function :=
  ⟨none, ⟨[], .I64⟩, [], [],
    .sequence (.ret (.literal .I64 1))
      (.label targetV (.binary .intAdd (.literal .I64 2) (.literal .I64 3)))⟩

end Example


/-! ## Execution of the instructions of a function

The meaning of the instructions on the stack slots of a function, on the bytes of
the instance memory and on control, as the LLVM language reference gives it. -/

/-- A value in a running function: a run-time value, or a pointer to the stack slot that
the `alloca` number `slot` of the function created. -/
inductive FrameValue where
  | scalar (v : RuntimeValue)
  | localPointer (slot : Nat)
  deriving DecidableEq, Repr

/-- The bytes of the instance memory, by byte index. -/
abbrev MemoryBytes := Int → Nat

/-- The unsigned number that the `numBytes` bytes from `byteIndex` on hold, the byte at the
lowest address first. -/
def readMemory (memory : MemoryBytes) (byteIndex : Int) : Nat → Nat
  | 0 => 0
  | numBytes + 1 => memory byteIndex % 256 + 256 * readMemory memory (byteIndex + 1) numBytes

/-- The memory once the unsigned number `value` is written to the `numBytes` bytes from
`byteIndex` on, the byte at the lowest address first. -/
def writeMemory (memory : MemoryBytes) (byteIndex : Int) (numBytes value : Nat) : MemoryBytes :=
  fun a =>
    if byteIndex ≤ a ∧ a < byteIndex + numBytes then value / 256 ^ (a - byteIndex).toNat % 256
    else memory a

/-- The state of a running function: the values of the arguments and of the instructions
executed so far, the contents of the stack slots in the order of their creation (`none` is a
slot that was not written), and the instance memory. -/
structure Frame where
  values : Value → Option FrameValue
  slots : List (Option RuntimeValue)
  memory : MemoryBytes

/-- The run-time values of a frame, as an environment of `execInst`. -/
def Frame.scalars (f : Frame) : Env := fun v =>
  match f.values v with
  | some (.scalar r) => some r
  | _ => none

/-- The value of an operand in a frame. -/
def Frame.operand (f : Frame) (v : Value) : Option FrameValue :=
  match evalOperand f.scalars v with
  | some r => some (.scalar r)
  | none => f.values v

/-- The frame in which `v` has the value `x`. -/
def Frame.bind (f : Frame) (v : Value) (x : FrameValue) : Frame :=
  { f with values := fun w => if w = v then some x else f.values w }

/-- The frame at the entry of a function that is called with the arguments `args`. -/
def callFrame (args : List RuntimeValue) (memory : MemoryBytes) : Frame :=
  ⟨fun v =>
    match v with
    | .argument p => (args[p]?).map .scalar
    | _ => none,
   [], memory⟩

/-- What executing one instruction of a function does. -/
inductive StepOutcome where
  /-- Execution goes on with the next instruction of the block. -/
  | next (f : Frame)
  /-- Execution goes on at the start of block `dest`. -/
  | transfers (dest : Nat) (f : Frame)
  /-- The function returns. -/
  | returns (value : Option RuntimeValue)
  /-- The instruction has no meaning in this model, or none at all. -/
  | stuck

/-- The block a `switch` instruction transfers control to: the destination of the case
whose constant is the key, and the default destination when there is none.  LLVM does not
allow two cases with the same constant. -/
def switchDest (key : RuntimeValue) (defaultDest : Nat) (cases : List (Value × Nat)) :
    Option Nat :=
  if (cases.map fun c => evalOperand (fun _ => none) c.1).Nodup then
    match cases.find? fun c => decide (evalOperand (fun _ => none) c.1 = some key) with
    | some c => some c.2
    | none => some defaultDest
  else none

/-- Executes the instruction at position `index` of block `block` in a frame. -/
def stepInst (jitModule : JITModule) (block index : Nat) (f : Frame) : Inst → StepOutcome
  | .alloca _ =>
    .next ({ f with slots := f.slots ++ [none] }.bind (.inst block index)
      (.localPointer f.slots.length))
  | .store value pointer _ =>
    match f.operand pointer, f.operand value with
    | some (.localPointer slot), some (.scalar x) =>
      if slot < f.slots.length then .next { f with slots := f.slots.set slot (some x) }
      else .stuck
    | some (.scalar (.memoryPointer byteIndex pointee)), some (.scalar (.int bits x)) =>
      if isIntType pointee = true ∧ bits = pointee.bits then
        .next { f with memory := writeMemory f.memory byteIndex pointee.byteWidth x }
      else .stuck
    | _, _ => .stuck
  | .load pointer alignment =>
    match f.operand pointer with
    | some (.localPointer slot) =>
      match f.slots[slot]? with
      | some (some x) => .next (f.bind (.inst block index) (.scalar x))
      | _ => .stuck
    | some (.scalar (.memoryPointer byteIndex pointee)) =>
      if isIntType pointee = true then
        .next (f.bind (.inst block index)
          (.scalar (.int pointee.bits (readMemory f.memory byteIndex pointee.byteWidth))))
      else .stuck
    | _ =>
      match execInst jitModule f.scalars (.load pointer alignment) with
      | .value r => .next (f.bind (.inst block index) (.scalar r))
      | _ => .stuck
  | .ret none => .returns none
  | .ret (some v) =>
    match f.operand v with
    | some (.scalar x) => .returns (some x)
    | _ => .stuck
  | .br dest => .transfers dest f
  | .condBr condition trueDest falseDest =>
    match f.operand condition with
    | some (.scalar (.int 1 1)) => .transfers trueDest f
    | some (.scalar (.int 1 0)) => .transfers falseDest f
    | _ => .stuck
  | .switch value defaultDest cases =>
    match f.operand value with
    | some (.scalar key) =>
      match switchDest key defaultDest cases with
      | some dest => .transfers dest f
      | none => .stuck
    | _ => .stuck
  | i =>
    match execInst jitModule f.scalars i with
    | .value r => .next (f.bind (.inst block index) (.scalar r))
    | _ => .stuck

/-- Executes a run of instructions of block `block` that starts at position `index` of the
block, up to the first one that does not go on with the next. -/
def runInsts (jitModule : JITModule) (block : Nat) : Nat → List Inst → Frame → StepOutcome
  | _, [], f => .next f
  | index, i :: rest, f =>
    match stepInst jitModule block index f i with
    | .next f1 => runInsts jitModule block (index + 1) rest f1
    | outcome => outcome

/-- The first arm other than the default arm, from arm `index` on, whose key, cut to the
width of the key type, is `x`; `keys` are the keys of the arms from arm `index` on. -/
def matchingArm (keyType : TypeId) (defaultArmIndex x : Nat) : Nat → List Nat → Option Nat
  | _, [] => none
  | index, key :: keys =>
    if index ≠ defaultArmIndex ∧ key % 2 ^ keyType.bits = x then some index
    else matchingArm keyType defaultArmIndex x (index + 1) keys

/-- The state in which the arm loop of `visitSwitch` starts, from the state `s1` after the
key `value` is emitted: the arm blocks `s1.numBlocks + i` and the successor block
`s1.numBlocks + numArms` are created, the context of the switch is the innermost in-scope
context, and the switch instruction is created at the insertion point. -/
def armLoopState (value : Value) (keyType : TypeId) (numArms : Nat) (armKeys : List Nat)
    (defaultArmIndex : Nat) (endTarget : BranchTarget) (s1 : EmitState) : EmitState :=
  appendCode [.switch value (s1.numBlocks + defaultArmIndex)
      (switchCases keyType defaultArmIndex s1.numBlocks 0 armKeys)]
    { s1 with numBlocks := s1.numBlocks + numArms + 1,
              branchContext := ⟨endTarget, s1.numBlocks + numArms, []⟩ :: s1.branchContext }

/-- The run-time values of the case constants of a switch instruction. -/
def caseConstants (cases : List (Value × Nat)) : List (Option RuntimeValue) :=
  cases.map fun c => evalOperand (fun _ => none) c.1


/-- The expression `arms[i].value`. -/
def SwitchArms.value? : SwitchArms → Nat → Option Expression
  | .nil, _ => none
  | .cons _ value _, 0 => some value
  | .cons _ _ rest, i + 1 => rest.value? i

/-- The arms from arm `i` on. -/
def SwitchArms.drop : SwitchArms → Nat → SwitchArms
  | arms, 0 => arms
  | .nil, _ + 1 => .nil
  | .cons _ _ rest, i + 1 => rest.drop i

namespace Example

/-- A switch on the constant 7 with the arms 5, 7 and 9, the last of which is the default
arm. -/
def switchOnSeven : Expression :=
  .switch (.literal .I32 7) .I32 (.cons 5 .nop (.cons 7 .nop (.cons 9 .nop .nil))) 2 targetU

/-- A switch on the constant 7 with two arms of key 7, the first of which is the default
arm. -/
def switchWithTie : Expression :=
  .switch (.literal .I32 7) .I32 (.cons 7 .nop (.cons 7 .nop .nil)) 0 targetU

end Example


/-- The state in which an arm of a switch is finished, as the specification describes it,
from the state `s` in which the value `armValue` of the arm is emitted: an end that is
not reachable is left as it is; a reachable end gets a branch to the block of the next
arm, or to the successor block when the arm is the final arm, and the final arm of a switch
that is not of type void adds the edge with its value to the innermost in-scope context. -/
def armEndState (cx : JITFunctionContext) (type : TypeId) (isFinalArm : Bool)
    (nextArmBlock successorBlock : Nat) (armValue : Value) (s : EmitState) : EmitState :=
  if s.insertBlock = cx.unreachableBlock then s
  else
    { appendCode [.br (if isFinalArm then successorBlock else nextArmBlock)] s with
      branchContext :=
        if isFinalArm = true ∧ type ≠ .Void then
          addBranchResult ⟨s.insertBlock, armValue⟩ 0 s.branchContext
        else s.branchContext }

namespace Example

/-- A switch of type `i32` on the constant 7 whose arm 5 is empty and whose final arm, the
default arm, yields the constant 1. -/
def typedSwitch : Expression :=
  .switch (.literal .I32 7) .I32 (.cons 5 .nop (.cons 7 (.literal .I32 1) .nil)) 1 targetT

end Example


/-- The unsigned number of `typeBits` bits that a load with extension yields for the
unsigned number `m` of `memoryBits` bits read from memory: `m` itself for the zero
extension, the number with the signed reading of `m` for the sign extension. -/
def extendedValue (op : LoadOp) (typeBits memoryBits m : Nat) : Nat :=
  match op with
  | .loadSExt => ofSigned typeBits (toSigned memoryBits m)
  | _ => m

namespace Example

/-- A load of the `i8` at address 16 that is sign-extended to an `i32`. -/
def signedByteLoad : Expression := .load .loadSExt (.literal .I32 16) false 0 .I8

/-- A memory whose byte at index 16 is `0xff` and whose other bytes are 0. -/
def memoryWithByte : MemoryBytes := fun a => if a = 16 then 255 else 0

end Example


/-- The instructions the prologue creates for the locals, as the specification describes
them, from position `n` of block `b` on: for each local a stack slot and the store of the
zero value of its type to the slot. -/
def localsCode (b : Nat) : Nat → List LocalVariable → List Inst
  | _, [] => []
  | n, localVariable :: rest =>
    .alloca localVariable.type :: .store (.typedZero localVariable.type) (.inst b n) none ::
      localsCode b (n + 2) rest

/-- The pointers to the stack slots that `localsCode` creates. -/
def localPointers (b : Nat) : Nat → List LocalVariable → List Value
  | _, [] => []
  | n, _ :: rest => .inst b n :: localPointers b (n + 2) rest

/-- The instructions the prologue creates for the arguments, as the specification
describes them, for the `numRemaining` arguments from `parameterIndex` on: the store of
each argument to the stack slot of its local. -/
def argumentsCode (parameterLocalIndices : List Nat) (localVariablePointers : List Value) :
    Nat → Nat → List Inst
  | 0, _ => []
  | numRemaining + 1, parameterIndex =>
    match parameterLocalIndices[parameterIndex]? with
    | none => []
    | some localIndex =>
      match localVariablePointers[localIndex]? with
      | none => []
      | some pointer =>
        .store (.argument parameterIndex) pointer none ::
          argumentsCode parameterLocalIndices localVariablePointers numRemaining
            (parameterIndex + 1)

namespace Example

/-- The function `add(i32, i32)` with the body `local0 + local1`. -/
def addFunction : Function :=
  ⟨some "add", ⟨[.I32, .I32], .I32⟩, [⟨.I32⟩, ⟨.I32⟩], [0, 1],
    .binary .intAdd (.getLocal 0) (.getLocal 1)⟩

end Example


/-! ## The program `wavm-run` (`wavm-run.cpp`) -/

namespace WavmRun

/-- A C string, as the characters before its terminating NUL. -/
abbrev CString := List Char

/-- The test `!strncmp(a, b, n)` on C strings: the first `n` characters are the same, where
a string that ends before the other within these characters is different from it. -/
def strncmpEq (a b : CString) (n : Nat) : Bool := a.take n == b.take n

/-- The template `stringStartsWith`; `numPrefixChars` counts the terminating NUL of the
string literal. -/
def stringStartsWith (string literal : CString) : Bool :=
  let numPrefixChars := literal.length + 1
  strncmpEq string literal (numPrefixChars - 1)

/-- The pointer `string + offset` for an offset up to `strlen(string)`: the string without
its first characters. -/
def advance (string : CString) (offset : Nat) : CString := string.drop offset

/-- The character `string[index]` of a C string: a character of the string, the terminating
NUL at the index `strlen(string)`, and nothing past it. -/
def readChar (string : CString) (index : Nat) : Option Char :=
  if h : index < string.length then some (string.get ⟨index, h⟩)
  else if index = string.length then some (Char.ofNat 0)
  else none

/-- An entry of `irModule.functions.imports` or of `irModule.memories.imports`. -/
structure Import where
  moduleName : CString
  exportName : CString

/-- The fields of `IR::Module` that `wavm-run.cpp` reads. -/
structure IRModule where
  functionImports : List Import
  memoryImports : List Import

/-- The function `isWASIModule`. -/
def isWASIModule (irModule : IRModule) : Bool :=
  irModule.functionImports.any fun i => i.moduleName == "wasi_unstable".toList

/-- The function `isEmscriptenModule`. -/
def isEmscriptenModule (irModule : IRModule) : Bool :=
  match irModule.memoryImports with
  | [] => false
  | first :: _ =>
    if first.moduleName ≠ "env".toList ∨ first.exportName ≠ "memory".toList then false
    else irModule.functionImports.any fun i => i.moduleName == "env".toList

/-- The enumeration `System`. -/
inductive System where
  | detect | bare | emscripten | wasi
  deriving DecidableEq, Repr

/-- The enumeration `WASI::SyscallTraceLevel`. -/
inductive SyscallTraceLevel where
  | none | syscalls | syscallsWithCallstacks
  deriving DecidableEq, Repr

/-- The enumeration `LLVMJIT::TargetValidationResult`. -/
inductive TargetValidationResult where
  | valid | unsupportedArchitecture | x86CPUDoesNotSupportSSE41 | invalidTargetSpec
  deriving DecidableEq, Repr

/-- The functions of other files that `wavm-run.cpp` calls and whose results it branches
on or uses: `parseAndSetFeature` (whether there is a feature of the name), the result of
`LLVMJIT::validateTarget` for the host on the enabled features, and
`Platform::getCurrentWorkingDirectory`. -/
structure Host where
  isFeature : CString → Bool
  validateTarget : List CString → TargetValidationResult
  currentWorkingDirectory : CString

/-- The fields of `State` and the log categories that `parseCommandLine` enables.
`featureSpec` is the list of the features enabled on the command line; `sandboxFS` is the
path the sandbox file system is made for, `emscriptenInstance` tells that
`Emscripten::instantiate` was called, `wasiProcess` holds the arguments of the WASI
process, and `syscallTraceLevel` is the level given to `WASI::setSyscallTraceLevel`. -/
structure State where
  featureSpec : List CString
  filename : Option CString
  functionName : Option CString
  rootMountPath : Option CString
  runArgs : List CString
  system : System
  precompiled : Bool
  wasiTraceLavel : SyscallTraceLevel
  debugEnabled : Bool
  metricsEnabled : Bool
  traceEnabled : Bool
  sandboxFS : Option CString
  emscriptenInstance : Bool
  wasiProcess : Option (List CString)
  syscallTraceLevel : Option SyscallTraceLevel

/-- The state a `State` object starts with. -/
def State.initial : State :=
  ⟨[], none, none, none, [], .detect, false, .none, false, false, false, none, false, none,
    none⟩

/-- Why `parseCommandLine` returns false, or does not return. -/
inductive CommandLineError where
  /-- The help is shown: for `--help`, for `-f` without a name, and without a file name. -/
  | help
  | sysTwice
  | unknownSystem (systemString : CString)
  | expectedFeatureName
  | unknownFeature (name : CString)
  | mountRootTwice
  | wasiTraceTwice
  | invalidTraceLevel (levelString : CString)
  | unsupportedArchitecture
  | noSSE41
  /-- The statement `WAVM_UNREACHABLE()` is reached. -/
  | unreachable
  /-- The argument vector has no element: `*++nextArg` reads past its end. -/
  | outOfBounds
  deriving DecidableEq, Repr

/-- The first loop of `parseCommandLine`, from the argument `*nextArg` on: the state and
the arguments that are left when the loop ends. -/
def parseOptions (host : Host) : List CString → State →
    Except CommandLineError (State × List CString)
  | [], st => .ok (st, [])
  | arg :: rest, st =>
    if arg = "--help".toList ∨ arg = "-h".toList then .error .help
    else if arg = "--debug".toList ∨ arg = "-d".toList then
      parseOptions host rest { st with debugEnabled := true }
    else if arg = "--function".toList ∨ arg = "-f".toList then
      match rest with
      | [] => .error .help
      | name :: rest2 => parseOptions host rest2 { st with functionName := some name }
    else if arg = "--metrics".toList then
      parseOptions host rest { st with metricsEnabled := true }
    else if arg = "--trace".toList then
      parseOptions host rest { st with traceEnabled := true }
    else if stringStartsWith arg "--sys=".toList then
      if st.system ≠ .detect then .error .sysTwice
      else
        let systemString := advance arg "--sys=".toList.length
        if systemString = "bare".toList then
          parseOptions host rest { st with system := .bare }
        else if systemString = "emscripten".toList then
          parseOptions host rest { st with system := .emscripten }
        else if systemString = "wasi".toList then
          parseOptions host rest { st with system := .wasi }
        else .error (.unknownSystem systemString)
    else if arg = "--enable".toList then
      match rest with
      | [] => .error .expectedFeatureName
      | name :: rest2 =>
        if host.isFeature name then
          parseOptions host rest2 { st with featureSpec := st.featureSpec ++ [name] }
        else .error (.unknownFeature name)
    else if arg = "--precompiled".toList then
      parseOptions host rest { st with precompiled := true }
    else if stringStartsWith arg "--mount-root=".toList then
      if st.rootMountPath.isSome then .error .mountRootTwice
      else
        parseOptions host rest
          { st with rootMountPath := some (advance arg "--mount-root=".toList.length) }
    else if stringStartsWith arg "--wasi-trace=".toList then
      if st.wasiTraceLavel ≠ .none then .error .wasiTraceTwice
      else
        let levelString := advance arg "--mount-root=".toList.length
        if levelString = "syscalls".toList then
          parseOptions host rest { st with wasiTraceLavel := .syscalls }
        else if levelString = "syscalls-with-callstacks".toList then
          parseOptions host rest { st with wasiTraceLavel := .syscallsWithCallstacks }
        else .error (.invalidTraceLevel levelString)
    else .ok ({ st with filename := some arg }, rest)

/-- The method `State::parseCommandLine`, run on a `State` object `st`; `argv` holds the
arguments before the terminating null pointer. -/
def parseCommandLine (host : Host) (argv : List CString) (st : State) :
    Except CommandLineError State :=
  match argv with
  | [] => .error .outOfBounds
  | _ :: args =>
    match parseOptions host args st with
    | .error e => .error e
    | .ok (st1, nextArg) =>
      if st1.filename.isNone then .error .help
      else
        let st2 := { st1 with runArgs := st1.runArgs ++ nextArg }
        -- Check that the requested features are supported by the host CPU.
        match host.validateTarget st2.featureSpec with
        | .valid => .ok st2
        | .unsupportedArchitecture => .error .unsupportedArchitecture
        | .x86CPUDoesNotSupportSSE41 => .error .noSSE41
        | .invalidTargetSpec => .error .unreachable

/-- The test of `initSystem` for an absolute path, with the evaluation of `||` from left
to right: `none` when it reads a character past the terminating NUL of the path. -/
def isAbsolutePathTest (rootMountPath : CString) : Option Bool :=
  match readChar rootMountPath 0 with
  | none => none
  | some first =>
    if first = '/' ∨ first = '\\' ∨ first = '~' then some true
    else
      match readChar rootMountPath 1 with
      | none => none
      | some second => some (second = ':')

/-- How `initSystem` ends when it does not return. -/
inductive InitError where
  /-- A character past the terminating NUL of a string is read. -/
  | outOfBounds
  deriving DecidableEq, Repr

/-- The method `State::initSystem`: the value it returns and the state it leaves. -/
def initSystem (host : Host) (irModule : IRModule) (st : State) :
    Except InitError (Bool × State) :=
  -- If the user didn't specify a system on the command-line, try to figure it out from
  -- the module's imports.
  let st1 : State :=
    if st.system = .detect then
      if isWASIModule irModule then { st with system := .wasi }
      else if isEmscriptenModule irModule then { st with system := .emscripten }
      else st
    else st
  -- If a directory to mount as the root filesystem was passed on the command-line, create
  -- a SandboxFS for it.
  let mounted : Except InitError (Option State) :=
    match st1.rootMountPath with
    | none => .ok (some st1)
    | some rootMountPath =>
      if st1.system ≠ .wasi then .ok none
      else
        match isAbsolutePathTest rootMountPath with
        | none => .error .outOfBounds
        | some true => .ok (some { st1 with sandboxFS := some rootMountPath })
        | some false =>
          .ok (some { st1 with
            sandboxFS := some (host.currentWorkingDirectory ++ '/' :: rootMountPath) })
  match mounted with
  | .error e => .error e
  | .ok none => .ok (false, st1)
  | .ok (some st2) =>
    let st3 : State :=
      if st2.system = .emscripten then { st2 with emscriptenInstance := true }
      else if st2.system = .wasi then
        { st2 with wasiProcess := some ("/proc/1/exe".toList :: st2.runArgs) }
      else st2
    if st3.wasiTraceLavel ≠ .none then
      if st3.system ≠ .wasi then .ok (false, st3)
      else .ok (true, { st3 with syscallTraceLevel := some st3.wasiTraceLavel })
    else .ok (true, st3)

end WavmRun

namespace WavmRun

/-- The arguments `-f`, `--function` and `--enable`, which consume the argument after
them. -/
def consumesValue (arg : CString) : Bool :=
  arg = "--function".toList ∨ arg = "-f".toList ∨ arg = "--enable".toList

/-- The arguments the usage text of `showHelp` lists as options. -/
def isOption (arg : CString) : Bool :=
  arg = "--help".toList ∨ arg = "-h".toList ∨ arg = "--debug".toList ∨ arg = "-d".toList ∨
  arg = "--function".toList ∨ arg = "-f".toList ∨ arg = "--precompiled".toList ∨
  arg = "--metrics".toList ∨ arg = "--trace".toList ∨ arg = "--enable".toList ∨
  "--sys=".toList <+: arg ∨ "--mount-root=".toList <+: arg ∨ "--wasi-trace=".toList <+: arg

/-- The index of the program file in the arguments after `argv[0]`, as the specification
describes it: the first argument that is neither an option nor the value that `-f`,
`--function` or `--enable` consumes. -/
def programFileIndex : List CString → Option Nat
  | [] => none
  | arg :: rest =>
    if consumesValue arg then
      match rest with
      | [] => none
      | _ :: rest2 => (programFileIndex rest2).map (· + 2)
    else if isOption arg then (programFileIndex rest).map (· + 1)
    else some 0

/-- The system in effect in `initSystem`, as the specification describes it: the system
given by `--sys=`, and without one WASI for a module with a function import of the module
`wasi_unstable`, else Emscripten for a module whose first memory import is `env.memory` and
that has a function import of the module `env`. -/
def systemInEffect (irModule : IRModule) (system : System) : System :=
  if system ≠ .detect then system
  else if ∃ i ∈ irModule.functionImports, i.moduleName = "wasi_unstable".toList then .wasi
  else if (∃ first, irModule.memoryImports.head? = some first ∧
      first.moduleName = "env".toList ∧ first.exportName = "memory".toList) ∧
      ∃ i ∈ irModule.functionImports, i.moduleName = "env".toList then .emscripten
  else .detect

/-- What the options of the command line leave of a state `st` in the state `st2`: the
program arguments, and a trace level, a system and a mount path once they are set. -/
def KeepsOptions (st st2 : State) : Prop :=
  st2.runArgs = st.runArgs ∧
  (st.wasiTraceLavel ≠ .none → st2.wasiTraceLavel = st.wasiTraceLavel) ∧
  (st.system ≠ .detect → st2.system = st.system) ∧
  (st.rootMountPath.isSome = true → st2.rootMountPath = st.rootMountPath)

namespace Example

/-- A host on which every feature exists and is supported, with the working directory
`/home`. -/
def host : Host := ⟨fun _ => true, fun _ => .valid, "/home".toList⟩

/-- A command line with a trace level, a function name and two program arguments, of which
the first reads as an option. -/
def commandLine : List CString :=
  ["wavm-run".toList, "--wasi-trace=syscalls".toList, "-f".toList, "--help".toList,
    "a.wasm".toList, "--debug".toList, "x".toList]

/-- A command line that selects WASI and mounts the empty path. -/
def emptyMountCommandLine : List CString :=
  ["wavm-run".toList, "--sys=wasi".toList, "--mount-root=".toList, "a.wasm".toList]

/-- A module that imports a function of `wasi_unstable` and one of `env`, and the memory
`env.memory`. -/
def mixedModule : IRModule :=
  ⟨[⟨"env".toList, "f".toList⟩, ⟨"wasi_unstable".toList, "fd_write".toList⟩],
    [⟨"env".toList, "memory".toList⟩]⟩

/-- A module without imports. -/
def bareModule : IRModule := ⟨[], []⟩

end Example

end WavmRun


namespace WavmRun

namespace Example

/-- The state after the parse of a command line with `--sys=bare` and
`--wasi-trace=syscalls`. -/
def bareTraceState : State :=
  { State.initial with system := .bare, wasiTraceLavel := .syscalls,
                       filename := some "a.wasm".toList }

/-- The state after the parse of a command line without options. -/
def plainState : State := { State.initial with filename := some "a.wasm".toList }

end Example

end WavmRun


/-! ## The names of the LLVM functions -/

/-- The function `getLLVMName`. -/
def getLLVMName (nullableName : Option String) : String :=
  match nullableName with
  | some name => "_" ++ name
  | none => ""

/-- The loop of `emitModule` that gives exported functions their name: the names of the
functions after `setName(exportIt.first)` is called for the exports from the given one
on. -/
def nameExports : List (String × Nat) → List String → Except CompileError (List String)
  | [], names => .ok names
  | (exportName, functionIndex) :: rest, names =>
    if functionIndex < names.length then nameExports rest (names.set functionIndex exportName)
    else .error .assertionFailed

/-- The names `emitModule` asks LLVM to give to the functions of the module: the name
`getLLVMName(astFunction->name)` at the creation of a function, and the export name for a
function that is exported. -/
def functionNames (astModule : Module) : Except CompileError (List String) :=
  nameExports astModule.exportNameToFunctionIndexMap
    (astModule.functions.map fun astFunction => getLLVMName astFunction.name)

/-- The value of an integer abs of `bits` bits, as the specification describes it: the
absolute value of the signed reading of `x`, modulo `2 ^ bits`. -/
def intAbsValue (bits x : Nat) : Nat := (toSigned bits x).natAbs % 2 ^ bits

/-- The instructions `compileIntAbs` creates for an operand of type `type`, from position
`n` of block `b` on. -/
def intAbsCode (type : TypeId) (operand : Value) (b n : Nat) : List Inst :=
  [.binary .AShr operand (.literal type (type.bits - 1)),
   .binary .Add operand (.inst b n),
   .binary .Xor (.inst b (n + 1)) (.inst b n)]

namespace Example

/-- A module with the function `f`, which is not exported, and the function `g`, which is
exported as `_f`. -/
def collidingModule : Module :=
  ⟨[⟨some "f", ⟨[], .Void⟩, [], [], .nop⟩, ⟨some "g", ⟨[], .Void⟩, [], [], .nop⟩], [], [],
    [("_f", 1)]⟩

end Example

/-! ## The stack of in-scope branch targets -/

/-- The stack of in-scope branch targets as a branch reads it: the target and the block of
each in-scope context, the innermost first.  The `results` of the contexts, which an
emission adds edges to, are not part of it. -/
def scopeStack (l : List BranchContext) : List (BranchTarget × Nat) :=
  l.map fun c => (c.branchTarget, c.basicBlock)

/-- Where a branch to `branchTarget` goes in a list of in-scope contexts: the depth and the
block of the context that `findTargetContext` finds. -/
def resolveTarget (branchTarget : BranchTarget) (l : List BranchContext) : Option (Nat × Nat) :=
  (findTargetContext branchTarget l).map fun p => (p.1, p.2.basicBlock)

namespace Example

/-- A label whose body is a branch to its end target, followed by a branch to the same
target outside of the label. -/
def branchAfterLabel : Expression :=
  .sequence (.label targetU (.branch targetU .nop)) (.branch targetU .nop)

end Example

/-! ## Typed joins -/

/-- The state in which `visitIfElse` emits the then-arm, from the state `s1` in which the
condition `cond` is emitted: the true block `s1.numBlocks`, the false block and the
successor block are created, the block at the insertion point ends with the conditional
branch, and the insertion point is the true block. -/
def thenArmState (cx : JITFunctionContext) (cond : Value) (s1 : EmitState) : EmitState :=
  let (trueBlock, s2) := createBasicBlock s1
  let (falseBlock, s3) := createBasicBlock s2
  let (_, s4) := createBasicBlock s3
  let (_, s5) := compileCondBranch cx cond trueBlock falseBlock s4
  setInsertPoint trueBlock s5

/-- The state in which `visitIfElse` emits the else-arm, from the state `s6` in which the
then-arm is emitted: the end of the then-arm branches to the successor block, and the
insertion point is the false block.  `s1` is the state in which the condition is emitted. -/
def elseArmState (cx : JITFunctionContext) (s1 s6 : EmitState) : EmitState :=
  setInsertPoint (s1.numBlocks + 1) (compileBranch cx (s1.numBlocks + 1 + 1) s6).2

/-- The expressions whose value is a phi node at a join when their type is not void. -/
def Expression.isJoin : Expression → Bool
  | .label _ _ | .loop _ _ _ | .switch _ _ _ _ _ | .ifElse _ _ _ => true
  | _ => false

/-- The value `v` is a typed join at the insertion point of `s`: the block at the insertion
point holds one instruction, a phi node of type `type`, which is `v`; the incoming edges of
the phi node come from different blocks, none of which is the unreachable block, and the
blocks they come from are the blocks that hold a jump to the block at the insertion
point. -/
def TypedJoin (cx : JITFunctionContext) (s : EmitState) (type : TypeId) (v : Value) : Prop :=
  ∃ edges : List (Value × Nat),
    v = .inst s.insertBlock 0 ∧
    s.blocks s.insertBlock = [.phi type edges] ∧
    (edges.map Prod.snd).Nodup ∧
    cx.unreachableBlock ∉ edges.map Prod.snd ∧
    ∀ b, JumpsTo s b s.insertBlock ↔ b ∈ edges.map Prod.snd

/-- In the arm loop of a switch with the first arm block `A` and the successor block `S`,
every jump to the successor block is recorded: the context of the switch is the innermost
in-scope context, the blocks of the other contexts are older than the arm blocks, and every
block that jumps to the successor block is the block of an edge in the `results` of the
context of the switch. -/
def JoinTracked (A S : Nat) (s : EmitState) : Prop :=
  ∃ D outer, s.branchContext = D :: outer ∧ D.basicBlock = S ∧
    (∀ c ∈ outer, c.basicBlock < A) ∧
    ∀ b, JumpsTo s b S → b ∈ incomingBlocks D.results

namespace Example

/-- An if-else of type `i32` whose then-arm returns from the function and whose else-arm
yields the constant 2. -/
def ifElseWithReturn : Expression :=
  .ifElse (.literal .Bool 1) (.ret (.literal .I32 1)) (.literal .I32 2)

end Example

/-! ## Well-formed basic blocks -/

/-- The instructions of a well-formed basic block: the last instruction is a terminator,
and no instruction before it is one. -/
def EndsInTerminator (code : List Inst) : Prop :=
  code.getLast?.map Inst.isTerminator = some true ∧ ∀ i ∈ code.dropLast, i.isTerminator = false


/-- Every block of the state that holds a terminator, but for the unreachable block, ends
with it and holds no other one. -/
def WellFormedBlocks (cx : JITFunctionContext) (s : EmitState) : Prop :=
  ∀ b, b ≠ cx.unreachableBlock → Terminated s b → EndsInTerminator (s.blocks b)

/-- Block `b` exists in state `s`, is not the unreachable block and holds no terminator. -/
def OpenBlock (cx : JITFunctionContext) (s : EmitState) (b : Nat) : Prop :=
  b < s.numBlocks ∧ b ≠ cx.unreachableBlock ∧ ¬ Terminated s b

/-- From `s` to `s'` the emission ends the blocks it writes to: a block that exists in `s'`
and holds no terminator is the block at the insertion point of `s'`, a block in `P` (the
blocks that are created for later), or a block of `s` other than the one at its insertion
point. -/
def ClosesBlocks (cx : JITFunctionContext) (P : Nat → Prop) (s s' : EmitState) : Prop :=
  ∀ b, OpenBlock cx s' b →
    b = s'.insertBlock ∨ P b ∨ (b < s.numBlocks ∧ b ≠ s.insertBlock)

/-- The emission from `s` to `s'` is tidy: it keeps the invariant and the frame, keeps the
blocks well-formed, and ends every block it has written to or created, but for the block
at the insertion point of `s'`. -/
def Tidy (cx : JITFunctionContext) (s s' : EmitState) : Prop :=
  Inv cx s' ∧ Rel cx s s' ∧ (WellFormedBlocks cx s → WellFormedBlocks cx s') ∧
    ClosesBlocks cx (fun _ => False) s s'

/-- An emission step is tidy in every state that satisfies the invariant. -/
def Tidies {α : Type} (cx : JITFunctionContext) (d : EmitState → EmitResult α) : Prop :=
  ∀ s v s', Inv cx s → d s = .ok (v, s') → Tidy cx s s'

namespace Example

/-- A function of type `(i32) → i32` whose body is a loop that leaves through its break
target when the argument is zero, followed by a switch on the argument. -/
def controlFlowFunction : Function :=
  ⟨none, ⟨[.I32], .I32⟩, [⟨.I32⟩], [0],
    .sequence
      (.loop (.ifElse (.comparison .eq .I32 (.getLocal 0) (.literal .I32 0))
        (.branch targetB .nop) .nop) targetB targetU)
      (.switch (.getLocal 0) .I32
        (.cons 5 (.ret (.literal .I32 1)) (.cons 7 (.literal .I32 2) .nil)) 1 targetT)⟩

end Example

/-- What the arm loop of `visitSwitch` does to the blocks from `s` to `s'` when it emits
`n` arms from arm `i` on, for the first arm block `A`: it keeps the blocks well-formed, it
ends the block it stops in, and of the blocks that were open before it leaves open only
those that are not the blocks of these arms. -/
structure ArmsTidy (cx : JITFunctionContext) (A i n : Nat) (s s' : EmitState) : Prop where
  wellFormed : WellFormedBlocks cx s → WellFormedBlocks cx s'
  done : s'.insertBlock ≠ cx.unreachableBlock → Terminated s' s'.insertBlock
  closes : ∀ (P : Nat → Prop) (s0 : EmitState), ClosesBlocks cx P s0 s →
    ClosesBlocks cx (fun b => P b ∧ ¬ (A + i ≤ b ∧ b < A + i + n)) s0 s'

/-! ## Expressions emitted at the unreachable block -/

mutual
/-- The expression is built without `Label`, `Loop`, `IfElse` and `Switch`, the constructs
that set the insertion point to a block they create. -/
def Expression.isStraightLine : Expression → Bool
  | .literal _ _ => true
  | .error _ => true
  | .getLocal _ => true
  | .setLocal _ value => value.isStraightLine
  | .load _ address _ _ _ => address.isStraightLine
  | .store _ address _ _ value _ _ => address.isStraightLine && value.isStraightLine
  | .callDirect _ parameters => parameters.isStraightLine
  | .callImport _ parameters => parameters.isStraightLine
  | .callIndirect _ functionIndex parameters =>
    functionIndex.isStraightLine && parameters.isStraightLine
  | .switch _ _ _ _ _ => false
  | .ifElse _ _ _ => false
  | .label _ _ => false
  | .sequence voidExpression resultExpression =>
    voidExpression.isStraightLine && resultExpression.isStraightLine
  | .ret value => value.isStraightLine
  | .loop _ _ _ => false
  | .branch _ value => value.isStraightLine
  | .nop => true
  | .discardResult expression _ => expression.isStraightLine
  | .unary _ operand => operand.isStraightLine
  | .binary _ left right => left.isStraightLine && right.isStraightLine
  | .cast _ source _ => source.isStraightLine
  | .comparison _ _ left right => left.isStraightLine && right.isStraightLine
/-- Every argument of the list is built without `Label`, `Loop`, `IfElse` and `Switch`. -/
def ExpressionList.isStraightLine : ExpressionList → Bool
  | .nil => true
  | .cons head tail => head.isStraightLine && tail.isStraightLine
end

/-- The instruction is a load. -/
def Inst.isLoad : Inst → Bool
  | .load _ _ => true
  | _ => false

/-- The instruction is a store. -/
def Inst.isStore : Inst → Bool
  | .store _ _ _ => true
  | _ => false

/-- The instruction is a call. -/
def Inst.isCall : Inst → Bool
  | .call _ _ => true
  | _ => false

/-- The instruction is a cast of a value. -/
def Inst.isCast : Inst → Bool
  | .cast _ _ _ => true
  | _ => false

/-- The instruction is a comparison. -/
def Inst.isCmp : Inst → Bool
  | .cmp _ _ _ => true
  | _ => false

/-- The instruction is a load or a cast of a value: what `visitLoad` creates last, the load
or the truncation or extension of the loaded value. -/
def Inst.isLoadOrCast (i : Inst) : Bool := i.isLoad || i.isCast

/-- The instruction is a unary or binary arithmetic instruction or a call: what
`IMPLEMENT_UNARY_OP` and `IMPLEMENT_BINARY_OP` create last, the instruction of the operator
or the call of its intrinsic. -/
def Inst.isArithmeticOrCall : Inst → Bool
  | .unary _ _ => true
  | .binary _ _ _ => true
  | .call _ _ => true
  | _ => false

/-- The kind of the instruction that the visitor of an expression creates last, once the
operands are emitted: the load of a `GetLocal`, the store of a `SetLocal` or `Store`, the
load or the cast of the loaded value of a `Load`, the call of a call, the arithmetic
instruction or the intrinsic call of a unary or binary operator, the cast of a cast and the
comparison of a comparison.  The other visitors create no instruction of their own, or a
terminator or a phi node. -/
def Expression.createdKind : Expression → Option (Inst → Bool)
  | .getLocal _ => some Inst.isLoad
  | .setLocal _ _ => some Inst.isStore
  | .load _ _ _ _ _ => some Inst.isLoadOrCast
  | .store _ _ _ _ _ _ _ => some Inst.isStore
  | .callDirect _ _ => some Inst.isCall
  | .callImport _ _ => some Inst.isCall
  | .callIndirect _ _ _ => some Inst.isCall
  | .unary _ _ => some Inst.isArithmeticOrCall
  | .binary _ _ _ => some Inst.isArithmeticOrCall
  | .cast _ _ _ => some Inst.isCast
  | .comparison _ _ _ _ => some Inst.isCmp
  | _ => none

/-- The emission from `s` to `s'` ran with the insertion point at the unreachable block and
only collected instructions there: `s'` is `s` with the instructions `code` appended at the
insertion point, none of them a terminator, and the last of them is of the kind `last`, if
one is given. -/
def Collects (cx : JITFunctionContext) (last : Option (Inst → Bool)) (s s' : EmitState) :
    Prop :=
  s.insertBlock = cx.unreachableBlock ∧
  ∃ code, s' = appendCode code s ∧ (∀ i ∈ code, i.isTerminator = false) ∧
    ∀ kind, last = some kind → ∃ front i, code = front ++ [i] ∧ kind i = true

/-- An emission step that, run with the insertion point at the unreachable block, only
collects instructions there. -/
def CollectsAll {α : Type} (cx : JITFunctionContext) (last : Option (Inst → Bool))
    (d : EmitState → EmitResult α) : Prop :=
  ∀ s v s', s.insertBlock = cx.unreachableBlock → d s = .ok (v, s') → Collects cx last s s'

/-! # Theorems -/

/-! ## Arithmetic of masks -/

theorem and_pred_eq_zero_of_pow (k : Nat) : 2 ^ k &&& (2 ^ k - 1) = 0 := by
  rw [Nat.and_pow_two_sub_one_eq_mod]; simp

theorem pow_of_and_pred_eq_zero (n : Nat) (hn : 0 < n) (h : n &&& (n - 1) = 0) :
    ∃ k, n = 2 ^ k := by
  refine ⟨n.log2, ?_⟩
  have h1 : 2 ^ n.log2 ≤ n := Nat.log2_self_le (by omega)
  have h2 : n < 2 ^ (n.log2 + 1) := Nat.lt_log2_self
  by_contra hne
  have h3 : 2 ^ n.log2 ≤ n - 1 := by omega
  have h4 : n - 1 < 2 ^ (n.log2 + 1) := by omega
  have t1 : n.testBit n.log2 = true := by
    rw [Nat.testBit_to_div_mod]
    have : n / 2 ^ n.log2 = 1 := by
      apply Nat.div_eq_of_lt_le
      · simpa using h1
      · rw [pow_succ] at h2; omega
    simp [this]
  have t2 : (n - 1).testBit n.log2 = true := by
    rw [Nat.testBit_to_div_mod]
    have : (n - 1) / 2 ^ n.log2 = 1 := by
      apply Nat.div_eq_of_lt_le
      · simpa using h3
      · rw [pow_succ] at h4; omega
    simp [this]
  have t3 : (n &&& (n - 1)).testBit n.log2 = true := by
    rw [Nat.testBit_and, t1, t2]; rfl
  rw [h] at t3
  simp at t3

theorem wrapped_pred (n w : Nat) (h0 : 0 < n) (h : n < 2 ^ w) :
    (n + 2 ^ w - 1) % 2 ^ w = n - 1 := by
  have : n + 2 ^ w - 1 = (n - 1) + 2 ^ w := by omega
  rw [this, Nat.add_mod_right, Nat.mod_eq_of_lt (by omega)]

theorem address_mask_value (k : Nat) :
    (2 ^ k % 2 ^ 64 + 2 ^ 64 - 1) % 2 ^ 64 = 2 ^ (min k 64) - 1 := by
  by_cases h64 : k < 64
  · have h1 : 2 ^ k < 2 ^ 64 := Nat.pow_lt_pow_right (by norm_num) h64
    rw [Nat.mod_eq_of_lt h1, wrapped_pred _ _ (Nat.two_pow_pos k) h1, Nat.min_eq_left (by omega)]
  · have h1 : 2 ^ k % 2 ^ 64 = 0 :=
      Nat.mod_eq_zero_of_dvd (Nat.pow_dvd_pow 2 (by omega))
    rw [h1, Nat.min_eq_right (by omega)]
    norm_num

theorem and_address_mask (x k : Nat) (hx : x < 2 ^ 32) (hk : 32 ≤ k) :
    x &&& ((2 ^ k % 2 ^ 64 + 2 ^ 64 - 1) % 2 ^ 64) = x := by
  rw [address_mask_value, Nat.and_pow_two_sub_one_eq_mod]
  apply Nat.mod_eq_of_lt
  exact lt_of_lt_of_le hx (Nat.pow_le_pow_right (by norm_num) (by omega))

theorem toSigned_of_lt (bits x : Nat) (h : x < 2 ^ (bits - 1)) : toSigned bits x = (x : Int) := by
  simp [toSigned, h]

/-! ## Creating instructions -/

@[simp] theorem insert_fst (i : Inst) (s : EmitState) :
    (insert i s).1 = .inst s.insertBlock (s.blocks s.insertBlock).length := rfl

@[simp] theorem insert_insertBlock (i : Inst) (s : EmitState) :
    (insert i s).2.insertBlock = s.insertBlock := rfl

@[simp] theorem insert_numBlocks (i : Inst) (s : EmitState) :
    (insert i s).2.numBlocks = s.numBlocks := rfl

@[simp] theorem insert_branchContext (i : Inst) (s : EmitState) :
    (insert i s).2.branchContext = s.branchContext := rfl

@[simp] theorem insert_blocks_self (i : Inst) (s : EmitState) :
    (insert i s).2.blocks s.insertBlock = s.blocks s.insertBlock ++ [i] := by
  simp [insert]

theorem insert_blocks_of_ne (i : Inst) (s : EmitState) (b : Nat) (h : b ≠ s.insertBlock) :
    (insert i s).2.blocks b = s.blocks b := by
  simp [insert, h]

theorem createJITModule_mask (bytes : Nat) (astModule : Module) (jitModule : JITModule)
    (h : createJITModule bytes astModule = .ok jitModule) :
    jitModule.instanceMemoryAddressMask = instanceMemoryAddressMask bytes ∧
      jitModule.astModule = astModule := by
  unfold createJITModule at h
  split at h
  · simp at h
  · simp at h; subst h; simp

theorem insert_eq (i : Inst) (s : EmitState) :
    insert i s = (.inst s.insertBlock (s.blocks s.insertBlock).length, appendCode [i] s) := rfl

theorem appendCode_nil (s : EmitState) : appendCode [] s = s := by
  simp [appendCode]

theorem appendCode_append (c1 c2 : List Inst) (s : EmitState) :
    appendCode c2 (appendCode c1 s) = appendCode (c1 ++ c2) s := by
  simp only [appendCode]
  congr 1
  funext b
  by_cases hb : b = s.insertBlock <;> simp [hb]

@[simp] theorem appendCode_insertBlock (c : List Inst) (s : EmitState) :
    (appendCode c s).insertBlock = s.insertBlock := rfl

@[simp] theorem appendCode_numBlocks (c : List Inst) (s : EmitState) :
    (appendCode c s).numBlocks = s.numBlocks := rfl

@[simp] theorem appendCode_branchContext (c : List Inst) (s : EmitState) :
    (appendCode c s).branchContext = s.branchContext := rfl

@[simp] theorem appendCode_blocks_self (c : List Inst) (s : EmitState) :
    (appendCode c s).blocks s.insertBlock = s.blocks s.insertBlock ++ c := by
  simp [appendCode]

theorem appendCode_blocks_of_ne (c : List Inst) (s : EmitState) (b : Nat)
    (h : b ≠ s.insertBlock) : (appendCode c s).blocks b = s.blocks b := by
  simp [appendCode, h]

@[simp] theorem evalOperand_literal (env : Env) (type : TypeId) (value : Nat) :
    evalOperand env (.literal type value) = some (.int type.bits value) := rfl

@[simp] theorem evalOperand_inst (env : Env) (b n : Nat) :
    evalOperand env (.inst b n) = env (.inst b n) := rfl

@[simp] theorem evalOperand_instanceMemoryBase (env : Env) :
    evalOperand env .instanceMemoryBase = some (.memoryPointer 0 .I8) := rfl

@[simp] theorem evalOperand_functionTablePointer (env : Env) (t : Nat) :
    evalOperand env (.functionTablePointer t) = some (.tablePointer t) := rfl

/-- What `compileAddress` emits: the address, then the code of the masked address. -/
theorem compileAddress_code (cx : JITFunctionContext) (address : Dispatcher)
    (isFarAddress : Bool) (memoryType : TypeId) (s s' : EmitState) (pointer : Value)
    (h : compileAddress cx address isFarAddress memoryType s = .ok (pointer, s')) :
    ∃ a s1, address (addressType isFarAddress) s = .ok (a, s1) ∧
      s' = appendCode (maskedAddressCode cx.jitModule.instanceMemoryAddressMask isFarAddress a
        memoryType s1.insertBlock (s1.blocks s1.insertBlock).length) s1 ∧
      pointer = maskedPointer isFarAddress s1.insertBlock (s1.blocks s1.insertBlock).length := by
  unfold compileAddress at h
  cases isFarAddress with
  | false =>
    simp only [Bool.false_eq_true, if_false] at h
    cases ha : address .I32 s with
    | error e => simp [ha] at h
    | ok r =>
      obtain ⟨a, s1⟩ := r
      simp only [ha, insert_eq, appendCode_append, appendCode_insertBlock,
        appendCode_blocks_self, List.length_append, List.length_singleton, Except.ok.injEq,
        Prod.mk.injEq] at h
      obtain ⟨hp, hs⟩ := h
      exact ⟨a, s1, by simpa [addressType] using ha, by simpa [maskedAddressCode] using hs.symm,
        by simpa [maskedPointer] using hp.symm⟩
  | true =>
    simp only [if_true] at h
    cases ha : address .I64 s with
    | error e => simp [ha] at h
    | ok r =>
      obtain ⟨a, s1⟩ := r
      simp only [ha, insert_eq, appendCode_append, appendCode_insertBlock,
        appendCode_blocks_self, List.length_append, List.length_singleton, Except.ok.injEq,
        Prod.mk.injEq] at h
      obtain ⟨hp, hs⟩ := h
      exact ⟨a, s1, by simpa [addressType] using ha, by simpa [maskedAddressCode] using hs.symm,
        by simpa [maskedPointer] using hp.symm⟩

/-- What the code of a masked address computes. -/
theorem exec_maskedAddressCode (jitModule : JITModule) (m : Nat) (env : Env)
    (isFarAddress : Bool) (a : Value) (b n x : Nat) (memoryType : TypeId)
    (ha : evalOperand env a = some (.int (addressType isFarAddress).bits x)) :
    execInsts jitModule b n (maskedAddressCode (.literal .I64 m) isFarAddress a memoryType b n)
        env (maskedByteIndex isFarAddress b n) = some (.int 64 (x &&& m)) ∧
    execInsts jitModule b n (maskedAddressCode (.literal .I64 m) isFarAddress a memoryType b n)
        env (maskedPointer isFarAddress b n) =
      some (.memoryPointer (toSigned 64 (x &&& m)) memoryType) := by
  cases isFarAddress with
  | false =>
    simp only [addressType, Bool.false_eq_true, if_false, TypeId.bits] at ha
    simp [maskedAddressCode, maskedByteIndex, maskedPointer, execInsts, execInst, ha,
      Outcome.result, execBinary, TypeId.bits, TypeId.byteWidth]
  | true =>
    simp only [addressType, if_true, TypeId.bits] at ha
    simp [maskedAddressCode, maskedByteIndex, maskedPointer, execInsts, execInst, ha,
      Outcome.result, execBinary, TypeId.bits, TypeId.byteWidth]
    omega

/-- C2. Address-mask correctness: when the address space size is a power of two not smaller
than `2 ^ 32`, the code `compileAddress` emits for a 32-bit (non-far) address zero-extends
the address, and for every 32-bit address value `x`, the top bit set or not, the index it
passes to the memory-base `getelementptr` is `x` itself and the pointer is
`instanceMemoryBase + x`: never a negative or wrapped offset. -/
theorem compileAddress_index_eq_address (cx : JITFunctionContext) (astModule : Module)
    (k : Nat) (hk : 32 ≤ k) (hjit : createJITModule (2 ^ k) astModule = .ok cx.jitModule)
    (address : Dispatcher) (memoryType : TypeId) (s s' : EmitState) (pointer : Value)
    (h : compileAddress cx address false memoryType s = .ok (pointer, s'))
    (env : Env) (x : Nat) (hx : x < 2 ^ 32) :
    ∃ a s1 mask, address .I32 s = .ok (a, s1) ∧
      s' = appendCode
        [.cast .ZExt a .I64,
         .binary .And (.inst s1.insertBlock (s1.blocks s1.insertBlock).length) mask,
         .inBoundsGEP .instanceMemoryBase
           [.inst s1.insertBlock ((s1.blocks s1.insertBlock).length + 1)],
         .pointerCast (.inst s1.insertBlock ((s1.blocks s1.insertBlock).length + 2))
           memoryType] s1 ∧
      pointer = .inst s1.insertBlock ((s1.blocks s1.insertBlock).length + 3) ∧
      (evalOperand env a = some (.int 32 x) →
        execInsts cx.jitModule s1.insertBlock (s1.blocks s1.insertBlock).length
            (s'.blocks s1.insertBlock |>.drop (s1.blocks s1.insertBlock).length) env
            (.inst s1.insertBlock ((s1.blocks s1.insertBlock).length + 1)) =
          some (.int 64 x) ∧
        execInsts cx.jitModule s1.insertBlock (s1.blocks s1.insertBlock).length
            (s'.blocks s1.insertBlock |>.drop (s1.blocks s1.insertBlock).length) env pointer =
          some (.memoryPointer x memoryType)) := by
  obtain ⟨a, s1, ha, hs, hp⟩ := compileAddress_code cx address false memoryType s s' pointer h
  obtain ⟨hmask, -⟩ := createJITModule_mask _ _ _ hjit
  refine ⟨a, s1, cx.jitModule.instanceMemoryAddressMask, by simpa [addressType] using ha,
    by simpa [maskedAddressCode] using hs, by simpa [maskedPointer] using hp, ?_⟩
  intro hav
  have hcode : (s'.blocks s1.insertBlock).drop (s1.blocks s1.insertBlock).length =
      maskedAddressCode cx.jitModule.instanceMemoryAddressMask false a memoryType
        s1.insertBlock (s1.blocks s1.insertBlock).length := by
    rw [hs]; simp
  have hex := exec_maskedAddressCode cx.jitModule ((2 ^ k % 2 ^ 64 + 2 ^ 64 - 1) % 2 ^ 64) env
    false a s1.insertBlock (s1.blocks s1.insertBlock).length x memoryType
    (by simpa [addressType, TypeId.bits] using hav)
  rw [and_address_mask x k hx hk] at hex
  have hsig : toSigned 64 x = (x : Int) := toSigned_of_lt 64 x (by omega)
  rw [hsig] at hex
  rw [hcode, hp, hmask]
  simp only [instanceMemoryAddressMask, compileLiteral, TypeId.bits]
  exact hex

/-- The hypotheses of `compileAddress_index_eq_address` hold for the empty module with an
address space of 8 GiB and the address `2 ^ 31`, whose top bit is set: the masked index is
`2 ^ 31`. -/
theorem compileAddress_index_eq_address_witness :
    (32 ≤ 33 ∧ createJITModule (2 ^ 33) Example.emptyModule = .ok Example.context.jitModule ∧
      2 ^ 31 < 2 ^ 32) ∧
    ∃ pointer s', compileAddress Example.context Example.argument0 false .I32
        Example.entryState = .ok (pointer, s') ∧
      execInsts Example.jitModule 1 0 (s'.blocks 1) (Example.argumentEnv 32 (2 ^ 31))
        (.inst 1 1) = some (.int 64 (2 ^ 31)) := by
  refine ⟨⟨by norm_num, rfl, by norm_num⟩, _, _, rfl, ?_⟩
  obtain ⟨a, s1, mask, ha, -, -, hex⟩ :=
    compileAddress_index_eq_address Example.context Example.emptyModule 33 (by norm_num) rfl
      Example.argument0 .I32 Example.entryState _ _ rfl (Example.argumentEnv 32 (2 ^ 31))
      (2 ^ 31) (by norm_num)
  simp only [Example.argument0, Except.ok.injEq, Prod.mk.injEq] at ha
  obtain ⟨rfl, rfl⟩ := ha
  exact (hex rfl).1

/-- C1 (the code at the failing input). With an address space of 8 GiB, the load of an
`i64` through the far address `2 ^ 33 - 1` is emitted as the mask, the index into the
memory base, the pointer cast and the load; the masked index is `2 ^ 33 - 1`, and the load
reads the 8 bytes from there on, of which 7 lie past the end of the reserved range
`[0, 2 ^ 33)`. -/
theorem far_load_reads_past_reserved_range :
    createJITModule (2 ^ 33) Example.emptyModule = .ok Example.context.jitModule ∧
    ∃ s', dispatch Example.context Example.farLoad .I64 Example.entryState =
        .ok (.inst 1 3, s') ∧
      s'.blocks 1 =
        [.binary .And (.literal .I64 (2 ^ 33 - 1)) (.literal .I64 (2 ^ 33 - 1)),
         .inBoundsGEP .instanceMemoryBase [.inst 1 0],
         .pointerCast (.inst 1 1) .I64,
         .load (.inst 1 2) (some 1)] ∧
      execInst Example.jitModule
          (execInsts Example.jitModule 1 0 ((s'.blocks 1).take 3) (fun _ => none))
          (.load (.inst 1 2) (some 1)) = .accessesMemory (2 ^ 33 - 1) 8 ∧
      ((2 : Int) ^ 33 - 1) + 8 > 2 ^ 33 := by
  refine ⟨rfl, _, rfl, by decide, by decide, by norm_num⟩

theorem instanceMemoryAddressMask_eq (bytes : Nat) (h0 : 0 < bytes) (h64 : bytes < 2 ^ 64) :
    instanceMemoryAddressMask bytes = .literal .I64 (bytes - 1) := by
  simp only [instanceMemoryAddressMask, compileLiteral, TypeId.bits]
  rw [Nat.mod_eq_of_lt h64, wrapped_pred bytes 64 h0 h64]

theorem visitLoad_code (cx : JITFunctionContext) (type : TypeId) (op : LoadOp)
    (address : Dispatcher) (isFarAddress : Bool) (alignmentLog2 : Nat) (memoryType : TypeId)
    (s s' : EmitState) (v : Value)
    (h : visitLoad cx type op address isFarAddress alignmentLog2 memoryType s = .ok (v, s')) :
    ∃ a s1 rest, address (addressType isFarAddress) s = .ok (a, s1) ∧
      s' = appendCode (maskedAddressCode cx.jitModule.instanceMemoryAddressMask isFarAddress a
          memoryType s1.insertBlock (s1.blocks s1.insertBlock).length ++
        [.load (maskedPointer isFarAddress s1.insertBlock (s1.blocks s1.insertBlock).length)
          (some (1 <<< alignmentLog2))] ++ rest) s1 ∧
      ∀ i ∈ rest, ∃ castOp operand destType, i = .cast castOp operand destType := by
  unfold visitLoad at h
  cases op <;> simp only at h
  · -- anyLoad
    split at h
    · cases hc : compileAddress cx address isFarAddress memoryType s with
      | error e => simp [hc] at h
      | ok r =>
        obtain ⟨p, s2⟩ := r
        obtain ⟨a, s1, ha, hs, hp⟩ := compileAddress_code cx address isFarAddress memoryType s s2 p hc
        simp only [hc, insert_eq, Except.ok.injEq, Prod.mk.injEq] at h
        refine ⟨a, s1, [], ha, ?_, by simp⟩
        rw [← h.2, hs, appendCode_append, hp]
        simp
    · simp at h
  · -- intLoad
    cases hc : compileAddress cx address isFarAddress memoryType s with
    | error e => simp [hc] at h
    | ok r =>
      obtain ⟨p, s2⟩ := r
      obtain ⟨a, s1, ha, hs, hp⟩ := compileAddress_code cx address isFarAddress memoryType s s2 p hc
      simp only [hc, insert_eq] at h
      split at h
      · split at h
        · simp only [Except.ok.injEq, Prod.mk.injEq] at h
          refine ⟨a, s1, [], ha, ?_, by simp⟩
          rw [← h.2, hs, appendCode_append, hp]
          simp
        · simp only [Except.ok.injEq, Prod.mk.injEq] at h
          refine ⟨a, s1, [.cast .Trunc (.inst s2.insertBlock (s2.blocks s2.insertBlock).length)
            type], ha, ?_, ?_⟩
          · rw [← h.2, hs, appendCode_append, appendCode_append, hp, List.append_assoc]
          · simp
      · simp at h
  · -- loadZExt
    cases hc : compileAddress cx address isFarAddress memoryType s with
    | error e => simp [hc] at h
    | ok r =>
      obtain ⟨p, s2⟩ := r
      obtain ⟨a, s1, ha, hs, hp⟩ := compileAddress_code cx address isFarAddress memoryType s s2 p hc
      simp only [hc, insert_eq, Except.ok.injEq, Prod.mk.injEq] at h
      refine ⟨a, s1, [.cast .ZExt (.inst s2.insertBlock (s2.blocks s2.insertBlock).length)
        type], ha, ?_, ?_⟩
      · rw [← h.2, hs, appendCode_append, appendCode_append, hp, List.append_assoc]
      · simp
  · -- loadSExt
    cases hc : compileAddress cx address isFarAddress memoryType s with
    | error e => simp [hc] at h
    | ok r =>
      obtain ⟨p, s2⟩ := r
      obtain ⟨a, s1, ha, hs, hp⟩ := compileAddress_code cx address isFarAddress memoryType s s2 p hc
      simp only [hc, insert_eq, Except.ok.injEq, Prod.mk.injEq] at h
      refine ⟨a, s1, [.cast .SExt (.inst s2.insertBlock (s2.blocks s2.insertBlock).length)
        type], ha, ?_, ?_⟩
      · rw [← h.2, hs, appendCode_append, appendCode_append, hp, List.append_assoc]
      · simp

theorem visitStore_code (cx : JITFunctionContext) (isIntClass : Bool) (address : Dispatcher)
    (isFarAddress : Bool) (alignmentLog2 : Nat) (value : Dispatcher)
    (valueType memoryType : TypeId) (s s' : EmitState) (v : Value)
    (h : visitStore cx isIntClass address isFarAddress alignmentLog2 value valueType memoryType
      s = .ok (v, s')) :
    ∃ s0 a s1 memoryValue alignment, address (addressType isFarAddress) s0 = .ok (a, s1) ∧
      s' = appendCode (maskedAddressCode cx.jitModule.instanceMemoryAddressMask isFarAddress a
          memoryType s1.insertBlock (s1.blocks s1.insertBlock).length ++
        [.store memoryValue
          (maskedPointer isFarAddress s1.insertBlock (s1.blocks s1.insertBlock).length)
          alignment]) s1 := by
  unfold visitStore at h
  cases hv : value valueType s with
  | error e => simp [hv] at h
  | ok r =>
    obtain ⟨v0, sv⟩ := r
    simp only [hv] at h
    cases isIntClass with
    | true =>
      simp only [if_true] at h
      split at h
      · simp at h
      · rename_i mv s2 htr
        cases hc : compileAddress cx address isFarAddress memoryType s2 with
        | error e => simp [hc] at h
        | ok r =>
          obtain ⟨p, s3⟩ := r
          obtain ⟨a, s1, ha, hs, hp⟩ :=
            compileAddress_code cx address isFarAddress memoryType s2 s3 p hc
          simp only [hc, insert_eq, Except.ok.injEq, Prod.mk.injEq] at h
          refine ⟨s2, a, s1, mv, none, ha, ?_⟩
          rw [← h.2, hs, appendCode_append, hp]
    | false =>
      simp only [Bool.false_eq_true, if_false] at h
      cases hc : compileAddress cx address isFarAddress memoryType sv with
      | error e => simp [hc] at h
      | ok r =>
        obtain ⟨p, s3⟩ := r
        obtain ⟨a, s1, ha, hs, hp⟩ :=
          compileAddress_code cx address isFarAddress memoryType sv s3 p hc
        simp only [hc, insert_eq, Except.ok.injEq, Prod.mk.injEq] at h
        refine ⟨sv, a, s1, v0, some (1 <<< alignmentLog2), ha, ?_⟩
        rw [← h.2, hs, appendCode_append, hp]


/-- C3. Memory access lowering: in a module that `emitModule` sets up for an address space
of `bytes` bytes, every load and every store expression is emitted as the emission of its
address expression (for `i32`, or for `i64` when the address is far), followed by the code
of the masked address (the zero-extension to 64 bits of a non-far address, the AND with
the constant `bytes - 1`, the `getelementptr` on the memory base with the masked value,
the pointer cast) and the load or store through that very pointer (a load is followed by
at most one conversion).  Executed on an address value `x`, that code yields the index
`x AND (bytes - 1)` and the pointer at that index of the memory base. -/
theorem load_store_address_is_masked (cx : JITFunctionContext) (astModule : Module)
    (bytes : Nat) (h0 : 0 < bytes) (h64 : bytes < 2 ^ 64)
    (hjit : createJITModule bytes astModule = .ok cx.jitModule) :
    (∀ op address isFarAddress alignmentLog2 memoryType type s v s',
      dispatch cx (.load op address isFarAddress alignmentLog2 memoryType) type s =
        .ok (v, s') →
      ∃ a s1 rest, dispatch cx address (addressType isFarAddress) s = .ok (a, s1) ∧
        s' = appendCode (maskedAddressCode (.literal .I64 (bytes - 1)) isFarAddress a
            memoryType s1.insertBlock (s1.blocks s1.insertBlock).length ++
          [.load (maskedPointer isFarAddress s1.insertBlock (s1.blocks s1.insertBlock).length)
            (some (1 <<< alignmentLog2))] ++ rest) s1 ∧
        ∀ i ∈ rest, ∃ castOp operand destType, i = .cast castOp operand destType) ∧
    (∀ isIntClass address isFarAddress alignmentLog2 value valueType memoryType type s v s',
      dispatch cx (.store isIntClass address isFarAddress alignmentLog2 value valueType
        memoryType) type s = .ok (v, s') →
      ∃ s0 a s1 memoryValue alignment,
        dispatch cx address (addressType isFarAddress) s0 = .ok (a, s1) ∧
        s' = appendCode (maskedAddressCode (.literal .I64 (bytes - 1)) isFarAddress a
            memoryType s1.insertBlock (s1.blocks s1.insertBlock).length ++
          [.store memoryValue
            (maskedPointer isFarAddress s1.insertBlock (s1.blocks s1.insertBlock).length)
            alignment]) s1) ∧
    (∀ (env : Env) isFarAddress a b n x memoryType,
      evalOperand env a = some (.int (addressType isFarAddress).bits x) →
      execInsts cx.jitModule b n
          (maskedAddressCode (.literal .I64 (bytes - 1)) isFarAddress a memoryType b n) env
          (maskedByteIndex isFarAddress b n) = some (.int 64 (x &&& (bytes - 1))) ∧
      execInsts cx.jitModule b n
          (maskedAddressCode (.literal .I64 (bytes - 1)) isFarAddress a memoryType b n) env
          (maskedPointer isFarAddress b n) =
        some (.memoryPointer (toSigned 64 (x &&& (bytes - 1))) memoryType)) := by
  obtain ⟨hmask, -⟩ := createJITModule_mask _ _ _ hjit
  rw [instanceMemoryAddressMask_eq bytes h0 h64] at hmask
  refine ⟨?_, ?_, ?_⟩
  · intro op address isFarAddress alignmentLog2 memoryType type s v s' h
    simp only [dispatch] at h
    have := visitLoad_code cx type op _ isFarAddress alignmentLog2 memoryType s s' v h
    rw [hmask] at this
    exact this
  · intro isIntClass address isFarAddress alignmentLog2 value valueType memoryType type s v s' h
    simp only [dispatch] at h
    have := visitStore_code cx isIntClass _ isFarAddress alignmentLog2 _ valueType memoryType
      s s' v h
    rw [hmask] at this
    exact this
  · intro env isFarAddress a b n x memoryType ha
    exact exec_maskedAddressCode cx.jitModule (bytes - 1) env isFarAddress a b n x memoryType ha

/-- The hypotheses of `load_store_address_is_masked` hold for the empty module with an
address space of 8 GiB, where the far load of the example is emitted as the theorem says. -/
theorem load_store_address_is_masked_witness :
    (0 < 2 ^ 33 ∧ 2 ^ 33 < 2 ^ 64 ∧
      createJITModule (2 ^ 33) Example.emptyModule = .ok Example.context.jitModule) ∧
    ∃ v s', dispatch Example.context Example.farLoad .I64 Example.entryState = .ok (v, s') ∧
      ∃ a s1 rest, dispatch Example.context (.literal .I64 (2 ^ 33 - 1)) .I64
          Example.entryState = .ok (a, s1) ∧
        s' = appendCode (maskedAddressCode (.literal .I64 (2 ^ 33 - 1)) true a .I64
            s1.insertBlock (s1.blocks s1.insertBlock).length ++
          [.load (maskedPointer true s1.insertBlock (s1.blocks s1.insertBlock).length)
            (some (1 <<< 0))] ++ rest) s1 ∧
        ∀ i ∈ rest, ∃ castOp operand destType, i = .cast castOp operand destType :=
  ⟨⟨by norm_num, by norm_num, rfl⟩, _, _, rfl,
    (load_store_address_is_masked Example.context Example.emptyModule (2 ^ 33) (by norm_num)
      (by norm_num) rfl).1 .anyLoad (.literal .I64 (2 ^ 33 - 1)) true 0 .I64 .I64
      Example.entryState _ _ rfl⟩

theorem tableSizeCheck_iff (n : Nat) (h : n < 2 ^ 64) :
    tableSizeCheck n = true ↔ n = 0 ∨ ∃ k, n = 2 ^ k := by
  unfold tableSizeCheck
  simp only [decide_eq_true_eq]
  constructor
  · intro hc
    by_cases h0 : n = 0
    · exact Or.inl h0
    · right
      rw [wrapped_pred n 64 (by omega) h] at hc
      exact pow_of_and_pred_eq_zero n (by omega) hc
  · rintro (h0 | ⟨k, hk⟩)
    · subst h0; simp
    · rw [wrapped_pred n 64 (by rw [hk]; exact Nat.two_pow_pos k) h]
      subst hk
      exact and_pred_eq_zero_of_pow k

theorem emitFunctionTables_error (functions : List Function) (tables : List FunctionTable)
    (table : FunctionTable) (hmem : table ∈ tables)
    (herr : ∃ e, emitFunctionTable functions table = .error e) :
    ∃ e, emitFunctionTables functions tables = .error e := by
  induction tables with
  | nil => simp at hmem
  | cons t rest ih =>
    unfold emitFunctionTables
    rcases List.mem_cons.mp hmem with h | h
    · subst h
      obtain ⟨e, he⟩ := herr
      exact ⟨e, by simp [he]⟩
    · obtain ⟨e, he⟩ := ih h
      cases emitFunctionTable functions t with
      | error e' => exact ⟨e', rfl⟩
      | ok tb => exact ⟨e, by simp [he]⟩

theorem emitFunctionTable_error (functions : List Function) (table : FunctionTable)
    (hpos : 0 < table.numFunctions) (hnot : ¬ ∃ k, table.numFunctions = 2 ^ k) :
    ∃ e, emitFunctionTable functions table = .error e := by
  unfold emitFunctionTable
  split
  · rename_i hlt
    have hcheck : tableSizeCheck table.numFunctions = false := by
      cases hc : tableSizeCheck table.numFunctions with
      | false => rfl
      | true =>
        rcases (tableSizeCheck_iff _ (by omega)).mp hc with h | h
        · omega
        · exact absurd h hnot
    cases functionTableElements functions.length table.functionIndices with
    | error e => exact ⟨e, rfl⟩
    | ok els => exact ⟨.assertionFailed, by simp [hcheck]⟩
  · cases functionTableElements functions.length (List.take (2 ^ 32) table.functionIndices) with
    | error e => exact ⟨e, rfl⟩
    | ok els => exact ⟨.doesNotEnd, rfl⟩

/-- C5 (as amended). Power-of-two table sizes: the test `emitModule` asserts for a function
table of `n` elements, `(n & (n-1)) == 0`, passes exactly when `n` is zero or a power of
two; and `emitModule` does not produce a module when some function table has a non-zero
element count that is not a power of two. -/
theorem tableSizeCheck_passes_iff_zero_or_power_of_two :
    (∀ n, n < 2 ^ 64 → (tableSizeCheck n = true ↔ n = 0 ∨ ∃ k, n = 2 ^ k)) ∧
    (∀ bytes astModule table, table ∈ astModule.functionTables → 0 < table.numFunctions →
      (¬ ∃ k, table.numFunctions = 2 ^ k) → ∃ e, emitModule bytes astModule = .error e) := by
  refine ⟨tableSizeCheck_iff, ?_⟩
  intro bytes astModule table hmem hpos hnot
  obtain ⟨e, he⟩ := emitFunctionTables_error astModule.functions _ table hmem
    (emitFunctionTable_error _ table hpos hnot)
  exact ⟨e, by simp [emitModule, createJITModule, he]⟩

/-- C5 (the claim fails). A function table without elements passes the test although
zero is not a power of two, and `emitModule` accepts a module with such a table. -/
theorem tableSizeCheck_accepts_zero :
    tableSizeCheck 0 = true ∧ (¬ ∃ k, 0 = 2 ^ k) ∧
    ∃ r, emitModule (2 ^ 33) ⟨[], [], [⟨⟨[], .Void⟩, []⟩], []⟩ = .ok r := by
  refine ⟨by decide, ?_, _, rfl⟩
  rintro ⟨k, hk⟩
  have := Nat.two_pow_pos k
  omega

/-- The hypothesis of `tableSizeCheck_passes_iff_zero_or_power_of_two` holds for a table of
4 elements, which passes the test. -/
theorem tableSizeCheck_passes_iff_zero_or_power_of_two_witness :
    4 < 2 ^ 64 ∧ (tableSizeCheck 4 = true ↔ 4 = 0 ∨ ∃ k, 4 = 2 ^ k) :=
  ⟨by norm_num, tableSizeCheck_passes_iff_zero_or_power_of_two.1 4 (by norm_num)⟩

theorem visitBinary_code (type : TypeId) (op : BinaryOp) (left right : Dispatcher)
    (s s' : EmitState) (v : Value) (h : visitBinary type op left right s = .ok (v, s')) :
    ∃ l s1 r s2, left type s = .ok (l, s1) ∧ right type s1 = .ok (r, s2) ∧
      (v, s') = compileBinaryOp op type l r s2 := by
  unfold visitBinary at h
  cases hl : left type s with
  | error e => simp [hl] at h
  | ok r1 =>
    obtain ⟨l, s1⟩ := r1
    simp only [hl] at h
    cases hr : right type s1 with
    | error e => simp [hr] at h
    | ok r2 =>
      obtain ⟨r, s2⟩ := r2
      simp only [hr, Except.ok.injEq] at h
      exact ⟨l, s1, r, s2, rfl, hr, h.symm⟩

theorem compileBinaryOp_division (op : BinaryOp) (llvmOp : LLVMBinary)
    (hop : divisionOpcode op = some llvmOp) (type : TypeId) (l r : Value) (s : EmitState) :
    compileBinaryOp op type l r s = insert (.binary llvmOp l r) s := by
  cases op <;> simp [divisionOpcode] at hop <;> subst hop <;> rfl

theorem execBinary_division (op : BinaryOp) (llvmOp : LLVMBinary)
    (hop : divisionOpcode op = some llvmOp) (bits x y : Nat) :
    (y = 0 → execBinary llvmOp bits x y = .undefined) ∧
    ((llvmOp = .SDiv ∨ llvmOp = .SRem) → x = 2 ^ (bits - 1) → y = 2 ^ bits - 1 →
      execBinary llvmOp bits x y = .undefined) ∧
    (∀ e, execBinary llvmOp bits x y ≠ .traps e) ∧
    (y ≠ 0 → llvmOp = .UDiv → execBinary llvmOp bits x y = .value (.int bits (x / y))) ∧
    (y ≠ 0 → llvmOp = .URem → execBinary llvmOp bits x y = .value (.int bits (x % y))) ∧
    (y ≠ 0 → ¬ (x = 2 ^ (bits - 1) ∧ y = 2 ^ bits - 1) → llvmOp = .SDiv →
      execBinary llvmOp bits x y =
        .value (.int bits (ofSigned bits (Int.tdiv (toSigned bits x) (toSigned bits y))))) ∧
    (y ≠ 0 → ¬ (x = 2 ^ (bits - 1) ∧ y = 2 ^ bits - 1) → llvmOp = .SRem →
      execBinary llvmOp bits x y =
        .value (.int bits (ofSigned bits (Int.tmod (toSigned bits x) (toSigned bits y))))) := by
  cases op <;> simp [divisionOpcode] at hop <;> subst hop
  all_goals
    refine ⟨?_, ?_, ?_, ?_, ?_, ?_, ?_⟩
    · intro hy; simp [execBinary, hy]
    · intro hs hx hy
      first
        | (simp [execBinary, hx, hy]; done)
        | (rcases hs with hs | hs <;> cases hs)
    · intro e
      unfold execBinary
      simp only
      split <;> (try split) <;> simp
    · intro hy hl; cases hl <;> simp [execBinary, hy]
    · intro hy hl; cases hl <;> simp [execBinary, hy]
    · intro hy hxy hl; cases hl <;> simp [execBinary, hy, hxy]
    · intro hy hxy hl; cases hl <;> simp [execBinary, hy, hxy]

/-- C7 (as amended). Integer division: for each of `divs`, `divu`, `rems`, `remu`, the
emitter emits the two operands and then exactly one LLVM instruction, `sdiv`, `udiv`,
`srem` or `urem`, on their values, with no test of the divisor.  Executing the
instruction never raises a runtime exception: with a zero divisor, or for the signed
operators with the minimum integer divided by -1, its behaviour is undefined in LLVM, and
otherwise it yields the quotient or the remainder. -/
theorem division_is_one_unguarded_instruction (cx : JITFunctionContext) (op : BinaryOp)
    (llvmOp : LLVMBinary) (hop : divisionOpcode op = some llvmOp) (left right : Expression)
    (type : TypeId) (s s' : EmitState) (v : Value)
    (h : dispatch cx (.binary op left right) type s = .ok (v, s')) :
    ∃ l s1 r s2, dispatch cx left type s = .ok (l, s1) ∧
      dispatch cx right type s1 = .ok (r, s2) ∧
      s' = appendCode [.binary llvmOp l r] s2 ∧
      v = .inst s2.insertBlock (s2.blocks s2.insertBlock).length ∧
      ∀ (env : Env) bits x y, evalOperand env l = some (.int bits x) →
        evalOperand env r = some (.int bits y) →
        (y = 0 → execInst cx.jitModule env (.binary llvmOp l r) = .undefined) ∧
        ((llvmOp = .SDiv ∨ llvmOp = .SRem) → x = 2 ^ (bits - 1) → y = 2 ^ bits - 1 →
          execInst cx.jitModule env (.binary llvmOp l r) = .undefined) ∧
        (∀ e, execInst cx.jitModule env (.binary llvmOp l r) ≠ .traps e) ∧
        (y ≠ 0 → llvmOp = .UDiv →
          execInst cx.jitModule env (.binary llvmOp l r) = .value (.int bits (x / y))) ∧
        (y ≠ 0 → llvmOp = .URem →
          execInst cx.jitModule env (.binary llvmOp l r) = .value (.int bits (x % y))) ∧
        (y ≠ 0 → ¬ (x = 2 ^ (bits - 1) ∧ y = 2 ^ bits - 1) → llvmOp = .SDiv →
          execInst cx.jitModule env (.binary llvmOp l r) = .value (.int bits
            (ofSigned bits (Int.tdiv (toSigned bits x) (toSigned bits y))))) ∧
        (y ≠ 0 → ¬ (x = 2 ^ (bits - 1) ∧ y = 2 ^ bits - 1) → llvmOp = .SRem →
          execInst cx.jitModule env (.binary llvmOp l r) = .value (.int bits
            (ofSigned bits (Int.tmod (toSigned bits x) (toSigned bits y))))) := by
  simp only [dispatch] at h
  obtain ⟨l, s1, r, s2, hl, hr, hc⟩ := visitBinary_code type op _ _ s s' v h
  rw [compileBinaryOp_division op llvmOp hop, insert_eq] at hc
  simp only [Prod.mk.injEq] at hc
  refine ⟨l, s1, r, s2, hl, hr, hc.2, hc.1, ?_⟩
  intro env bits x y hx hy
  have hexec : execInst cx.jitModule env (.binary llvmOp l r) = execBinary llvmOp bits x y := by
    simp [execInst, hx, hy]
  rw [hexec]
  exact execBinary_division op llvmOp hop bits x y

/-- The hypothesis of `division_is_one_unguarded_instruction` holds for `divu`; the
division of 7 by 2 is emitted as one `udiv`. -/
theorem division_is_one_unguarded_instruction_witness :
    divisionOpcode .divu = some .UDiv ∧
    ∃ v s', dispatch Example.context (.binary .divu (.literal .I32 7) (.literal .I32 2)) .I32
        Example.entryState = .ok (v, s') ∧
      ∃ l s1 r s2, dispatch Example.context (.literal .I32 7) .I32 Example.entryState =
          .ok (l, s1) ∧
        dispatch Example.context (.literal .I32 2) .I32 s1 = .ok (r, s2) ∧
        s' = appendCode [.binary .UDiv l r] s2 := by
  refine ⟨rfl, _, _, rfl, ?_⟩
  obtain ⟨l, s1, r, s2, hl, hr, hs, -, -⟩ :=
    division_is_one_unguarded_instruction Example.context .divu .UDiv rfl (.literal .I32 7)
      (.literal .I32 2) .I32 Example.entryState _ _ rfl
  exact ⟨l, s1, r, s2, hl, hr, hs⟩

/-- C7 (the claim fails). The division `1 / 0` on `i32` is emitted as the single
instruction `sdiv 1, 0`, so is `INT32_MIN / -1`; executing either does not trap with
`integerDivideByZeroOrOverflow`: its behaviour is undefined. -/
theorem division_by_zero_does_not_trap :
    (∃ v s', dispatch Example.context (.binary .divs (.literal .I32 1) (.literal .I32 0)) .I32
        Example.entryState = .ok (v, s') ∧
      s'.blocks 1 = [.binary .SDiv (.literal .I32 1) (.literal .I32 0)]) ∧
    execInst Example.jitModule (fun _ => none)
      (.binary .SDiv (.literal .I32 1) (.literal .I32 0)) = .undefined ∧
    execInst Example.jitModule (fun _ => none)
      (.binary .SDiv (.literal .I32 1) (.literal .I32 0)) ≠
        .traps .integerDivideByZeroOrOverflow ∧
    (∃ v s', dispatch Example.context
        (.binary .divs (.literal .I32 (2 ^ 31)) (.literal .I32 (2 ^ 32 - 1))) .I32
        Example.entryState = .ok (v, s') ∧
      s'.blocks 1 = [.binary .SDiv (.literal .I32 (2 ^ 31)) (.literal .I32 (2 ^ 32 - 1))]) ∧
    execInst Example.jitModule (fun _ => none)
      (.binary .SDiv (.literal .I32 (2 ^ 31)) (.literal .I32 (2 ^ 32 - 1))) ≠
        .traps .integerDivideByZeroOrOverflow := by
  refine ⟨⟨_, _, rfl, by decide⟩, by decide, by decide, ⟨_, _, rfl, by decide⟩, by decide⟩

theorem functionTableElements_ok (numModuleFunctions : Nat) (indices : List Nat)
    (elements : List Value)
    (h : functionTableElements numModuleFunctions indices = .ok elements) :
    elements = indices.map Value.function ∧ ∀ f ∈ indices, f < numModuleFunctions := by
  induction indices generalizing elements with
  | nil => simp [functionTableElements] at h; simp [h]
  | cons f rest ih =>
    unfold functionTableElements at h
    split at h
    · rename_i hf
      cases hr : functionTableElements numModuleFunctions rest with
      | error e => simp [hr] at h
      | ok els =>
        simp only [hr, Except.ok.injEq] at h
        obtain ⟨h1, h2⟩ := ih els hr
        subst h
        refine ⟨by simp [h1], ?_⟩
        intro g hg
        rcases List.mem_cons.mp hg with hg | hg
        · subst hg; exact hf
        · exact h2 g hg
    · simp at h

theorem emitFunctionTable_ok (functions : List Function) (table : FunctionTable)
    (elements : List Value) (h : emitFunctionTable functions table = .ok elements) :
    table.numFunctions < 2 ^ 32 ∧ elements = table.functionIndices.map Value.function ∧
      (∀ f ∈ table.functionIndices, f < functions.length) ∧
      tableSizeCheck table.numFunctions = true ∧
      tableElementTypesCheck functions table = true := by
  unfold emitFunctionTable at h
  split at h
  · rename_i hlt
    cases he : functionTableElements functions.length table.functionIndices with
    | error e => simp [he] at h
    | ok els =>
      simp only [he] at h
      split at h
      · rename_i hc
        split at h
        · rename_i hty
          simp only [Except.ok.injEq] at h
          subst h
          obtain ⟨h1, h2⟩ := functionTableElements_ok _ _ _ he
          exact ⟨hlt, h1, h2, hc, hty⟩
        · simp at h
      · simp at h
  · split at h <;> simp at h

theorem emitFunctionTables_ok (functions : List Function) (tables : List FunctionTable)
    (emitted : List (List Value))
    (h : emitFunctionTables functions tables = .ok emitted) (t : Nat)
    (table : FunctionTable) (ht : tables[t]? = some table) :
    ∃ elements, emitted[t]? = some elements ∧
      emitFunctionTable functions table = .ok elements := by
  induction tables generalizing emitted t with
  | nil => simp at ht
  | cons first rest ih =>
    unfold emitFunctionTables at h
    cases hf : emitFunctionTable functions first with
    | error e => simp [hf] at h
    | ok els =>
      simp only [hf] at h
      cases hr : emitFunctionTables functions rest with
      | error e => simp [hr] at h
      | ok more =>
        simp only [hr, Except.ok.injEq] at h
        subst h
        cases t with
        | zero =>
          simp only [List.getElem?_cons_zero, Option.some.injEq] at ht
          subst ht
          exact ⟨els, by simp, hf⟩
        | succ t =>
          simp only [List.getElem?_cons_succ] at ht
          obtain ⟨e2, h1, h2⟩ := ih more hr t ht
          exact ⟨e2, by simpa using h1, h2⟩

/-- What `emitModule` guarantees about a function table it has set up. -/
theorem createJITModule_table (bytes : Nat) (astModule : Module) (jitModule : JITModule)
    (h : createJITModule bytes astModule = .ok jitModule) (t : Nat) (table : FunctionTable)
    (ht : astModule.functionTables[t]? = some table) :
    jitModule.astModule = astModule ∧
    jitModule.functionTablePointers[t]? = some (table.functionIndices.map Value.function) ∧
    table.numFunctions < 2 ^ 32 ∧
    (∀ f ∈ table.functionIndices, f < astModule.functions.length) ∧
    tableSizeCheck table.numFunctions = true := by
  unfold createJITModule at h
  cases he : emitFunctionTables astModule.functions astModule.functionTables with
  | error e => simp [he] at h
  | ok emitted =>
    simp only [he, Except.ok.injEq] at h
    subst h
    obtain ⟨els, h1, h2⟩ := emitFunctionTables_ok _ _ _ he t table ht
    obtain ⟨h3, h4, h5, h6, -⟩ := emitFunctionTable_ok _ _ _ h2
    exact ⟨rfl, by simpa [h4] using h1, h3, h5, h6⟩

theorem compileCall_code (functionType : FunctionType) (function : Value)
    (args : List TypeId → EmitState → EmitResult (List Value)) (s s' : EmitState) (v : Value)
    (h : compileCall functionType function args s = .ok (v, s')) :
    ∃ llvmArgs s1, args functionType.parameters s = .ok (llvmArgs, s1) ∧
      s' = appendCode [.call function llvmArgs] s1 ∧
      v = .inst s1.insertBlock (s1.blocks s1.insertBlock).length := by
  unfold compileCall at h
  cases ha : args functionType.parameters s with
  | error e => simp [ha] at h
  | ok r =>
    obtain ⟨llvmArgs, s1⟩ := r
    simp only [ha, insert_eq, Except.ok.injEq, Prod.mk.injEq] at h
    exact ⟨llvmArgs, s1, rfl, h.2.symm, h.1.symm⟩

/-- What `visitCallIndirect` emits. -/
theorem visitCallIndirect_code (cx : JITFunctionContext) (type : TypeId) (tableIndex : Nat)
    (functionIndex : Dispatcher)
    (parameters : List TypeId → EmitState → EmitResult (List Value)) (s s' : EmitState)
    (v : Value)
    (h : visitCallIndirect cx type tableIndex functionIndex parameters s = .ok (v, s')) :
    ∃ table index s1 llvmArgs s2,
      cx.jitModule.astModule.functionTables[tableIndex]? = some table ∧
      table.type.returnType = type ∧ 0 < table.numFunctions ∧
      functionIndex .I32 s = .ok (index, s1) ∧
      parameters table.type.parameters
        (appendCode (tableSlotCode tableIndex table.numFunctions index s1.insertBlock
          (s1.blocks s1.insertBlock).length) s1) = .ok (llvmArgs, s2) ∧
      s' = appendCode
        [.call (.inst s1.insertBlock ((s1.blocks s1.insertBlock).length + 2)) llvmArgs] s2 ∧
      v = .inst s2.insertBlock (s2.blocks s2.insertBlock).length := by
  unfold visitCallIndirect at h
  cases ht : cx.jitModule.astModule.functionTables[tableIndex]? with
  | none => simp [ht] at h
  | some table =>
    simp only [ht] at h
    split at h
    · simp at h
    · rename_i hret
      split at h
      · simp at h
      · rename_i hpos
        cases hi : functionIndex .I32 s with
        | error e => simp [hi] at h
        | ok r =>
          obtain ⟨index, s1⟩ := r
          simp only [hi, insert_eq, appendCode_append, appendCode_insertBlock,
            appendCode_blocks_self, List.length_append, List.length_singleton] at h
          obtain ⟨llvmArgs, s2, ha, hs, hv⟩ := compileCall_code _ _ _ _ _ _ h
          refine ⟨table, index, s1, llvmArgs, s2, rfl, by simpa using hret, by simp only [not_not] at hpos; exact hpos,
            rfl, ?_, hs, hv⟩
          simpa [tableSlotCode] using ha

theorem functionIndexMask_eq (n : Nat) (h0 : 0 < n) (h : n < 2 ^ 32) :
    functionIndexMask n = .literal .I32 (n - 1) := by
  simp only [functionIndexMask, compileLiteral, TypeId.bits]
  rw [Nat.mod_eq_of_lt h, wrapped_pred n 32 h0 h]

/-- What the code of a table slot computes, for a table of `2 ^ k` elements. -/
theorem exec_tableSlotCode (jitModule : JITModule) (tableIndex : Nat) (indices : List Nat)
    (k : Nat) (hlen : indices.length = 2 ^ k) (hlt : indices.length < 2 ^ 32)
    (htable : jitModule.functionTablePointers[tableIndex]? = some (indices.map Value.function))
    (env : Env) (index : Value) (b n i : Nat)
    (hi : evalOperand env index = some (.int 32 i)) :
    i &&& (2 ^ k - 1) < 2 ^ k ∧
    execInsts jitModule b n (tableSlotCode tableIndex indices.length index b n) env
      (.inst b (n + 1)) = some (.tableSlotPointer tableIndex ((i &&& (2 ^ k - 1) : Nat) : Int)) ∧
    ∃ f, indices[i &&& (2 ^ k - 1)]? = some f ∧
      execInsts jitModule b n (tableSlotCode tableIndex indices.length index b n) env
        (.inst b (n + 2)) = some (.functionPointer f) := by
  have hk : k < 32 := by
    rw [hlen] at hlt
    exact (Nat.pow_lt_pow_iff_right (by norm_num)).mp hlt
  have hm : i &&& (2 ^ k - 1) < 2 ^ k := by
    rw [Nat.and_pow_two_sub_one_eq_mod]
    exact Nat.mod_lt _ (Nat.two_pow_pos k)
  have h31 : i &&& (2 ^ k - 1) < 2 ^ 31 :=
    lt_of_lt_of_le hm (Nat.pow_le_pow_right (by norm_num) (by omega))
  have hmod : i &&& (2 ^ k - 1) = i % 2 ^ k := Nat.and_pow_two_sub_one_eq_mod i k
  have hcast : ((i : Int) % 2 ^ k) = ((i % 2 ^ k : Nat) : Int) := by push_cast; rfl
  have hsig : toSigned 32 (i % 2 ^ k) = (i : Int) % 2 ^ k := by
    rw [toSigned_of_lt 32 _ (by rw [← hmod]; simpa using h31), hcast]
  have hneg : ¬ ((i : Int) % 2 ^ k < 0) := by rw [hcast]; omega
  have htoNat : ((i : Int) % 2 ^ k).toNat = i % 2 ^ k := by rw [hcast]; exact Int.toNat_ofNat _
  have hmask : functionIndexMask indices.length = .literal .I32 (2 ^ k - 1) := by
    rw [functionIndexMask_eq _ (by rw [hlen]; exact Nat.two_pow_pos k) hlt, hlen]
  obtain ⟨f, hf⟩ : ∃ f, indices[i &&& (2 ^ k - 1)]? = some f := by
    have : i &&& (2 ^ k - 1) < indices.length := by rw [hlen]; exact hm
    exact ⟨indices[i &&& (2 ^ k - 1)], by rw [List.getElem?_eq_getElem this]⟩
  refine ⟨hm, ?_, f, hf, ?_⟩
  · simp [tableSlotCode, hmask, execInsts, execInst, hi, Outcome.result, execBinary,
      compileLiteral, TypeId.bits, hsig]
  · rw [hmod] at hf
    simp [tableSlotCode, hmask, execInsts, execInst, hi, Outcome.result, execBinary,
      compileLiteral, TypeId.bits, hsig, htable, hf, hneg, htoNat]


/-- The facts about an emitted indirect call that the properties of indirect calls rest
on. -/
theorem callIndirect_facts (bytes : Nat) (astModule : Module) (cx : JITFunctionContext)
    (hjit : createJITModule bytes astModule = .ok cx.jitModule) (tableIndex : Nat)
    (functionIndex : Expression) (parameters : ExpressionList) (type : TypeId)
    (s s' : EmitState) (v : Value)
    (h : dispatch cx (.callIndirect tableIndex functionIndex parameters) type s = .ok (v, s')) :
    ∃ table k index s1 llvmArgs s2,
      astModule.functionTables[tableIndex]? = some table ∧ table.numFunctions = 2 ^ k ∧
      dispatch cx functionIndex .I32 s = .ok (index, s1) ∧
      dispatchArguments cx parameters table.type.parameters
        (appendCode (tableSlotCode tableIndex (2 ^ k) index s1.insertBlock
          (s1.blocks s1.insertBlock).length) s1) = .ok (llvmArgs, s2) ∧
      s' = appendCode
        [.call (.inst s1.insertBlock ((s1.blocks s1.insertBlock).length + 2)) llvmArgs] s2 ∧
      ∀ (env : Env) i, evalOperand env index = some (.int 32 i) →
        i &&& (2 ^ k - 1) < 2 ^ k ∧
        execInsts cx.jitModule s1.insertBlock (s1.blocks s1.insertBlock).length
            (tableSlotCode tableIndex (2 ^ k) index s1.insertBlock
              (s1.blocks s1.insertBlock).length) env
            (.inst s1.insertBlock ((s1.blocks s1.insertBlock).length + 1)) =
          some (.tableSlotPointer tableIndex ((i &&& (2 ^ k - 1) : Nat) : Int)) ∧
        ∃ f callee, table.functionIndices[i &&& (2 ^ k - 1)]? = some f ∧
          astModule.functions[f]? = some callee ∧
          execInsts cx.jitModule s1.insertBlock (s1.blocks s1.insertBlock).length
              (tableSlotCode tableIndex (2 ^ k) index s1.insertBlock
                (s1.blocks s1.insertBlock).length) env
              (.inst s1.insertBlock ((s1.blocks s1.insertBlock).length + 2)) =
            some (.functionPointer f) ∧
          ∀ env' : Env,
            env' (.inst s1.insertBlock ((s1.blocks s1.insertBlock).length + 2)) =
              some (.functionPointer f) →
            execInst cx.jitModule env'
              (.call (.inst s1.insertBlock ((s1.blocks s1.insertBlock).length + 2)) llvmArgs) =
              .entersFunction f := by
  simp only [dispatch] at h
  obtain ⟨table, index, s1, llvmArgs, s2, ht, -, hpos, hidx, hargs, hs, -⟩ :=
    visitCallIndirect_code cx type tableIndex _ _ s s' v h
  have hast : cx.jitModule.astModule = astModule := (createJITModule_mask _ _ _ hjit).2
  rw [hast] at ht
  obtain ⟨-, htable, hlt, hfun, hcheck⟩ := createJITModule_table _ _ _ hjit tableIndex table ht
  obtain ⟨k, hk⟩ : ∃ k, table.numFunctions = 2 ^ k := by
    rcases (tableSizeCheck_iff _ (by omega)).mp hcheck with h0 | hk
    · omega
    · exact hk
  rw [hk] at hargs
  refine ⟨table, k, index, s1, llvmArgs, s2, ht, hk, hidx, hargs, hs, ?_⟩
  intro env i hi
  have hk' : table.functionIndices.length = 2 ^ k := hk
  have hlt' : table.functionIndices.length < 2 ^ 32 := hlt
  obtain ⟨h1, h2, f, h3, h4⟩ := exec_tableSlotCode cx.jitModule tableIndex
    table.functionIndices k hk' hlt' htable env index s1.insertBlock
    (s1.blocks s1.insertBlock).length i hi
  rw [hk'] at h2 h4
  have hfm : f ∈ table.functionIndices := List.getElem?_mem h3
  have hfl : f < astModule.functions.length := hfun f hfm
  refine ⟨h1, h2, f, astModule.functions[f], h3, by rw [List.getElem?_eq_getElem hfl], h4, ?_⟩
  intro env' he
  simp [execInst, he]

/-- C4. Indirect-call dispatch: in a module that `emitModule` sets up, for a function table
of `2 ^ k` elements an indirect call is emitted as the emission of the index, the code of
the table slot, the emission of the arguments and the call of the loaded function
pointer; for every value `i` of the index the slot is `i AND (2 ^ k - 1)`, it is in
bounds, and the call enters the function stored in that slot.  For the elements
`[fa, fb, fa, fb]`, index 0 calls `fa`, index 1 calls `fb` and index 5 calls `fb`. -/
theorem callIndirect_calls_masked_slot (bytes : Nat) (astModule : Module)
    (cx : JITFunctionContext) (hjit : createJITModule bytes astModule = .ok cx.jitModule)
    (tableIndex : Nat) (table : FunctionTable) (k : Nat)
    (ht : astModule.functionTables[tableIndex]? = some table)
    (hN : table.numFunctions = 2 ^ k) (functionIndex : Expression)
    (parameters : ExpressionList) (type : TypeId) (s s' : EmitState) (v : Value)
    (h : dispatch cx (.callIndirect tableIndex functionIndex parameters) type s = .ok (v, s')) :
    ∃ index s1 llvmArgs s2,
      dispatch cx functionIndex .I32 s = .ok (index, s1) ∧
      dispatchArguments cx parameters table.type.parameters
        (appendCode (tableSlotCode tableIndex (2 ^ k) index s1.insertBlock
          (s1.blocks s1.insertBlock).length) s1) = .ok (llvmArgs, s2) ∧
      s' = appendCode
        [.call (.inst s1.insertBlock ((s1.blocks s1.insertBlock).length + 2)) llvmArgs] s2 ∧
      ∀ (env : Env) i, evalOperand env index = some (.int 32 i) →
        i &&& (2 ^ k - 1) < 2 ^ k ∧
        execInsts cx.jitModule s1.insertBlock (s1.blocks s1.insertBlock).length
            (tableSlotCode tableIndex (2 ^ k) index s1.insertBlock
              (s1.blocks s1.insertBlock).length) env
            (.inst s1.insertBlock ((s1.blocks s1.insertBlock).length + 1)) =
          some (.tableSlotPointer tableIndex ((i &&& (2 ^ k - 1) : Nat) : Int)) ∧
        ∃ f, table.functionIndices[i &&& (2 ^ k - 1)]? = some f ∧
          execInsts cx.jitModule s1.insertBlock (s1.blocks s1.insertBlock).length
              (tableSlotCode tableIndex (2 ^ k) index s1.insertBlock
                (s1.blocks s1.insertBlock).length) env
              (.inst s1.insertBlock ((s1.blocks s1.insertBlock).length + 2)) =
            some (.functionPointer f) ∧
          (∀ env' : Env,
            env' (.inst s1.insertBlock ((s1.blocks s1.insertBlock).length + 2)) =
              some (.functionPointer f) →
            execInst cx.jitModule env'
              (.call (.inst s1.insertBlock ((s1.blocks s1.insertBlock).length + 2)) llvmArgs) =
              .entersFunction f) ∧
          ∀ fa fb, table.functionIndices = [fa, fb, fa, fb] →
            (i = 0 → f = fa) ∧ (i = 1 → f = fb) ∧ (i = 5 → f = fb) := by
  obtain ⟨table', k', index, s1, llvmArgs, s2, ht', hk', hidx, hargs, hs, hsem⟩ :=
    callIndirect_facts bytes astModule cx hjit tableIndex functionIndex parameters type s s' v h
  rw [ht] at ht'
  simp only [Option.some.injEq] at ht'
  subst ht'
  have hkk : k' = k := by
    rw [hN] at hk'
    exact (Nat.pow_right_injective (le_refl 2) hk').symm
  subst hkk
  refine ⟨index, s1, llvmArgs, s2, hidx, hargs, hs, ?_⟩
  intro env i hi
  obtain ⟨h1, h2, f, callee, h3, -, h4, h5⟩ := hsem env i hi
  refine ⟨h1, h2, f, h3, h4, h5, ?_⟩
  intro fa fb hel
  have hk2 : k' = 2 := by
    have : table.numFunctions = 4 := by simp [FunctionTable.numFunctions, hel]
    rw [this] at hN
    exact (Nat.pow_right_injective (le_refl 2) (show 2 ^ 2 = 2 ^ k' from hN)).symm
  subst hk2
  rw [hel] at h3
  refine ⟨?_, ?_, ?_⟩
  · intro hi0
    subst hi0
    have e : (0 &&& (2 ^ 2 - 1) : Nat) = 0 := by decide
    rw [e] at h3
    simpa using h3.symm
  · intro hi0
    subst hi0
    have e : (1 &&& (2 ^ 2 - 1) : Nat) = 1 := by decide
    rw [e] at h3
    simpa using h3.symm
  · intro hi0
    subst hi0
    have e : (5 &&& (2 ^ 2 - 1) : Nat) = 1 := by decide
    rw [e] at h3
    simpa using h3.symm


/-- The hypotheses of `callIndirect_calls_masked_slot` hold for table 0 of the example
module, with the elements `[fa, fb, fa, fb]`: index 5 calls `fb`, the function number 1. -/
theorem callIndirect_calls_masked_slot_witness :
    (createJITModule (2 ^ 33) Example.tableModule = .ok Example.tableContext.jitModule ∧
      Example.tableModule.functionTables[0]? = some ⟨⟨[], .I32⟩, [0, 1, 0, 1]⟩ ∧
      FunctionTable.numFunctions ⟨⟨[], .I32⟩, [0, 1, 0, 1]⟩ = 2 ^ 2) ∧
    ∃ v s', dispatch Example.tableContext (.callIndirect 0 (.literal .I32 5) .nil) .I32
        Example.entryState = .ok (v, s') ∧
      ∃ f, ([0, 1, 0, 1] : List Nat)[5 &&& (2 ^ 2 - 1)]? = some f ∧ f = 1 := by
  refine ⟨⟨rfl, rfl, rfl⟩, _, _, rfl, ?_⟩
  obtain ⟨index, s1, llvmArgs, s2, hidx, -, -, hsem⟩ :=
    callIndirect_calls_masked_slot (2 ^ 33) Example.tableModule Example.tableContext rfl 0
      ⟨⟨[], .I32⟩, [0, 1, 0, 1]⟩ 2 rfl rfl (.literal .I32 5) .nil .I32 Example.entryState _ _ rfl
  simp only [dispatch, visitLiteral, Except.ok.injEq, Prod.mk.injEq] at hidx
  obtain ⟨rfl, rfl⟩ := hidx
  obtain ⟨-, -, f, hf, -, -, hex⟩ := hsem (fun _ => none) 5 rfl
  exact ⟨f, hf, (hex 0 1 rfl).2.2 rfl⟩

theorem isTerminator_of_successors (i : Inst) (J : Nat) (h : J ∈ i.successors) :
    i.isTerminator = true := by
  cases i <;> simp [Inst.successors] at h <;> rfl

theorem Terminated_of_JumpsTo {s : EmitState} {b J : Nat} (h : JumpsTo s b J) :
    Terminated s b := by
  obtain ⟨i, hi, hJ⟩ := h
  exact ⟨i, hi, isTerminator_of_successors i J hJ⟩

theorem JumpsTo_mono {s s' : EmitState} {b J : Nat} (hext : ∃ code, s'.blocks b = s.blocks b ++ code)
    (h : JumpsTo s b J) : JumpsTo s' b J := by
  obtain ⟨code, hc⟩ := hext
  obtain ⟨i, hi, hJ⟩ := h
  exact ⟨i, by rw [hc]; exact List.mem_append_left _ hi, hJ⟩

theorem Terminated_mono {s s' : EmitState} {b : Nat}
    (hext : ∃ code, s'.blocks b = s.blocks b ++ code) (h : Terminated s b) :
    Terminated s' b := by
  obtain ⟨code, hc⟩ := hext
  obtain ⟨i, hi, hJ⟩ := h
  exact ⟨i, by rw [hc]; exact List.mem_append_left _ hi, hJ⟩

theorem newResults_of_eq {c c' : BranchContext} {new : List BranchResult}
    (h : c'.results = new ++ c.results) : newResults c c' = new := by
  simp [newResults, h]

theorem newResults_self (c : BranchContext) : newResults c c = [] := by
  simp [newResults]

theorem ContextStep.ctx_refl (cx : JITFunctionContext) (s s' : EmitState) (c : BranchContext) :
    ContextStep cx s s' c c := by
  refine ⟨rfl, rfl, ?_, ?_, ?_⟩ <;> simp [newResults_self, incomingBlocks]

theorem ContextStep.ctx_mono {cx : JITFunctionContext} {s0 s s' s1 : EmitState}
    {c c' : BranchContext} (h0 : ∀ b, ∃ code, s.blocks b = s0.blocks b ++ code)
    (h1 : ∀ b, ∃ code, s1.blocks b = s'.blocks b ++ code) (h : ContextStep cx s s' c c') :
    ContextStep cx s0 s1 c c' := by
  obtain ⟨ht, hb, hr, hn, hall⟩ := h
  refine ⟨ht, hb, hr, hn, ?_⟩
  intro b hbm
  obtain ⟨h2, h3, h4⟩ := hall b hbm
  exact ⟨h2, fun ht0 => h3 (Terminated_mono (h0 b) ht0), JumpsTo_mono (h1 b) h4⟩

theorem ContextStep.ctx_trans {cx : JITFunctionContext} {s s1 s2 : EmitState}
    {c c1 c2 : BranchContext} (hext : ∀ b, ∃ code, s1.blocks b = s.blocks b ++ code)
    (hext2 : ∀ b, ∃ code, s2.blocks b = s1.blocks b ++ code)
    (h1 : ContextStep cx s s1 c c1) (h2 : ContextStep cx s1 s2 c1 c2) :
    ContextStep cx s s2 c c2 ∧ newResults c c2 = newResults c1 c2 ++ newResults c c1 := by
  obtain ⟨ht1, hb1, hr1, hn1, hall1⟩ := h1
  obtain ⟨ht2, hb2, hr2, hn2, hall2⟩ := h2
  have hr : c2.results = (newResults c1 c2 ++ newResults c c1) ++ c.results := by
    rw [hr2, List.append_assoc, ← hr1]
  have hnew := newResults_of_eq hr
  refine ⟨⟨ht2.trans ht1, hb2.trans hb1, by rw [hnew]; exact hr, ?_, ?_⟩, hnew⟩
  · rw [hnew]
    simp only [incomingBlocks, List.map_append]
    rw [List.nodup_append]
    refine ⟨hn2, hn1, ?_⟩
    intro b hb2m hb1m
    have t1 := (hall1 b hb1m).2.2
    have t2 := (hall2 b hb2m).2.1
    exact t2 (Terminated_of_JumpsTo t1)
  · rw [hnew]
    intro b hbm
    simp only [incomingBlocks, List.map_append, List.mem_append] at hbm
    rcases hbm with hbm | hbm
    · obtain ⟨h3, h4, h5⟩ := hall2 b hbm
      exact ⟨h3, fun ht0 => h4 (Terminated_mono (hext b) ht0), by rw [← hb1]; exact h5⟩
    · obtain ⟨h3, h4, h5⟩ := hall1 b hbm
      exact ⟨h3, h4, JumpsTo_mono (hext2 b) h5⟩


theorem contexts_trans {cx : JITFunctionContext} {s s1 s2 : EmitState}
    (hext : ∀ b, ∃ code, s1.blocks b = s.blocks b ++ code)
    (hext2 : ∀ b, ∃ code, s2.blocks b = s1.blocks b ++ code)
    {l l1 l2 : List BranchContext} (h1 : List.Forall₂ (ContextStep cx s s1) l l1)
    (h2 : List.Forall₂ (ContextStep cx s1 s2) l1 l2) :
    List.Forall₂ (ContextStep cx s s2) l l2 ∧
    (∀ J b, (∃ p ∈ List.zip l l1, p.1.basicBlock = J ∧ b ∈ incomingBlocks (newResults p.1 p.2)) →
      ∃ p ∈ List.zip l l2, p.1.basicBlock = J ∧ b ∈ incomingBlocks (newResults p.1 p.2)) ∧
    (∀ J b, (∃ p ∈ List.zip l1 l2, p.1.basicBlock = J ∧ b ∈ incomingBlocks (newResults p.1 p.2)) →
      ∃ p ∈ List.zip l l2, p.1.basicBlock = J ∧ b ∈ incomingBlocks (newResults p.1 p.2)) := by
  induction h1 generalizing l2 with
  | nil =>
    cases h2
    simp
  | @cons c c1 t t1 hc ht ih =>
    cases h2 with
    | @cons _ c2 _ t2 hc2 ht2 =>
      obtain ⟨ih1, ih2, ih3⟩ := ih ht2
      obtain ⟨hstep, hnew⟩ := ContextStep.ctx_trans hext hext2 hc hc2
      refine ⟨List.Forall₂.cons hstep ih1, ?_, ?_⟩
      · rintro J b ⟨p, hp, hJ, hb⟩
        simp only [List.zip_cons_cons, List.mem_cons] at hp
        rcases hp with hp | hp
        · subst hp
          refine ⟨(c, c2), by simp, hJ, ?_⟩
          simp only [hnew, incomingBlocks, List.map_append, List.mem_append]
          exact Or.inr hb
        · obtain ⟨q, hq, hqJ, hqb⟩ := ih2 J b ⟨p, hp, hJ, hb⟩
          exact ⟨q, by simp [hq], hqJ, hqb⟩
      · rintro J b ⟨p, hp, hJ, hb⟩
        simp only [List.zip_cons_cons, List.mem_cons] at hp
        rcases hp with hp | hp
        · subst hp
          refine ⟨(c, c2), by simp, by rw [← hc.2.1]; exact hJ, ?_⟩
          simp only [hnew, incomingBlocks, List.map_append, List.mem_append]
          exact Or.inl hb
        · obtain ⟨q, hq, hqJ, hqb⟩ := ih3 J b ⟨p, hp, hJ, hb⟩
          exact ⟨q, by simp [hq], hqJ, hqb⟩

theorem contexts_refl (cx : JITFunctionContext) (s s' : EmitState) (l : List BranchContext) :
    List.Forall₂ (ContextStep cx s s') l l := by
  induction l with
  | nil => exact List.Forall₂.nil
  | cons c t ih => exact List.Forall₂.cons (ContextStep.ctx_refl cx s s' c) ih

theorem contexts_mono {cx : JITFunctionContext} {s0 s s' s1 : EmitState}
    (h0 : ∀ b, ∃ code, s.blocks b = s0.blocks b ++ code)
    (h1 : ∀ b, ∃ code, s1.blocks b = s'.blocks b ++ code) {l l' : List BranchContext}
    (h : List.Forall₂ (ContextStep cx s s') l l') :
    List.Forall₂ (ContextStep cx s0 s1) l l' := by
  induction h with
  | nil => exact List.Forall₂.nil
  | cons hc _ ih => exact List.Forall₂.cons (ContextStep.ctx_mono h0 h1 hc) ih

theorem not_newEdge_of_same (l : List BranchContext) (J b : Nat) :
    ¬ ∃ p ∈ List.zip l l, p.1.basicBlock = J ∧ b ∈ incomingBlocks (newResults p.1 p.2) := by
  rintro ⟨p, hp, -, hb⟩
  have : p.1 = p.2 := by
    induction l with
    | nil => simp at hp
    | cons c t ih =>
      simp only [List.zip_cons_cons, List.mem_cons] at hp
      rcases hp with hp | hp
      · subst hp; rfl
      · exact ih hp
  rw [this, newResults_self] at hb
  simp [incomingBlocks] at hb

theorem Step.step_refl (cx : JITFunctionContext) (F : Nat → Prop) (B : Nat) (s : EmitState) :
    Step cx F B s s :=
  ⟨le_refl _, fun _ => ⟨[], by simp⟩, fun _ _ => rfl, contexts_refl cx s s _,
    fun _ _ _ h => Or.inl h⟩

theorem Step.step_trans {cx : JITFunctionContext} {F : Nat → Prop} {B : Nat} {s s1 s2 : EmitState}
    (h1 : Step cx F B s s1) (h2 : Step cx F B s1 s2) : Step cx F B s s2 := by
  obtain ⟨hc, he1, he2⟩ := contexts_trans h1.blocks_extend h2.blocks_extend h1.contexts h2.contexts
  refine ⟨le_trans h1.numBlocks_le h2.numBlocks_le, ?_, ?_, hc, ?_⟩
  · intro b
    obtain ⟨c1, hc1⟩ := h1.blocks_extend b
    obtain ⟨c2, hc2⟩ := h2.blocks_extend b
    exact ⟨c1 ++ c2, by rw [hc2, hc1, List.append_assoc]⟩
  · intro b hb
    rw [h2.frozen b hb, h1.frozen b hb]
  · intro J b hJ hj
    rcases h2.edges J b hJ hj with h | h
    · rcases h1.edges J b hJ h with h' | h'
      · exact Or.inl h'
      · exact Or.inr (he1 J b h')
    · exact Or.inr (he2 J b h)

theorem Step.step_mono {cx : JITFunctionContext} {F F' : Nat → Prop} {B B' : Nat}
    {s s' : EmitState} (hF : ∀ b, F' b → F b) (hB : B' ≤ B) (h : Step cx F B s s') :
    Step cx F' B' s s' :=
  ⟨h.numBlocks_le, h.blocks_extend, fun b hb => h.frozen b (hF b hb), h.contexts,
    fun J b hJ hj => h.edges J b (lt_of_lt_of_le hJ hB) hj⟩

theorem Rel.rel_refl (cx : JITFunctionContext) (s : EmitState) : Rel cx s s :=
  ⟨Step.step_refl cx _ _ s, Or.inl rfl⟩

theorem Rel.rel_trans {cx : JITFunctionContext} {s s1 s2 : EmitState} (h1 : Rel cx s s1)
    (h2 : Rel cx s1 s2) : Rel cx s s2 := by
  refine ⟨Step.step_trans h1.step (Step.step_mono ?_ h1.step.numBlocks_le h2.step), ?_⟩
  · rintro b ⟨hb1, hb2, hb3⟩
    refine ⟨lt_of_lt_of_le hb1 h1.step.numBlocks_le, ?_, hb3⟩
    rcases h1.insertBlock_cases with h | h | h
    · rw [h]; exact hb2
    · rw [h]; exact hb3
    · omega
  · rcases h2.insertBlock_cases with h | h | h
    · rw [h]; exact h1.insertBlock_cases
    · exact Or.inr (Or.inl h)
    · exact Or.inr (Or.inr (le_trans h1.step.numBlocks_le h))


theorem successors_of_not_terminator (i : Inst) (h : i.isTerminator = false) :
    i.successors = [] := by
  cases i <;> simp [Inst.isTerminator] at h <;> rfl

theorem JumpsTo_appendCode {code : List Inst} {s : EmitState} {b J : Nat}
    (h : JumpsTo (appendCode code s) b J) :
    JumpsTo s b J ∨ (b = s.insertBlock ∧ ∃ i ∈ code, J ∈ i.successors) := by
  obtain ⟨i, hi, hJ⟩ := h
  by_cases hb : b = s.insertBlock
  · subst hb
    rw [appendCode_blocks_self, List.mem_append] at hi
    rcases hi with hi | hi
    · exact Or.inl ⟨i, hi, hJ⟩
    · exact Or.inr ⟨rfl, i, hi, hJ⟩
  · rw [appendCode_blocks_of_ne _ _ _ hb] at hi
    exact Or.inl ⟨i, hi, hJ⟩

theorem Terminated_appendCode {code : List Inst} {s : EmitState} {b : Nat}
    (h : Terminated (appendCode code s) b) :
    Terminated s b ∨ (b = s.insertBlock ∧ ∃ i ∈ code, i.isTerminator = true) := by
  obtain ⟨i, hi, hJ⟩ := h
  by_cases hb : b = s.insertBlock
  · subst hb
    rw [appendCode_blocks_self, List.mem_append] at hi
    rcases hi with hi | hi
    · exact Or.inl ⟨i, hi, hJ⟩
    · exact Or.inr ⟨rfl, i, hi, hJ⟩
  · rw [appendCode_blocks_of_ne _ _ _ hb] at hi
    exact Or.inl ⟨i, hi, hJ⟩

theorem appendCode_extend (code : List Inst) (s : EmitState) (b : Nat) :
    ∃ c, (appendCode code s).blocks b = s.blocks b ++ c := by
  by_cases hb : b = s.insertBlock
  · subst hb; exact ⟨code, appendCode_blocks_self _ _⟩
  · exact ⟨[], by rw [appendCode_blocks_of_ne _ _ _ hb]; simp⟩

/-- Creating instructions whose jumps go to blocks from `B` on is a step, when the
insertion point is not a block of `F`. -/
theorem Step.step_appendCode (cx : JITFunctionContext) (F : Nat → Prop) (B : Nat) (s : EmitState)
    (code : List Inst) (hF : ¬ F s.insertBlock)
    (hsucc : ∀ i ∈ code, ∀ J ∈ i.successors, B ≤ J) :
    Step cx F B s (LLVMJIT.appendCode code s) := by
  refine ⟨le_refl _, appendCode_extend code s, ?_, contexts_refl cx _ _ _, ?_⟩
  · intro b hb
    have : b ≠ s.insertBlock := fun h => hF (h ▸ hb)
    exact appendCode_blocks_of_ne _ _ _ this
  · intro J b hJ hj
    rcases JumpsTo_appendCode hj with h | ⟨-, i, hi, hiJ⟩
    · exact Or.inl h
    · have := hsucc i hi J hiJ
      omega

/-- A change of the insertion point or of the number of blocks is a step. -/
theorem Step.step_of_same (cx : JITFunctionContext) (F : Nat → Prop) (B : Nat) (s s' : EmitState)
    (hb : s'.blocks = s.blocks) (hc : s'.branchContext = s.branchContext)
    (hn : s.numBlocks ≤ s'.numBlocks) : Step cx F B s s' := by
  refine ⟨hn, fun b => ⟨[], by rw [hb]; simp⟩, fun b _ => by rw [hb], ?_, ?_⟩
  · rw [hc]; exact contexts_refl cx _ _ _
  · intro J b _ hj
    left
    obtain ⟨i, hi, hiJ⟩ := hj
    exact ⟨i, by rw [← hb]; exact hi, hiJ⟩

theorem Rel.not_frozen {cx : JITFunctionContext} {s s1 : EmitState} (h : Rel cx s s1) :
    ¬ Frozen cx s s1.insertBlock := by
  rintro ⟨h1, h2, h3⟩
  rcases h.insertBlock_cases with h' | h' | h'
  · exact h2 h'
  · exact h3 h'
  · omega

theorem Rel.rel_appendCode {cx : JITFunctionContext} {s s1 : EmitState} (h : Rel cx s s1)
    (code : List Inst) (hsucc : ∀ i ∈ code, ∀ J ∈ i.successors, s.numBlocks ≤ J) :
    Rel cx s (LLVMJIT.appendCode code s1) :=
  ⟨Step.step_trans h.step (Step.step_appendCode cx _ _ s1 code h.not_frozen hsucc), h.insertBlock_cases⟩

theorem Rel.rel_appendCode_plain {cx : JITFunctionContext} {s s1 : EmitState} (h : Rel cx s s1)
    (code : List Inst) (hterm : ∀ i ∈ code, i.isTerminator = false) :
    Rel cx s (LLVMJIT.appendCode code s1) := by
  apply h.rel_appendCode
  intro i hi J hJ
  rw [successors_of_not_terminator i (hterm i hi)] at hJ
  simp at hJ

theorem Rel.rel_of_same {cx : JITFunctionContext} {s s1 s2 : EmitState} (h : Rel cx s s1)
    (hb : s2.blocks = s1.blocks) (hc : s2.branchContext = s1.branchContext)
    (hn : s1.numBlocks ≤ s2.numBlocks)
    (hi : s2.insertBlock = s.insertBlock ∨ s2.insertBlock = cx.unreachableBlock ∨
      s.numBlocks ≤ s2.insertBlock) : Rel cx s s2 :=
  ⟨Step.step_trans h.step (Step.step_of_same cx _ _ s1 s2 hb hc hn), hi⟩

theorem Inv0.inv0_appendCode {cx : JITFunctionContext} {s : EmitState} (h : Inv0 cx s)
    (hlt : s.insertBlock < s.numBlocks) (code : List Inst)
    (hsucc : ∀ i ∈ code, ∀ J ∈ i.successors, J < s.numBlocks) :
    Inv0 cx (LLVMJIT.appendCode code s) := by
  refine ⟨h.unreachable_lt, ?_, ?_, h.contexts_lt⟩
  · intro b hb
    have : b ≠ s.insertBlock := by
      simp only [appendCode_numBlocks] at hb
      omega
    rw [appendCode_blocks_of_ne _ _ _ this]
    exact h.fresh_empty b hb
  · intro b J hj
    rcases JumpsTo_appendCode hj with h' | ⟨-, i, hi, hiJ⟩
    · exact h.targets_lt b J h'
    · exact hsucc i hi J hiJ

theorem Inv.inv_appendCode_plain {cx : JITFunctionContext} {s : EmitState} (h : Inv cx s)
    (code : List Inst) (hterm : ∀ i ∈ code, i.isTerminator = false) :
    Inv cx (LLVMJIT.appendCode code s) := by
  refine ⟨h.inv0.inv0_appendCode h.insertBlock_lt code ?_, h.insertBlock_lt, ?_⟩
  · intro i hi J hJ
    rw [successors_of_not_terminator i (hterm i hi)] at hJ
    simp at hJ
  · intro hne ht
    rcases Terminated_appendCode ht with h' | ⟨-, i, hi, hit⟩
    · exact h.insert_open hne h'
    · rw [hterm i hi] at hit
      simp at hit

theorem Inv0.inv0_of_same {cx : JITFunctionContext} {s s' : EmitState} (h : Inv0 cx s)
    (hb : s'.blocks = s.blocks) (hn : s.numBlocks ≤ s'.numBlocks)
    (hc : ∀ c ∈ s'.branchContext, c.basicBlock < s'.numBlocks) : Inv0 cx s' := by
  refine ⟨lt_of_lt_of_le h.unreachable_lt hn, ?_, ?_, hc⟩
  · intro b hbn
    rw [hb]
    exact h.fresh_empty b (le_trans hn hbn)
  · intro b J hj
    have : JumpsTo s b J := by
      obtain ⟨i, hi, hiJ⟩ := hj
      exact ⟨i, by rw [← hb]; exact hi, hiJ⟩
    exact lt_of_lt_of_le (h.targets_lt b J this) hn

/-- The invariant holds when the insertion point is moved to an empty block. -/
theorem Inv.at_empty {cx : JITFunctionContext} {s : EmitState} (h : Inv0 cx s) (X : Nat)
    (hX : X < s.numBlocks) (hempty : s.blocks X = []) : Inv cx (setInsertPoint X s) := by
  refine ⟨h.inv0_of_same rfl (le_refl _) h.contexts_lt, hX, ?_⟩
  rintro - ⟨i, hi, -⟩
  simp only [setInsertPoint] at hi
  rw [hempty] at hi
  simp at hi

/-- The invariant holds when the insertion point is moved to the unreachable block. -/
theorem Inv.at_unreachable {cx : JITFunctionContext} {s : EmitState} (h : Inv0 cx s) :
    Inv cx (setInsertPoint cx.unreachableBlock s) :=
  ⟨h.inv0_of_same rfl (le_refl _) h.contexts_lt, h.unreachable_lt, fun hne => absurd rfl hne⟩


theorem good_insert {cx : JITFunctionContext} {s s1 : EmitState}
    (h : Inv cx s1 ∧ Rel cx s s1) (i : Inst) (hi : i.isTerminator = false) :
    Inv cx (insert i s1).2 ∧ Rel cx s (insert i s1).2 := by
  rw [insert_eq]
  exact ⟨h.1.inv_appendCode_plain [i] (by simpa using hi), h.2.rel_appendCode_plain [i] (by simpa using hi)⟩

theorem good_trans {α : Type} {cx : JITFunctionContext} {s s1 s2 : EmitState}
    (h : Inv cx s1 ∧ Rel cx s s1) {d : EmitState → EmitResult α} (hd : Frames cx d) {v : α}
    (he : d s1 = .ok (v, s2)) : Inv cx s2 ∧ Rel cx s s2 :=
  ⟨(hd s1 v s2 h.1 he).1, h.2.rel_trans (hd s1 v s2 h.1 he).2⟩

theorem snd_eq {α : Type} {r : α × EmitState} {v : α} {s' : EmitState}
    (h : (Except.ok r : EmitResult α) = .ok (v, s')) : s' = r.2 := by
  cases h; rfl

theorem good_refl {cx : JITFunctionContext} {s : EmitState} (h : Inv cx s) :
    Inv cx s ∧ Rel cx s s := ⟨h, Rel.rel_refl cx s⟩

theorem compileAddress_frames (cx : JITFunctionContext) (address : Dispatcher)
    (isFarAddress : Bool) (memoryType : TypeId) (ha : ∀ ty, Frames cx (address ty)) :
    Frames cx (compileAddress cx address isFarAddress memoryType) := by
  intro s v s' hinv h
  unfold compileAddress at h
  cases isFarAddress with
  | false =>
    simp only [Bool.false_eq_true, if_false] at h
    cases hd : address .I32 s with
    | error e => simp [hd] at h
    | ok r =>
      obtain ⟨a, s1⟩ := r
      simp only [hd] at h
      rw [snd_eq h]
      exact good_insert (good_insert (good_insert (good_insert
        (good_trans (good_refl hinv) (ha .I32) hd) _ (by rfl)) _ (by rfl)) _ (by rfl)) _ (by rfl)
  | true =>
    simp only [if_true] at h
    cases hd : address .I64 s with
    | error e => simp [hd] at h
    | ok r =>
      obtain ⟨a, s1⟩ := r
      simp only [hd] at h
      rw [snd_eq h]
      exact good_insert (good_insert (good_insert
        (good_trans (good_refl hinv) (ha .I64) hd) _ (by rfl)) _ (by rfl)) _ (by rfl)

theorem compileCall_frames (cx : JITFunctionContext) (functionType : FunctionType)
    (function : Value) (args : List TypeId → EmitState → EmitResult (List Value))
    (ha : ∀ tys, Frames cx (args tys)) :
    Frames cx (compileCall functionType function args) := by
  intro s v s' hinv h
  unfold compileCall at h
  cases hd : args functionType.parameters s with
  | error e => simp [hd] at h
  | ok r =>
    obtain ⟨a, s1⟩ := r
    simp only [hd] at h
    rw [snd_eq h]
    exact good_insert (good_trans (good_refl hinv) (ha _) hd) _ (by rfl)

theorem visitLiteral_frames (cx : JITFunctionContext) (type : TypeId) (value : Nat) :
    Frames cx (visitLiteral type value) := by
  intro s v s' hinv h
  simp only [visitLiteral] at h
  rw [snd_eq h]
  exact good_refl hinv

theorem visitError_frames (cx : JITFunctionContext) : Frames cx visitError := by
  intro s v s' _ h
  simp [visitError] at h

theorem visitNop_frames (cx : JITFunctionContext) : Frames cx visitNop := by
  intro s v s' hinv h
  simp only [visitNop] at h
  rw [snd_eq h]
  exact good_refl hinv

theorem visitGetLocal_frames (cx : JITFunctionContext) (variableIndex : Nat) :
    Frames cx (visitGetLocal cx variableIndex) := by
  intro s v s' hinv h
  unfold visitGetLocal at h
  split at h
  · split at h
    · simp at h
    · rw [snd_eq h]
      exact good_insert (good_refl hinv) _ (by rfl)
  · simp at h

theorem visitSetLocal_frames (cx : JITFunctionContext) (variableIndex : Nat)
    (value : Dispatcher) (hv : ∀ ty, Frames cx (value ty)) :
    Frames cx (visitSetLocal cx variableIndex value) := by
  intro s v s' hinv h
  unfold visitSetLocal at h
  split at h
  · simp at h
  · rename_i lv _
    cases hd : value lv.type s with
    | error e => simp [hd] at h
    | ok r =>
      obtain ⟨a, s1⟩ := r
      simp only [hd] at h
      split at h
      · simp at h
      · rw [snd_eq h]
        exact good_insert (good_trans (good_refl hinv) (hv _) hd) _ (by rfl)

theorem visitLoad_frames (cx : JITFunctionContext) (type : TypeId) (op : LoadOp)
    (address : Dispatcher) (isFarAddress : Bool) (alignmentLog2 : Nat) (memoryType : TypeId)
    (ha : ∀ ty, Frames cx (address ty)) :
    Frames cx (visitLoad cx type op address isFarAddress alignmentLog2 memoryType) := by
  intro s v s' hinv h
  have hca := compileAddress_frames cx address isFarAddress memoryType ha
  unfold visitLoad at h
  cases op <;> simp only at h
  · split at h
    · cases hc : compileAddress cx address isFarAddress memoryType s with
      | error e => simp [hc] at h
      | ok r =>
        obtain ⟨p, s2⟩ := r
        simp only [hc] at h
        rw [snd_eq h]
        exact good_insert (good_trans (good_refl hinv) hca hc) _ (by rfl)
    · simp at h
  · cases hc : compileAddress cx address isFarAddress memoryType s with
    | error e => simp [hc] at h
    | ok r =>
      obtain ⟨p, s2⟩ := r
      simp only [hc] at h
      have hg := good_insert (good_trans (good_refl hinv) hca hc)
        (.load p (some (1 <<< alignmentLog2))) rfl
      split at h
      · split at h
        · rw [snd_eq h]
          exact hg
        · rw [snd_eq h]
          exact good_insert hg _ (by rfl)
      · simp at h
  · cases hc : compileAddress cx address isFarAddress memoryType s with
    | error e => simp [hc] at h
    | ok r =>
      obtain ⟨p, s2⟩ := r
      simp only [hc] at h
      rw [snd_eq h]
      exact good_insert (good_insert (good_trans (good_refl hinv) hca hc) _ (by rfl)) _ (by rfl)
  · cases hc : compileAddress cx address isFarAddress memoryType s with
    | error e => simp [hc] at h
    | ok r =>
      obtain ⟨p, s2⟩ := r
      simp only [hc] at h
      rw [snd_eq h]
      exact good_insert (good_insert (good_trans (good_refl hinv) hca hc) _ (by rfl)) _ (by rfl)

theorem visitStore_frames (cx : JITFunctionContext) (isIntClass : Bool) (address : Dispatcher)
    (isFarAddress : Bool) (alignmentLog2 : Nat) (value : Dispatcher)
    (valueType memoryType : TypeId) (ha : ∀ ty, Frames cx (address ty))
    (hv : ∀ ty, Frames cx (value ty)) :
    Frames cx (visitStore cx isIntClass address isFarAddress alignmentLog2 value valueType
      memoryType) := by
  intro s v s' hinv h
  have hca := compileAddress_frames cx address isFarAddress memoryType ha
  unfold visitStore at h
  cases hd : value valueType s with
  | error e => simp [hd] at h
  | ok r =>
    obtain ⟨v0, sv⟩ := r
    have hg0 := good_trans (good_refl hinv) (hv valueType) hd
    simp only [hd] at h
    cases isIntClass with
    | true =>
      simp only [if_true] at h
      split at h
      · simp at h
      · rename_i mv s2 htr
        have hg2 : Inv cx s2 ∧ Rel cx s s2 := by
          split at htr
          · split at htr
            · rw [snd_eq htr]
              exact good_insert hg0 _ (by rfl)
            · simp at htr
          · rw [snd_eq htr]
            exact hg0
        cases hc : compileAddress cx address isFarAddress memoryType s2 with
        | error e => simp [hc] at h
        | ok r =>
          obtain ⟨p, s3⟩ := r
          simp only [hc] at h
          rw [snd_eq h]
          exact good_insert (good_trans hg2 hca hc) _ (by rfl)
    | false =>
      simp only [Bool.false_eq_true, if_false] at h
      cases hc : compileAddress cx address isFarAddress memoryType sv with
      | error e => simp [hc] at h
      | ok r =>
        obtain ⟨p, s3⟩ := r
        simp only [hc] at h
        rw [snd_eq h]
        exact good_insert (good_trans hg0 hca hc) _ (by rfl)


theorem visitCallDirect_frames (cx : JITFunctionContext) (type : TypeId) (functionIndex : Nat)
    (parameters : List TypeId → EmitState → EmitResult (List Value))
    (hp : ∀ tys, Frames cx (parameters tys)) :
    Frames cx (visitCallDirect cx type functionIndex parameters) := by
  intro s v s' hinv h
  unfold visitCallDirect at h
  split at h
  · simp at h
  · split at h
    · exact compileCall_frames cx _ _ parameters hp s v s' hinv h
    · simp at h

theorem visitCallImport_frames (cx : JITFunctionContext) (type : TypeId) (functionIndex : Nat)
    (parameters : List TypeId → EmitState → EmitResult (List Value))
    (hp : ∀ tys, Frames cx (parameters tys)) :
    Frames cx (visitCallImport cx type functionIndex parameters) := by
  intro s v s' hinv h
  unfold visitCallImport at h
  split at h
  · simp at h
  · split at h
    · exact compileCall_frames cx _ _ parameters hp s v s' hinv h
    · simp at h

theorem visitCallIndirect_frames (cx : JITFunctionContext) (type : TypeId) (tableIndex : Nat)
    (functionIndex : Dispatcher)
    (parameters : List TypeId → EmitState → EmitResult (List Value))
    (hf : ∀ ty, Frames cx (functionIndex ty)) (hp : ∀ tys, Frames cx (parameters tys)) :
    Frames cx (visitCallIndirect cx type tableIndex functionIndex parameters) := by
  intro s v s' hinv h
  unfold visitCallIndirect at h
  split at h
  · simp at h
  · split at h
    · simp at h
    · split at h
      · simp at h
      · cases hd : functionIndex .I32 s with
        | error e => simp [hd] at h
        | ok r =>
          obtain ⟨index, s1⟩ := r
          simp only [hd] at h
          exact good_trans (good_insert (good_insert (good_insert
            (good_trans (good_refl hinv) (hf .I32) hd) _ (by rfl)) _ (by rfl)) _ (by rfl))
            (compileCall_frames cx _ _ parameters hp) h

theorem visitSequence_frames (cx : JITFunctionContext) (type : TypeId)
    (voidExpression resultExpression : Dispatcher)
    (h1 : ∀ ty, Frames cx (voidExpression ty)) (h2 : ∀ ty, Frames cx (resultExpression ty)) :
    Frames cx (visitSequence type voidExpression resultExpression) := by
  intro s v s' hinv h
  unfold visitSequence at h
  cases hd : voidExpression .Void s with
  | error e => simp [hd] at h
  | ok r =>
    obtain ⟨a, s1⟩ := r
    simp only [hd] at h
    exact good_trans (good_trans (good_refl hinv) (h1 .Void) hd) (h2 type) h

theorem visitDiscardResult_frames (cx : JITFunctionContext)
    (expression : EmitState → EmitResult Value) (h1 : Frames cx expression) :
    Frames cx (visitDiscardResult expression) := by
  intro s v s' hinv h
  unfold visitDiscardResult at h
  cases hd : expression s with
  | error e => simp [hd] at h
  | ok r =>
    obtain ⟨a, s1⟩ := r
    simp only [hd] at h
    rw [snd_eq h]
    exact good_trans (good_refl hinv) h1 hd

theorem good_compileUnaryOp {cx : JITFunctionContext} {s s1 : EmitState}
    (h : Inv cx s1 ∧ Rel cx s s1) (op : UnaryOp) (type : TypeId) (operand : Value) :
    Inv cx (compileUnaryOp op type operand s1).2 ∧
      Rel cx s (compileUnaryOp op type operand s1).2 := by
  cases op <;> simp only [compileUnaryOp, compileIntAbs, compileIntrinsic] <;>
    first
      | exact good_insert h _ (by rfl)
      | exact good_insert (good_insert (good_insert h _ (by rfl)) _ (by rfl)) _ (by rfl)

theorem good_compileBinaryOp {cx : JITFunctionContext} {s s1 : EmitState}
    (h : Inv cx s1 ∧ Rel cx s s1) (op : BinaryOp) (type : TypeId) (left right : Value) :
    Inv cx (compileBinaryOp op type left right s1).2 ∧
      Rel cx s (compileBinaryOp op type left right s1).2 := by
  cases op <;> simp only [compileBinaryOp, compileIntrinsic2] <;>
    exact good_insert h _ (by rfl)

theorem good_compileCastOp {cx : JITFunctionContext} {s s1 : EmitState}
    (h : Inv cx s1 ∧ Rel cx s s1) (op : CastOp) (type : TypeId) (source : Value) :
    Inv cx (compileCastOp op type source s1).2 ∧
      Rel cx s (compileCastOp op type source s1).2 := by
  cases op <;> simp only [compileCastOp] <;> exact good_insert h _ (by rfl)

theorem good_compileComparisonOp {cx : JITFunctionContext} {s s1 : EmitState}
    (h : Inv cx s1 ∧ Rel cx s s1) (op : ComparisonOp) (type : TypeId) (left right : Value) :
    Inv cx (compileComparisonOp op type left right s1).2 ∧
      Rel cx s (compileComparisonOp op type left right s1).2 := by
  cases op <;> simp only [compileComparisonOp] <;>
    first
      | exact good_insert h _ (by rfl)
      | (split <;> exact good_insert h _ (by rfl))

theorem visitUnary_frames (cx : JITFunctionContext) (type : TypeId) (op : UnaryOp)
    (operand : Dispatcher) (h1 : ∀ ty, Frames cx (operand ty)) :
    Frames cx (visitUnary type op operand) := by
  intro s v s' hinv h
  unfold visitUnary at h
  cases hd : operand type s with
  | error e => simp [hd] at h
  | ok r =>
    obtain ⟨a, s1⟩ := r
    simp only [hd] at h
    rw [snd_eq h]
    exact good_compileUnaryOp (good_trans (good_refl hinv) (h1 type) hd) op type a

theorem visitBinary_frames (cx : JITFunctionContext) (type : TypeId) (op : BinaryOp)
    (left right : Dispatcher) (h1 : ∀ ty, Frames cx (left ty))
    (h2 : ∀ ty, Frames cx (right ty)) : Frames cx (visitBinary type op left right) := by
  intro s v s' hinv h
  obtain ⟨l, s1, r, s2, hl, hr, hc⟩ := visitBinary_code type op left right s s' v h
  have hs : s' = (compileBinaryOp op type l r s2).2 := by rw [← hc]
  rw [hs]
  exact good_compileBinaryOp (good_trans (good_trans (good_refl hinv) (h1 type) hl) (h2 type) hr)
    op type l r

theorem visitCast_frames (cx : JITFunctionContext) (type : TypeId) (op : CastOp)
    (source : EmitState → EmitResult Value) (h1 : Frames cx source) :
    Frames cx (visitCast type op source) := by
  intro s v s' hinv h
  unfold visitCast at h
  cases hd : source s with
  | error e => simp [hd] at h
  | ok r =>
    obtain ⟨a, s1⟩ := r
    simp only [hd] at h
    rw [snd_eq h]
    exact good_compileCastOp (good_trans (good_refl hinv) h1 hd) op type a

theorem visitComparison_frames (cx : JITFunctionContext) (op : ComparisonOp)
    (operandType : TypeId) (left right : Dispatcher) (h1 : ∀ ty, Frames cx (left ty))
    (h2 : ∀ ty, Frames cx (right ty)) :
    Frames cx (visitComparison op operandType left right) := by
  intro s v s' hinv h
  unfold visitComparison at h
  cases hl : left operandType s with
  | error e => simp [hl] at h
  | ok r1 =>
    obtain ⟨l, s1⟩ := r1
    simp only [hl] at h
    cases hr : right operandType s1 with
    | error e => simp [hr] at h
    | ok r2 =>
      obtain ⟨r, s2⟩ := r2
      simp only [hr] at h
      rw [snd_eq h]
      exact good_compileComparisonOp
        (good_trans (good_trans (good_refl hinv) (h1 _) hl) (h2 _) hr) op operandType l r


/-! ## The frame of the control-flow constructs -/

theorem compileBranch_snd (cx : JITFunctionContext) (dest : Nat) (s : EmitState) :
    (compileBranch cx dest s).2 =
      appendCode (if s.insertBlock = cx.unreachableBlock then [] else [.br dest]) s := by
  unfold compileBranch
  by_cases h : s.insertBlock = cx.unreachableBlock
  · simp [h, appendCode_nil]
  · simp [h, insert_eq]

theorem compileBranch_fst (cx : JITFunctionContext) (dest : Nat) (s : EmitState) :
    (compileBranch cx dest s).1 =
      if s.insertBlock = cx.unreachableBlock then none else some s.insertBlock := by
  unfold compileBranch
  by_cases h : s.insertBlock = cx.unreachableBlock <;> simp [h]

theorem compileCondBranch_snd (cx : JITFunctionContext) (condition : Value)
    (trueDest falseDest : Nat) (s : EmitState) :
    (compileCondBranch cx condition trueDest falseDest s).2 =
      appendCode (if s.insertBlock = cx.unreachableBlock then []
        else [.condBr condition trueDest falseDest]) s := by
  unfold compileCondBranch
  by_cases h : s.insertBlock = cx.unreachableBlock
  · simp [h, appendCode_nil]
  · simp [h, insert_eq]

/-- Ending the block at the insertion point with jumps to blocks created since `s`, and
moving the insertion point to an empty block created since `s`, keeps the frame. -/
theorem good_enter {cx : JITFunctionContext} {s s1 : EmitState}
    (h : Inv cx s1 ∧ Rel cx s s1) (code : List Inst)
    (hsucc : ∀ i ∈ code, ∀ J ∈ i.successors, s.numBlocks ≤ J ∧ J < s1.numBlocks) (X : Nat)
    (hX1 : s.numBlocks ≤ X) (hX2 : X < s1.numBlocks) (hX3 : s1.blocks X = [])
    (hX4 : X ≠ s1.insertBlock) :
    Inv cx (setInsertPoint X (appendCode code s1)) ∧
      Rel cx s (setInsertPoint X (appendCode code s1)) := by
  constructor
  · apply Inv.at_empty (h.1.inv0.inv0_appendCode h.1.insertBlock_lt code
      (fun i hi J hJ => (hsucc i hi J hJ).2)) X hX2
    rw [appendCode_blocks_of_ne _ _ _ hX4]
    exact hX3
  · exact (h.2.rel_appendCode code (fun i hi J hJ => (hsucc i hi J hJ).1)).rel_of_same rfl rfl
      (le_refl _) (Or.inr (Or.inr hX1))

/-- Ending the block at the insertion point with an instruction that jumps nowhere, and
moving the insertion point to the unreachable block, keeps the frame. -/
theorem good_leave {cx : JITFunctionContext} {s s1 : EmitState}
    (h : Inv cx s1 ∧ Rel cx s s1) (code : List Inst)
    (hsucc : ∀ i ∈ code, i.successors = []) :
    Inv cx (setInsertPoint cx.unreachableBlock (appendCode code s1)) ∧
      Rel cx s (setInsertPoint cx.unreachableBlock (appendCode code s1)) := by
  have hs : ∀ i ∈ code, ∀ J ∈ i.successors, False := by
    intro i hi J hJ
    rw [hsucc i hi] at hJ
    simp at hJ
  constructor
  · exact Inv.at_unreachable (h.1.inv0.inv0_appendCode h.1.insertBlock_lt code
      (fun i hi J hJ => (hs i hi J hJ).elim))
  · exact (h.2.rel_appendCode code (fun i hi J hJ => (hs i hi J hJ).elim)).rel_of_same rfl rfl
      (le_refl _) (Or.inr (Or.inl rfl))

theorem forall₂_append_left {α β : Type} {R : α → β → Prop} (p l : List α) (l' : List β)
    (h : List.Forall₂ R (p ++ l) l') :
    ∃ p' t, l' = p' ++ t ∧ List.Forall₂ R p p' ∧ List.Forall₂ R l t ∧ p'.length = p.length := by
  induction p generalizing l' with
  | nil => exact ⟨[], l', rfl, List.Forall₂.nil, h, rfl⟩
  | cons a p ih =>
    cases h with
    | @cons _ b _ t hab ht =>
      obtain ⟨p', t', heq, h1, h2, h3⟩ := ih t ht
      exact ⟨b :: p', t', by rw [heq]; rfl, List.Forall₂.cons hab h1, h2, by simp [h3]⟩

/-- Removing the contexts that were put in scope at the start of a step gives a step,
when their blocks are blocks from `B` on. -/
theorem Step.pop {cx : JITFunctionContext} {F : Nat → Prop} {B : Nat} {sa sb : EmitState}
    (h : Step cx F B sa sb) (pushed outer : List BranchContext)
    (hst : sa.branchContext = pushed ++ outer)
    (hp : ∀ c ∈ pushed, B ≤ c.basicBlock) :
    ∃ pushed' outer', sb.branchContext = pushed' ++ outer' ∧
      List.Forall₂ (ContextStep cx sa sb) pushed pushed' ∧
      pushed'.length = pushed.length ∧ outer'.length = outer.length ∧
      Step cx F B { sa with branchContext := outer } { sb with branchContext := outer' } := by
  have hc := h.contexts
  rw [hst] at hc
  obtain ⟨p', t, heq, h1, h2, h3⟩ := forall₂_append_left pushed outer _ hc
  refine ⟨p', t, heq, h1, h3, h2.length_eq.symm, ?_⟩
  refine ⟨h.numBlocks_le, h.blocks_extend, h.frozen, h2, ?_⟩
  intro J b hJ hj
  rcases h.edges J b hJ hj with h' | ⟨q, hq, hqJ, hqb⟩
  · exact Or.inl h'
  · right
    rw [hst, heq] at hq
    have hq' : q ∈ List.zip pushed p' ++ List.zip outer t := by
      rw [← List.zip_append h3.symm]
      exact hq
    rcases List.mem_append.mp hq' with hq1 | hq2
    · have hm : q.1 ∈ pushed := (List.of_mem_zip hq1).1
      have := hp q.1 hm
      omega
    · exact ⟨q, hq2, hqJ, hqb⟩


theorem forall₂_getElem? {α β : Type} {R : α → β → Prop} {l : List α} {l' : List β}
    (h : List.Forall₂ R l l') (k : Nat) (a : α) (hk : l[k]? = some a) :
    ∃ b, l'[k]? = some b ∧ R a b := by
  induction h generalizing k with
  | nil => simp at hk
  | @cons a0 b0 t t' hab _ ih =>
    cases k with
    | zero =>
      simp only [List.getElem?_cons_zero, Option.some.injEq] at hk
      subst hk
      exact ⟨b0, by simp, hab⟩
    | succ k =>
      simp only [List.getElem?_cons_succ] at hk
      obtain ⟨b, hb, hr⟩ := ih k hk
      exact ⟨b, by simpa using hb, hr⟩

theorem contexts_basicBlock_lt {cx : JITFunctionContext} {s s' : EmitState}
    {l l' : List BranchContext} (h : List.Forall₂ (ContextStep cx s s') l l') (n : Nat)
    (hl : ∀ c ∈ l, c.basicBlock < n) : ∀ c ∈ l', c.basicBlock < n := by
  induction h with
  | nil => simp
  | @cons a b t t' hab _ ih =>
    intro c hc
    simp only [List.mem_cons] at hc
    rcases hc with hc | hc
    · subst hc
      rw [hab.2.1]
      exact hl a (by simp)
    · exact ih (fun c hc => hl c (by simp [hc])) c hc

theorem findTargetContext_some {branchTarget : BranchTarget} {l : List BranchContext}
    {k : Nat} {c : BranchContext} (h : findTargetContext branchTarget l = some (k, c)) :
    l[k]? = some c ∧ c.branchTarget = branchTarget ∧
      ∀ j c', j < k → l[j]? = some c' → c'.branchTarget ≠ branchTarget := by
  induction l generalizing k with
  | nil => simp [findTargetContext] at h
  | cons c0 t ih =>
    unfold findTargetContext at h
    by_cases hc : c0.branchTarget = branchTarget
    · simp only [hc, ne_eq, not_true_eq_false, if_false, Option.some.injEq, Prod.mk.injEq] at h
      obtain ⟨h1, h2⟩ := h
      subst h1
      subst h2
      exact ⟨by simp, hc, fun j c' hj => by omega⟩
    · simp only [hc, ne_eq, not_false_eq_true, if_true] at h
      cases hf : findTargetContext branchTarget t with
      | none => simp [hf] at h
      | some p =>
        obtain ⟨k0, c1⟩ := p
        simp only [hf, Option.some.injEq, Prod.mk.injEq] at h
        obtain ⟨h1, h2⟩ := h
        subst h1
        subst h2
        obtain ⟨i1, i2, i3⟩ := ih hf
        refine ⟨by simpa using i1, i2, ?_⟩
        intro j c' hj hjc
        cases j with
        | zero =>
          simp only [List.getElem?_cons_zero, Option.some.injEq] at hjc
          subst hjc
          exact hc
        | succ j =>
          simp only [List.getElem?_cons_succ] at hjc
          exact i3 j c' (by omega) hjc

theorem findTargetContext_none {branchTarget : BranchTarget} {l : List BranchContext}
    (h : findTargetContext branchTarget l = none) : ∀ c ∈ l, c.branchTarget ≠ branchTarget := by
  induction l with
  | nil => simp
  | cons c0 t ih =>
    unfold findTargetContext at h
    by_cases hc : c0.branchTarget = branchTarget
    · simp [hc] at h
    · simp only [hc, ne_eq, not_false_eq_true, if_true] at h
      cases hf : findTargetContext branchTarget t with
      | none =>
        intro c hcm
        simp only [List.mem_cons] at hcm
        rcases hcm with hcm | hcm
        · subst hcm; exact hc
        · exact ih hf c hcm
      | some p => simp [hf] at h

theorem addBranchResult_contexts (cx : JITFunctionContext) (s s' : EmitState) (r : BranchResult)
    (hr1 : r.incomingBlock ≠ cx.unreachableBlock) (hr2 : ¬ Terminated s r.incomingBlock)
    (l : List BranchContext) (k : Nat) (c : BranchContext) (hk : l[k]? = some c)
    (hj : JumpsTo s' r.incomingBlock c.basicBlock) :
    List.Forall₂ (ContextStep cx s s') l (addBranchResult r k l) ∧
      ∃ p ∈ List.zip l (addBranchResult r k l),
        p.1.basicBlock = c.basicBlock ∧ r.incomingBlock ∈ incomingBlocks (newResults p.1 p.2) := by
  induction l generalizing k with
  | nil => simp at hk
  | cons c0 t ih =>
    cases k with
    | zero =>
      simp only [List.getElem?_cons_zero, Option.some.injEq] at hk
      subst hk
      have hnew : newResults c0 { c0 with results := r :: c0.results } = [r] :=
        newResults_of_eq (by simp)
      constructor
      · refine List.Forall₂.cons ⟨rfl, rfl, ?_, ?_, ?_⟩ (contexts_refl cx s s' t)
        · rw [hnew]; simp
        · rw [hnew]; simp [incomingBlocks]
        · rw [hnew]
          intro b hb
          simp only [incomingBlocks, List.map_cons, List.map_nil, List.mem_singleton] at hb
          subst hb
          exact ⟨hr1, hr2, hj⟩
      · refine ⟨(c0, { c0 with results := r :: c0.results }), by simp [addBranchResult], rfl, ?_⟩
        simp only [hnew, incomingBlocks, List.map_cons, List.map_nil, List.mem_singleton]
    | succ k =>
      simp only [List.getElem?_cons_succ] at hk
      obtain ⟨h1, p, hp, hpJ, hpb⟩ := ih k hk
      exact ⟨List.Forall₂.cons (ContextStep.ctx_refl cx s s' c0) h1,
        p, by simp [addBranchResult, hp], hpJ, hpb⟩

/-- Ending the open block at the insertion point with a branch to the block of the in-scope
context at depth `k`, and adding the edge to the `results` of that context, is a step. -/
theorem Step.addResult (cx : JITFunctionContext) (F : Nat → Prop) (B : Nat) (s : EmitState)
    (hF : ¬ F s.insertBlock) (hne : s.insertBlock ≠ cx.unreachableBlock)
    (hopen : ¬ Terminated s s.insertBlock) (k : Nat) (c : BranchContext)
    (hk : s.branchContext[k]? = some c) (v : Value) :
    Step cx F B s { LLVMJIT.appendCode [.br c.basicBlock] s with
      branchContext := addBranchResult ⟨s.insertBlock, v⟩ k s.branchContext } := by
  have hj : JumpsTo { LLVMJIT.appendCode [.br c.basicBlock] s with
      branchContext := addBranchResult ⟨s.insertBlock, v⟩ k s.branchContext }
      s.insertBlock c.basicBlock :=
    ⟨.br c.basicBlock, by simp [LLVMJIT.appendCode], by simp [Inst.successors]⟩
  obtain ⟨h1, h2⟩ := addBranchResult_contexts cx s _ ⟨s.insertBlock, v⟩ hne hopen
    s.branchContext k c hk hj
  refine ⟨le_refl _, appendCode_extend _ s, ?_, h1, ?_⟩
  · intro b hb
    have : b ≠ s.insertBlock := fun h => hF (h ▸ hb)
    exact appendCode_blocks_of_ne _ _ _ this
  · intro J b _ hjb
    have hjb' : JumpsTo (LLVMJIT.appendCode [.br c.basicBlock] s) b J := hjb
    rcases JumpsTo_appendCode hjb' with h | ⟨hb, i, hi, hiJ⟩
    · exact Or.inl h
    · right
      simp only [List.mem_singleton] at hi
      subst hi
      simp only [Inst.successors, List.mem_singleton] at hiJ
      subst hiJ
      subst hb
      exact h2


theorem visitReturn_frames (cx : JITFunctionContext) (type : TypeId) (value : Dispatcher)
    (hv : ∀ ty, Frames cx (value ty)) : Frames cx (visitReturn cx type value) := by
  intro s v s' hinv h
  unfold visitReturn at h
  have hres : ∀ rv s1,
      (if cx.astFunction.type.returnType = .Void then (.ok (.null, s) : EmitResult Value)
        else value cx.astFunction.type.returnType s) = .ok (rv, s1) →
      Inv cx s1 ∧ Rel cx s s1 := by
    intro rv s1 h1
    by_cases hvoid : cx.astFunction.type.returnType = .Void
    · simp only [hvoid, if_true] at h1
      rw [snd_eq h1]
      exact good_refl hinv
    · simp only [hvoid, if_false] at h1
      exact good_trans (good_refl hinv) (hv _) h1
  cases hr : (if cx.astFunction.type.returnType = .Void then (.ok (.null, s) : EmitResult Value)
        else value cx.astFunction.type.returnType s) with
  | error e => simp [hr] at h
  | ok r =>
    obtain ⟨rv, s1⟩ := r
    have hg := hres rv s1 hr
    simp only [hr] at h
    by_cases hu : s1.insertBlock = cx.unreachableBlock
    · simp only [hu, ne_eq, not_true_eq_false, if_false] at h
      rw [snd_eq h]
      exact hg
    · simp only [hu, ne_eq, not_false_eq_true, if_true] at h
      rw [snd_eq h]
      by_cases hvoid : cx.astFunction.type.returnType = .Void
      · simp only [hvoid, if_true, insert_eq]
        exact good_leave hg _ (by simp [Inst.successors])
      · simp only [hvoid, if_false, insert_eq]
        exact good_leave hg _ (by simp [Inst.successors])

theorem visitBranch_frames (cx : JITFunctionContext) (type : TypeId)
    (branchTarget : BranchTarget) (value : Dispatcher) (hv : ∀ ty, Frames cx (value ty)) :
    Frames cx (visitBranch cx type branchTarget value) := by
  intro s v s' hinv h
  unfold visitBranch at h
  cases hf : findTargetContext branchTarget s.branchContext with
  | none => simp [hf] at h
  | some p =>
    obtain ⟨depth, tc⟩ := p
    simp only [hf] at h
    have hres : ∀ rv s1,
        (if branchTarget.type = .Void then (.ok (.voidDummy, s) : EmitResult Value)
          else value tc.branchTarget.type s) = .ok (rv, s1) → Inv cx s1 ∧ Rel cx s s1 := by
      intro rv s1 h1
      by_cases hvoid : branchTarget.type = .Void
      · simp only [hvoid, if_true] at h1
        rw [snd_eq h1]
        exact good_refl hinv
      · simp only [hvoid, if_false] at h1
        exact good_trans (good_refl hinv) (hv _) h1
    cases hr : (if branchTarget.type = .Void then (.ok (.voidDummy, s) : EmitResult Value)
          else value tc.branchTarget.type s) with
    | error e => simp [hr] at h
    | ok r =>
      obtain ⟨rv, s1⟩ := r
      have hg := hres rv s1 hr
      simp only [hr] at h
      rw [snd_eq h]
      by_cases hu : s1.insertBlock = cx.unreachableBlock
      · simp only [compileBranch, hu, if_true]
        exact ⟨Inv.at_unreachable hg.1.inv0,
          hg.2.rel_of_same rfl rfl (le_refl _) (Or.inr (Or.inl rfl))⟩
      · simp only [compileBranch, hu, if_false, insert_eq]
        obtain ⟨c1, hc1, hstep⟩ :=
          forall₂_getElem? hg.2.step.contexts depth tc (findTargetContext_some hf).1
        have hadd := Step.addResult cx (Frozen cx s) s.numBlocks s1 hg.2.not_frozen hu
          (hg.1.insert_open hu) depth c1 hc1 rv
        rw [hstep.2.1] at hadd
        have hlt : tc.basicBlock < s1.numBlocks := by
          rw [← hstep.2.1]
          exact hg.1.inv0.contexts_lt c1 (List.getElem?_mem hc1)
        constructor
        · apply Inv.at_unreachable
          have hi0 : Inv0 cx (appendCode [.br tc.basicBlock] s1) :=
            hg.1.inv0.inv0_appendCode hg.1.insertBlock_lt [.br tc.basicBlock]
              (by simp [Inst.successors]; exact hlt)
          exact hi0.inv0_of_same rfl (le_refl _)
            (contexts_basicBlock_lt hadd.contexts _ hg.1.inv0.contexts_lt)
        · exact ⟨Step.step_trans hg.2.step (Step.step_trans hadd (Step.step_of_same cx _ _ _ _ rfl rfl
            (le_refl _))), Or.inr (Or.inl rfl)⟩


@[simp] theorem compileBranch_branchContext (cx : JITFunctionContext) (dest : Nat)
    (s : EmitState) : (compileBranch cx dest s).2.branchContext = s.branchContext := by
  rw [compileBranch_snd]; rfl

@[simp] theorem compileBranch_numBlocks (cx : JITFunctionContext) (dest : Nat)
    (s : EmitState) : (compileBranch cx dest s).2.numBlocks = s.numBlocks := by
  rw [compileBranch_snd]; rfl

@[simp] theorem compileBranch_insertBlock (cx : JITFunctionContext) (dest : Nat)
    (s : EmitState) : (compileBranch cx dest s).2.insertBlock = s.insertBlock := by
  rw [compileBranch_snd]; rfl

theorem Inv.push {cx : JITFunctionContext} {s : EmitState} (h : Inv cx s)
    (pushed : List BranchContext) (hp : ∀ c ∈ pushed, c.basicBlock < s.numBlocks) :
    Inv cx { s with branchContext := pushed ++ s.branchContext } := by
  refine ⟨h.inv0.inv0_of_same rfl (le_refl _) ?_, h.insertBlock_lt, h.insert_open⟩
  intro c hc
  rcases List.mem_append.mp hc with hc | hc
  · exact hp c hc
  · exact h.inv0.contexts_lt c hc

/-- The emission of a body in a scope with more contexts: when the contexts are removed
again, the frame of the body is a frame of the enclosing emission. -/
theorem good_scoped {cx : JITFunctionContext} {s s4 s6 : EmitState}
    (h4 : Inv cx s4 ∧ Rel cx s s4) (pushed : List BranchContext)
    (hp : ∀ c ∈ pushed, s.numBlocks ≤ c.basicBlock)
    (h6 : Inv cx s6 ∧ Rel cx { s4 with branchContext := pushed ++ s4.branchContext } s6) :
    ∃ pushed' outer, s6.branchContext = pushed' ++ outer ∧
      List.Forall₂ (ContextStep cx { s4 with branchContext := pushed ++ s4.branchContext } s6)
        pushed pushed' ∧
      pushed'.length = pushed.length ∧ outer.length = s4.branchContext.length ∧
      Inv cx { s6 with branchContext := outer } ∧ Rel cx s { s6 with branchContext := outer } := by
  have hmono : Step cx (Frozen cx s) s.numBlocks
      { s4 with branchContext := pushed ++ s4.branchContext } s6 := by
    refine Step.step_mono ?_ h4.2.step.numBlocks_le h6.2.step
    rintro b ⟨hb1, hb2, hb3⟩
    refine ⟨lt_of_lt_of_le hb1 h4.2.step.numBlocks_le, ?_, hb3⟩
    intro hb
    exact h4.2.not_frozen (hb ▸ ⟨hb1, hb2, hb3⟩)
  obtain ⟨p', o', heq, hf, hl1, hl2, hstep⟩ := hmono.pop pushed s4.branchContext rfl hp
  refine ⟨p', o', heq, hf, hl1, hl2, ?_, ?_⟩
  · refine ⟨h6.1.inv0.inv0_of_same rfl (le_refl _) ?_, h6.1.insertBlock_lt, h6.1.insert_open⟩
    intro c hc
    exact h6.1.inv0.contexts_lt c (by rw [heq]; exact List.mem_append_right _ hc)
  · refine ⟨Step.step_trans h4.2.step hstep, ?_⟩
    rcases h6.2.insertBlock_cases with h | h | h
    · rcases h4.2.insertBlock_cases with h' | h' | h'
      · exact Or.inl (h.trans h')
      · exact Or.inr (Or.inl (h.trans h'))
      · exact Or.inr (Or.inr (by rw [h]; exact h'))
    · exact Or.inr (Or.inl h)
    · exact Or.inr (Or.inr (le_trans h4.2.step.numBlocks_le h))


/-- The state before the context of a label is put in scope. -/
theorem labelBodyState_eq (cx : JITFunctionContext) (endTarget : BranchTarget) (s : EmitState) :
    labelBodyState cx endTarget s =
      { setInsertPoint s.numBlocks
          (appendCode (if s.insertBlock = cx.unreachableBlock then [] else [.br s.numBlocks])
            { s with numBlocks := s.numBlocks + 1 + 1 }) with
        branchContext := [⟨endTarget, s.numBlocks + 1, []⟩] ++ s.branchContext } := by
  simp only [labelBodyState, createBasicBlock, compileBranch_snd]
  rfl

theorem good_create {cx : JITFunctionContext} {s s1 : EmitState}
    (h : Inv cx s1 ∧ Rel cx s s1) (n : Nat) :
    Inv cx { s1 with numBlocks := s1.numBlocks + n } ∧
      Rel cx s { s1 with numBlocks := s1.numBlocks + n } := by
  refine ⟨⟨h.1.inv0.inv0_of_same rfl (Nat.le_add_right _ _) ?_, ?_, h.1.insert_open⟩,
    h.2.rel_of_same rfl rfl (Nat.le_add_right _ _) h.2.insertBlock_cases⟩
  · intro c hc
    exact lt_of_lt_of_le (h.1.inv0.contexts_lt c hc) (Nat.le_add_right _ _)
  · exact lt_of_lt_of_le h.1.insertBlock_lt (Nat.le_add_right _ _)

theorem branchCode_successors {c : Prop} [Decidable c] {dest : Nat} {i : Inst} {J : Nat}
    (hi : i ∈ (if c then [] else [Inst.br dest])) (hJ : J ∈ i.successors) : J = dest := by
  by_cases hc : c
  · simp [hc] at hi
  · simp only [hc, if_false, List.mem_singleton] at hi
    subst hi
    simpa [Inst.successors] using hJ

/-- The state in which the body of a label is emitted satisfies the invariant and is in
the frame of the label. -/
theorem label_enter {cx : JITFunctionContext} {s : EmitState} (hinv : Inv cx s) :
    Inv cx (setInsertPoint s.numBlocks
        (appendCode (if s.insertBlock = cx.unreachableBlock then [] else [.br s.numBlocks])
          { s with numBlocks := s.numBlocks + 1 + 1 })) ∧
      Rel cx s (setInsertPoint s.numBlocks
        (appendCode (if s.insertBlock = cx.unreachableBlock then [] else [.br s.numBlocks])
          { s with numBlocks := s.numBlocks + 1 + 1 })) := by
  have h2 : Inv cx { s with numBlocks := s.numBlocks + 1 + 1 } ∧
      Rel cx s { s with numBlocks := s.numBlocks + 1 + 1 } :=
    good_create (good_create (good_refl hinv) 1) 1
  refine good_enter h2 _ ?_ s.numBlocks (le_refl _) ?_ ?_ ?_
  · intro i hi J hJ
    have := branchCode_successors hi hJ
    subst this
    show s.numBlocks ≤ s.numBlocks ∧ s.numBlocks < s.numBlocks + 1 + 1
    omega
  · show s.numBlocks < s.numBlocks + 1 + 1
    omega
  · exact hinv.inv0.fresh_empty _ (le_refl _)
  · intro h
    have h' : s.numBlocks = s.insertBlock := h
    have := hinv.insertBlock_lt
    omega


@[simp] theorem setInsertPoint_branchContext (b : Nat) (s : EmitState) :
    (setInsertPoint b s).branchContext = s.branchContext := rfl

@[simp] theorem setInsertPoint_numBlocks (b : Nat) (s : EmitState) :
    (setInsertPoint b s).numBlocks = s.numBlocks := rfl

@[simp] theorem setInsertPoint_insertBlock (b : Nat) (s : EmitState) :
    (setInsertPoint b s).insertBlock = b := rfl

@[simp] theorem setInsertPoint_blocks (b : Nat) (s : EmitState) :
    (setInsertPoint b s).blocks = s.blocks := rfl

@[simp] theorem labelBodyState_numBlocks (cx : JITFunctionContext) (endTarget : BranchTarget)
    (s : EmitState) : (labelBodyState cx endTarget s).numBlocks = s.numBlocks + 1 + 1 := by
  rw [labelBodyState_eq]; rfl

@[simp] theorem labelBodyState_insertBlock (cx : JITFunctionContext) (endTarget : BranchTarget)
    (s : EmitState) : (labelBodyState cx endTarget s).insertBlock = s.numBlocks := by
  rw [labelBodyState_eq]; rfl

@[simp] theorem labelBodyState_branchContext (cx : JITFunctionContext)
    (endTarget : BranchTarget) (s : EmitState) :
    (labelBodyState cx endTarget s).branchContext =
      ⟨endTarget, s.numBlocks + 1, []⟩ :: s.branchContext := by
  rw [labelBodyState_eq]; rfl

theorem labelBodyState_blocks (cx : JITFunctionContext) (endTarget : BranchTarget)
    (s : EmitState) : (labelBodyState cx endTarget s).blocks =
      (appendCode (if s.insertBlock = cx.unreachableBlock then [] else [.br s.numBlocks])
        s).blocks := by
  rw [labelBodyState_eq]; rfl

theorem good_branch_enter {cx : JITFunctionContext} {s s1 : EmitState}
    (h : Inv cx s1 ∧ Rel cx s s1) (dest X : Nat) (hd1 : s.numBlocks ≤ dest)
    (hd2 : dest < s1.numBlocks) (hX1 : s.numBlocks ≤ X) (hX2 : X < s1.numBlocks)
    (hX3 : s1.blocks X = []) (hX4 : X ≠ s1.insertBlock) :
    Inv cx (setInsertPoint X (compileBranch cx dest s1).2) ∧
      Rel cx s (setInsertPoint X (compileBranch cx dest s1).2) := by
  rw [compileBranch_snd]
  refine good_enter h _ ?_ X hX1 hX2 hX3 hX4
  intro i hi J hJ
  have := branchCode_successors hi hJ
  subst this
  exact ⟨hd1, hd2⟩

theorem forall₂_singleton_left {α β : Type} {R : α → β → Prop} {a : α} {l : List β}
    (h : List.Forall₂ R [a] l) : ∃ b, l = [b] ∧ R a b := by
  cases h with
  | @cons _ b _ t hab ht =>
    cases ht
    exact ⟨b, rfl, hab⟩

/-- What `visitLabel` does, given the frame of the emission of the body. -/
theorem visitLabel_facts (cx : JITFunctionContext) (type : TypeId) (endTarget : BranchTarget)
    (expression : Dispatcher) (hexp : ∀ ty, Frames cx (expression ty)) (s : EmitState)
    (v : Value) (s' : EmitState) (hinv : Inv cx s)
    (h : visitLabel cx type endTarget expression s = .ok (v, s')) :
    ∃ value s6 D outer,
      expression type (labelBodyState cx endTarget s) = .ok (value, s6) ∧
      Inv cx (labelBodyState cx endTarget s) ∧
      Inv cx s6 ∧ Rel cx (labelBodyState cx endTarget s) s6 ∧
      s6.branchContext = D :: outer ∧
      ContextStep cx (labelBodyState cx endTarget s) s6 ⟨endTarget, s.numBlocks + 1, []⟩ D ∧
      Inv cx { s6 with branchContext := outer } ∧ Rel cx s { s6 with branchContext := outer } ∧
      s6.blocks (s.numBlocks + 1) = [] ∧ s.numBlocks + 1 ≠ s6.insertBlock ∧
      s.numBlocks + 1 < s6.numBlocks ∧
      (v, s') =
        (if type = .Void then
          (.voidDummy, setInsertPoint (s.numBlocks + 1)
            (compileBranch cx (s.numBlocks + 1) { s6 with branchContext := outer }).2)
        else insert (.phi type (exitEdge value (exitBlockOf cx s6) ++ phiIncoming D.results))
          (setInsertPoint (s.numBlocks + 1)
            (compileBranch cx (s.numBlocks + 1) { s6 with branchContext := outer }).2)) := by
  have h4 := label_enter hinv
  have h5 : Inv cx (labelBodyState cx endTarget s) := by
    rw [labelBodyState_eq]
    refine h4.1.push _ ?_
    intro c hc
    simp only [List.mem_singleton] at hc
    subst hc
    show s.numBlocks + 1 < s.numBlocks + 1 + 1
    omega
  unfold visitLabel at h
  simp only [createBasicBlock] at h
  generalize hd : expression type _ = r at h
  have hd2 : expression type (labelBodyState cx endTarget s) = r := hd
  clear hd
  cases r with
  | error e => simp at h
  | ok r =>
    obtain ⟨value, s6⟩ := r
    have h6 := hexp type _ _ _ h5 hd2
    have h6' := h6
    rw [labelBodyState_eq] at h6'
    obtain ⟨p', outer, heq, hf, -, hl2, hInv7, hRel7⟩ := good_scoped h4
      [⟨endTarget, s.numBlocks + 1, []⟩] (by simp) h6'
    obtain ⟨D, hp', hD⟩ := forall₂_singleton_left hf
    subst hp'
    have hD : ContextStep cx (labelBodyState cx endTarget s) s6
        ⟨endTarget, s.numBlocks + 1, []⟩ D := by
      rw [labelBodyState_eq]; exact hD
    have hl2' : outer.length = s.branchContext.length := hl2
    have heq' : s6.branchContext = D :: outer := heq
    have hfrozen : Frozen cx (labelBodyState cx endTarget s) (s.numBlocks + 1) := by
      have := hinv.inv0.unreachable_lt
      refine ⟨?_, ?_, ?_⟩ <;> simp
      omega
    have hne : s.numBlocks + 1 ≠ s6.insertBlock := fun hc => h6.2.not_frozen (hc ▸ hfrozen)
    have hempty : s6.blocks (s.numBlocks + 1) = [] := by
      rw [h6.2.step.frozen _ hfrozen, labelBodyState_blocks, appendCode_blocks_of_ne]
      · exact hinv.inv0.fresh_empty _ (by omega)
      · have := hinv.insertBlock_lt
        omega
    have hlt : s.numBlocks + 1 < s6.numBlocks :=
      lt_of_lt_of_le hfrozen.1 h6.2.step.numBlocks_le
    refine ⟨value, s6, D, outer, hd2, h5, h6.1, h6.2, heq', hD, hInv7, hRel7, hempty, hne,
      hlt, ?_⟩
    simp only [heq', setInsertPoint_branchContext, compileBranch_branchContext, hl2', ne_eq,
      not_true_eq_false, if_false] at h
    by_cases hty : type = .Void
    · simp only [hty, if_true] at h ⊢
      exact (Except.ok.inj h).symm
    · simp only [hty, if_false] at h ⊢
      rw [← Except.ok.inj h, compileBranch_fst]
      rfl

theorem visitLabel_frames (cx : JITFunctionContext) (type : TypeId) (endTarget : BranchTarget)
    (expression : Dispatcher) (hexp : ∀ ty, Frames cx (expression ty)) :
    Frames cx (visitLabel cx type endTarget expression) := by
  intro s v s' hinv h
  obtain ⟨value, s6, D, outer, -, -, -, -, -, -, hInv7, hRel7, hempty, hne, hlt, heq⟩ :=
    visitLabel_facts cx type endTarget expression hexp s v s' hinv h
  have hg := good_branch_enter ⟨hInv7, hRel7⟩ (s.numBlocks + 1) (s.numBlocks + 1)
    (by omega) hlt (by omega) hlt hempty hne
  by_cases hty : type = .Void
  · simp only [hty, if_true, Prod.mk.injEq] at heq
    rw [heq.2]
    exact hg
  · simp only [hty, if_false] at heq
    have : s' = (insert (.phi type (exitEdge value (exitBlockOf cx s6) ++
        phiIncoming D.results)) (setInsertPoint (s.numBlocks + 1)
          (compileBranch cx (s.numBlocks + 1) { s6 with branchContext := outer }).2)).2 := by
      rw [← heq]
    rw [this]
    exact good_insert hg _ (by rfl)


/-- The state before the contexts of a loop are put in scope. -/
theorem loopBodyState_eq (cx : JITFunctionContext) (breakTarget continueTarget : BranchTarget)
    (s : EmitState) :
    loopBodyState cx breakTarget continueTarget s =
      { setInsertPoint s.numBlocks
          (appendCode (if s.insertBlock = cx.unreachableBlock then [] else [.br s.numBlocks])
            { s with numBlocks := s.numBlocks + 1 + 1 }) with
        branchContext := [⟨breakTarget, s.numBlocks + 1, []⟩, ⟨continueTarget, s.numBlocks, []⟩] ++
          s.branchContext } := by
  simp only [loopBodyState, createBasicBlock, compileBranch_snd]
  rfl

@[simp] theorem loopBodyState_numBlocks (cx : JITFunctionContext)
    (breakTarget continueTarget : BranchTarget) (s : EmitState) :
    (loopBodyState cx breakTarget continueTarget s).numBlocks = s.numBlocks + 1 + 1 := by
  rw [loopBodyState_eq]; rfl

@[simp] theorem loopBodyState_insertBlock (cx : JITFunctionContext)
    (breakTarget continueTarget : BranchTarget) (s : EmitState) :
    (loopBodyState cx breakTarget continueTarget s).insertBlock = s.numBlocks := by
  rw [loopBodyState_eq]; rfl

@[simp] theorem loopBodyState_branchContext (cx : JITFunctionContext)
    (breakTarget continueTarget : BranchTarget) (s : EmitState) :
    (loopBodyState cx breakTarget continueTarget s).branchContext =
      ⟨breakTarget, s.numBlocks + 1, []⟩ :: ⟨continueTarget, s.numBlocks, []⟩ ::
        s.branchContext := by
  rw [loopBodyState_eq]; rfl

theorem loopBodyState_blocks (cx : JITFunctionContext)
    (breakTarget continueTarget : BranchTarget) (s : EmitState) :
    (loopBodyState cx breakTarget continueTarget s).blocks =
      (appendCode (if s.insertBlock = cx.unreachableBlock then [] else [.br s.numBlocks])
        s).blocks := by
  rw [loopBodyState_eq]; rfl

theorem compileBranch_with_context (cx : JITFunctionContext) (dest : Nat) (s : EmitState)
    (l : List BranchContext) :
    { (compileBranch cx dest s).2 with branchContext := l } =
      (compileBranch cx dest { s with branchContext := l }).2 := by
  simp only [compileBranch_snd]
  rfl

theorem forall₂_pair_left {α β : Type} {R : α → β → Prop} {a1 a2 : α} {l : List β}
    (h : List.Forall₂ R [a1, a2] l) : ∃ b1 b2, l = [b1, b2] ∧ R a1 b1 ∧ R a2 b2 := by
  cases h with
  | @cons _ b1 _ t hab ht =>
    obtain ⟨b2, hb2, hr⟩ := forall₂_singleton_left ht
    subst hb2
    exact ⟨b1, b2, rfl, hab, hr⟩

/-- What `visitLoop` does, given the frame of the emission of the body. -/
theorem visitLoop_facts (cx : JITFunctionContext) (type : TypeId) (expression : Dispatcher)
    (breakTarget continueTarget : BranchTarget) (hexp : ∀ ty, Frames cx (expression ty))
    (s : EmitState) (v : Value) (s' : EmitState) (hinv : Inv cx s)
    (h : visitLoop cx type expression breakTarget continueTarget s = .ok (v, s')) :
    ∃ bodyValue s5 Db Dc outer,
      expression .Void (loopBodyState cx breakTarget continueTarget s) = .ok (bodyValue, s5) ∧
      Inv cx (loopBodyState cx breakTarget continueTarget s) ∧
      Inv cx s5 ∧ Rel cx (loopBodyState cx breakTarget continueTarget s) s5 ∧
      s5.branchContext = Db :: Dc :: outer ∧
      ContextStep cx (loopBodyState cx breakTarget continueTarget s) s5
        ⟨breakTarget, s.numBlocks + 1, []⟩ Db ∧
      ContextStep cx (loopBodyState cx breakTarget continueTarget s) s5
        ⟨continueTarget, s.numBlocks, []⟩ Dc ∧
      Inv cx { s5 with branchContext := outer } ∧ Rel cx s { s5 with branchContext := outer } ∧
      s5.blocks (s.numBlocks + 1) = [] ∧ s.numBlocks + 1 ≠ s5.insertBlock ∧
      s.numBlocks + 1 < s5.numBlocks ∧
      (v, s') =
        (if type = .Void then
          (.voidDummy, setInsertPoint (s.numBlocks + 1)
            (compileBranch cx s.numBlocks { s5 with branchContext := outer }).2)
        else insert (.phi type (phiIncoming Db.results))
          (setInsertPoint (s.numBlocks + 1)
            (compileBranch cx s.numBlocks { s5 with branchContext := outer }).2)) := by
  have h4 := label_enter hinv
  have h5 : Inv cx (loopBodyState cx breakTarget continueTarget s) := by
    rw [loopBodyState_eq]
    refine h4.1.push _ ?_
    intro c hc
    simp only [List.mem_cons, List.mem_singleton, List.not_mem_nil, or_false] at hc
    rcases hc with hc | hc <;> subst hc
    · show s.numBlocks + 1 < s.numBlocks + 1 + 1
      omega
    · show s.numBlocks < s.numBlocks + 1 + 1
      omega
  unfold visitLoop at h
  simp only [createBasicBlock] at h
  generalize hd : expression .Void _ = r at h
  have hd2 : expression .Void (loopBodyState cx breakTarget continueTarget s) = r := hd
  clear hd
  cases r with
  | error e => simp at h
  | ok r =>
    obtain ⟨bodyValue, s5⟩ := r
    have h6 := hexp .Void _ _ _ h5 hd2
    have h6' := h6
    rw [loopBodyState_eq] at h6'
    obtain ⟨p', outer, heq, hf, -, hl2, hInv7, hRel7⟩ := good_scoped h4
      [⟨breakTarget, s.numBlocks + 1, []⟩, ⟨continueTarget, s.numBlocks, []⟩]
      (by simp) h6'
    obtain ⟨Db, Dc, hp', hDb, hDc⟩ := forall₂_pair_left hf
    subst hp'
    have hDb : ContextStep cx (loopBodyState cx breakTarget continueTarget s) s5
        ⟨breakTarget, s.numBlocks + 1, []⟩ Db := by
      rw [loopBodyState_eq]; exact hDb
    have hDc : ContextStep cx (loopBodyState cx breakTarget continueTarget s) s5
        ⟨continueTarget, s.numBlocks, []⟩ Dc := by
      rw [loopBodyState_eq]; exact hDc
    have hl2' : outer.length = s.branchContext.length := hl2
    have heq' : s5.branchContext = Db :: Dc :: outer := heq
    have hfrozen : Frozen cx (loopBodyState cx breakTarget continueTarget s)
        (s.numBlocks + 1) := by
      have := hinv.inv0.unreachable_lt
      refine ⟨?_, ?_, ?_⟩ <;> simp
      omega
    have hne : s.numBlocks + 1 ≠ s5.insertBlock := fun hc => h6.2.not_frozen (hc ▸ hfrozen)
    have hempty : s5.blocks (s.numBlocks + 1) = [] := by
      rw [h6.2.step.frozen _ hfrozen, loopBodyState_blocks, appendCode_blocks_of_ne]
      · exact hinv.inv0.fresh_empty _ (by omega)
      · have := hinv.insertBlock_lt
        omega
    have hlt : s.numBlocks + 1 < s5.numBlocks :=
      lt_of_lt_of_le hfrozen.1 h6.2.step.numBlocks_le
    refine ⟨bodyValue, s5, Db, Dc, outer, hd2, h5, h6.1, h6.2, heq', hDb, hDc, hInv7, hRel7,
      hempty, hne, hlt, ?_⟩
    simp only [compileBranch_branchContext, heq', hl2', ne_eq,
      not_true_eq_false, if_false, compileBranch_with_context] at h
    by_cases hty : type = .Void
    · simp only [hty, if_true] at h ⊢
      exact (Except.ok.inj h).symm
    · simp only [hty, if_false] at h ⊢
      exact (Except.ok.inj h).symm

theorem visitLoop_frames (cx : JITFunctionContext) (type : TypeId) (expression : Dispatcher)
    (breakTarget continueTarget : BranchTarget) (hexp : ∀ ty, Frames cx (expression ty)) :
    Frames cx (visitLoop cx type expression breakTarget continueTarget) := by
  intro s v s' hinv h
  obtain ⟨bodyValue, s5, Db, Dc, outer, -, -, -, -, -, -, -, hInv7, hRel7, hempty, hne, hlt,
    heq⟩ := visitLoop_facts cx type expression breakTarget continueTarget hexp s v s' hinv h
  have hg := good_branch_enter ⟨hInv7, hRel7⟩ s.numBlocks (s.numBlocks + 1)
    (le_refl _) (by show s.numBlocks < s5.numBlocks; omega) (by omega) hlt hempty hne
  by_cases hty : type = .Void
  · simp only [hty, if_true, Prod.mk.injEq] at heq
    rw [heq.2]
    exact hg
  · simp only [hty, if_false] at heq
    have : s' = (insert (.phi type (phiIncoming Db.results)) (setInsertPoint (s.numBlocks + 1)
          (compileBranch cx s.numBlocks { s5 with branchContext := outer }).2)).2 := by
      rw [← heq]
    rw [this]
    exact good_insert hg _ (by rfl)


@[simp] theorem compileCondBranch_numBlocks (cx : JITFunctionContext) (condition : Value)
    (trueDest falseDest : Nat) (s : EmitState) :
    (compileCondBranch cx condition trueDest falseDest s).2.numBlocks = s.numBlocks := by
  rw [compileCondBranch_snd]; rfl

theorem good_condBranch_enter {cx : JITFunctionContext} {s s1 : EmitState}
    (h : Inv cx s1 ∧ Rel cx s s1) (condition : Value) (trueDest falseDest X : Nat)
    (ht1 : s.numBlocks ≤ trueDest) (ht2 : trueDest < s1.numBlocks)
    (hf1 : s.numBlocks ≤ falseDest) (hf2 : falseDest < s1.numBlocks)
    (hX1 : s.numBlocks ≤ X) (hX2 : X < s1.numBlocks)
    (hX3 : s1.blocks X = []) (hX4 : X ≠ s1.insertBlock) :
    Inv cx (setInsertPoint X (compileCondBranch cx condition trueDest falseDest s1).2) ∧
      Rel cx s (setInsertPoint X (compileCondBranch cx condition trueDest falseDest s1).2) := by
  rw [compileCondBranch_snd]
  refine good_enter h _ ?_ X hX1 hX2 hX3 hX4
  intro i hi J hJ
  by_cases hc : s1.insertBlock = cx.unreachableBlock
  · simp [hc] at hi
  · simp only [hc, if_false, List.mem_singleton] at hi
    subst hi
    simp only [Inst.successors, List.mem_cons, List.mem_singleton, List.not_mem_nil,
      or_false] at hJ
    rcases hJ with hJ | hJ <;> subst hJ
    · exact ⟨ht1, ht2⟩
    · exact ⟨hf1, hf2⟩

theorem compileBranch_blocks_of_ne (cx : JITFunctionContext) (dest : Nat) (s : EmitState)
    (b : Nat) (hb : b ≠ s.insertBlock) : (compileBranch cx dest s).2.blocks b = s.blocks b := by
  rw [compileBranch_snd, appendCode_blocks_of_ne _ _ _ hb]

theorem compileCondBranch_blocks_of_ne (cx : JITFunctionContext) (condition : Value)
    (trueDest falseDest : Nat) (s : EmitState) (b : Nat) (hb : b ≠ s.insertBlock) :
    (compileCondBranch cx condition trueDest falseDest s).2.blocks b = s.blocks b := by
  rw [compileCondBranch_snd, appendCode_blocks_of_ne _ _ _ hb]

theorem visitIfElse_frames (cx : JITFunctionContext) (type : TypeId)
    (condition thenExpression elseExpression : Dispatcher)
    (hc : ∀ ty, Frames cx (condition ty)) (ht : ∀ ty, Frames cx (thenExpression ty))
    (he : ∀ ty, Frames cx (elseExpression ty)) :
    Frames cx (visitIfElse cx type condition thenExpression elseExpression) := by
  intro s v s' hinv h
  unfold visitIfElse at h
  cases hcd : condition .Bool s with
  | error e => simp [hcd] at h
  | ok r =>
    obtain ⟨cond, s1⟩ := r
    simp only [hcd, createBasicBlock] at h
    have hg1 := good_trans (good_refl hinv) (hc _) hcd
    have hn1 := hg1.2.step.numBlocks_le
    have hi1 := hg1.1.insertBlock_lt
    have hu1 := hg1.1.inv0.unreachable_lt
    have hg4 : Inv cx { s1 with numBlocks := s1.numBlocks + 1 + 1 + 1 } ∧
        Rel cx s { s1 with numBlocks := s1.numBlocks + 1 + 1 + 1 } :=
      good_create (good_create (good_create hg1 1) 1) 1
    have hgT := good_condBranch_enter hg4 cond s1.numBlocks (s1.numBlocks + 1) s1.numBlocks
      hn1 (by show s1.numBlocks < s1.numBlocks + 1 + 1 + 1; omega) (by omega)
      (by show s1.numBlocks + 1 < s1.numBlocks + 1 + 1 + 1; omega) hn1
      (by show s1.numBlocks < s1.numBlocks + 1 + 1 + 1; omega)
      (hg1.1.inv0.fresh_empty _ (le_refl _))
      (by show s1.numBlocks ≠ s1.insertBlock; omega)
    generalize hd : thenExpression type _ = r at h
    have hd2 : thenExpression type (setInsertPoint s1.numBlocks
        (compileCondBranch cx cond s1.numBlocks (s1.numBlocks + 1)
          { s1 with numBlocks := s1.numBlocks + 1 + 1 + 1 }).2) = r := hd
    clear hd
    cases r with
    | error e => simp at h
    | ok r =>
      obtain ⟨trueValue, s6⟩ := r
      have h6 := ht type _ _ _ hgT.1 hd2
      have hg6 : Inv cx s6 ∧ Rel cx s s6 := ⟨h6.1, hgT.2.rel_trans h6.2⟩
      have hnT : s1.numBlocks + 1 + 1 + 1 ≤ s6.numBlocks := by
        have := h6.2.step.numBlocks_le
        simpa using this
      have hres : ∀ X, s1.numBlocks < X → X < s1.numBlocks + 1 + 1 + 1 →
          s6.blocks X = [] ∧ X ≠ s6.insertBlock := by
        intro X hX1 hX2
        have hfr : Frozen cx (setInsertPoint s1.numBlocks
            (compileCondBranch cx cond s1.numBlocks (s1.numBlocks + 1)
              { s1 with numBlocks := s1.numBlocks + 1 + 1 + 1 }).2) X := by
          refine ⟨?_, ?_, ?_⟩
          · rw [compileCondBranch_snd]; exact hX2
          · show X ≠ s1.numBlocks
            omega
          · omega
        refine ⟨?_, fun hX => h6.2.not_frozen (hX ▸ hfr)⟩
        rw [h6.2.step.frozen X hfr]
        show (compileCondBranch cx cond s1.numBlocks (s1.numBlocks + 1) _).2.blocks X = []
        rw [compileCondBranch_blocks_of_ne]
        · exact hg1.1.inv0.fresh_empty X (by omega)
        · show X ≠ s1.insertBlock
          omega
      have hgF := good_branch_enter hg6 (s1.numBlocks + 1 + 1) (s1.numBlocks + 1)
        (by omega) (by omega) (by omega) (by omega)
        (hres (s1.numBlocks + 1) (by omega) (by omega)).1
        (hres (s1.numBlocks + 1) (by omega) (by omega)).2
      simp only [] at h
      generalize hd : elseExpression type _ = r at h
      have hd3 : elseExpression type (setInsertPoint (s1.numBlocks + 1)
          (compileBranch cx (s1.numBlocks + 1 + 1) s6).2) = r := hd
      clear hd
      cases r with
      | error e => simp at h
      | ok r =>
        obtain ⟨falseValue, s8⟩ := r
        have h8 := he type _ _ _ hgF.1 hd3
        have hg8 : Inv cx s8 ∧ Rel cx s s8 := ⟨h8.1, hgF.2.rel_trans h8.2⟩
        have hnF : s6.numBlocks ≤ s8.numBlocks := by
          have := h8.2.step.numBlocks_le
          simpa using this
        have hfr : Frozen cx (setInsertPoint (s1.numBlocks + 1)
            (compileBranch cx (s1.numBlocks + 1 + 1) s6).2) (s1.numBlocks + 1 + 1) := by
          refine ⟨?_, ?_, ?_⟩
          · show s1.numBlocks + 1 + 1 < (compileBranch cx _ s6).2.numBlocks
            rw [compileBranch_numBlocks]
            omega
          · show s1.numBlocks + 1 + 1 ≠ s1.numBlocks + 1
            omega
          · omega
        have hS := hres (s1.numBlocks + 1 + 1) (by omega) (by omega)
        have hempty : s8.blocks (s1.numBlocks + 1 + 1) = [] := by
          rw [h8.2.step.frozen _ hfr]
          show (compileBranch cx _ s6).2.blocks (s1.numBlocks + 1 + 1) = []
          rw [compileBranch_blocks_of_ne _ _ _ _ hS.2]
          exact hS.1
        have hg10 := good_branch_enter hg8 (s1.numBlocks + 1 + 1) (s1.numBlocks + 1 + 1)
          (by omega) (by omega) (by omega) (by omega) hempty
          (fun hX => h8.2.not_frozen (hX ▸ hfr))
        by_cases hty : type = .Void
        · simp only [hty, if_true] at h
          rw [snd_eq h]
          exact hg10
        · simp only [hty, if_false] at h
          rw [snd_eq h]
          exact good_insert hg10 _ (by rfl)


theorem finishSwitchArm_step (cx : JITFunctionContext) (type : TypeId) (isFinalArm : Bool)
    (next S : Nat) (armValue : Value) (s1 : EmitState) (F : Nat → Prop) (B : Nat)
    (hF : ¬ F s1.insertBlock) (hB1 : B ≤ next) (hB2 : B ≤ S) (hinv : Inv cx s1)
    (hnext : next < s1.numBlocks) (hS : S < s1.numBlocks)
    (hhead : ∃ D outer, s1.branchContext = D :: outer ∧ D.basicBlock = S) :
    Step cx F B s1 (finishSwitchArm cx type isFinalArm next S armValue s1) ∧
      Inv0 cx (finishSwitchArm cx type isFinalArm next S armValue s1) ∧
      (∀ X, X ≠ s1.insertBlock →
        (finishSwitchArm cx type isFinalArm next S armValue s1).blocks X = s1.blocks X) ∧
      (finishSwitchArm cx type isFinalArm next S armValue s1).numBlocks = s1.numBlocks := by
  have hplain : ∀ dest, B ≤ dest → dest < s1.numBlocks →
      Step cx F B s1 (compileBranch cx dest s1).2 ∧ Inv0 cx (compileBranch cx dest s1).2 ∧
      (∀ X, X ≠ s1.insertBlock → (compileBranch cx dest s1).2.blocks X = s1.blocks X) ∧
      (compileBranch cx dest s1).2.numBlocks = s1.numBlocks := by
    intro dest hd1 hd2
    refine ⟨?_, ?_, fun X hX => compileBranch_blocks_of_ne cx dest s1 X hX, by simp⟩
    · rw [compileBranch_snd]
      refine Step.step_appendCode cx F B s1 _ hF ?_
      intro i hi J hJ
      rw [branchCode_successors hi hJ]
      exact hd1
    · rw [compileBranch_snd]
      refine hinv.inv0.inv0_appendCode hinv.insertBlock_lt _ ?_
      intro i hi J hJ
      rw [branchCode_successors hi hJ]
      exact hd2
  unfold finishSwitchArm
  cases isFinalArm with
  | false => exact hplain next hB1 hnext
  | true =>
    simp only [if_true]
    by_cases hu : s1.insertBlock = cx.unreachableBlock
    · have h1 : compileBranch cx S s1 = (none, s1) := by simp [compileBranch, hu]
      rw [h1]
      exact ⟨Step.step_refl cx F B s1, hinv.inv0, fun _ _ => rfl, rfl⟩
    · have h1 : compileBranch cx S s1 = (some s1.insertBlock, appendCode [.br S] s1) := by
        simp [compileBranch, hu, insert_eq]
      have hp := hplain S hB2 hS
      rw [h1] at hp
      rw [h1]
      by_cases hty : type = .Void
      · simp only [hty, ne_eq, not_true_eq_false, if_false]
        exact hp
      · simp only [hty, ne_eq, not_false_eq_true, if_true]
        obtain ⟨D, outer, hD, hDS⟩ := hhead
        have hadd := Step.addResult cx F B s1 hF hu (hinv.insert_open hu) 0 D
          (by rw [hD]; simp) armValue
        rw [hDS] at hadd
        refine ⟨hadd, ?_, hp.2.2.1, rfl⟩
        exact hp.2.1.inv0_of_same rfl (le_refl _)
          (contexts_basicBlock_lt hadd.contexts _ hinv.inv0.contexts_lt)


theorem contexts_head {cx : JITFunctionContext} {s s' : EmitState} {l l' : List BranchContext}
    (h : List.Forall₂ (ContextStep cx s s') l l') (S : Nat)
    (hl : ∃ D outer, l = D :: outer ∧ D.basicBlock = S) :
    ∃ D outer, l' = D :: outer ∧ D.basicBlock = S := by
  obtain ⟨D, outer, hD, hS⟩ := hl
  subst hD
  cases h with
  | @cons _ D1 _ t hab _ => exact ⟨D1, t, rfl, hab.2.1.trans hS⟩

/-- One round of the arm loop of `visitSwitch`. -/
theorem switchArm_step (cx : JITFunctionContext) (type : TypeId) (isFinalArm : Bool)
    (A S i : Nat) (d : EmitState → EmitResult Value) (hd : Frames cx d) (s s1 : EmitState)
    (armValue : Value) (hready : ArmsReady cx A S i s) (hbound : A + i + 1 ≤ S)
    (h : d (setInsertPoint (A + i) s) = .ok (armValue, s1)) :
    ArmsReady cx A S (i + 1) (finishSwitchArm cx type isFinalArm (A + i + 1) S armValue s1) ∧
      Step cx (fun b => b < A ∧ b ≠ cx.unreachableBlock) A s
        (finishSwitchArm cx type isFinalArm (A + i + 1) S armValue s1) := by
  have hu := hready.unreachable_lt
  have hSlt := hready.successor_lt
  have hA : Inv cx (setInsertPoint (A + i) s) :=
    Inv.at_empty hready.inv0 (A + i) (by omega) (hready.reserved _ (le_refl _) (by omega))
  have h1 := hd _ armValue s1 hA h
  have hn1 : s.numBlocks ≤ s1.numBlocks := h1.2.step.numBlocks_le
  have hfr : ∀ X, A + i + 1 ≤ X → X ≤ S → Frozen cx (setInsertPoint (A + i) s) X := by
    intro X hX1 hX2
    refine ⟨?_, ?_, ?_⟩
    · show X < s.numBlocks
      omega
    · show X ≠ A + i
      omega
    · omega
  have hnotF : ¬ (s1.insertBlock < A ∧ s1.insertBlock ≠ cx.unreachableBlock) := by
    rintro ⟨hlt, hne⟩
    rcases h1.2.insertBlock_cases with hc | hc | hc
    · have hc' : s1.insertBlock = A + i := hc
      omega
    · exact hne hc
    · have hc' : s.numBlocks ≤ s1.insertBlock := hc
      omega
  have hhead := contexts_head h1.2.step.contexts S hready.head
  obtain ⟨hstep, hinv0, hblocks, hnum⟩ := finishSwitchArm_step cx type isFinalArm (A + i + 1) S
    armValue s1 (fun b => b < A ∧ b ≠ cx.unreachableBlock) A hnotF (by omega) (by omega) h1.1
    (by omega) (by omega) hhead
  constructor
  · refine ⟨hinv0, hu, by rw [hnum]; omega, ?_, contexts_head hstep.contexts S hhead⟩
    intro X hX1 hX2
    have hXf := hfr X (by omega) hX2
    rw [hblocks X (fun hc => h1.2.not_frozen (hc ▸ hXf)), h1.2.step.frozen X hXf]
    exact hready.reserved X (by omega) hX2
  · refine Step.step_trans (Step.step_of_same cx _ _ s (setInsertPoint (A + i) s) rfl rfl (le_refl _))
      (Step.step_trans (Step.step_mono ?_ ?_ h1.2.step) hstep)
    · rintro b ⟨hb1, hb2⟩
      refine ⟨?_, ?_, hb2⟩
      · show b < s.numBlocks
        omega
      · show b ≠ A + i
        omega
    · show A ≤ s.numBlocks
      omega


theorem switchCases_targets (keyType : TypeId) (defaultArmIndex A : Nat) (keys : List Nat)
    (index : Nat) :
    ∀ p ∈ switchCases keyType defaultArmIndex A index keys,
      A + index ≤ p.2 ∧ p.2 < A + index + keys.length := by
  induction keys generalizing index with
  | nil => simp [switchCases]
  | cons key keys ih =>
    intro p hp
    unfold switchCases at hp
    have hrest : ∀ q ∈ switchCases keyType defaultArmIndex A (index + 1) keys,
        A + index ≤ q.2 ∧ q.2 < A + index + (key :: keys).length := by
      intro q hq
      have := ih (index + 1) q hq
      simp only [List.length_cons]
      omega
    by_cases hi : index = defaultArmIndex
    · simp only [hi, ne_eq, not_true_eq_false, if_false] at hp
      exact hrest p (by rw [hi]; exact hp)
    · simp only [hi, ne_eq, not_false_eq_true, if_true, List.mem_cons] at hp
      rcases hp with hp | hp
      · subst hp
        simp only [List.length_cons]
        omega
      · exact hrest p hp

theorem SwitchArms.keys_length : ∀ arms : SwitchArms, arms.keys.length = arms.numArms
  | .nil => rfl
  | .cons _ _ rest => by
    simp [SwitchArms.keys, SwitchArms.numArms, SwitchArms.keys_length rest]

theorem visitSwitch_frames (cx : JITFunctionContext) (type : TypeId)
    (key : EmitState → EmitResult Value) (keyType : TypeId) (numArms : Nat)
    (armKeys : List Nat) (defaultArmIndex : Nat) (endTarget : BranchTarget)
    (arms : Nat → Nat → EmitState → EmitResult Unit) (hkey : Frames cx key)
    (hkeys : armKeys.length ≤ numArms)
    (harms : ∀ A S s5 u s6, ArmsReady cx A S 0 s5 → A + numArms ≤ S →
      arms A S s5 = .ok (u, s6) → ArmsDone cx A S s5 s6) :
    Frames cx (visitSwitch type key keyType numArms armKeys defaultArmIndex endTarget arms) := by
  intro s v s' hinv h
  unfold visitSwitch at h
  cases hk : key s with
  | error e => simp [hk] at h
  | ok r =>
    obtain ⟨value, s1⟩ := r
    simp only [hk, createBasicBlocks, createBasicBlock] at h
    have hg1 := good_trans (good_refl hinv) hkey hk
    have hn1 := hg1.2.step.numBlocks_le
    have hi1 := hg1.1.insertBlock_lt
    have hu1 := hg1.1.inv0.unreachable_lt
    by_cases h1 : endTarget.type = type
    swap
    · simp [h1] at h
    by_cases h2 : 0 < numArms
    swap
    · simp [h1, h2] at h
    by_cases h3 : defaultArmIndex < numArms
    swap
    · simp [h1, h2, h3] at h
    simp only [h1, h2, h3, ne_eq, not_true_eq_false, if_false, insert_eq] at h
    -- the state before the context of the switch is put in scope
    have hg3 : Inv cx { s1 with numBlocks := s1.numBlocks + numArms + 1 } ∧
        Rel cx s { s1 with numBlocks := s1.numBlocks + numArms + 1 } :=
      good_create (good_create hg1 numArms) 1
    have hsucc : ∀ i ∈ [Inst.switch value (s1.numBlocks + defaultArmIndex)
        (switchCases keyType defaultArmIndex s1.numBlocks 0 armKeys)],
        ∀ J ∈ i.successors, s1.numBlocks ≤ J ∧ J < s1.numBlocks + numArms + 1 := by
      intro i hi J hJ
      simp only [List.mem_singleton] at hi
      subst hi
      simp only [Inst.successors, List.mem_cons, List.mem_map] at hJ
      rcases hJ with hJ | ⟨p, hp, hJ⟩
      · omega
      · have := switchCases_targets keyType defaultArmIndex s1.numBlocks armKeys 0 p hp
        omega
    have hready : ArmsReady cx s1.numBlocks (s1.numBlocks + numArms) 0
        (appendCode [Inst.switch value (s1.numBlocks + defaultArmIndex)
          (switchCases keyType defaultArmIndex s1.numBlocks 0 armKeys)]
          { s1 with numBlocks := s1.numBlocks + numArms + 1,
                    branchContext := ⟨endTarget, s1.numBlocks + numArms, []⟩ ::
                      s1.branchContext }) := by
      refine ⟨?_, hu1, ?_, ?_, ⟨_, _, rfl, rfl⟩⟩
      · refine Inv0.inv0_appendCode (hg3.1.push [⟨endTarget, s1.numBlocks + numArms, []⟩] ?_).inv0
          (by show s1.insertBlock < s1.numBlocks + numArms + 1; omega) _
          (fun i hi J hJ => (hsucc i hi J hJ).2)
        intro c hc
        simp only [List.mem_singleton] at hc
        subst hc
        show s1.numBlocks + numArms < s1.numBlocks + numArms + 1
        omega
      · show s1.numBlocks + numArms < s1.numBlocks + numArms + 1
        omega
      · intro X hX1 hX2
        rw [appendCode_blocks_of_ne]
        · exact hg1.1.inv0.fresh_empty X (by omega)
        · show X ≠ s1.insertBlock
          omega
    generalize hd : arms _ _ _ = r at h
    cases r with
    | error e => simp at h
    | ok r =>
      obtain ⟨u, s6⟩ := r
      have hdone := harms _ _ _ u s6 hready (le_refl _) hd
      have hstep : Step cx (Frozen cx s) s.numBlocks _ s6 :=
        Step.step_mono (fun b hb => ⟨lt_of_lt_of_le hb.1 hn1, hb.2.2⟩) hn1 hdone.step
      obtain ⟨p', outer, heq, hf, -, hl2, hpop⟩ := hstep.pop
        [⟨endTarget, s1.numBlocks + numArms, []⟩] s1.branchContext rfl
        (by
          intro c hc
          simp only [List.mem_singleton] at hc
          subst hc
          show s.numBlocks ≤ s1.numBlocks + numArms
          omega)
      obtain ⟨D, hp', -⟩ := forall₂_singleton_left hf
      subst hp'
      have heq' : s6.branchContext = D :: outer := heq
      have hn6 : s1.numBlocks + numArms + 1 ≤ s6.numBlocks := hdone.step.numBlocks_le
      have hRel : Rel cx s (setInsertPoint (s1.numBlocks + numArms)
          { s6 with branchContext := outer }) := by
        refine ⟨Step.step_trans (hg3.2.rel_appendCode _ (fun i hi J hJ =>
          le_trans hn1 (hsucc i hi J hJ).1)).step (Step.step_trans hpop
            (Step.step_of_same cx _ _ _ _ rfl rfl (le_refl _))), Or.inr (Or.inr ?_)⟩
        show s.numBlocks ≤ s1.numBlocks + numArms
        omega
      have hInv : Inv cx (setInsertPoint (s1.numBlocks + numArms)
          { s6 with branchContext := outer }) := by
        have hI0 : Inv0 cx { s6 with branchContext := outer } := by
          refine hdone.inv0.inv0_of_same rfl (le_refl _) ?_
          intro c hc
          exact hdone.inv0.contexts_lt c (by rw [heq']; exact List.mem_cons_of_mem _ hc)
        have hlt : s1.numBlocks + numArms < s6.numBlocks := by omega
        exact Inv.at_empty hI0 _ hlt hdone.successor_empty
      have hl2' : outer.length = s1.branchContext.length := hl2
      simp only [heq', hl2', ne_eq, not_true_eq_false, if_false] at h
      by_cases hty : type = .Void
      · simp only [hty, if_true] at h
        rw [snd_eq h]
        exact ⟨hInv, hRel⟩
      · simp only [hty, if_false] at h
        rw [snd_eq h]
        exact good_insert ⟨hInv, hRel⟩ _ (by rfl)


mutual
/-- The emission of an expression keeps the frame. -/
theorem dispatch_frames (cx : JITFunctionContext) :
    ∀ (e : Expression) (ty : TypeId), Frames cx (dispatch cx e ty)
  | .literal t value, _ => fun s v s' hinv h => visitLiteral_frames cx t value s v s' hinv h
  | .error _, _ => fun s v s' hinv h => visitError_frames cx s v s' hinv h
  | .getLocal i, _ => fun s v s' hinv h => visitGetLocal_frames cx i s v s' hinv h
  | .setLocal i value, _ => fun s v s' hinv h =>
    visitSetLocal_frames cx i _ (fun t => dispatch_frames cx value t) s v s' hinv h
  | .load op address far align memoryType, ty => fun s v s' hinv h =>
    visitLoad_frames cx ty op _ far align memoryType (fun t => dispatch_frames cx address t)
      s v s' hinv h
  | .store isInt address far align value valueType memoryType, _ => fun s v s' hinv h =>
    visitStore_frames cx isInt _ far align _ valueType memoryType
      (fun t => dispatch_frames cx address t) (fun t => dispatch_frames cx value t)
      s v s' hinv h
  | .callDirect f parameters, ty => fun s v s' hinv h =>
    visitCallDirect_frames cx ty f _ (fun tys => dispatchArguments_frames cx parameters tys)
      s v s' hinv h
  | .callImport f parameters, ty => fun s v s' hinv h =>
    visitCallImport_frames cx ty f _ (fun tys => dispatchArguments_frames cx parameters tys)
      s v s' hinv h
  | .callIndirect table f parameters, ty => fun s v s' hinv h =>
    visitCallIndirect_frames cx ty table _ _ (fun t => dispatch_frames cx f t)
      (fun tys => dispatchArguments_frames cx parameters tys) s v s' hinv h
  | .switch key keyType arms defaultArmIndex endTarget, ty => fun s v s' hinv h =>
    visitSwitch_frames cx ty _ keyType arms.numArms arms.keys defaultArmIndex endTarget _
      (dispatch_frames cx key keyType) (le_of_eq arms.keys_length)
      (fun A S s5 u s6 hready hb hs =>
        visitSwitchArms_frames cx ty keyType defaultArmIndex arms.numArms A S arms 0 s5 u s6
          hready hb hs)
      s v s' hinv h
  | .ifElse c t e, ty => fun s v s' hinv h =>
    visitIfElse_frames cx ty _ _ _ (fun t' => dispatch_frames cx c t')
      (fun t' => dispatch_frames cx t t') (fun t' => dispatch_frames cx e t') s v s' hinv h
  | .label endTarget e, ty => fun s v s' hinv h =>
    visitLabel_frames cx ty endTarget _ (fun t => dispatch_frames cx e t) s v s' hinv h
  | .sequence a b, ty => fun s v s' hinv h =>
    visitSequence_frames cx ty _ _ (fun t => dispatch_frames cx a t)
      (fun t => dispatch_frames cx b t) s v s' hinv h
  | .ret value, ty => fun s v s' hinv h =>
    visitReturn_frames cx ty _ (fun t => dispatch_frames cx value t) s v s' hinv h
  | .loop e breakTarget continueTarget, ty => fun s v s' hinv h =>
    visitLoop_frames cx ty _ breakTarget continueTarget (fun t => dispatch_frames cx e t)
      s v s' hinv h
  | .branch target value, ty => fun s v s' hinv h =>
    visitBranch_frames cx ty target _ (fun t => dispatch_frames cx value t) s v s' hinv h
  | .nop, _ => fun s v s' hinv h => visitNop_frames cx s v s' hinv h
  | .discardResult e t, _ => fun s v s' hinv h =>
    visitDiscardResult_frames cx _ (dispatch_frames cx e t) s v s' hinv h
  | .unary op operand, ty => fun s v s' hinv h =>
    visitUnary_frames cx ty op _ (fun t => dispatch_frames cx operand t) s v s' hinv h
  | .binary op l r, ty => fun s v s' hinv h =>
    visitBinary_frames cx ty op _ _ (fun t => dispatch_frames cx l t)
      (fun t => dispatch_frames cx r t) s v s' hinv h
  | .cast op source sourceType, ty => fun s v s' hinv h =>
    visitCast_frames cx ty op _ (dispatch_frames cx source sourceType) s v s' hinv h
  | .comparison op operandType l r, _ => fun s v s' hinv h =>
    visitComparison_frames cx op operandType _ _ (fun t => dispatch_frames cx l t)
      (fun t => dispatch_frames cx r t) s v s' hinv h
/-- The emission of the arguments of a call keeps the frame. -/
theorem dispatchArguments_frames (cx : JITFunctionContext) :
    ∀ (l : ExpressionList) (tys : List TypeId), Frames cx (dispatchArguments cx l tys)
  | .nil, [] => fun s v s' hinv h => by
    rw [dispatchArguments] at h
    rw [snd_eq h]
    exact good_refl hinv
  | .nil, _ :: _ => fun s v s' hinv h => by
    rw [dispatchArguments] at h
    simp at h
  | .cons arg rest, [] => fun s v s' hinv h => by
    rw [dispatchArguments] at h
    rw [snd_eq h]
    exact good_refl hinv
  | .cons arg rest, parameter :: parameters => fun s v s' hinv h => by
    rw [dispatchArguments] at h
    cases hd : dispatch cx arg parameter s with
    | error e => simp [hd] at h
    | ok r =>
      obtain ⟨a, s1⟩ := r
      simp only [hd] at h
      have h1 := dispatch_frames cx arg parameter s a s1 hinv hd
      cases hr : dispatchArguments cx rest parameters s1 with
      | error e => simp [hr] at h
      | ok r2 =>
        obtain ⟨vs, s2⟩ := r2
        simp only [hr] at h
        rw [snd_eq h]
        have h2 := dispatchArguments_frames cx rest parameters s1 vs s2 h1.1 hr
        exact ⟨h2.1, h1.2.rel_trans h2.2⟩
/-- The arm loop of a switch, from an arm on, is a step that leaves the blocks created
before the switch as they are. -/
theorem visitSwitchArms_frames (cx : JITFunctionContext) (type keyType : TypeId)
    (defaultArmIndex numArms A S : Nat) :
    ∀ (arms : SwitchArms) (i : Nat) (s : EmitState) (u : Unit) (s' : EmitState),
      ArmsReady cx A S i s → A + i + arms.numArms ≤ S →
      visitSwitchArms cx type keyType defaultArmIndex numArms A S arms i s = .ok (u, s') →
      ArmsDone cx A S s s'
  | .nil, i, s, u, s', hready, hb, h => by
    rw [visitSwitchArms] at h
    rw [snd_eq h]
    exact ⟨hready.inv0, Step.step_refl cx _ _ s,
      hready.reserved S (by simpa [SwitchArms.numArms] using hb) (le_refl _)⟩
  | .cons key value rest, i, s, u, s', hready, hb, h => by
    rw [visitSwitchArms] at h
    have hb' : A + i + rest.numArms + 1 ≤ S := by simpa [SwitchArms.numArms, Nat.add_assoc] using hb
    by_cases hk : i ≠ defaultArmIndex ∧ isIntType keyType = false
    · simp [hk] at h
    · simp only [hk, if_false, decide_eq_true_eq] at h
      cases hd : dispatch cx value (if i + 1 = numArms then type else .Void)
          (setInsertPoint (A + i) s) with
      | error e => simp [hd] at h
      | ok r =>
        obtain ⟨armValue, s1⟩ := r
        simp only [hd] at h
        obtain ⟨hready1, hstep⟩ := switchArm_step cx type (decide (i + 1 = numArms)) A S i _
          (dispatch_frames cx value _) s s1 armValue hready (by omega) hd
        have hdone := visitSwitchArms_frames cx type keyType defaultArmIndex numArms A S rest
          (i + 1) _ u s' hready1 (by omega) h
        exact ⟨hdone.inv0, Step.step_trans hstep hdone.step, hdone.successor_empty⟩
end


theorem forall₂_of_mem_zip {α β : Type} {R : α → β → Prop} {l : List α} {l' : List β}
    (h : List.Forall₂ R l l') (p : α × β) (hp : p ∈ List.zip l l') : R p.1 p.2 := by
  induction h with
  | nil => simp at hp
  | @cons a b t t' hab _ ih =>
    simp only [List.zip_cons_cons, List.mem_cons] at hp
    rcases hp with hp | hp
    · subst hp; exact hab
    · exact ih hp

/-- The blocks that jump to a block that existed before a step: those that did before, and
those from which an edge was added to an in-scope context of the block. -/
theorem Step.jumpsTo_iff {cx : JITFunctionContext} {F : Nat → Prop} {B : Nat}
    {s s' : EmitState} (h : Step cx F B s s') (J b : Nat) (hJ : J < B) :
    JumpsTo s' b J ↔ JumpsTo s b J ∨ NewEdge s s' J b := by
  constructor
  · exact h.edges J b hJ
  · rintro (hj | ⟨p, hp, hpJ, hpb⟩)
    · exact JumpsTo_mono (h.blocks_extend b) hj
    · have := (forall₂_of_mem_zip h.contexts p hp).2.2.2.2 b hpb
      rw [← hpJ]
      exact this.2.2

theorem newEdge_cons_iff (s s' : EmitState) (D0 D : BranchContext)
    (st0 outer : List BranchContext) (h0 : s.branchContext = D0 :: st0)
    (h1 : s'.branchContext = D :: outer) (J b : Nat) :
    NewEdge s s' J b ↔ (D0.basicBlock = J ∧ b ∈ incomingBlocks (newResults D0 D)) ∨
      ∃ p ∈ List.zip st0 outer, p.1.basicBlock = J ∧ b ∈ incomingBlocks (newResults p.1 p.2) := by
  unfold NewEdge
  rw [h0, h1]
  simp only [List.zip_cons_cons, List.mem_cons]
  constructor
  · rintro ⟨p, hp | hp, h2, h3⟩
    · subst hp; exact Or.inl ⟨h2, h3⟩
    · exact Or.inr ⟨p, hp, h2, h3⟩
  · rintro (⟨h2, h3⟩ | ⟨p, hp, h2, h3⟩)
    · exact ⟨(D0, D), Or.inl rfl, h2, h3⟩
    · exact ⟨p, Or.inr hp, h2, h3⟩

theorem JumpsTo_compileBranch (cx : JITFunctionContext) (dest : Nat) (s : EmitState)
    (b J : Nat) :
    JumpsTo (compileBranch cx dest s).2 b J ↔
      JumpsTo s b J ∨ (b = s.insertBlock ∧ s.insertBlock ≠ cx.unreachableBlock ∧ J = dest) := by
  rw [compileBranch_snd]
  constructor
  · intro h
    rcases JumpsTo_appendCode h with h | ⟨hb, i, hi, hJ⟩
    · exact Or.inl h
    · right
      by_cases hu : s.insertBlock = cx.unreachableBlock
      · simp [hu] at hi
      · exact ⟨hb, hu, branchCode_successors hi hJ⟩
  · rintro (h | ⟨hb, hu, hJ⟩)
    · exact JumpsTo_mono (appendCode_extend _ s b) h
    · subst hb
      subst hJ
      exact ⟨.br J, by simp [hu], by simp [Inst.successors]⟩

theorem JumpsTo_insert_plain (i : Inst) (hi : i.isTerminator = false) (s : EmitState)
    (b J : Nat) : JumpsTo (insert i s).2 b J ↔ JumpsTo s b J := by
  rw [insert_eq]
  constructor
  · intro h
    rcases JumpsTo_appendCode h with h | ⟨-, i', hi', hJ⟩
    · exact h
    · simp only [List.mem_singleton] at hi'
      subst hi'
      rw [successors_of_not_terminator _ hi] at hJ
      simp at hJ
  · exact JumpsTo_mono (appendCode_extend _ s b)

theorem findTargetContext_of_first {branchTarget : BranchTarget} {l : List BranchContext}
    {k : Nat} {c : BranchContext} (hk : l[k]? = some c) (hc : c.branchTarget = branchTarget)
    (hfirst : ∀ j c', j < k → l[j]? = some c' → c'.branchTarget ≠ branchTarget) :
    findTargetContext branchTarget l = some (k, c) := by
  induction l generalizing k with
  | nil => simp at hk
  | cons c0 t ih =>
    unfold findTargetContext
    cases k with
    | zero =>
      simp only [List.getElem?_cons_zero, Option.some.injEq] at hk
      subst hk
      simp [hc]
    | succ k =>
      have h0 : c0.branchTarget ≠ branchTarget := hfirst 0 c0 (by omega) (by simp)
      simp only [List.getElem?_cons_succ] at hk
      have := ih hk (fun j c' hj hjc => hfirst (j + 1) c' (by omega) (by simpa using hjc))
      simp [h0, this]

theorem findTargetContext_eq_none_iff (branchTarget : BranchTarget) (l : List BranchContext) :
    findTargetContext branchTarget l = none ↔ ∀ c ∈ l, c.branchTarget ≠ branchTarget := by
  constructor
  · exact findTargetContext_none
  · intro h
    cases hf : findTargetContext branchTarget l with
    | none => rfl
    | some p =>
      obtain ⟨k, c⟩ := p
      obtain ⟨h1, h2, -⟩ := findTargetContext_some hf
      exact absurd h2 (h c (List.getElem?_mem h1))


/-! ## Branch resolution -/

theorem visitBranch_of_none (cx : JITFunctionContext) (type : TypeId)
    (branchTarget : BranchTarget) (value : Dispatcher) (s : EmitState)
    (hf : findTargetContext branchTarget s.branchContext = none) :
    visitBranch cx type branchTarget value s = .error .thrown := by
  unfold visitBranch
  rw [hf]

theorem visitBranch_of_found (cx : JITFunctionContext) (type : TypeId)
    (branchTarget : BranchTarget) (value : Dispatcher) (s : EmitState) (k : Nat)
    (c : BranchContext) (hf : findTargetContext branchTarget s.branchContext = some (k, c)) :
    visitBranch cx type branchTarget value s =
      match (if branchTarget.type = .Void then (.ok (.voidDummy, s) : EmitResult Value)
        else value c.branchTarget.type s) with
      | .error e => .error e
      | .ok (v, s1) => .ok (.typedZero type, branchedState cx k c v s1) := by
  unfold visitBranch
  rw [hf]
  simp only []
  cases hr : (if branchTarget.type = .Void then (.ok (.voidDummy, s) : EmitResult Value)
        else value c.branchTarget.type s) with
  | error e => rfl
  | ok r =>
    obtain ⟨v, s1⟩ := r
    simp only [branchedState]
    by_cases hu : s1.insertBlock = cx.unreachableBlock
    · simp [compileBranch, hu]
    · simp [compileBranch, hu, insert_eq]

/-- C8 (amended): `visitBranch` resolves a branch to the first in-scope context, from the
innermost one outwards, whose target is the target of the branch.  It fails exactly when no
in-scope context has that target, or the target has a value and the emission of the value
of the branch fails; without a context for the target the failure is the error of a
malformed AST.  When the branch resolves to the context `c` at depth `k` and the value is
emitted, the block at the insertion point, if it is reachable, ends with a branch to the
block of `c`, and the edge is recorded in the `results` of that context. -/
theorem visitBranch_resolves_to_first_match (cx : JITFunctionContext) (type : TypeId)
    (branchTarget : BranchTarget) (value : Dispatcher) (s : EmitState) :
    ((∃ e, visitBranch cx type branchTarget value s = .error e) ↔
      (∀ c ∈ s.branchContext, c.branchTarget ≠ branchTarget) ∨
      (branchTarget.type ≠ .Void ∧ ∃ k c e, FirstMatch branchTarget s.branchContext k c ∧
        value branchTarget.type s = .error e)) ∧
    ((∀ c ∈ s.branchContext, c.branchTarget ≠ branchTarget) →
      visitBranch cx type branchTarget value s = .error .thrown) ∧
    (∀ k c, FirstMatch branchTarget s.branchContext k c →
      (branchTarget.type = .Void →
        visitBranch cx type branchTarget value s =
          .ok (.typedZero type, branchedState cx k c .voidDummy s)) ∧
      (branchTarget.type ≠ .Void → ∀ v s1, value branchTarget.type s = .ok (v, s1) →
        visitBranch cx type branchTarget value s =
          .ok (.typedZero type, branchedState cx k c v s1))) := by
  have hfound : ∀ k c, FirstMatch branchTarget s.branchContext k c →
      findTargetContext branchTarget s.branchContext = some (k, c) :=
    fun k c h => findTargetContext_of_first h.1 h.2.1 h.2.2
  refine ⟨?_, ?_, ?_⟩
  · cases hf : findTargetContext branchTarget s.branchContext with
    | none =>
      have hnone := (findTargetContext_eq_none_iff _ _).mp hf
      exact ⟨fun _ => Or.inl hnone, fun _ => ⟨_, visitBranch_of_none cx type _ value s hf⟩⟩
    | some p =>
      obtain ⟨k, c⟩ := p
      have hfirst : FirstMatch branchTarget s.branchContext k c := findTargetContext_some hf
      rw [visitBranch_of_found cx type branchTarget value s k c hf, hfirst.2.1]
      by_cases hvoid : branchTarget.type = .Void
      · simp only [hvoid, if_true]
        constructor
        · rintro ⟨e, he⟩
          simp at he
        · rintro (h | ⟨h, -⟩)
          · exact absurd hfirst.2.1 (h c (List.getElem?_mem hfirst.1))
          · exact absurd rfl h
      · simp only [hvoid, if_false]
        constructor
        · rintro ⟨e, he⟩
          cases hv : value branchTarget.type s with
          | error e2 => exact Or.inr ⟨hvoid, k, c, e2, hfirst, rfl⟩
          | ok r => simp [hv] at he
        · rintro (h | ⟨-, k', c', e, -, he⟩)
          · exact absurd hfirst.2.1 (h c (List.getElem?_mem hfirst.1))
          · exact ⟨e, by rw [he]⟩
  · intro h
    exact visitBranch_of_none cx type _ value s ((findTargetContext_eq_none_iff _ _).mpr h)
  · intro k c hfirst
    rw [visitBranch_of_found cx type branchTarget value s k c (hfound k c hfirst), hfirst.2.1]
    constructor
    · intro hvoid
      simp [hvoid]
    · intro hvoid v s1 hv
      simp [hvoid, hv]

/-- The amended C8 at a branch to `targetT` with a literal as its value, in a state in
which `targetT` is in scope for block 2: block 1 ends with a branch to block 2. -/
theorem visitBranch_resolves_to_first_match_witness :
    Example.targetT.type ≠ .Void ∧
    FirstMatch Example.targetT Example.scopeState.branchContext 0 ⟨Example.targetT, 2, []⟩ ∧
    visitBranch Example.context .Void Example.targetT
        (fun ty st => dispatch Example.context (.literal .I32 7) ty st) Example.scopeState =
      .ok (.typedZero .Void, branchedState Example.context 0 ⟨Example.targetT, 2, []⟩
        (.literal .I32 7) Example.scopeState) ∧
    (branchedState Example.context 0 ⟨Example.targetT, 2, []⟩ (.literal .I32 7)
      Example.scopeState).blocks 1 = [.br 2] :=
  ⟨by decide, ⟨rfl, rfl, fun j c' hj => absurd hj (by omega)⟩,
    ((visitBranch_resolves_to_first_match Example.context .Void Example.targetT _
      Example.scopeState).2.2 0 ⟨Example.targetT, 2, []⟩
        ⟨rfl, rfl, fun j c' hj => absurd hj (by omega)⟩).2 (by decide) _ _ rfl, by decide⟩

/-- A counterexample to C8 as stated: the branch to `targetT` fails with the error of a
malformed AST although `targetT` is in scope, since its value is a branch to a target that
is not in scope. -/
theorem branch_fails_with_target_in_scope :
    (∃ c ∈ Example.scopeState.branchContext, c.branchTarget = Example.targetT) ∧
    dispatch Example.context (.branch Example.targetT (.branch Example.targetU .nop)) .Void
      Example.scopeState = .error .thrown :=
  ⟨⟨⟨Example.targetT, 2, []⟩, by simp [Example.scopeState], rfl⟩, rfl⟩


/-! ## The join of a label -/

theorem JumpsTo_congr {s1 s2 : EmitState} (h : s1.blocks = s2.blocks) (b J : Nat) :
    JumpsTo s1 b J ↔ JumpsTo s2 b J := by
  unfold JumpsTo
  rw [h]

theorem JumpsTo_branchCode (cx : JITFunctionContext) (dest : Nat) (s : EmitState)
    (b J : Nat) :
    JumpsTo (appendCode (if s.insertBlock = cx.unreachableBlock then [] else [.br dest]) s) b J ↔
      JumpsTo s b J ∨ (b = s.insertBlock ∧ s.insertBlock ≠ cx.unreachableBlock ∧ J = dest) := by
  rw [← compileBranch_snd]
  exact JumpsTo_compileBranch cx dest s b J

/-- No block jumps to a block created for a label or a loop before the body is emitted. -/
theorem not_jumpsTo_fresh {cx : JITFunctionContext} {s s5 : EmitState} (hinv : Inv cx s)
    (hblocks : s5.blocks =
      (appendCode (if s.insertBlock = cx.unreachableBlock then [] else [.br s.numBlocks])
        s).blocks) (b J : Nat) (hJ : s.numBlocks < J) : ¬ JumpsTo s5 b J := by
  rw [JumpsTo_congr hblocks, JumpsTo_branchCode]
  rintro (h | ⟨-, -, h⟩)
  · have := hinv.inv0.targets_lt b J h
    omega
  · omega

theorem contextStep_results {cx : JITFunctionContext} {s s' : EmitState}
    {target : BranchTarget} {block : Nat} {D : BranchContext}
    (h : ContextStep cx s s' ⟨target, block, []⟩ D) :
    newResults ⟨target, block, []⟩ D = D.results := by
  have := h.2.2.1
  simp only [List.append_nil] at this
  exact this.symm

/-- The edges to a block that is created for a construct and is the block of the context
the construct puts in scope innermost: after the body, the blocks that jump to it are the
blocks that did before the body and the blocks of the edges in the `results` of the
context. -/
theorem scope_edges {cx : JITFunctionContext} {s s5 s6 : EmitState} (hinv : Inv cx s)
    (h6 : Rel cx s5 s6) (D0 D : BranchContext) (outer : List BranchContext)
    (h0 : s5.branchContext = D0 :: s.branchContext) (h1 : s6.branchContext = D :: outer)
    (J b : Nat) (hJ1 : s.numBlocks ≤ J) (hJ2 : J < s5.numBlocks) :
    JumpsTo s6 b J ↔ JumpsTo s5 b J ∨
      (D0.basicBlock = J ∧ b ∈ incomingBlocks (newResults D0 D)) := by
  rw [h6.step.jumpsTo_iff J b hJ2, newEdge_cons_iff s5 s6 D0 D s.branchContext outer h0 h1]
  constructor
  · rintro (h | h | ⟨p, hp, hpJ, -⟩)
    · exact Or.inl h
    · exact Or.inr h
    · have := hinv.inv0.contexts_lt p.1 (List.of_mem_zip hp).1
      omega
  · rintro (h | h)
    · exact Or.inl h
    · exact Or.inr (Or.inl h)

/-- C9 (amended): the join of a label of a type other than `void`.  The successor block
of the label holds one instruction, the phi node that is the value of the label.  Its
incoming edges are the fallthrough edge of the body, from the block the body ends in and
with the value of the body, when that block is reachable, and the edges in the `results`
of the context of the label, which is what the branches of the body that resolve to this
context add to it.  The edges come from different blocks, and the blocks that jump to
the successor block are the blocks of these edges. -/
theorem label_join_has_fallthrough_and_branch_edges (cx : JITFunctionContext) (type : TypeId)
    (endTarget : BranchTarget) (e : Expression) (s : EmitState) (v : Value) (s' : EmitState)
    (hty : type ≠ .Void) (hinv : Inv cx s)
    (h : dispatch cx (.label endTarget e) type s = .ok (v, s')) :
    ∃ value s6 D outer,
      dispatch cx e type (labelBodyState cx endTarget s) = .ok (value, s6) ∧
      (labelBodyState cx endTarget s).branchContext =
        ⟨endTarget, s.numBlocks + 1, []⟩ :: s.branchContext ∧
      s6.branchContext = D :: outer ∧
      D.branchTarget = endTarget ∧ D.basicBlock = s.numBlocks + 1 ∧
      v = .inst (s.numBlocks + 1) 0 ∧
      s'.blocks (s.numBlocks + 1) =
        [.phi type ((if s6.insertBlock = cx.unreachableBlock then []
          else [(value, s6.insertBlock)]) ++ phiIncoming D.results)] ∧
      ((if s6.insertBlock = cx.unreachableBlock then []
          else [s6.insertBlock]) ++ incomingBlocks D.results).Nodup ∧
      ∀ b, JumpsTo s' b (s.numBlocks + 1) ↔
        b ∈ (if s6.insertBlock = cx.unreachableBlock then []
          else [s6.insertBlock]) ++ incomingBlocks D.results := by
  obtain ⟨value, s6, D, outer, hd, h5, hInv6, hRel6, heq, hD, hInv7, hRel7, hempty, hne, hlt,
    hfinal⟩ := visitLabel_facts cx type endTarget (fun ty st => dispatch cx e ty st)
      (fun t => dispatch_frames cx e t) s v s' hinv h
  simp only [hty, if_false] at hfinal
  have hres := contextStep_results hD
  have hv : v = (insert (.phi type (exitEdge value (exitBlockOf cx s6) ++
      phiIncoming D.results)) (setInsertPoint (s.numBlocks + 1)
        (compileBranch cx (s.numBlocks + 1) { s6 with branchContext := outer }).2)).1 := by
    rw [← hfinal]
  have hs : s' = (insert (.phi type (exitEdge value (exitBlockOf cx s6) ++
      phiIncoming D.results)) (setInsertPoint (s.numBlocks + 1)
        (compileBranch cx (s.numBlocks + 1) { s6 with branchContext := outer }).2)).2 := by
    rw [← hfinal]
  have hS9 : (setInsertPoint (s.numBlocks + 1)
      (compileBranch cx (s.numBlocks + 1) { s6 with branchContext := outer }).2).blocks
        (s.numBlocks + 1) = [] := by
    rw [setInsertPoint_blocks]
    exact (compileBranch_blocks_of_ne cx _ { s6 with branchContext := outer } _ hne).trans hempty
  have hedge : exitEdge value (exitBlockOf cx s6) =
      if s6.insertBlock = cx.unreachableBlock then [] else [(value, s6.insertBlock)] := by
    unfold exitBlockOf
    by_cases hu : s6.insertBlock = cx.unreachableBlock <;> simp [hu, exitEdge]
  have hjump : ∀ b, JumpsTo s6 b (s.numBlocks + 1) ↔ b ∈ incomingBlocks D.results := by
    intro b
    rw [scope_edges hinv hRel6 ⟨endTarget, s.numBlocks + 1, []⟩ D outer
      (labelBodyState_branchContext cx endTarget s) heq (s.numBlocks + 1) b (by omega)
      (by simp), hres]
    constructor
    · rintro (h | ⟨-, h⟩)
      · exact absurd h (not_jumpsTo_fresh hinv (labelBodyState_blocks cx endTarget s) b _
          (by omega))
      · exact h
    · exact fun h => Or.inr ⟨rfl, h⟩
  refine ⟨value, s6, D, outer, hd, labelBodyState_branchContext cx endTarget s, heq, hD.1,
    hD.2.1, ?_, ?_, ?_, ?_⟩
  · rw [hv, insert_fst, setInsertPoint_insertBlock, hS9]
    rfl
  · rw [hs, ← hedge]
    have := insert_blocks_self (.phi type (exitEdge value (exitBlockOf cx s6) ++
      phiIncoming D.results)) (setInsertPoint (s.numBlocks + 1)
        (compileBranch cx (s.numBlocks + 1) { s6 with branchContext := outer }).2)
    rw [setInsertPoint_insertBlock, hS9] at this
    exact this
  · have hnd : (incomingBlocks D.results).Nodup := by
      have := hD.2.2.2.1
      rw [hres] at this
      exact this
    by_cases hu : s6.insertBlock = cx.unreachableBlock
    · simpa [hu] using hnd
    · simp only [hu, if_false, List.singleton_append, List.nodup_cons]
      refine ⟨fun hmem => ?_, hnd⟩
      exact hInv6.insert_open hu (Terminated_of_JumpsTo ((hjump _).mpr hmem))
  · intro b
    rw [hs, JumpsTo_insert_plain _ (by rfl),
      JumpsTo_congr (setInsertPoint_blocks _ _), JumpsTo_compileBranch]
    have hj7 : JumpsTo { s6 with branchContext := outer } b (s.numBlocks + 1) ↔
        JumpsTo s6 b (s.numBlocks + 1) := Iff.rfl
    rw [hj7, hjump b]
    by_cases hu : s6.insertBlock = cx.unreachableBlock
    · simp [hu]
    · simp only [hu, if_false, List.singleton_append, List.mem_cons, ne_eq, not_false_eq_true,
        and_true, true_and]
      constructor
      · rintro (h | h)
        · exact Or.inr h
        · exact Or.inl h
      · rintro (h | h)
        · exact Or.inr h
        · exact Or.inl h


/-- The state in which the body of a function without locals is emitted satisfies the
invariant of the emitter. -/
theorem Example.entryState_inv : Inv Example.context Example.entryState := by
  refine ⟨⟨by decide, fun b _ => rfl, ?_, ?_⟩, by decide, ?_⟩
  · rintro b J ⟨i, hi, -⟩
    simp [Example.entryState] at hi
  · intro c hc
    simp [Example.entryState] at hc
  · rintro - ⟨i, hi, -⟩
    simp [Example.entryState] at hi

/-- The amended C9 at a label whose body is a branch to its end target: the join, block 3,
holds the phi node with the edge of the branch, from block 2 with the value 7, and no
fallthrough edge, since the end of the body is not reachable. -/
theorem label_join_has_fallthrough_and_branch_edges_witness :
    TypeId.I32 ≠ .Void ∧ Inv Example.context Example.entryState ∧
    ∃ v s', dispatch Example.context Example.labelWithBranch .I32 Example.entryState =
        .ok (v, s') ∧
      ∃ value s6 D outer,
        dispatch Example.context (.branch Example.targetT (.literal .I32 7)) .I32
          (labelBodyState Example.context Example.targetT Example.entryState) =
            .ok (value, s6) ∧
        (labelBodyState Example.context Example.targetT Example.entryState).branchContext =
          ⟨Example.targetT, Example.entryState.numBlocks + 1, []⟩ ::
            Example.entryState.branchContext ∧
        s6.branchContext = D :: outer ∧
        D.branchTarget = Example.targetT ∧ D.basicBlock = Example.entryState.numBlocks + 1 ∧
        v = .inst (Example.entryState.numBlocks + 1) 0 ∧
        s'.blocks (Example.entryState.numBlocks + 1) =
          [.phi .I32 ((if s6.insertBlock = Example.context.unreachableBlock then []
            else [(value, s6.insertBlock)]) ++ phiIncoming D.results)] ∧
        ((if s6.insertBlock = Example.context.unreachableBlock then []
            else [s6.insertBlock]) ++ incomingBlocks D.results).Nodup ∧
        ∀ b, JumpsTo s' b (Example.entryState.numBlocks + 1) ↔
          b ∈ (if s6.insertBlock = Example.context.unreachableBlock then []
            else [s6.insertBlock]) ++ incomingBlocks D.results :=
  ⟨by decide, Example.entryState_inv, _, _, rfl,
    label_join_has_fallthrough_and_branch_edges Example.context .I32 Example.targetT
      (.branch Example.targetT (.literal .I32 7)) Example.entryState _ _ (by decide)
      Example.entryState_inv rfl⟩

/-- A counterexample to C9 as stated: the body of the outer label holds a branch to the end
target that is reachable, block 4 ends with it, but the branch goes to the join of the
inner label, block 5, and the join of the outer label, block 3, has the fallthrough edge
only. -/
theorem outer_label_join_misses_branch_edge :
    ∃ s', dispatch Example.context Example.nestedLabels .I32 Example.entryState =
        .ok (.inst 3 0, s') ∧
      s'.blocks 4 = [.br 5] ∧
      s'.blocks 5 = [.phi .I32 [(.literal .I32 7, 4)], .br 3] ∧
      s'.blocks 3 = [.phi .I32 [(.inst 5 0, 5)]] :=
  ⟨_, rfl, by decide, by decide, by decide⟩


/-! ## The lowering of a loop -/

theorem newEdge_cons2_iff (s s' : EmitState) (A0 B0 A1 B1 : BranchContext)
    (st0 outer : List BranchContext) (h0 : s.branchContext = A0 :: B0 :: st0)
    (h1 : s'.branchContext = A1 :: B1 :: outer) (J b : Nat) :
    NewEdge s s' J b ↔ (A0.basicBlock = J ∧ b ∈ incomingBlocks (newResults A0 A1)) ∨
      (B0.basicBlock = J ∧ b ∈ incomingBlocks (newResults B0 B1)) ∨
      ∃ p ∈ List.zip st0 outer, p.1.basicBlock = J ∧ b ∈ incomingBlocks (newResults p.1 p.2) := by
  unfold NewEdge
  rw [h0, h1]
  simp only [List.zip_cons_cons, List.mem_cons]
  constructor
  · rintro ⟨p, hp | hp | hp, h2, h3⟩
    · subst hp; exact Or.inl ⟨h2, h3⟩
    · subst hp; exact Or.inr (Or.inl ⟨h2, h3⟩)
    · exact Or.inr (Or.inr ⟨p, hp, h2, h3⟩)
  · rintro (⟨h2, h3⟩ | ⟨h2, h3⟩ | ⟨p, hp, h2, h3⟩)
    · exact ⟨(A0, A1), Or.inl rfl, h2, h3⟩
    · exact ⟨(B0, B1), Or.inr (Or.inl rfl), h2, h3⟩
    · exact ⟨p, Or.inr (Or.inr hp), h2, h3⟩

/-- The blocks that jump to one of the two blocks of a loop after the body: those that did
before the body, and those of the edges in the `results` of the context of the block. -/
theorem loop_edges {cx : JITFunctionContext} {s s5 : EmitState}
    {breakTarget continueTarget : BranchTarget} (hinv : Inv cx s)
    (h6 : Rel cx (loopBodyState cx breakTarget continueTarget s) s5)
    (Db Dc : BranchContext) (outer : List BranchContext)
    (h1 : s5.branchContext = Db :: Dc :: outer)
    (hDb : ContextStep cx (loopBodyState cx breakTarget continueTarget s) s5
      ⟨breakTarget, s.numBlocks + 1, []⟩ Db)
    (hDc : ContextStep cx (loopBodyState cx breakTarget continueTarget s) s5
      ⟨continueTarget, s.numBlocks, []⟩ Dc) (b : Nat) :
    (JumpsTo s5 b (s.numBlocks + 1) ↔ b ∈ incomingBlocks Db.results) ∧
    (JumpsTo s5 b s.numBlocks ↔
      (b = s.insertBlock ∧ s.insertBlock ≠ cx.unreachableBlock) ∨
        b ∈ incomingBlocks Dc.results) := by
  have hold : ∀ p ∈ List.zip s.branchContext outer, p.1.basicBlock < s.numBlocks :=
    fun p hp => hinv.inv0.contexts_lt p.1 (List.of_mem_zip hp).1
  have hj0 : ∀ J, JumpsTo (loopBodyState cx breakTarget continueTarget s) b J ↔
      JumpsTo s b J ∨ (b = s.insertBlock ∧ s.insertBlock ≠ cx.unreachableBlock ∧
        J = s.numBlocks) := by
    intro J
    rw [JumpsTo_congr (loopBodyState_blocks cx breakTarget continueTarget s),
      JumpsTo_branchCode]
  constructor
  · rw [h6.step.jumpsTo_iff _ b (by simp), newEdge_cons2_iff _ s5 _ _ Db Dc s.branchContext
      outer (loopBodyState_branchContext cx breakTarget continueTarget s) h1, hj0,
      contextStep_results hDb]
    constructor
    · rintro ((h | ⟨-, -, h⟩) | ⟨-, h⟩ | ⟨h, -⟩ | ⟨p, hp, hpJ, -⟩)
      · have := hinv.inv0.targets_lt b _ h
        omega
      · omega
      · exact h
      · have h' : s.numBlocks = s.numBlocks + 1 := h
        omega
      · have := hold p hp
        omega
    · exact fun h => Or.inr (Or.inl ⟨rfl, h⟩)
  · rw [h6.step.jumpsTo_iff _ b (by simp; omega), newEdge_cons2_iff _ s5 _ _ Db Dc
      s.branchContext outer (loopBodyState_branchContext cx breakTarget continueTarget s) h1,
      hj0, contextStep_results hDc]
    constructor
    · rintro ((h | ⟨h1, h2, -⟩) | ⟨h, -⟩ | ⟨-, h⟩ | ⟨p, hp, hpJ, -⟩)
      · have := hinv.inv0.targets_lt b _ h
        omega
      · exact Or.inl ⟨h1, h2⟩
      · have h' : s.numBlocks + 1 = s.numBlocks := h
        omega
      · exact Or.inr h
      · have := hold p hp
        omega
    · rintro (⟨h1, h2⟩ | h)
      · exact Or.inl (Or.inr ⟨h1, h2, rfl⟩)
      · exact Or.inr (Or.inr (Or.inl ⟨rfl, h⟩))


/-- C10 (amended): the lowering of a loop.  The body is emitted into the loop block, block
`s.numBlocks`, with the context of the break target, whose block is the successor block
`s.numBlocks + 1`, and the context of the continue target, whose block is the loop block,
as the two innermost in-scope contexts: there a branch to the break target resolves to
the successor block, and a branch to the continue target resolves to the loop block when
the continue target is not the break target.  When the end of the body is reachable, its
block ends with a branch to the loop block.  The blocks that jump to the successor block
are the blocks of the edges in the `results` of the context of the break target; the
blocks that jump to the loop block are the block before the loop, the block the body ends
in, and the blocks of the edges in the `results` of the context of the continue target. -/
theorem loop_lowering (cx : JITFunctionContext) (type : TypeId) (e : Expression)
    (breakTarget continueTarget : BranchTarget) (s : EmitState) (v : Value) (s' : EmitState)
    (hinv : Inv cx s)
    (h : dispatch cx (.loop e breakTarget continueTarget) type s = .ok (v, s')) :
    ∃ bodyValue s5 Db Dc outer,
      dispatch cx e .Void (loopBodyState cx breakTarget continueTarget s) =
        .ok (bodyValue, s5) ∧
      (loopBodyState cx breakTarget continueTarget s).insertBlock = s.numBlocks ∧
      (loopBodyState cx breakTarget continueTarget s).branchContext =
        ⟨breakTarget, s.numBlocks + 1, []⟩ :: ⟨continueTarget, s.numBlocks, []⟩ ::
          s.branchContext ∧
      FirstMatch breakTarget (loopBodyState cx breakTarget continueTarget s).branchContext 0
        ⟨breakTarget, s.numBlocks + 1, []⟩ ∧
      (continueTarget ≠ breakTarget →
        FirstMatch continueTarget (loopBodyState cx breakTarget continueTarget s).branchContext
          1 ⟨continueTarget, s.numBlocks, []⟩) ∧
      s5.branchContext = Db :: Dc :: outer ∧
      Db.branchTarget = breakTarget ∧ Db.basicBlock = s.numBlocks + 1 ∧
      Dc.branchTarget = continueTarget ∧ Dc.basicBlock = s.numBlocks ∧
      (s5.insertBlock ≠ cx.unreachableBlock →
        s'.blocks s5.insertBlock = s5.blocks s5.insertBlock ++ [.br s.numBlocks]) ∧
      (∀ b, JumpsTo s' b (s.numBlocks + 1) ↔ b ∈ incomingBlocks Db.results) ∧
      (∀ b, JumpsTo s' b s.numBlocks ↔
        (b = s.insertBlock ∧ s.insertBlock ≠ cx.unreachableBlock) ∨
        (b = s5.insertBlock ∧ s5.insertBlock ≠ cx.unreachableBlock) ∨
        b ∈ incomingBlocks Dc.results) := by
  obtain ⟨bodyValue, s5, Db, Dc, outer, hd, h5, hInv5, hRel5, heq, hDb, hDc, hInv7, hRel7,
    hempty, hne, hlt, hfinal⟩ := visitLoop_facts cx type (fun ty st => dispatch cx e ty st)
      breakTarget continueTarget (fun t => dispatch_frames cx e t) s v s' hinv h
  have hctx := loopBodyState_branchContext cx breakTarget continueTarget s
  -- the blocks of the result are those after the branch back to the loop block, but for
  -- the phi node of the successor block
  have hblocks : ∀ b, b ≠ s.numBlocks + 1 →
      s'.blocks b = (compileBranch cx s.numBlocks { s5 with branchContext := outer }).2.blocks
        b := by
    intro b hb
    by_cases hty : type = .Void
    · simp only [hty, if_true, Prod.mk.injEq] at hfinal
      rw [hfinal.2]
      rfl
    · simp only [hty, if_false] at hfinal
      have hs : s' = (insert (.phi type (phiIncoming Db.results))
          (setInsertPoint (s.numBlocks + 1)
            (compileBranch cx s.numBlocks { s5 with branchContext := outer }).2)).2 := by
        rw [← hfinal]
      rw [hs, insert_blocks_of_ne _ _ _ hb]
      rfl
  have hjumps : ∀ b J, JumpsTo s' b J ↔
      JumpsTo s5 b J ∨ (b = s5.insertBlock ∧ s5.insertBlock ≠ cx.unreachableBlock ∧
        J = s.numBlocks) := by
    intro b J
    have hcb := JumpsTo_compileBranch cx s.numBlocks { s5 with branchContext := outer } b J
    have hj7 : JumpsTo { s5 with branchContext := outer } b J ↔ JumpsTo s5 b J := Iff.rfl
    rw [hj7] at hcb
    rw [← hcb]
    by_cases hty : type = .Void
    · simp only [hty, if_true, Prod.mk.injEq] at hfinal
      rw [hfinal.2]
      exact JumpsTo_congr (setInsertPoint_blocks _ _) b J
    · simp only [hty, if_false] at hfinal
      have hs : s' = (insert (.phi type (phiIncoming Db.results))
          (setInsertPoint (s.numBlocks + 1)
            (compileBranch cx s.numBlocks { s5 with branchContext := outer }).2)).2 := by
        rw [← hfinal]
      rw [hs, JumpsTo_insert_plain _ (by rfl)]
      exact JumpsTo_congr (setInsertPoint_blocks _ _) b J
  refine ⟨bodyValue, s5, Db, Dc, outer, hd, by simp, hctx, ?_, ?_, heq, hDb.1, hDb.2.1, hDc.1,
    hDc.2.1, ?_, ?_, ?_⟩
  · rw [hctx]
    exact ⟨rfl, rfl, fun j c' hj => absurd hj (by omega)⟩
  · intro hct
    rw [hctx]
    refine ⟨by simp, rfl, ?_⟩
    intro j c' hj hjc
    have hj0 : j = 0 := by omega
    subst hj0
    simp only [List.getElem?_cons_zero, Option.some.injEq] at hjc
    subst hjc
    exact fun hc => hct hc.symm
  · intro hu
    rw [hblocks _ (fun hc => hne hc.symm), compileBranch_snd]
    have hu' : ¬ ({ s5 with branchContext := outer } : EmitState).insertBlock =
        cx.unreachableBlock := hu
    simp only [hu', if_false]
    exact appendCode_blocks_self _ { s5 with branchContext := outer }
  · intro b
    rw [hjumps, ← (loop_edges hinv hRel5 Db Dc outer heq hDb hDc b).1]
    constructor
    · rintro (h | ⟨-, -, h⟩)
      · exact h
      · omega
    · exact Or.inl
  · intro b
    rw [hjumps, (loop_edges hinv hRel5 Db Dc outer heq hDb hDc b).2]
    constructor
    · rintro ((h | h) | ⟨h1, h2, -⟩)
      · exact Or.inl h
      · exact Or.inr (Or.inr h)
      · exact Or.inr (Or.inl ⟨h1, h2⟩)
    · rintro (h | ⟨h1, h2⟩ | h)
      · exact Or.inl (Or.inl h)
      · exact Or.inr ⟨h1, h2, rfl⟩
      · exact Or.inl (Or.inr h)


/-- The amended C10 at a loop whose body is a branch to its continue target, which is not
its break target. -/
theorem loop_lowering_witness :
    Inv Example.context Example.entryState ∧ Example.targetU ≠ Example.targetB ∧
    ∃ v s', dispatch Example.context Example.loopWithContinue .Void Example.entryState =
        .ok (v, s') ∧
      ∃ bodyValue s5 Db Dc outer,
        dispatch Example.context (.branch Example.targetU .nop) .Void
          (loopBodyState Example.context Example.targetB Example.targetU Example.entryState) =
            .ok (bodyValue, s5) ∧
        (loopBodyState Example.context Example.targetB Example.targetU
          Example.entryState).insertBlock = Example.entryState.numBlocks ∧
        (loopBodyState Example.context Example.targetB Example.targetU
          Example.entryState).branchContext =
            ⟨Example.targetB, Example.entryState.numBlocks + 1, []⟩ ::
              ⟨Example.targetU, Example.entryState.numBlocks, []⟩ ::
                Example.entryState.branchContext ∧
        FirstMatch Example.targetB (loopBodyState Example.context Example.targetB
          Example.targetU Example.entryState).branchContext 0
            ⟨Example.targetB, Example.entryState.numBlocks + 1, []⟩ ∧
        (Example.targetU ≠ Example.targetB →
          FirstMatch Example.targetU (loopBodyState Example.context Example.targetB
            Example.targetU Example.entryState).branchContext 1
              ⟨Example.targetU, Example.entryState.numBlocks, []⟩) ∧
        s5.branchContext = Db :: Dc :: outer ∧
        Db.branchTarget = Example.targetB ∧ Db.basicBlock = Example.entryState.numBlocks + 1 ∧
        Dc.branchTarget = Example.targetU ∧ Dc.basicBlock = Example.entryState.numBlocks ∧
        (s5.insertBlock ≠ Example.context.unreachableBlock →
          s'.blocks s5.insertBlock =
            s5.blocks s5.insertBlock ++ [.br Example.entryState.numBlocks]) ∧
        (∀ b, JumpsTo s' b (Example.entryState.numBlocks + 1) ↔
          b ∈ incomingBlocks Db.results) ∧
        (∀ b, JumpsTo s' b Example.entryState.numBlocks ↔
          (b = Example.entryState.insertBlock ∧
            Example.entryState.insertBlock ≠ Example.context.unreachableBlock) ∨
          (b = s5.insertBlock ∧ s5.insertBlock ≠ Example.context.unreachableBlock) ∨
          b ∈ incomingBlocks Dc.results) :=
  ⟨Example.entryState_inv, by decide, _, _, rfl,
    loop_lowering Example.context .Void (.branch Example.targetU .nop) Example.targetB
      Example.targetU Example.entryState _ _ Example.entryState_inv rfl⟩

/-- A counterexample to C10 as stated: in a loop whose continue target is also its break
target, the branch to the continue target in the body goes to the successor block.  The
loop block is block 2 and the successor block is block 3; the loop block ends with a
branch to block 3. -/
theorem branch_to_continue_target_leaves_loop :
    ∃ s', dispatch Example.context Example.loopWithOneTarget .Void Example.entryState =
        .ok (.voidDummy, s') ∧
      s'.blocks 1 = [.br 2] ∧ s'.blocks 2 = [.br 3] ∧ s'.insertBlock = 3 :=
  ⟨_, rfl, by decide, by decide, by decide⟩


/-! ## The invariant where the body of a function is emitted -/

theorem Inv.of_unreachableBlock {cx cx' : JITFunctionContext} {s : EmitState}
    (h : cx'.unreachableBlock = cx.unreachableBlock) (hinv : Inv cx s) : Inv cx' s := by
  obtain ⟨⟨h1, h2, h3, h4⟩, h5, h6⟩ := hinv
  exact ⟨⟨by rw [h]; exact h1, h2, h3, h4⟩, h5, by rw [h]; exact h6⟩

theorem emitLocals_inv (cx : JITFunctionContext) :
    ∀ (locals : List LocalVariable) (s : EmitState), Inv cx s → Inv cx (emitLocals locals s).2
  | [], _, h => h
  | localVariable :: rest, s, h => by
    have h1 : Inv cx (insert (.alloca localVariable.type) s).2 := by
      rw [insert_eq]
      exact h.inv_appendCode_plain _ (by simp [Inst.isTerminator])
    have h2 : Inv cx (insert (.store (.typedZero localVariable.type)
        (insert (.alloca localVariable.type) s).1 none)
        (insert (.alloca localVariable.type) s).2).2 := by
      rw [insert_eq]
      exact h1.inv_appendCode_plain _ (by simp [Inst.isTerminator])
    exact emitLocals_inv cx rest _ h2

theorem emitArguments_inv (cx : JITFunctionContext) (parameterLocalIndices : List Nat)
    (localVariablePointers : List Value) :
    ∀ (numRemaining parameterIndex : Nat) (s s' : EmitState), Inv cx s →
      emitArguments parameterLocalIndices localVariablePointers numRemaining parameterIndex s =
        .ok s' → Inv cx s'
  | 0, _, s, s', h, he => by
    simp only [emitArguments, Except.ok.injEq] at he
    rw [← he]
    exact h
  | numRemaining + 1, parameterIndex, s, s', h, he => by
    unfold emitArguments at he
    cases h1 : parameterLocalIndices[parameterIndex]? with
    | none => simp [h1] at he
    | some localIndex =>
      cases h2 : localVariablePointers[localIndex]? with
      | none => simp [h1, h2] at he
      | some pointer =>
        simp only [h1, h2] at he
        refine emitArguments_inv cx parameterLocalIndices localVariablePointers numRemaining
          (parameterIndex + 1) _ s' ?_ he
        rw [insert_eq]
        exact h.inv_appendCode_plain _ (by simp [Inst.isTerminator])

/-- The state in which `emit` dispatches the expression of a function satisfies the
invariant of the emitter, which every emission keeps (`dispatch_frames`). -/
theorem bodyEntry_inv (jitModule : JITModule) (astFunction : Function)
    (cx : JITFunctionContext) (s : EmitState)
    (h : bodyEntry jitModule astFunction = .ok (cx, s)) : Inv cx s := by
  have h0 : ∀ cx0 : JITFunctionContext, cx0.unreachableBlock = 0 →
      Inv cx0 (setInsertPoint 1 ⟨2, fun _ => [], 0, []⟩) := by
    intro cx0 hu
    refine ⟨⟨by rw [hu]; decide, fun b _ => rfl, ?_, ?_⟩, by decide, ?_⟩
    · rintro b J ⟨i, hi, -⟩
      simp [setInsertPoint] at hi
    · intro c hc
      simp [setInsertPoint] at hc
    · rintro - ⟨i, hi, -⟩
      simp [setInsertPoint] at hi
  unfold bodyEntry at h
  simp only [createBasicBlock, initialState] at h
  generalize hr : emitArguments _ _ _ _ _ = r at h
  cases r with
  | error e => simp at h
  | ok s4 =>
    simp only [Except.ok.injEq, Prod.mk.injEq] at h
    obtain ⟨hcx, hs⟩ := h
    subst hs
    have hu : cx.unreachableBlock = 0 := by rw [← hcx]; rfl
    exact emitArguments_inv cx _ _ _ _ _ _ (emitLocals_inv cx _ _ (h0 cx hu)) hr

/-- The function `emit` dispatches the expression of the function in the state of
`bodyEntry`. -/
theorem emitBody_eq (jitModule : JITModule) (astFunction : Function) :
    emitBody jitModule astFunction =
      match bodyEntry jitModule astFunction with
      | .error e => .error e
      | .ok (cx, s4) =>
        match dispatch cx astFunction.expression astFunction.type.returnType s4 with
        | .error e => .error e
        | .ok (value, s5) =>
          if s5.insertBlock ≠ cx.unreachableBlock then
            if astFunction.type.returnType = .Void then .ok (cx, (insert (.ret none) s5).2)
            else .ok (cx, (insert (.ret (some value)) s5).2)
          else .ok (cx, s5) := by
  unfold emitBody bodyEntry
  simp only [createBasicBlock, initialState]
  generalize emitArguments _ _ _ _ _ = r
  cases r <;> rfl


/-! ## Terminating expressions -/

theorem visitReturn_result (cx : JITFunctionContext) (type : TypeId) (value : Dispatcher)
    (s : EmitState) :
    (∀ v s', visitReturn cx type value s = .ok (v, s') →
      s'.insertBlock = cx.unreachableBlock ∧ v = .typedZero type) ∧
    ((cx.astFunction.type.returnType = .Void ∨
        ∃ r, value cx.astFunction.type.returnType s = .ok r) →
      ∃ s', visitReturn cx type value s = .ok (.typedZero type, s')) := by
  unfold visitReturn
  cases hr : (if cx.astFunction.type.returnType = .Void then (.ok (.null, s) : EmitResult Value)
        else value cx.astFunction.type.returnType s) with
  | error e =>
    refine ⟨fun v s' h => by simp at h, ?_⟩
    rintro (hvoid | ⟨r, hrv⟩)
    · simp [hvoid] at hr
    · by_cases hvoid : cx.astFunction.type.returnType = .Void
      · simp [hvoid] at hr
      · simp [hvoid, hrv] at hr
  | ok r =>
    obtain ⟨rv, s1⟩ := r
    by_cases hu : s1.insertBlock = cx.unreachableBlock
    · simp only [hu, ne_eq, not_true_eq_false, if_false]
      refine ⟨fun v s' h => ?_, fun _ => ⟨s1, rfl⟩⟩
      simp only [Except.ok.injEq, Prod.mk.injEq] at h
      rw [← h.1, ← h.2]
      exact ⟨hu, rfl⟩
    · simp only [hu, ne_eq, not_false_eq_true, if_true]
      refine ⟨fun v s' h => ?_, fun _ => ⟨_, rfl⟩⟩
      simp only [Except.ok.injEq, Prod.mk.injEq] at h
      rw [← h.1, ← h.2]
      exact ⟨rfl, rfl⟩

theorem visitBranch_result (cx : JITFunctionContext) (type : TypeId)
    (branchTarget : BranchTarget) (value : Dispatcher) (s : EmitState) :
    (∀ v s', visitBranch cx type branchTarget value s = .ok (v, s') →
      s'.insertBlock = cx.unreachableBlock ∧ v = .typedZero type) ∧
    ((∃ c ∈ s.branchContext, c.branchTarget = branchTarget) →
      (branchTarget.type = .Void ∨ ∃ r, value branchTarget.type s = .ok r) →
      ∃ s', visitBranch cx type branchTarget value s = .ok (.typedZero type, s')) := by
  cases hf : findTargetContext branchTarget s.branchContext with
  | none =>
    rw [visitBranch_of_none cx type branchTarget value s hf]
    refine ⟨fun v s' h => by simp at h, ?_⟩
    rintro ⟨c, hc, hct⟩
    exact absurd hct (findTargetContext_none hf c hc)
  | some p =>
    obtain ⟨k, c⟩ := p
    rw [visitBranch_of_found cx type branchTarget value s k c hf, (findTargetContext_some hf).2.1]
    cases hr : (if branchTarget.type = .Void then (.ok (.voidDummy, s) : EmitResult Value)
        else value branchTarget.type s) with
    | error e =>
      refine ⟨fun v s' h => by simp at h, ?_⟩
      rintro - (hvoid | ⟨r, hrv⟩)
      · simp [hvoid] at hr
      · by_cases hvoid : branchTarget.type = .Void
        · simp [hvoid] at hr
        · simp [hvoid, hrv] at hr
    | ok r =>
      obtain ⟨rv, s1⟩ := r
      refine ⟨fun v s' h => ?_, fun _ _ => ⟨_, rfl⟩⟩
      simp only [Except.ok.injEq, Prod.mk.injEq] at h
      rw [← h.1, ← h.2]
      exact ⟨rfl, rfl⟩

/-- C13: after a `Return` or a `Branch` is emitted, in whatever state, the insertion point
is the unreachable block and the value handed back is the zero constant of the expected
type.  The emission of a `Return` gives a result when the function returns nothing or the
emission of the returned value gives one; the emission of a `Branch` gives a result when
its target is in scope and the target has no value or the emission of the value gives
one. -/
theorem terminating_expression_leaves_unreachable (cx : JITFunctionContext) (type : TypeId)
    (s : EmitState) :
    (∀ value v s', dispatch cx (.ret value) type s = .ok (v, s') →
      s'.insertBlock = cx.unreachableBlock ∧ v = .typedZero type) ∧
    (∀ target value v s', dispatch cx (.branch target value) type s = .ok (v, s') →
      s'.insertBlock = cx.unreachableBlock ∧ v = .typedZero type) ∧
    (∀ value, (cx.astFunction.type.returnType = .Void ∨
        ∃ r, dispatch cx value cx.astFunction.type.returnType s = .ok r) →
      ∃ s', dispatch cx (.ret value) type s = .ok (.typedZero type, s')) ∧
    (∀ target value, (∃ c ∈ s.branchContext, c.branchTarget = target) →
      (target.type = .Void ∨ ∃ r, dispatch cx value target.type s = .ok r) →
      ∃ s', dispatch cx (.branch target value) type s = .ok (.typedZero type, s')) :=
  ⟨fun value => (visitReturn_result cx type (fun ty st => dispatch cx value ty st) s).1,
    fun target value =>
      (visitBranch_result cx type target (fun ty st => dispatch cx value ty st) s).1,
    fun value => (visitReturn_result cx type (fun ty st => dispatch cx value ty st) s).2,
    fun target value =>
      (visitBranch_result cx type target (fun ty st => dispatch cx value ty st) s).2⟩

/-- C13 at a `Return` that is emitted when the insertion point is the unreachable block
already: the emission gives a result, the insertion point stays the unreachable block and
the value is the zero constant of the expected type. -/
theorem terminating_expression_leaves_unreachable_witness :
    Example.unreachableState.insertBlock = Example.context.unreachableBlock ∧
    ∃ s', dispatch Example.context (.ret (.literal .I64 1)) .I32 Example.unreachableState =
        .ok (.typedZero .I32, s') ∧
      s'.insertBlock = Example.context.unreachableBlock :=
  ⟨rfl, _, rfl,
    ((terminating_expression_leaves_unreachable Example.context .I32
      Example.unreachableState).1 (.literal .I64 1) _ _ rfl).1⟩


/-! ## Loads and stores in detail -/

theorem maskedAddressCode_length (mask : Value) (isFarAddress : Bool) (a : Value)
    (memoryType : TypeId) (b n : Nat) :
    (maskedAddressCode mask isFarAddress a memoryType b n).length =
      maskedAddressLength isFarAddress := by
  cases isFarAddress <;> rfl

theorem maskedPointer_eq (isFarAddress : Bool) (b n : Nat) :
    maskedPointer isFarAddress b n = .inst b (n + maskedAddressLength isFarAddress - 1) := by
  cases isFarAddress <;> rfl

theorem appendCode_length (code : List Inst) (s : EmitState) :
    ((appendCode code s).blocks s.insertBlock).length =
      (s.blocks s.insertBlock).length + code.length := by
  simp

/-- What `visitLoad` emits: the address, the code of the masked address, the load with the
alignment of the expression, and the conversion of the overload. -/
theorem visitLoad_facts (cx : JITFunctionContext) (type : TypeId) (op : LoadOp)
    (address : Dispatcher) (isFarAddress : Bool) (alignmentLog2 : Nat) (memoryType : TypeId)
    (s s' : EmitState) (v : Value)
    (h : visitLoad cx type op address isFarAddress alignmentLog2 memoryType s = .ok (v, s')) :
    ∃ a s1, address (addressType isFarAddress) s = .ok (a, s1) ∧
      s' = appendCode (maskedAddressCode cx.jitModule.instanceMemoryAddressMask isFarAddress a
          memoryType s1.insertBlock (s1.blocks s1.insertBlock).length ++
        [.load (maskedPointer isFarAddress s1.insertBlock (s1.blocks s1.insertBlock).length)
          (some (1 <<< alignmentLog2))] ++
        loadConversion op type memoryType s1.insertBlock
          ((s1.blocks s1.insertBlock).length + maskedAddressLength isFarAddress)) s1 ∧
      v = loadedValue op type memoryType s1.insertBlock
        ((s1.blocks s1.insertBlock).length + maskedAddressLength isFarAddress) := by
  unfold visitLoad at h
  cases hc : compileAddress cx address isFarAddress memoryType s with
  | error e => cases op <;> simp only [hc] at h <;> (try split at h) <;> simp at h
  | ok r =>
    obtain ⟨p, s2⟩ := r
    obtain ⟨a, s1, ha, hs, hp⟩ := compileAddress_code cx address isFarAddress memoryType s s2 p hc
    have hn : (s2.blocks s2.insertBlock).length =
        (s1.blocks s1.insertBlock).length + maskedAddressLength isFarAddress := by
      rw [hs, appendCode_insertBlock, appendCode_length, maskedAddressCode_length]
    have hb : s2.insertBlock = s1.insertBlock := by rw [hs]; rfl
    have hidx : ∀ k, Value.inst s2.insertBlock ((s2.blocks s2.insertBlock).length + k) =
        .inst s1.insertBlock
          ((s1.blocks s1.insertBlock).length + maskedAddressLength isFarAddress + k) := by
      intro k
      rw [hn, hb]
    have hidx0 := hidx 0
    simp only [Nat.add_zero] at hidx0
    refine ⟨a, s1, ha, ?_⟩
    cases op <;>
      simp only [hc, insert_eq, appendCode_insertBlock, appendCode_length, List.length_singleton,
        hidx, hidx0] at h
    · -- anyLoad
      split at h
      · simp only [Except.ok.injEq, Prod.mk.injEq] at h
        constructor
        · rw [← h.2, hs, appendCode_append, hp]
          simp [loadConversion]
        · rw [← h.1]
          simp [loadedValue, loadConversion]
      · simp at h
    · -- intLoad
      split at h
      · split at h
        · rename_i hty
          simp only [Except.ok.injEq, Prod.mk.injEq] at h
          constructor
          · rw [← h.2, hs, appendCode_append, hp]
            simp [loadConversion, hty]
          · rw [← h.1]
            simp [loadedValue, loadConversion, hty]
        · rename_i hty
          simp only [Except.ok.injEq, Prod.mk.injEq] at h
          constructor
          · rw [← h.2, hs, appendCode_append, appendCode_append, hp]
            simp [loadConversion, hty]
          · rw [← h.1]
            simp [loadedValue, loadConversion, hty]
      · simp at h
    · -- loadZExt
      simp only [Except.ok.injEq, Prod.mk.injEq] at h
      constructor
      · rw [← h.2, hs, appendCode_append, appendCode_append, hp]
        simp [loadConversion]
      · rw [← h.1]
        simp [loadedValue, loadConversion]
    · -- loadSExt
      simp only [Except.ok.injEq, Prod.mk.injEq] at h
      constructor
      · rw [← h.2, hs, appendCode_append, appendCode_append, hp]
        simp [loadConversion]
      · rw [← h.1]
        simp [loadedValue, loadConversion]


/-- What `visitStore` emits: the value, the truncation of the overload of `IntClass`, the
address, the code of the masked address, and the store. -/
theorem visitStore_facts (cx : JITFunctionContext) (isIntClass : Bool) (address : Dispatcher)
    (isFarAddress : Bool) (alignmentLog2 : Nat) (value : Dispatcher)
    (valueType memoryType : TypeId) (s s' : EmitState) (v : Value)
    (h : visitStore cx isIntClass address isFarAddress alignmentLog2 value valueType memoryType
      s = .ok (v, s')) :
    ∃ sv a s1, value valueType s = .ok (v, sv) ∧
      address (addressType isFarAddress)
        (appendCode (storeConversion isIntClass valueType memoryType v) sv) = .ok (a, s1) ∧
      s' = appendCode (maskedAddressCode cx.jitModule.instanceMemoryAddressMask isFarAddress a
          memoryType s1.insertBlock (s1.blocks s1.insertBlock).length ++
        [.store (storedValue isIntClass valueType memoryType v sv.insertBlock
            (sv.blocks sv.insertBlock).length)
          (maskedPointer isFarAddress s1.insertBlock (s1.blocks s1.insertBlock).length)
          (storeAlignment isIntClass alignmentLog2)]) s1 := by
  unfold visitStore at h
  cases hv : value valueType s with
  | error e => simp [hv] at h
  | ok r =>
    obtain ⟨v0, sv⟩ := r
    simp only [hv] at h
    have tail : ∀ (mv : Value) (s2 : EmitState) (al : Option Nat),
        (match compileAddress cx address isFarAddress memoryType s2 with
          | .error e => (.error e : EmitResult Value)
          | .ok (pointer, s3) => .ok (v0, (insert (.store mv pointer al) s3).2)) = .ok (v, s') →
        v0 = v ∧ ∃ a s1, address (addressType isFarAddress) s2 = .ok (a, s1) ∧
          s' = appendCode (maskedAddressCode cx.jitModule.instanceMemoryAddressMask isFarAddress a
            memoryType s1.insertBlock (s1.blocks s1.insertBlock).length ++
            [.store mv (maskedPointer isFarAddress s1.insertBlock
              (s1.blocks s1.insertBlock).length) al]) s1 := by
      intro mv s2 al h
      cases hc : compileAddress cx address isFarAddress memoryType s2 with
      | error e => simp [hc] at h
      | ok r =>
        obtain ⟨p, s3⟩ := r
        obtain ⟨a, s1, ha, hs, hp⟩ :=
          compileAddress_code cx address isFarAddress memoryType s2 s3 p hc
        simp only [hc, insert_eq, Except.ok.injEq, Prod.mk.injEq] at h
        refine ⟨h.1, a, s1, ha, ?_⟩
        rw [← h.2, hs, appendCode_append, hp]
    cases isIntClass with
    | true =>
      simp only [if_true] at h
      by_cases hty : valueType = memoryType
      · simp only [hty, ne_eq, not_true_eq_false, if_false] at h
        obtain ⟨hv0, a, s1, ha, hs⟩ := tail _ _ _ h
        subst hv0
        refine ⟨sv, a, s1, rfl, ?_, ?_⟩
        · simpa [storeConversion, hty, appendCode_nil] using ha
        · simpa [storedValue, storeAlignment, hty] using hs
      · simp only [hty, ne_eq, not_false_eq_true, if_true] at h
        by_cases hint : isIntType memoryType = true
        · simp only [hint, if_true, insert_eq] at h
          obtain ⟨hv0, a, s1, ha, hs⟩ := tail _ _ _ h
          subst hv0
          refine ⟨sv, a, s1, rfl, ?_, ?_⟩
          · simpa [storeConversion, hty] using ha
          · simpa [storedValue, storeAlignment, hty] using hs
        · simp [hint] at h
    | false =>
      simp only [Bool.false_eq_true, if_false] at h
      obtain ⟨hv0, a, s1, ha, hs⟩ := tail _ _ _ h
      subst hv0
      refine ⟨sv, a, s1, rfl, ?_, ?_⟩
      · simpa [storeConversion, appendCode_nil] using ha
      · simpa [storedValue, storeAlignment] using hs


/-! ## Alignment of loads and stores -/

/-- C17: the alignment of the instructions of a `Load` or `Store` expression, with the
shift `1 << alignmentLog2` of the emitter taken as exact.  The load
instruction of every overload of `visitLoad` carries the alignment `2 ^ alignmentLog2`, and
so does the store instruction of the class template of `visitStore`; the store instruction
of the overload of `visitStore` for `IntClass` carries no alignment at all. -/
theorem int_store_carries_no_alignment (cx : JITFunctionContext) (address : Dispatcher)
    (isFarAddress : Bool) (alignmentLog2 : Nat) (memoryType : TypeId) :
    (∀ type op s v s',
      visitLoad cx type op address isFarAddress alignmentLog2 memoryType s = .ok (v, s') →
      ∃ a s1, address (addressType isFarAddress) s = .ok (a, s1) ∧
        s' = appendCode (maskedAddressCode cx.jitModule.instanceMemoryAddressMask isFarAddress a
            memoryType s1.insertBlock (s1.blocks s1.insertBlock).length ++
          [.load (maskedPointer isFarAddress s1.insertBlock (s1.blocks s1.insertBlock).length)
            (some (2 ^ alignmentLog2))] ++
          loadConversion op type memoryType s1.insertBlock
            ((s1.blocks s1.insertBlock).length + maskedAddressLength isFarAddress)) s1) ∧
    (∀ isIntClass value valueType s v s',
      visitStore cx isIntClass address isFarAddress alignmentLog2 value valueType memoryType s =
        .ok (v, s') →
      ∃ sv a s1, value valueType s = .ok (v, sv) ∧
        address (addressType isFarAddress)
          (appendCode (storeConversion isIntClass valueType memoryType v) sv) = .ok (a, s1) ∧
        s' = appendCode (maskedAddressCode cx.jitModule.instanceMemoryAddressMask isFarAddress a
            memoryType s1.insertBlock (s1.blocks s1.insertBlock).length ++
          [.store (storedValue isIntClass valueType memoryType v sv.insertBlock
              (sv.blocks sv.insertBlock).length)
            (maskedPointer isFarAddress s1.insertBlock (s1.blocks s1.insertBlock).length)
            (if isIntClass then none else some (2 ^ alignmentLog2))]) s1) := by
  have hshift : 1 <<< alignmentLog2 = 2 ^ alignmentLog2 := Nat.one_shiftLeft alignmentLog2
  constructor
  · intro type op s v s' h
    obtain ⟨a, s1, ha, hs, -⟩ := visitLoad_facts cx type op address isFarAddress alignmentLog2
      memoryType s s' v h
    rw [hshift] at hs
    exact ⟨a, s1, ha, hs⟩
  · intro isIntClass value valueType s v s' h
    obtain ⟨sv, a, s1, hv, ha, hs⟩ := visitStore_facts cx isIntClass address isFarAddress
      alignmentLog2 value valueType memoryType s s' v h
    simp only [storeAlignment, hshift] at hs
    exact ⟨sv, a, s1, hv, ha, hs⟩

/-- C17 at a store of an `i32` with `alignmentLog2 = 0`: the store instruction that is
emitted has no alignment. -/
theorem int_store_carries_no_alignment_witness :
    ∃ v s', dispatch Example.context Example.intStore .Void Example.entryState = .ok (v, s') ∧
      s'.blocks 1 = [.cast .ZExt (.literal .I32 16) .I64,
        .binary .And (.inst 1 0) (.literal .I64 (2 ^ 33 - 1)),
        .inBoundsGEP .instanceMemoryBase [.inst 1 1], .pointerCast (.inst 1 2) .I32,
        .store (.literal .I32 7) (.inst 1 3) none] ∧
      ∃ sv a s1, dispatch Example.context (.literal .I32 7) .I32 Example.entryState =
          .ok (v, sv) ∧
        dispatch Example.context (.literal .I32 16) (addressType false)
          (appendCode (storeConversion true .I32 .I32 v) sv) = .ok (a, s1) ∧
        s' = appendCode (maskedAddressCode Example.context.jitModule.instanceMemoryAddressMask
            false a .I32 s1.insertBlock (s1.blocks s1.insertBlock).length ++
          [.store (storedValue true .I32 .I32 v sv.insertBlock
              (sv.blocks sv.insertBlock).length)
            (maskedPointer false s1.insertBlock (s1.blocks s1.insertBlock).length)
            (if true = true then none else some (2 ^ 0))]) s1 :=
  ⟨_, _, rfl, by decide,
    (int_store_carries_no_alignment Example.context
      (fun ty st => dispatch Example.context (.literal .I32 16) ty st) false 0 .I32).2 true (fun ty st => dispatch Example.context (.literal .I32 7) ty st) .I32
      Example.entryState _ _ rfl⟩


/-! ## The intrinsic exception types -/

/-- C18: the runtime declares sixteen intrinsic exception types, each once and every one of
them, with the names and the parameter tuples of the table of the specification, row by
row: a reference and an `i64` for `outOfBoundsMemoryAccess`, `outOfBoundsTableAccess` and
`uninitializedTableElement`, a reference and two `i64` for `outOfBoundsDataSegmentAccess`
and `outOfBoundsElemSegmentAccess`, an `i64` for `misalignedAtomicMemoryAccess`, and no
parameter for the other ten. -/
theorem intrinsic_exception_types_match_table :
    Runtime.intrinsicExceptionTypes.length = 16 ∧
    (Runtime.intrinsicExceptionTypes.map Prod.fst).Nodup ∧
    (∀ e : IntrinsicException, e ∈ Runtime.intrinsicExceptionTypes.map Prod.fst) ∧
    Runtime.intrinsicExceptionTypes.map
        (fun p => (Runtime.specName p.1, p.2.map Runtime.specParameter)) =
      Runtime.specExceptionTable ∧
    (∀ p ∈ Runtime.intrinsicExceptionTypes,
      p.2.map Runtime.specParameter = Runtime.specParameters p.1) ∧
    ((Runtime.intrinsicExceptionTypes.filter fun p => p.2 = []).length = 10) := by
  refine ⟨by decide, by decide, ?_, by decide, by decide, by decide⟩
  intro e
  cases e <;> decide


/-! ## Validated memory ranges -/

/-- C20: what `memoryRef` and `memoryArrayPtr` validate.  `memoryRef` gives a reference only
if the bytes `[offset, offset + sizeof(Value))` are committed.  `memoryArrayPtr` gives a
pointer only if the bytes `[offset, offset + (n * sizeof(Value) mod 2 ^ 64))` are committed:
that is the whole array when `n * sizeof(Value)` is below `2 ^ 64`, and less than the array
when the product wraps.  For a memory of one page, the offset 0 and `2 ^ 61` elements of 8
bytes it gives a pointer, and the array is not inside the committed bytes. -/
theorem memoryArrayPtr_validates_wrapped_size :
    (∀ sizeofValue memory offset p, Runtime.memoryRef sizeofValue memory offset = some p →
      offset + sizeofValue ≤ memory.committedBytes) ∧
    (∀ sizeofValue memory offset n p,
      Runtime.memoryArrayPtr sizeofValue memory offset n = some p →
      offset + n * sizeofValue % 2 ^ 64 ≤ memory.committedBytes ∧
      (n * sizeofValue < 2 ^ 64 → offset + n * sizeofValue ≤ memory.committedBytes)) ∧
    (2 ^ 61 < 2 ^ Runtime.uptrBits ∧
      Runtime.memoryArrayPtr 8 ⟨0, 65536⟩ 0 (2 ^ 61) = some 0 ∧
      ¬ (0 + 2 ^ 61 * 8 ≤ (⟨0, 65536⟩ : Runtime.Memory).committedBytes)) := by
  refine ⟨?_, ?_, by decide, by decide, by decide⟩
  · intro sizeofValue memory offset p h
    unfold Runtime.memoryRef Runtime.getValidatedMemoryOffsetRange at h
    by_cases hc : offset + sizeofValue ≤ memory.committedBytes
    · exact hc
    · simp [hc] at h
  · intro sizeofValue memory offset n p h
    unfold Runtime.memoryArrayPtr Runtime.getValidatedMemoryOffsetRange at h
    simp only [Runtime.uptrBits] at h
    by_cases hc : offset + n * sizeofValue % 2 ^ 64 ≤ memory.committedBytes
    · refine ⟨hc, fun hlt => ?_⟩
      rw [Nat.mod_eq_of_lt hlt] at hc
      exact hc
    · rw [if_neg hc] at h
      cases h


/-! ## Root references of `GCPointer` -/

theorem count_set_add {α : Type} [BEq α] [LawfulBEq α] (l : List α) (p : Nat) (x a old : α)
    (h : l[p]? = some old) :
    (l.set p x).count a + (if old == a then 1 else 0) =
      l.count a + (if x == a then 1 else 0) := by
  induction l generalizing p with
  | nil => simp at h
  | cons b t ih =>
    cases p with
    | zero =>
      simp only [List.getElem?_cons_zero, Option.some.injEq] at h
      subst h
      simp only [List.set_cons_zero, List.count_cons]
      omega
    | succ p =>
      simp only [List.getElem?_cons_succ] at h
      have := ih p h
      simp only [List.set_cons_succ, List.count_cons]
      omega

namespace Runtime

/-- The invariant of the root references: for each object, the calls of `addGCRoot` are
the calls of `removeGCRoot` and one more for each live `GCPointer` that holds the object. -/
theorem balanced_initial (o : ObjectId) :
    RootState.initial.added o = RootState.initial.removed o + holders o RootState.initial := by
  simp [RootState.initial, holders]

theorem holders_newPointer (o : ObjectId) (value : Option ObjectId) (s : RootState) :
    holders o (newPointer value s) = holders o s + (if value = some o then 1 else 0) := by
  simp only [holders, newPointer, List.count_append, List.count_cons, List.count_nil,
    beq_iff_eq, Option.some.injEq]
  omega

theorem holders_setValue (o : ObjectId) (p : Nat) (value old : Option ObjectId) (s : RootState)
    (h : s.pointers[p]? = some (some old)) :
    holders o (setValue p value s) + (if old = some o then 1 else 0) =
      holders o s + (if value = some o then 1 else 0) := by
  have := count_set_add s.pointers p (some value) (some (some o)) (some old) h
  simpa [holders, setValue] using this

theorem holders_destroyed (o : ObjectId) (p : Nat) (old : Option ObjectId) (s : RootState)
    (h : s.pointers[p]? = some (some old)) :
    holders o { s with pointers := s.pointers.set p none } + (if old = some o then 1 else 0) =
      holders o s := by
  have := count_set_add s.pointers p none (some (some o)) (some old) h
  simpa [holders] using this

theorem getValue_ok {p : Nat} {s : RootState} {value : Option ObjectId}
    (h : getValue p s = .ok value) : s.pointers[p]? = some (some value) := by
  unfold getValue at h
  split at h
  · rename_i v hv
    simp only [Except.ok.injEq] at h
    rw [hv, h]
  · simp at h

theorem getValue_of_live {p : Nat} {s : RootState} (h : Live p s) :
    ∃ value, getValue p s = .ok value := by
  obtain ⟨value, hv⟩ := h
  exact ⟨value, by simp [getValue, hv]⟩

theorem holders_pos {o : ObjectId} {p : Nat} {s : RootState}
    (h : s.pointers[p]? = some (some (some o))) : 0 < holders o s :=
  List.count_pos_iff.mpr (List.getElem?_mem h)

end Runtime


namespace Runtime

theorem addRootIfSet_added (value : Option ObjectId) (s : RootState) (o : ObjectId) :
    (addRootIfSet value s).added o = s.added o + (if value = some o then 1 else 0) := by
  cases value with
  | none => simp [addRootIfSet]
  | some x =>
    by_cases h : x = o
    · simp [addRootIfSet, addGCRoot, h]
    · have h' : ¬ o = x := fun hc => h hc.symm
      simp [addRootIfSet, addGCRoot, h, h']

theorem addRootIfSet_removed (value : Option ObjectId) (s : RootState) :
    (addRootIfSet value s).removed = s.removed := by
  cases value <;> rfl

theorem addRootIfSet_pointers (value : Option ObjectId) (s : RootState) :
    (addRootIfSet value s).pointers = s.pointers := by
  cases value <;> rfl

theorem holders_congr (o : ObjectId) {s s' : RootState} (h : s'.pointers = s.pointers) :
    holders o s' = holders o s := by
  simp [holders, h]

/-- The call of `removeGCRoot` at the start of a destructor or an assignment does not
underflow when the root references are balanced. -/
theorem release_ok {s : RootState} {p : Nat} {value : Option ObjectId} (hbal : Balanced s)
    (hv : getValue p s = .ok value) :
    ∃ s1, removeRootIfSet value s = .ok s1 ∧ s1.pointers = s.pointers ∧ s1.added = s.added ∧
      ∀ o, s1.removed o = s.removed o + (if value = some o then 1 else 0) := by
  cases value with
  | none => exact ⟨s, rfl, rfl, rfl, fun o => by simp⟩
  | some x =>
    have hpos := holders_pos (getValue_ok hv)
    have hx := hbal x
    have hlt : s.removed x < s.added x := by omega
    refine ⟨{ s with removed := fun y => if y = x then s.removed y + 1 else s.removed y },
      by simp [removeRootIfSet, removeGCRoot, hlt], rfl, rfl, ?_⟩
    intro o
    by_cases h : x = o
    · simp [h]
    · have h' : ¬ o = x := fun hc => h hc.symm
      simp [h, h']

theorem getElem?_newPointer {p : Nat} {value : Option ObjectId} {s : RootState}
    {x : Option (Option ObjectId)} (h : s.pointers[p]? = some x) :
    (newPointer value s).pointers[p]? = some x := by
  have hlt : p < s.pointers.length := (List.getElem?_eq_some_iff.mp h).1
  simp only [newPointer]
  rw [List.getElem?_append_left hlt]
  exact h

theorem getElem?_setValue_self {p : Nat} {value : Option ObjectId} {s : RootState}
    {x : Option (Option ObjectId)} (h : s.pointers[p]? = some x) :
    (setValue p value s).pointers[p]? = some (some value) := by
  have hlt : p < s.pointers.length := (List.getElem?_eq_some_iff.mp h).1
  simp [setValue, hlt]

theorem getElem?_setValue_of_ne {p q : Nat} (value : Option ObjectId) (s : RootState)
    (h : p ≠ q) : (setValue p value s).pointers[q]? = s.pointers[q]? := by
  simp [setValue, List.getElem?_set_ne h]

end Runtime


namespace Runtime

theorem getValue_error {p : Nat} {s : RootState} {e : GCError}
    (h : getValue p s = .error e) : e = .deadPointer ∧ ¬ Live p s := by
  unfold getValue at h
  split at h
  · simp at h
  · rename_i hne
    simp only [Except.error.injEq] at h
    refine ⟨h.symm, ?_⟩
    rintro ⟨value, hv⟩
    exact hne value hv

theorem getValue_congr (p : Nat) {s s' : RootState} (h : s'.pointers = s.pointers) :
    getValue p s' = getValue p s := by
  simp [getValue, h]

/-- What an operation does in a state with balanced root references: it names a
`GCPointer` that is not live and fails for that, or it succeeds, the root references are
balanced again, and the `GCPointer` it moves from holds null. -/
theorem Operation.apply_spec (op : Operation) (s : RootState) (hbal : Balanced s) :
    (op.apply s = .error .deadPointer ∧ ∃ p ∈ op.operands, ¬ Live p s) ∨
    (∃ s', op.apply s = .ok s' ∧ Balanced s' ∧
      ∀ q, op.movedFrom = some q → s'.pointers[q]? = some (some none)) := by
  cases op with
  | constructDefault =>
    right
    refine ⟨_, rfl, ?_, by simp [Operation.movedFrom]⟩
    intro o
    have := holders_newPointer o none s
    have := hbal o
    simp only [newPointer] at *
    simp_all
  | constructFromRaw inValue =>
    right
    refine ⟨_, rfl, ?_, by simp [Operation.movedFrom]⟩
    intro o
    rw [addRootIfSet_added, addRootIfSet_removed, holders_congr o (addRootIfSet_pointers _ _),
      holders_newPointer]
    have := hbal o
    simp only [newPointer]
    omega
  | constructCopy q =>
    cases hv : getValue q s with
    | error e =>
      obtain ⟨he, hl⟩ := getValue_error hv
      subst he
      left
      exact ⟨by simp [Operation.apply, Runtime.constructCopy, hv], q, by simp [Operation.operands], hl⟩
    | ok value =>
      right
      refine ⟨_, by simp only [Operation.apply, Runtime.constructCopy, hv]; rfl, ?_,
        by simp [Operation.movedFrom]⟩
      intro o
      rw [addRootIfSet_added, addRootIfSet_removed, holders_congr o (addRootIfSet_pointers _ _),
        holders_newPointer]
      have := hbal o
      simp only [newPointer]
      omega
  | constructMove q =>
    cases hv : getValue q s with
    | error e =>
      obtain ⟨he, hl⟩ := getValue_error hv
      subst he
      left
      exact ⟨by simp [Operation.apply, Runtime.constructMove, hv], q, by simp [Operation.operands], hl⟩
    | ok value =>
      right
      have hq := @getElem?_newPointer q value s _ (getValue_ok hv)
      refine ⟨_, by simp only [Operation.apply, Runtime.constructMove, hv]; rfl, ?_, ?_⟩
      · intro o
        have h1 := holders_setValue o q none value (newPointer value s) hq
        have h2 := holders_newPointer o value s
        have := hbal o
        simp only [setValue, newPointer] at *
        simp only [reduceCtorEq, if_false, Nat.add_zero] at h1
        omega
      · intro q' hq'
        simp only [Operation.movedFrom, Option.some.injEq] at hq'
        subst hq'
        exact getElem?_setValue_self hq
  | destroy p =>
    cases hv : getValue p s with
    | error e =>
      obtain ⟨he, hl⟩ := getValue_error hv
      subst he
      left
      exact ⟨by simp [Operation.apply, Runtime.destroy, hv], p, by simp [Operation.operands], hl⟩
    | ok value =>
      right
      obtain ⟨s1, hr, hp1, ha1, hr1⟩ := release_ok hbal hv
      refine ⟨_, by simp only [Operation.apply, Runtime.destroy, hv, hr]; rfl, ?_,
        by simp [Operation.movedFrom]⟩
      intro o
      have h1 := holders_destroyed o p value s1 (by rw [hp1]; exact getValue_ok hv)
      have h2 := holders_congr o hp1
      have := hbal o
      have := hr1 o
      have hadd := congrFun ha1 o
      show s1.added o = s1.removed o + holders o { s1 with pointers := s1.pointers.set p none }
      omega
  | assignRaw p inValue =>
    cases hv : getValue p s with
    | error e =>
      obtain ⟨he, hl⟩ := getValue_error hv
      subst he
      left
      exact ⟨by simp [Operation.apply, Runtime.assignRaw, hv], p, by simp [Operation.operands], hl⟩
    | ok value =>
      right
      obtain ⟨s1, hr, hp1, ha1, hr1⟩ := release_ok hbal hv
      refine ⟨_, by simp only [Operation.apply, Runtime.assignRaw, hv, hr]; rfl, ?_,
        by simp [Operation.movedFrom]⟩
      intro o
      rw [addRootIfSet_added, addRootIfSet_removed, holders_congr o (addRootIfSet_pointers _ _)]
      have h1 := holders_setValue o p inValue value s1 (by rw [hp1]; exact getValue_ok hv)
      have h2 := holders_congr o hp1
      have := hbal o
      have := hr1 o
      simp only [setValue, ha1] at *
      omega
  | assignCopy p q =>
    cases hv : getValue p s with
    | error e =>
      obtain ⟨he, hl⟩ := getValue_error hv
      subst he
      left
      exact ⟨by simp [Operation.apply, Runtime.assignCopy, hv], p, by simp [Operation.operands], hl⟩
    | ok value =>
      obtain ⟨s1, hr, hp1, ha1, hr1⟩ := release_ok hbal hv
      cases hw : getValue q s1 with
      | error e =>
        obtain ⟨he, hl⟩ := getValue_error hw
        subst he
        left
        refine ⟨by simp [Operation.apply, Runtime.assignCopy, hv, hr, hw], q,
          by simp [Operation.operands], ?_⟩
        rintro ⟨x, hx⟩
        exact hl ⟨x, by rw [hp1]; exact hx⟩
      | ok copied =>
        right
        refine ⟨_, by simp only [Operation.apply, Runtime.assignCopy, hv, hr, hw]; rfl, ?_,
          by simp [Operation.movedFrom]⟩
        intro o
        rw [addRootIfSet_added, addRootIfSet_removed,
          holders_congr o (addRootIfSet_pointers _ _)]
        have h1 := holders_setValue o p copied value s1 (by rw [hp1]; exact getValue_ok hv)
        have h2 := holders_congr o hp1
        have := hbal o
        have := hr1 o
        simp only [setValue, ha1] at *
        omega
  | assignMove p q =>
    cases hv : getValue p s with
    | error e =>
      obtain ⟨he, hl⟩ := getValue_error hv
      subst he
      left
      exact ⟨by simp [Operation.apply, Runtime.assignMove, hv], p, by simp [Operation.operands], hl⟩
    | ok value =>
      obtain ⟨s1, hr, hp1, ha1, hr1⟩ := release_ok hbal hv
      cases hw : getValue q s1 with
      | error e =>
        obtain ⟨he, hl⟩ := getValue_error hw
        subst he
        left
        refine ⟨by simp [Operation.apply, Runtime.assignMove, hv, hr, hw], q,
          by simp [Operation.operands], ?_⟩
        rintro ⟨x, hx⟩
        exact hl ⟨x, by rw [hp1]; exact hx⟩
      | ok moved =>
        right
        have hp : s1.pointers[p]? = some (some value) := by rw [hp1]; exact getValue_ok hv
        have hq : (setValue p moved s1).pointers[q]? = some (some moved) := by
          by_cases hpq : p = q
          · subst hpq
            exact getElem?_setValue_self hp
          · rw [getElem?_setValue_of_ne _ _ hpq]
            exact getValue_ok hw
        refine ⟨_, by simp only [Operation.apply, Runtime.assignMove, hv, hr, hw]; rfl, ?_, ?_⟩
        · intro o
          have h1 := holders_setValue o p moved value s1 hp
          have h3 := holders_setValue o q none moved (setValue p moved s1) hq
          have h2 := holders_congr o hp1
          have := hbal o
          have := hr1 o
          simp only [reduceCtorEq, if_false, Nat.add_zero] at h3
          simp only [setValue, ha1] at *
          omega
        · intro q' hq'
          simp only [Operation.movedFrom, Option.some.injEq] at hq'
          subst hq'
          exact getElem?_setValue_self hq

end Runtime


theorem Runtime.runOperations_balanced (ops : List Runtime.Operation) :
    ∀ s, Runtime.Balanced s →
      Runtime.runOperations ops s ≠ .error .rootUnderflow ∧
      ∀ s', Runtime.runOperations ops s = .ok s' → Runtime.Balanced s' := by
  induction ops with
  | nil =>
    intro s hbal
    refine ⟨by simp [Runtime.runOperations], ?_⟩
    intro s' h
    simp only [Runtime.runOperations, Except.ok.injEq] at h
    rw [← h]
    exact hbal
  | cons op rest ih =>
    intro s hbal
    unfold Runtime.runOperations
    rcases op.apply_spec s hbal with ⟨he, -⟩ | ⟨s1, hs1, hbal1, -⟩
    · rw [he]
      exact ⟨by simp, fun s' h => by simp at h⟩
    · rw [hs1]
      exact ih s1 hbal1

/-- C19: the root references of `GCPointer` balance.  After every sequence of
constructions, assignments and destructions of `GCPointer` objects, for each object the
calls of `addGCRoot` are as many as the calls of `removeGCRoot` and the live `GCPointer`
objects that hold the object together, so the calls of `removeGCRoot` never outnumber the
calls of `addGCRoot`; no call of `removeGCRoot` finds the counter at zero, not within an
operation either; an operation on live `GCPointer` objects succeeds, and the `GCPointer` it
moves from holds null afterwards, also when it is moved to itself. -/
theorem gcPointer_roots_balance (ops : List Runtime.Operation) :
    Runtime.runOperations ops .initial ≠ .error .rootUnderflow ∧
    ∀ s, Runtime.runOperations ops .initial = .ok s →
      (∀ o, s.added o = s.removed o + Runtime.holders o s) ∧
      (∀ o, s.removed o ≤ s.added o) ∧
      ∀ op : Runtime.Operation,
        op.apply s ≠ .error .rootUnderflow ∧
        ((∀ p ∈ op.operands, Runtime.Live p s) → ∃ s', op.apply s = .ok s') ∧
        ∀ s' q, op.apply s = .ok s' → op.movedFrom = some q →
          s'.pointers[q]? = some (some none) := by
  have h0 : Runtime.Balanced .initial := Runtime.balanced_initial
  refine ⟨(Runtime.runOperations_balanced ops _ h0).1, ?_⟩
  intro s hs
  have hbal := (Runtime.runOperations_balanced ops _ h0).2 s hs
  refine ⟨hbal, fun o => by have := hbal o; omega, ?_⟩
  intro op
  rcases op.apply_spec s hbal with ⟨he, p, hp, hl⟩ | ⟨s1, hs1, -, hm⟩
  · rw [he]
    refine ⟨by simp, fun hlive => absurd (hlive p hp) hl, fun s' q h => by simp at h⟩
  · rw [hs1]
    refine ⟨by simp, fun _ => ⟨s1, rfl⟩, ?_⟩
    intro s' q h hq
    simp only [Except.ok.injEq] at h
    rw [← h]
    exact hm q hq

/-- C19 at a sequence of operations with an assignment of a `GCPointer` to itself and a
move of a `GCPointer` to itself: the sequence succeeds, all `GCPointer` objects are
destroyed at its end, and three calls of `addGCRoot` stand against three calls of
`removeGCRoot` for the object. -/
theorem gcPointer_roots_balance_witness :
    ∃ s, Runtime.runOperations Example.pointerOperations .initial = .ok s ∧
      s.pointers = [none, none, none] ∧ s.added 7 = s.removed 7 ∧
      ∀ o, s.added o = s.removed o + Runtime.holders o s :=
  ⟨_, rfl, by decide, by decide,
    ((gcPointer_roots_balance Example.pointerOperations).2 _ rfl).1⟩


/-! ## Emission at the unreachable block -/

theorem eraseBlock_not_mem (erased : Nat) (s : EmitState) :
    ∀ p ∈ eraseBlock erased s, p.1 ≠ erased := by
  intro p hp
  simp only [eraseBlock, List.mem_map, List.mem_filter, List.mem_range, decide_eq_true_eq] at hp
  obtain ⟨b, ⟨-, hb⟩, hpb⟩ := hp
  rw [← hpb]
  exact hb

theorem bodyEntry_unreachableBlock (jitModule : JITModule) (astFunction : Function)
    (cx : JITFunctionContext) (s : EmitState)
    (h : bodyEntry jitModule astFunction = .ok (cx, s)) :
    cx.unreachableBlock = initialUnreachableBlock := by
  unfold bodyEntry at h
  simp only [createBasicBlock, initialState] at h
  generalize emitArguments _ _ _ _ _ = r at h
  cases r with
  | error e => simp at h
  | ok s4 =>
    simp only [Except.ok.injEq, Prod.mk.injEq] at h
    rw [← h.1]

theorem emitBody_unreachableBlock (jitModule : JITModule) (astFunction : Function)
    (cx : JITFunctionContext) (s : EmitState)
    (h : emitBody jitModule astFunction = .ok (cx, s)) :
    cx.unreachableBlock = initialUnreachableBlock := by
  rw [emitBody_eq] at h
  cases hb : bodyEntry jitModule astFunction with
  | error e => simp [hb] at h
  | ok r =>
    obtain ⟨cx0, s4⟩ := r
    have hu := bodyEntry_unreachableBlock jitModule astFunction cx0 s4 hb
    simp only [hb] at h
    cases hd : dispatch cx0 astFunction.expression astFunction.type.returnType s4 with
    | error e => simp [hd] at h
    | ok r2 =>
      obtain ⟨value, s5⟩ := r2
      simp only [hd] at h
      have hcx : cx0 = cx := by
        split at h
        · split at h <;> simp only [Except.ok.injEq, Prod.mk.injEq] at h <;> exact h.1
        · simp only [Except.ok.injEq, Prod.mk.injEq] at h
          exact h.1
      rw [← hcx]
      exact hu

/-- A counterexample to C14 as stated: the label after the return is emitted while the
insertion point is the unreachable block, and its addition, its branch, its phi node and a
return are created, in blocks 2 and 3 of the finished function. -/
theorem label_after_return_emits_instructions :
    emit Example.jitModule Example.deadCodeFunction =
      .ok [(1, [.ret (some (.literal .I64 1))]),
        (2, [.binary .Add (.literal .I64 2) (.literal .I64 3), .br 3]),
        (3, [.phi .I64 [(.inst 2 0, 2)], .ret (some (.inst 3 0))])] ∧
    ∃ cx s4 s1, bodyEntry Example.jitModule Example.deadCodeFunction = .ok (cx, s4) ∧
      dispatch cx (.ret (.literal .I64 1)) .Void s4 = .ok (.typedZero .Void, s1) ∧
      s1.insertBlock = cx.unreachableBlock :=
  ⟨rfl, _, _, _, rfl, rfl, rfl⟩

/-! ## The switch instruction and the arms of a Switch -/

theorem visitSwitch_facts (type : TypeId) (key : EmitState → EmitResult Value)
    (keyType : TypeId) (numArms : Nat) (armKeys : List Nat) (defaultArmIndex : Nat)
    (endTarget : BranchTarget) (arms : Nat → Nat → EmitState → EmitResult Unit)
    (s : EmitState) (v : Value) (s' : EmitState)
    (h : visitSwitch type key keyType numArms armKeys defaultArmIndex endTarget arms s =
      .ok (v, s')) :
    ∃ value s1 u s6 D outer, key s = .ok (value, s1) ∧ endTarget.type = type ∧
      defaultArmIndex < numArms ∧
      arms s1.numBlocks (s1.numBlocks + numArms)
        (armLoopState value keyType numArms armKeys defaultArmIndex endTarget s1) =
          .ok (u, s6) ∧
      s6.branchContext = D :: outer ∧
      (type = .Void → v = .voidDummy ∧
        s' = setInsertPoint (s1.numBlocks + numArms) { s6 with branchContext := outer }) ∧
      (type ≠ .Void → v = .inst (s1.numBlocks + numArms)
          (s6.blocks (s1.numBlocks + numArms)).length ∧
        s' = appendCode [.phi type (phiIncoming D.results)]
          (setInsertPoint (s1.numBlocks + numArms) { s6 with branchContext := outer })) := by
  unfold visitSwitch at h
  cases hk : key s with
  | error e => simp [hk] at h
  | ok r =>
    obtain ⟨value, s1⟩ := r
    simp only [hk, createBasicBlocks, createBasicBlock] at h
    by_cases h1 : endTarget.type = type
    swap
    · simp [h1] at h
    by_cases h2 : 0 < numArms
    swap
    · simp [h1, h2] at h
    by_cases h3 : defaultArmIndex < numArms
    swap
    · simp [h1, h2, h3] at h
    simp only [h1, h2, h3, ne_eq, not_true_eq_false, if_false, insert_eq] at h
    generalize hd : arms _ _ _ = r at h
    cases r with
    | error e => simp at h
    | ok r =>
      obtain ⟨u, s6⟩ := r
      cases hc : s6.branchContext with
      | nil => simp [hc] at h
      | cons D outer =>
        simp only [hc] at h
        by_cases hl : outer.length = s1.branchContext.length
        swap
        · simp [hl] at h
        simp only [hl, ne_eq, not_true_eq_false, if_false] at h
        refine ⟨value, s1, u, s6, D, outer, rfl, h1, h3, hd, hc, ?_, ?_⟩
        · intro hty
          simp only [hty, if_true] at h
          cases h
          exact ⟨rfl, rfl⟩
        · intro hty
          simp only [hty, if_false, insert_eq] at h
          cases h
          exact ⟨rfl, rfl⟩

theorem switchCases_find (keyType : TypeId) (defaultArmIndex A x : Nat) (keys : List Nat) :
    ∀ index, ((switchCases keyType defaultArmIndex A index keys).find? fun c =>
        decide (evalOperand (fun _ => none) c.1 = some (.int keyType.bits x))).map Prod.snd =
      (matchingArm keyType defaultArmIndex x index keys).map fun i => A + i := by
  induction keys with
  | nil => intro index; simp [switchCases, matchingArm]
  | cons key keys ih =>
    intro index
    unfold switchCases matchingArm
    by_cases hd : index = defaultArmIndex
    · simp [hd, ih]
    · have he : evalOperand (fun _ => none) (compileLiteral keyType key) =
          some (.int keyType.bits (key % 2 ^ keyType.bits)) := rfl
      by_cases hx : key % 2 ^ keyType.bits = x
      · simp [hd, hx, List.find?, he]
      · simp [hd, hx, List.find?, he, ih]

theorem switchCases_constant (keyType : TypeId) (defaultArmIndex A : Nat) (keys : List Nat) :
    ∀ index, ∀ c ∈ switchCases keyType defaultArmIndex A index keys,
      ∃ k ∈ keys, c.1 = compileLiteral keyType k := by
  induction keys with
  | nil => intro index c hc; simp [switchCases] at hc
  | cons key keys ih =>
    intro index c hc
    unfold switchCases at hc
    by_cases hd : index = defaultArmIndex
    · simp only [hd, ne_eq, not_true_eq_false, if_false] at hc
      obtain ⟨k, hk, he⟩ := ih _ c (by simpa [hd] using hc)
      exact ⟨k, List.mem_cons_of_mem _ hk, he⟩
    · simp only [hd, ne_eq, not_false_eq_true, if_true, List.mem_cons] at hc
      rcases hc with hc | hc
      · exact ⟨key, List.mem_cons_self _ _, by rw [hc]⟩
      · obtain ⟨k, hk, he⟩ := ih _ c hc
        exact ⟨k, List.mem_cons_of_mem _ hk, he⟩

theorem switchCases_constants_nodup (keyType : TypeId) (defaultArmIndex A : Nat)
    (keys : List Nat) (hnodup : keys.Nodup) (hrange : ∀ k ∈ keys, k < 2 ^ keyType.bits) :
    ∀ index, (caseConstants (switchCases keyType defaultArmIndex A index keys)).Nodup := by
  induction keys with
  | nil => intro index; simp [switchCases, caseConstants]
  | cons key keys ih =>
    intro index
    have hn := List.nodup_cons.mp hnodup
    have ih := ih hn.2 (fun k hk => hrange k (List.mem_cons_of_mem _ hk)) (index + 1)
    unfold switchCases
    by_cases hd : index = defaultArmIndex
    · simpa [hd] using ih
    · simp only [hd, ne_eq, not_false_eq_true, if_true, caseConstants, List.map_cons,
        List.nodup_cons]
      refine ⟨?_, ih⟩
      intro hmem
      obtain ⟨c, hc, he⟩ := List.mem_map.mp hmem
      obtain ⟨k, hk, hck⟩ := switchCases_constant keyType defaultArmIndex A keys _ c hc
      rw [hck] at he
      simp only [compileLiteral, evalOperand, Option.some.injEq, RuntimeValue.int.injEq,
        true_and] at he
      rw [Nat.mod_eq_of_lt (hrange k (List.mem_cons_of_mem _ hk)),
        Nat.mod_eq_of_lt (hrange key (List.mem_cons_self _ _))] at he
      exact hn.1 (he ▸ hk)

theorem matchingArm_of_nodup (keyType : TypeId) (defaultArmIndex x : Nat) (keys : List Nat)
    (hnodup : keys.Nodup) (hrange : ∀ k ∈ keys, k < 2 ^ keyType.bits) :
    ∀ index, matchingArm keyType defaultArmIndex x index keys =
      if x ∈ keys ∧ index + keys.indexOf x ≠ defaultArmIndex then
        some (index + keys.indexOf x)
      else none := by
  induction keys with
  | nil => intro index; simp [matchingArm]
  | cons key keys ih =>
    intro index
    have hn := List.nodup_cons.mp hnodup
    have ih := ih hn.2 (fun k hk => hrange k (List.mem_cons_of_mem _ hk)) (index + 1)
    unfold matchingArm
    rw [ih, Nat.mod_eq_of_lt (hrange key (List.mem_cons_self _ _))]
    by_cases hx : key = x
    · subst hx
      have hnot : ¬ key ∈ keys := hn.1
      by_cases hd : index = defaultArmIndex
      · simp [hd, hnot]
      · simp [hd]
    · have hx' : x ≠ key := fun h => hx h.symm
      rw [List.indexOf_cons_ne _ hx]
      simp only [hx, and_false, if_false, List.mem_cons, hx', false_or, Nat.succ_eq_add_one]
      have he : index + 1 + List.indexOf x keys = index + (List.indexOf x keys + 1) := by omega
      rw [he]
theorem SwitchArms.drop_nil (i : Nat) : SwitchArms.nil.drop i = .nil := by
  cases i <;> rfl

/-- Every arm of the loop of `visitSwitch` is emitted at its own block, and the loop goes
on from the state in which the arm is finished. -/
theorem visitSwitchArms_round (cx : JITFunctionContext) (type keyType : TypeId)
    (defaultArmIndex numArms A S : Nat) :
    ∀ (arms : SwitchArms) (index : Nat) (s : EmitState) (u : Unit) (s' : EmitState),
      visitSwitchArms cx type keyType defaultArmIndex numArms A S arms index s = .ok (u, s') →
      ∀ i e, arms.value? i = some e →
        ∃ st armValue st1,
          dispatch cx e (if index + i + 1 = numArms then type else .Void)
            (setInsertPoint (A + (index + i)) st) = .ok (armValue, st1) ∧
          visitSwitchArms cx type keyType defaultArmIndex numArms A S (arms.drop (i + 1))
            (index + i + 1)
            (finishSwitchArm cx type (decide (index + i + 1 = numArms)) (A + (index + i) + 1) S
              armValue st1) = .ok (u, s')
  | .nil, _, _, _, _, _, i, e, he => by simp [SwitchArms.value?] at he
  | .cons key value rest, index, s, u, s', h, i, e, he => by
    unfold visitSwitchArms at h
    by_cases hthrow : index ≠ defaultArmIndex ∧ isIntType keyType = false
    · simp [hthrow] at h
    · simp only [hthrow, if_false, decide_eq_true_eq] at h
      cases hd : dispatch cx value (if index + 1 = numArms then type else .Void)
          (setInsertPoint (A + index) s) with
      | error err => simp [hd] at h
      | ok r =>
        obtain ⟨armValue, s1⟩ := r
        simp only [hd] at h
        cases i with
        | zero =>
          simp only [SwitchArms.value?, Option.some.injEq] at he
          subst he
          exact ⟨s, armValue, s1, by simpa using hd, by simpa [SwitchArms.drop] using h⟩
        | succ j =>
          simp only [SwitchArms.value?] at he
          obtain ⟨st, av, st1, h1, h2⟩ :=
            visitSwitchArms_round cx type keyType defaultArmIndex numArms A S rest (index + 1)
              _ u s' h j e he
          have e1 : index + 1 + j = index + (j + 1) := by omega
          rw [e1] at h1 h2
          exact ⟨st, av, st1, h1, h2⟩
theorem dispatch_switch_facts (cx : JITFunctionContext) (type : TypeId) (key : Expression)
    (keyType : TypeId) (arms : SwitchArms) (defaultArmIndex : Nat) (endTarget : BranchTarget)
    (s : EmitState) (v : Value) (s' : EmitState)
    (h : dispatch cx (.switch key keyType arms defaultArmIndex endTarget) type s =
      .ok (v, s')) :
    ∃ value s1 s6 D outer, dispatch cx key keyType s = .ok (value, s1) ∧
      endTarget.type = type ∧ defaultArmIndex < arms.numArms ∧
      visitSwitchArms cx type keyType defaultArmIndex arms.numArms s1.numBlocks
        (s1.numBlocks + arms.numArms) arms 0
        (armLoopState value keyType arms.numArms arms.keys defaultArmIndex endTarget s1) =
          .ok ((), s6) ∧
      s6.branchContext = D :: outer ∧
      (type = .Void → v = .voidDummy ∧
        s' = setInsertPoint (s1.numBlocks + arms.numArms) { s6 with branchContext := outer }) ∧
      (type ≠ .Void → v = .inst (s1.numBlocks + arms.numArms)
          (s6.blocks (s1.numBlocks + arms.numArms)).length ∧
        s' = appendCode [.phi type (phiIncoming D.results)]
          (setInsertPoint (s1.numBlocks + arms.numArms)
            { s6 with branchContext := outer })) := by
  rw [dispatch] at h
  obtain ⟨value, s1, u, s6, D, outer, hk, h1, h3, hd, hc, hv, hn⟩ :=
    visitSwitch_facts _ _ _ _ _ _ _ _ _ _ _ h
  exact ⟨value, s1, s6, D, outer, hk, h1, h3, hd, hc, hv, hn⟩

theorem stepInst_switch (jitModule : JITModule) (block index : Nat) (f : Frame)
    (value : Value) (key : RuntimeValue) (defaultDest : Nat) (cases : List (Value × Nat))
    (hop : f.operand value = some (.scalar key)) :
    stepInst jitModule block index f (.switch value defaultDest cases) =
      match switchDest key defaultDest cases with
      | some dest => .transfers dest f
      | none => .stuck := by
  simp only [stepInst, hop]

/-- C11 (amended).  When a `Switch` is emitted, one `switch` instruction is created at the
insertion point right after the key is emitted, and the loop over the arms runs from the
state with that instruction; the default arm exists.  The default destination is the block
of the default arm, and there is one case for every arm other than the default arm, with
the key cut to the width of the key type.  When the case constants are pairwise different,
as LLVM requires, the instruction executed with the key `x` transfers control to the block
of the first arm other than the default arm whose cut key is `x`, and to the block of the
default arm when there is none.  When the keys of all arms are pairwise different and fit
the key type, the case constants are pairwise different and that arm is the first arm
whose key is `x` if there is one, the default arm otherwise.  Arm `i` is emitted with the
insertion point at the start of its block, the block number `i` of the arm blocks. -/
theorem switch_enters_first_case_arm (cx : JITFunctionContext) (type : TypeId)
    (key : Expression) (keyType : TypeId) (arms : SwitchArms) (defaultArmIndex : Nat)
    (endTarget : BranchTarget) (s : EmitState) (value : Value) (s1 : EmitState) (v : Value)
    (s' : EmitState)
    (hk : dispatch cx key keyType s = .ok (value, s1))
    (h : dispatch cx (.switch key keyType arms defaultArmIndex endTarget) type s =
      .ok (v, s')) :
    (defaultArmIndex < arms.numArms ∧
      ∃ s6, visitSwitchArms cx type keyType defaultArmIndex arms.numArms s1.numBlocks
        (s1.numBlocks + arms.numArms) arms 0
        (armLoopState value keyType arms.numArms arms.keys defaultArmIndex endTarget s1) =
          .ok ((), s6) ∧
        ∀ i e, arms.value? i = some e → ∃ st armValue st1,
          dispatch cx e (if i + 1 = arms.numArms then type else .Void)
            (setInsertPoint (s1.numBlocks + i) st) = .ok (armValue, st1)) ∧
    (armLoopState value keyType arms.numArms arms.keys defaultArmIndex endTarget s1).blocks
        s1.insertBlock =
      s1.blocks s1.insertBlock ++ [.switch value (s1.numBlocks + defaultArmIndex)
        (switchCases keyType defaultArmIndex s1.numBlocks 0 arms.keys)] ∧
    (∀ (jitModule : JITModule) (block index : Nat) (f : Frame) (x : Nat),
      f.operand value = some (.scalar (.int keyType.bits x)) →
      (caseConstants (switchCases keyType defaultArmIndex s1.numBlocks 0 arms.keys)).Nodup →
      stepInst jitModule block index f (.switch value (s1.numBlocks + defaultArmIndex)
          (switchCases keyType defaultArmIndex s1.numBlocks 0 arms.keys)) =
        .transfers (s1.numBlocks +
          (matchingArm keyType defaultArmIndex x 0 arms.keys).getD defaultArmIndex) f) ∧
    (arms.keys.Nodup → (∀ k ∈ arms.keys, k < 2 ^ keyType.bits) →
      (caseConstants (switchCases keyType defaultArmIndex s1.numBlocks 0 arms.keys)).Nodup ∧
      ∀ x, (matchingArm keyType defaultArmIndex x 0 arms.keys).getD defaultArmIndex =
        if x ∈ arms.keys then arms.keys.indexOf x else defaultArmIndex) := by
  obtain ⟨value', s1', s6, D, outer, hk', -, h3, hd, -, -, -⟩ :=
    dispatch_switch_facts cx type key keyType arms defaultArmIndex endTarget s v s' h
  rw [hk] at hk'
  cases hk'
  refine ⟨⟨h3, s6, hd, ?_⟩, ?_, ?_, ?_⟩
  · intro i e he
    obtain ⟨st, armValue, st1, h1, -⟩ :=
      visitSwitchArms_round cx type keyType defaultArmIndex arms.numArms _ _ arms 0 _ _ _ hd
        i e he
    exact ⟨st, armValue, st1, by simpa using h1⟩
  · simp [armLoopState, appendCode]
  · intro jitModule block index f x hop hnodup
    rw [stepInst_switch jitModule block index f value _ _ _ hop]
    have hfind := switchCases_find keyType defaultArmIndex s1.numBlocks x arms.keys 0
    unfold switchDest
    unfold caseConstants at hnodup
    rw [if_pos hnodup]
    cases hf : (switchCases keyType defaultArmIndex s1.numBlocks 0 arms.keys).find? fun c =>
        decide (evalOperand (fun _ => none) c.1 = some (.int keyType.bits x)) with
    | none =>
      rw [hf] at hfind
      cases hm : matchingArm keyType defaultArmIndex x 0 arms.keys with
      | none => rfl
      | some i => simp [hm] at hfind
    | some c =>
      rw [hf] at hfind
      cases hm : matchingArm keyType defaultArmIndex x 0 arms.keys with
      | none => simp [hm] at hfind
      | some i =>
        simp only [hm, Option.map_some', Option.some.injEq] at hfind
        simp [hfind]
  · intro hnodup hrange
    refine ⟨switchCases_constants_nodup keyType defaultArmIndex s1.numBlocks arms.keys hnodup
      hrange 0, ?_⟩
    intro x
    rw [matchingArm_of_nodup keyType defaultArmIndex x arms.keys hnodup hrange 0]
    by_cases hx : x ∈ arms.keys
    · by_cases hd : arms.keys.indexOf x = defaultArmIndex
      · simp [hx, hd]
      · simp [hx, hd]
    · simp [hx]

/-- C11 at a switch on the constant 7 with the arms 5, 7 and 9, of which the last is the
default arm: the arm blocks are 2, 3 and 4, and the switch instruction executed with the
key 7 transfers control to block 3, the block of the arm with the key 7. -/
theorem switch_enters_first_case_arm_witness :
    ∃ s1 s', dispatch Example.context (.literal .I32 7) .I32 Example.entryState =
        .ok (.literal .I32 7, s1) ∧
      dispatch Example.context Example.switchOnSeven .Void Example.entryState =
        .ok (.voidDummy, s') ∧
      s1.numBlocks = 2 ∧
      stepInst Example.jitModule 1 0 (callFrame [] fun _ => 0)
          (.switch (.literal .I32 7) (2 + 2)
            (switchCases .I32 2 2 0 [5, 7, 9])) =
        .transfers (2 + 1) (callFrame [] fun _ => 0) :=
  ⟨_, _, rfl, rfl, rfl,
    (switch_enters_first_case_arm Example.context .Void (.literal .I32 7) .I32
      (.cons 5 .nop (.cons 7 .nop (.cons 9 .nop .nil))) 2 Example.targetU Example.entryState
      _ _ _ _ rfl rfl).2.2.1 Example.jitModule 1 0 (callFrame [] fun _ => 0) 7 rfl
      (by decide)⟩

/-- A counterexample to C11 as stated: of two arms with the key 7 the first is the default
arm, so the only case of the switch instruction is the one of the second arm, and the key 7
transfers control to block 3, the block of the second arm, although the first arm is the
first arm whose constant is 7. -/
theorem switch_tie_with_default_arm_enters_later_arm :
    (∃ s', dispatch Example.context Example.switchWithTie .Void Example.entryState =
        .ok (.voidDummy, s') ∧
      s'.blocks 1 = [.switch (.literal .I32 7) 2 [(.literal .I32 7, 3)]]) ∧
    [7, 7].indexOf 7 = 0 ∧
    ∃ f, stepInst Example.jitModule 1 0 (callFrame [] fun _ => 0)
      (.switch (.literal .I32 7) 2 [(.literal .I32 7, 3)]) = .transfers 3 f :=
  ⟨⟨_, rfl, rfl⟩, rfl, _, rfl⟩

theorem finishSwitchArm_eq (cx : JITFunctionContext) (type : TypeId) (isFinalArm : Bool)
    (next S : Nat) (armValue : Value) (s : EmitState) :
    finishSwitchArm cx type isFinalArm next S armValue s =
      armEndState cx type isFinalArm next S armValue s := by
  unfold finishSwitchArm armEndState
  by_cases hu : s.insertBlock = cx.unreachableBlock
  · cases isFinalArm <;> simp [compileBranch, hu]
  · cases isFinalArm
    · simp [compileBranch, hu, insert_eq]
      rfl
    · by_cases hty : type = .Void
      · simp [compileBranch, hu, insert_eq, hty]
        rfl
      · simp [compileBranch, hu, insert_eq, hty]

theorem SwitchArms.drop_numArms : ∀ (arms : SwitchArms) (i : Nat), arms.numArms ≤ i →
    arms.drop i = .nil
  | .nil, i, _ => SwitchArms.drop_nil i
  | .cons _ _ rest, 0, h => by simp [SwitchArms.numArms] at h
  | .cons _ _ rest, i + 1, h => by
    simp only [SwitchArms.drop]
    exact SwitchArms.drop_numArms rest i (by simpa [SwitchArms.numArms] using h)

theorem SwitchArms.value?_lt : ∀ (arms : SwitchArms) (i : Nat) (e : Expression),
    arms.value? i = some e → i < arms.numArms
  | .nil, _, _, h => by simp [SwitchArms.value?] at h
  | .cons _ _ rest, 0, _, _ => by simp [SwitchArms.numArms]
  | .cons _ _ rest, i + 1, e, h => by
    simp only [SwitchArms.value?] at h
    have := SwitchArms.value?_lt rest i e h
    simp only [SwitchArms.numArms]
    omega

theorem contexts_head_target {cx : JITFunctionContext} {s s' : EmitState}
    {l l' : List BranchContext} (h : List.Forall₂ (ContextStep cx s s') l l')
    (T : BranchTarget) (S : Nat)
    (hl : ∃ D outer, l = D :: outer ∧ D.branchTarget = T ∧ D.basicBlock = S) :
    ∃ D outer, l' = D :: outer ∧ D.branchTarget = T ∧ D.basicBlock = S := by
  obtain ⟨D, outer, hD, hT, hS⟩ := hl
  subst hD
  cases h with
  | @cons _ D1 _ t hab _ => exact ⟨D1, t, rfl, hab.1.trans hT, hab.2.1.trans hS⟩

/-- Every arm of the loop of `visitSwitch` is emitted at its own empty block with the
context of the switch as the innermost in-scope context, also where the arm ends. -/
theorem visitSwitchArms_round_ready (cx : JITFunctionContext) (type keyType : TypeId)
    (defaultArmIndex numArms A S : Nat) (T : BranchTarget) :
    ∀ (arms : SwitchArms) (index : Nat) (s : EmitState) (u : Unit) (s' : EmitState),
      ArmsReady cx A S index s → A + index + arms.numArms ≤ S →
      (∃ D outer, s.branchContext = D :: outer ∧ D.branchTarget = T ∧ D.basicBlock = S) →
      visitSwitchArms cx type keyType defaultArmIndex numArms A S arms index s = .ok (u, s') →
      ∀ i e, arms.value? i = some e →
        ∃ st armValue st1,
          dispatch cx e (if index + i + 1 = numArms then type else .Void)
            (setInsertPoint (A + (index + i)) st) = .ok (armValue, st1) ∧
          visitSwitchArms cx type keyType defaultArmIndex numArms A S (arms.drop (i + 1))
            (index + i + 1)
            (finishSwitchArm cx type (decide (index + i + 1 = numArms)) (A + (index + i) + 1) S
              armValue st1) = .ok (u, s') ∧
          st.blocks (A + (index + i)) = [] ∧
          ∃ D1 outer1, st1.branchContext = D1 :: outer1 ∧ D1.branchTarget = T ∧
            D1.basicBlock = S
  | .nil, _, _, _, _, _, _, _, _, i, e, he => by simp [SwitchArms.value?] at he
  | .cons key value rest, index, s, u, s', hready, hb, hhead, h, i, e, he => by
    unfold visitSwitchArms at h
    have hb' : A + index + rest.numArms + 1 ≤ S := by
      simpa [SwitchArms.numArms, Nat.add_assoc] using hb
    by_cases hthrow : index ≠ defaultArmIndex ∧ isIntType keyType = false
    · simp [hthrow] at h
    · simp only [hthrow, if_false, decide_eq_true_eq] at h
      cases hd : dispatch cx value (if index + 1 = numArms then type else .Void)
          (setInsertPoint (A + index) s) with
      | error err => simp [hd] at h
      | ok r =>
        obtain ⟨armValue, s1⟩ := r
        simp only [hd] at h
        cases i with
        | zero =>
          simp only [SwitchArms.value?, Option.some.injEq] at he
          subst he
          have hA : Inv cx (setInsertPoint (A + index) s) :=
            Inv.at_empty hready.inv0 (A + index) (by have := hready.successor_lt; omega)
              (hready.reserved _ (le_refl _) (by omega))
          have h1 := dispatch_frames cx value _ _ armValue s1 hA hd
          exact ⟨s, armValue, s1, by simpa using hd, by simpa [SwitchArms.drop] using h,
            by simpa using hready.reserved (A + index) (le_refl _) (by omega),
            contexts_head_target h1.2.step.contexts T S hhead⟩
        | succ j =>
          simp only [SwitchArms.value?] at he
          obtain ⟨hready1, hstep⟩ := switchArm_step cx type (decide (index + 1 = numArms)) A S
            index _ (dispatch_frames cx value _) s s1 armValue hready (by omega) hd
          obtain ⟨st, av, st1, h1, h2, h3, h4⟩ :=
            visitSwitchArms_round_ready cx type keyType defaultArmIndex numArms A S T rest
              (index + 1) _ u s' hready1 (by omega)
              (contexts_head_target hstep.contexts T S hhead) h j e he
          have e1 : index + 1 + j = index + (j + 1) := by omega
          rw [e1] at h1 h2 h3
          exact ⟨st, av, st1, h1, h2, h3, h4⟩
/-- The state in which the arm loop of `visitSwitch` starts is ready for the first arm. -/
theorem armLoopState_ready (cx : JITFunctionContext) (value : Value) (keyType : TypeId)
    (numArms : Nat) (armKeys : List Nat) (defaultArmIndex : Nat) (endTarget : BranchTarget)
    (s s1 : EmitState) (hg1 : Inv cx s1 ∧ Rel cx s s1) (hkeys : armKeys.length ≤ numArms)
    (h3 : defaultArmIndex < numArms) :
    ArmsReady cx s1.numBlocks (s1.numBlocks + numArms) 0
      (armLoopState value keyType numArms armKeys defaultArmIndex endTarget s1) := by
  have hi1 := hg1.1.insertBlock_lt
  have hu1 := hg1.1.inv0.unreachable_lt
  have hg3 : Inv cx { s1 with numBlocks := s1.numBlocks + numArms + 1 } ∧
      Rel cx s { s1 with numBlocks := s1.numBlocks + numArms + 1 } :=
    good_create (good_create hg1 numArms) 1
  have hsucc : ∀ i ∈ [Inst.switch value (s1.numBlocks + defaultArmIndex)
      (switchCases keyType defaultArmIndex s1.numBlocks 0 armKeys)],
      ∀ J ∈ i.successors, s1.numBlocks ≤ J ∧ J < s1.numBlocks + numArms + 1 := by
    intro i hi J hJ
    simp only [List.mem_singleton] at hi
    subst hi
    simp only [Inst.successors, List.mem_cons, List.mem_map] at hJ
    rcases hJ with hJ | ⟨p, hp, hJ⟩
    · omega
    · have := switchCases_targets keyType defaultArmIndex s1.numBlocks armKeys 0 p hp
      omega
  unfold armLoopState
  refine ⟨?_, hu1, ?_, ?_, ⟨_, _, rfl, rfl⟩⟩
  · refine Inv0.inv0_appendCode (hg3.1.push [⟨endTarget, s1.numBlocks + numArms, []⟩] ?_).inv0
      (by show s1.insertBlock < s1.numBlocks + numArms + 1; omega) _
      (fun i hi J hJ => (hsucc i hi J hJ).2)
    intro c hc
    simp only [List.mem_singleton] at hc
    subst hc
    show s1.numBlocks + numArms < s1.numBlocks + numArms + 1
    omega
  · show s1.numBlocks + numArms < s1.numBlocks + numArms + 1
    omega
  · intro X hX1 hX2
    rw [appendCode_blocks_of_ne]
    · exact hg1.1.inv0.fresh_empty X (by omega)
    · show X ≠ s1.insertBlock
      omega

/-- C12.  In a `Switch` that is emitted in a state with the invariant of the emitter, arm
`i` is emitted from the start of its own block, with the context of the switch as the
innermost in-scope context where the arm ends.  A reachable end of an arm other than the
final arm gets a branch to the block of the next arm, a reachable end of the final arm
gets a branch to the successor block, and an end that is not reachable gets nothing.  The
incoming edges of the context of the switch after the final arm are the edge from the
reachable end of the final arm with the value of the arm, when the switch is not of type
void, and the edges that were added up to there, which are those of the branches to
the end target.  The emission ends at the successor block; the value of a switch that is
not of type void is the phi node over these edges, the first instruction of the
successor block. -/
theorem switch_arms_fall_through (cx : JITFunctionContext) (type : TypeId)
    (key : Expression) (keyType : TypeId) (arms : SwitchArms) (defaultArmIndex : Nat)
    (endTarget : BranchTarget) (s : EmitState) (value : Value) (s1 : EmitState) (v : Value)
    (s' : EmitState) (hinv : Inv cx s)
    (hk : dispatch cx key keyType s = .ok (value, s1))
    (h : dispatch cx (.switch key keyType arms defaultArmIndex endTarget) type s =
      .ok (v, s')) :
    s'.insertBlock = s1.numBlocks + arms.numArms ∧
    (type = .Void → v = .voidDummy) ∧
    (type ≠ .Void → v = .inst (s1.numBlocks + arms.numArms) 0) ∧
    ∃ s6 D outer,
      visitSwitchArms cx type keyType defaultArmIndex arms.numArms s1.numBlocks
        (s1.numBlocks + arms.numArms) arms 0
        (armLoopState value keyType arms.numArms arms.keys defaultArmIndex endTarget s1) =
          .ok ((), s6) ∧
      s6.branchContext = D :: outer ∧ D.branchTarget = endTarget ∧
      D.basicBlock = s1.numBlocks + arms.numArms ∧
      s'.blocks (s1.numBlocks + arms.numArms) =
        (if type = .Void then [] else [.phi type (phiIncoming D.results)]) ∧
      ∀ i e, arms.value? i = some e → ∃ st armValue st1 D1 outer1,
        st.blocks (s1.numBlocks + i) = [] ∧
        dispatch cx e (if i + 1 = arms.numArms then type else .Void)
          (setInsertPoint (s1.numBlocks + i) st) = .ok (armValue, st1) ∧
        st1.branchContext = D1 :: outer1 ∧ D1.branchTarget = endTarget ∧
        D1.basicBlock = s1.numBlocks + arms.numArms ∧
        visitSwitchArms cx type keyType defaultArmIndex arms.numArms s1.numBlocks
          (s1.numBlocks + arms.numArms) (arms.drop (i + 1)) (i + 1)
          (armEndState cx type (decide (i + 1 = arms.numArms)) (s1.numBlocks + i + 1)
            (s1.numBlocks + arms.numArms) armValue st1) = .ok ((), s6) ∧
        (st1.insertBlock ≠ cx.unreachableBlock →
          (armEndState cx type (decide (i + 1 = arms.numArms)) (s1.numBlocks + i + 1)
            (s1.numBlocks + arms.numArms) armValue st1).blocks st1.insertBlock =
          st1.blocks st1.insertBlock ++
            [.br (if i + 1 = arms.numArms then s1.numBlocks + arms.numArms
              else s1.numBlocks + i + 1)]) ∧
        (i + 1 = arms.numArms →
          s6 = armEndState cx type true (s1.numBlocks + i + 1) (s1.numBlocks + arms.numArms)
            armValue st1 ∧
          D.results =
            (if st1.insertBlock = cx.unreachableBlock ∨ type = .Void then []
              else [⟨st1.insertBlock, armValue⟩]) ++ D1.results) := by
  obtain ⟨value', s1', s6, D, outer, hk', -, h3, hd, hc, hv, hn⟩ :=
    dispatch_switch_facts cx type key keyType arms defaultArmIndex endTarget s v s' h
  rw [hk] at hk'
  cases hk'
  have hg1 : Inv cx s1 ∧ Rel cx s s1 := dispatch_frames cx key keyType s value s1 hinv hk
  have hready := armLoopState_ready cx value keyType arms.numArms arms.keys defaultArmIndex
    endTarget s s1 hg1 (le_of_eq (SwitchArms.keys_length arms)) h3
  have hdone := visitSwitchArms_frames cx type keyType defaultArmIndex arms.numArms
    s1.numBlocks (s1.numBlocks + arms.numArms) arms 0 _ _ s6 hready (le_refl _) hd
  have hhead0 : ∃ D0 outer0,
      (armLoopState value keyType arms.numArms arms.keys defaultArmIndex endTarget
        s1).branchContext = D0 :: outer0 ∧ D0.branchTarget = endTarget ∧
      D0.basicBlock = s1.numBlocks + arms.numArms := ⟨_, _, rfl, rfl, rfl⟩
  obtain ⟨D', outer', hc', hT, hS⟩ := contexts_head_target hdone.step.contexts _ _ hhead0
  rw [hc] at hc'
  cases hc'
  have hempty := hdone.successor_empty
  refine ⟨?_, ?_, ?_, s6, D, outer, hd, hc, hT, hS, ?_, ?_⟩
  · by_cases hty : type = .Void
    · rw [(hv hty).2]; rfl
    · rw [(hn hty).2]; rfl
  · exact fun hty => (hv hty).1
  · intro hty
    rw [(hn hty).1, hempty]
    rfl
  · by_cases hty : type = .Void
    · rw [(hv hty).2, if_pos hty]
      exact hempty
    · rw [(hn hty).2, if_neg hty]
      simp [appendCode, setInsertPoint, hempty]
  · intro i e he
    obtain ⟨st, armValue, st1, h1, h2, h3', D1, outer1, hD1, hT1, hS1⟩ :=
      visitSwitchArms_round_ready cx type keyType defaultArmIndex arms.numArms s1.numBlocks
        (s1.numBlocks + arms.numArms) endTarget arms 0 _ _ s6 hready (le_refl _) hhead0 hd
        i e he
    simp only [Nat.zero_add] at h1 h2 h3'
    rw [finishSwitchArm_eq] at h2
    refine ⟨st, armValue, st1, D1, outer1, h3', h1, hD1, hT1, hS1, h2, ?_, ?_⟩
    · intro hu
      by_cases hf : i + 1 = arms.numArms <;> simp [armEndState, hu, hf, appendCode]
    · intro hf
      have hnil : arms.drop (i + 1) = .nil := SwitchArms.drop_numArms arms (i + 1) (by omega)
      rw [hnil, visitSwitchArms] at h2
      simp only [hf, decide_True, Except.ok.injEq, Prod.mk.injEq, true_and] at h2
      refine ⟨h2.symm, ?_⟩
      have hb : s6.branchContext =
          (armEndState cx type true (s1.numBlocks + i + 1) (s1.numBlocks + arms.numArms)
            armValue st1).branchContext := by rw [← h2]
      rw [hc] at hb
      unfold armEndState at hb
      by_cases hu : st1.insertBlock = cx.unreachableBlock
      · simp only [hu, if_true, hD1, List.cons.injEq] at hb
        simp [hu, hb.1]
      · by_cases hty : type = .Void
        · simp only [hu, if_false, hty, ne_eq, not_true_eq_false, and_false, hD1,
            List.cons.injEq] at hb
          simp [hty, hb.1]
        · simp only [hu, if_false, hty, ne_eq, not_false_eq_true, and_self, if_true, hD1,
            addBranchResult, List.cons.injEq] at hb
          simp [hu, hty, hb.1]

/-- C12 at a switch of type `i32` whose final arm yields the constant 1, emitted at the
entry of a function: the value of the switch is the phi node at the start of block 4, the
successor block. -/
theorem switch_arms_fall_through_witness :
    Inv Example.context Example.entryState ∧
    ∃ s1 s', dispatch Example.context (.literal .I32 7) .I32 Example.entryState =
        .ok (.literal .I32 7, s1) ∧
      dispatch Example.context Example.typedSwitch .I32 Example.entryState =
        .ok (.inst 4 0, s') ∧
      s'.blocks 4 = [.phi .I32 [(.literal .I32 1, 3)]] ∧
      s'.blocks 2 = [.br 3] ∧ s'.blocks 3 = [.br 4] ∧
      (Value.inst 4 0 = .inst (s1.numBlocks + 2) 0) :=
  ⟨Example.entryState_inv, _, _, rfl, rfl, rfl, rfl, rfl,
    (switch_arms_fall_through Example.context .I32 (.literal .I32 7) .I32
      (.cons 5 .nop (.cons 7 (.literal .I32 1) .nil)) 1 Example.targetT Example.entryState
      _ _ _ _ Example.entryState_inv rfl rfl).2.2.1 (by decide)⟩

/-! ## Execution in a frame -/

theorem Frame.operand_scalar_iff (f : Frame) (v : Value) (r : RuntimeValue) :
    f.operand v = some (.scalar r) ↔ evalOperand f.scalars v = some r := by
  unfold Frame.operand
  cases he : evalOperand f.scalars v with
  | some r1 => simp
  | none =>
    simp only
    constructor
    · intro hv
      cases v <;> simp [evalOperand, Frame.scalars, hv] at he
    · intro h
      cases h

theorem Frame.operand_inst (f : Frame) (b i : Nat) :
    f.operand (.inst b i) = f.values (.inst b i) := by
  unfold Frame.operand
  simp only [evalOperand, Frame.scalars]
  cases hv : f.values (.inst b i) with
  | none => rfl
  | some x => cases x <;> rfl

theorem Frame.operand_bind_self (f : Frame) (b i : Nat) (x : FrameValue) :
    (f.bind (.inst b i) x).operand (.inst b i) = some x := by
  rw [Frame.operand_inst]
  simp [Frame.bind]

theorem Frame.operand_bind_of_ne (f : Frame) (w v : Value) (x : FrameValue) (h : v ≠ w) :
    (f.bind w x).operand v = f.operand v := by
  unfold Frame.operand
  have hs : (f.bind w x).scalars v = f.scalars v := by simp [Frame.scalars, Frame.bind, h]
  have hv : (f.bind w x).values v = f.values v := by simp [Frame.bind, h]
  have he : evalOperand (f.bind w x).scalars v = evalOperand f.scalars v := by
    cases v <;> simp [evalOperand, hs]
  rw [he, hv]

theorem runInsts_append (jitModule : JITModule) (block : Nat) (c1 c2 : List Inst) :
    ∀ (index : Nat) (f : Frame),
      runInsts jitModule block index (c1 ++ c2) f =
        match runInsts jitModule block index c1 f with
        | .next f1 => runInsts jitModule block (index + c1.length) c2 f1
        | outcome => outcome := by
  induction c1 with
  | nil => intro index f; simp [runInsts]
  | cons i rest ih =>
    intro index f
    simp only [List.cons_append, runInsts, List.length_cons]
    cases hs : stepInst jitModule block index f i with
    | next f1 =>
      simp only
      rw [List.append_eq, ih]
      have e : index + 1 + rest.length = index + (rest.length + 1) := by omega
      rw [e]
    | transfers d f1 => rfl
    | returns v => rfl
    | stuck => rfl

theorem operand_scalar {f : Frame} {v : Value} {r : RuntimeValue}
    (h : f.operand v = some (.scalar r)) : evalOperand f.scalars v = some r :=
  (Frame.operand_scalar_iff f v r).mp h

theorem scalars_bind_self (f : Frame) (w : Value) (r : RuntimeValue) :
    (f.bind w (.scalar r)).scalars w = some r := by
  simp [Frame.scalars, Frame.bind]

theorem scalars_bind_of_ne (f : Frame) (w v : Value) (x : FrameValue) (h : v ≠ w) :
    (f.bind w x).scalars v = f.scalars v := by
  simp [Frame.scalars, Frame.bind, h]

/-- What the code of a masked address computes in a frame. -/
theorem runInsts_maskedAddressCode (jitModule : JITModule) (m : Nat) (f : Frame)
    (isFarAddress : Bool) (a : Value) (b n x : Nat) (memoryType : TypeId)
    (ha : f.operand a = some (.scalar (.int (addressType isFarAddress).bits x))) :
    ∃ f1, runInsts jitModule b n
        (maskedAddressCode (.literal .I64 m) isFarAddress a memoryType b n) f = .next f1 ∧
      f1.memory = f.memory ∧ f1.slots = f.slots ∧
      f1.operand (maskedPointer isFarAddress b n) =
        some (.scalar (.memoryPointer (toSigned 64 (x &&& m)) memoryType)) ∧
      ∀ w, (∀ j, j < maskedAddressLength isFarAddress → w ≠ .inst b (n + j)) →
        f1.operand w = f.operand w := by
  have ha := operand_scalar ha
  cases isFarAddress with
  | false =>
    simp only [addressType, Bool.false_eq_true, if_false, TypeId.bits] at ha
    refine ⟨(((f.bind (.inst b n) (.scalar (.int 64 x))).bind (.inst b (n + 1))
        (.scalar (.int 64 (x &&& m)))).bind (.inst b (n + 2))
        (.scalar (.memoryPointer (toSigned 64 (x &&& m)) .I8))).bind (.inst b (n + 3))
        (.scalar (.memoryPointer (toSigned 64 (x &&& m)) memoryType)), ?_, rfl, rfl, ?_, ?_⟩
    · simp [maskedAddressCode, runInsts, stepInst, execInst, ha, scalars_bind_self,
        execBinary, TypeId.bits, TypeId.byteWidth]
    · exact Frame.operand_bind_self _ _ _ _
    · intro w hw
      have h0 : w ≠ .inst b n := hw 0 (by decide)
      have h1 := hw 1 (by decide)
      have h2 := hw 2 (by decide)
      have h3 := hw 3 (by decide)
      rw [Frame.operand_bind_of_ne _ _ _ _ h3, Frame.operand_bind_of_ne _ _ _ _ h2,
        Frame.operand_bind_of_ne _ _ _ _ h1, Frame.operand_bind_of_ne _ _ _ _ h0]
  | true =>
    simp only [addressType, if_true, TypeId.bits] at ha
    refine ⟨((f.bind (.inst b n) (.scalar (.int 64 (x &&& m)))).bind (.inst b (n + 1))
        (.scalar (.memoryPointer (toSigned 64 (x &&& m)) .I8))).bind (.inst b (n + 2))
        (.scalar (.memoryPointer (toSigned 64 (x &&& m)) memoryType)), ?_, rfl, rfl, ?_, ?_⟩
    · simp [maskedAddressCode, runInsts, stepInst, execInst, ha, scalars_bind_self,
        execBinary, TypeId.bits, TypeId.byteWidth]
    · exact Frame.operand_bind_self _ _ _ _
    · intro w hw
      have h0 : w ≠ .inst b n := hw 0 (by decide)
      have h1 := hw 1 (by decide)
      have h2 := hw 2 (by decide)
      rw [Frame.operand_bind_of_ne _ _ _ _ h2,
        Frame.operand_bind_of_ne _ _ _ _ h1, Frame.operand_bind_of_ne _ _ _ _ h0]
theorem readMemory_lt (memory : MemoryBytes) :
    ∀ (numBytes : Nat) (byteIndex : Int), readMemory memory byteIndex numBytes < 256 ^ numBytes
  | 0, _ => by simp [readMemory]
  | k + 1, byteIndex => by
    have ih := readMemory_lt memory k (byteIndex + 1)
    have hm : memory byteIndex % 256 < 256 := Nat.mod_lt _ (by decide)
    simp only [readMemory, pow_succ]
    omega

theorem readMemory_writeMemory_aux (memory : MemoryBytes) (byteIndex : Int)
    (numBytes value : Nat) :
    ∀ (k i : Nat), i + k ≤ numBytes →
      readMemory (writeMemory memory byteIndex numBytes value) (byteIndex + i) k =
        value / 256 ^ i % 256 ^ k
  | 0, i, _ => by simp [readMemory, Nat.mod_one]
  | k + 1, i, h => by
    have ih := readMemory_writeMemory_aux memory byteIndex numBytes value k (i + 1) (by omega)
    have hidx : byteIndex + (i : Int) + 1 = byteIndex + ((i + 1 : Nat) : Int) := by
      push_cast; ring
    have hw : writeMemory memory byteIndex numBytes value (byteIndex + i) =
        value / 256 ^ i % 256 := by
      unfold writeMemory
      have hc : byteIndex ≤ byteIndex + (i : Int) ∧
          byteIndex + (i : Int) < byteIndex + (numBytes : Int) := by omega
      rw [if_pos hc]
      have ht : (byteIndex + (i : Int) - byteIndex).toNat = i := by
        have : byteIndex + (i : Int) - byteIndex = (i : Int) := by ring
        rw [this]
        exact Int.toNat_ofNat i
      rw [ht]
    simp only [readMemory]
    rw [hidx, ih, hw, Nat.mod_mod, pow_succ 256 k, Nat.mul_comm (256 ^ k) 256, Nat.mod_mul,
      Nat.div_div_eq_div_mul, pow_succ]

/-- Reading the bytes that were written gives the low-order bytes of the number. -/
theorem readMemory_writeMemory (memory : MemoryBytes) (byteIndex : Int)
    (numBytes value : Nat) :
    readMemory (writeMemory memory byteIndex numBytes value) byteIndex numBytes =
      value % 256 ^ numBytes := by
  have h := readMemory_writeMemory_aux memory byteIndex numBytes value numBytes 0 (by omega)
  simpa using h

theorem byteWidth_pow (type : TypeId) (h : isIntType type = true) :
    256 ^ type.byteWidth = 2 ^ type.bits := by
  cases type <;> simp [isIntType] at h <;> simp [TypeId.byteWidth, TypeId.bits]

theorem signExtension_toSigned (typeBits memoryBits m : Nat) (h0 : 0 < memoryBits)
    (hle : memoryBits ≤ typeBits) (hm : m < 2 ^ memoryBits) :
    ofSigned typeBits (toSigned memoryBits m) < 2 ^ typeBits ∧
      toSigned typeBits (ofSigned typeBits (toSigned memoryBits m)) = toSigned memoryBits m := by
  obtain ⟨k, rfl⟩ : ∃ k, memoryBits = k + 1 := ⟨memoryBits - 1, by omega⟩
  obtain ⟨j, rfl⟩ : ∃ j, typeBits = j + 1 := ⟨typeBits - 1, by omega⟩
  have hkj : 2 ^ k ≤ 2 ^ j := Nat.pow_le_pow_right (by decide) (by omega)
  have hk : 2 ^ (k + 1) = 2 * 2 ^ k := by rw [pow_succ]; ring
  have hj : 2 ^ (j + 1) = 2 * 2 ^ j := by rw [pow_succ]; ring
  have hkI : ((2 : Int) ^ (k + 1)) = 2 * ((2 ^ k : Nat) : Int) := by push_cast; rw [pow_succ]; ring
  have hjI : ((2 : Int) ^ (j + 1)) = 2 * ((2 ^ j : Nat) : Int) := by push_cast; rw [pow_succ]; ring
  unfold ofSigned toSigned
  simp only [Nat.add_sub_cancel]
  rw [hk] at hm
  rw [hjI, hkI, hj]
  generalize 2 ^ k = A at *
  generalize 2 ^ j = B at *
  by_cases hlt : m < A
  · simp only [hlt, if_true]
    have e : ((m : Int) % (2 * (B : Int))) = m := Int.emod_eq_of_lt (by omega) (by omega)
    rw [e]
    simp only [Int.toNat_ofNat]
    have : m < B := by omega
    simp only [this, if_true, and_true]
    omega
  · simp only [hlt, if_false]
    have e : (((m : Int) - 2 * (A : Int)) % (2 * (B : Int))) = (m : Int) - 2 * A + 2 * B := by
      rw [← Int.add_mul_emod_self_left ((m : Int) - 2 * A) (2 * (B : Int)) 1]
      rw [Int.mul_one]
      exact Int.emod_eq_of_lt (by omega) (by omega)
    rw [e]
    have hn : ((m : Int) - 2 * A + 2 * B).toNat = m + 2 * B - 2 * A := by omega
    rw [hn]
    have : ¬ m + 2 * B - 2 * A < B := by omega
    simp only [this, if_false]
    constructor
    · omega
    · omega
theorem visitStore_memoryType (cx : JITFunctionContext) (address : Dispatcher)
    (isFarAddress : Bool) (alignmentLog2 : Nat) (value : Dispatcher)
    (valueType memoryType : TypeId) (s s' : EmitState) (v : Value)
    (hne : valueType ≠ memoryType)
    (h : visitStore cx true address isFarAddress alignmentLog2 value valueType memoryType s =
      .ok (v, s')) : isIntType memoryType = true := by
  unfold visitStore at h
  cases hv : value valueType s with
  | error e => simp [hv] at h
  | ok r =>
    by_cases hi : isIntType memoryType = true
    · exact hi
    · simp [hv, hne, hi] at h

/-- The run of a load with extension in a frame. -/
theorem runInsts_loadExtension (jitModule : JITModule) (m : Nat) (f : Frame)
    (isFarAddress : Bool) (a : Value) (b n x : Nat) (type memoryType : TypeId)
    (op : LoadOp) (alignment : Option Nat) (hop : op = .loadZExt ∨ op = .loadSExt)
    (hint : isIntType memoryType = true)
    (ha : f.operand a = some (.scalar (.int (addressType isFarAddress).bits x))) :
    ∃ f1, runInsts jitModule b n
        (maskedAddressCode (.literal .I64 m) isFarAddress a memoryType b n ++
          [.load (maskedPointer isFarAddress b n) alignment] ++
          loadConversion op type memoryType b (n + maskedAddressLength isFarAddress)) f =
        .next f1 ∧
      f1.memory = f.memory ∧
      f1.operand (loadedValue op type memoryType b (n + maskedAddressLength isFarAddress)) =
        some (.scalar (.int type.bits (extendedValue op type.bits memoryType.bits
          (readMemory f.memory (toSigned 64 (x &&& m)) memoryType.byteWidth)))) := by
  obtain ⟨f1, hrun, hmem, -, hptr, -⟩ :=
    runInsts_maskedAddressCode jitModule m f isFarAddress a b n x memoryType ha
  rw [List.append_assoc, runInsts_append, hrun, maskedAddressCode_length]
  simp only
  rcases hop with hop | hop <;> subst hop
  · refine ⟨_, by simp [loadConversion, runInsts, stepInst, hptr, hint, execInst,
      scalars_bind_self]; rfl, ?_, ?_⟩
    · exact hmem
    · simp only [loadedValue, loadConversion, List.length_singleton, extendedValue, hmem]
      exact Frame.operand_bind_self _ _ _ _
  · refine ⟨_, by simp [loadConversion, runInsts, stepInst, hptr, hint, execInst,
      scalars_bind_self]; rfl, ?_, ?_⟩
    · exact hmem
    · simp only [loadedValue, loadConversion, List.length_singleton, extendedValue, hmem]
      exact Frame.operand_bind_self _ _ _ _
/-- The run of a store of the value of an earlier instruction in a frame. -/
theorem runInsts_store (jitModule : JITModule) (m : Nat) (f : Frame)
    (isFarAddress : Bool) (a : Value) (b n x : Nat) (memoryType : TypeId)
    (bv nv t : Nat) (alignment : Option Nat) (hint : isIntType memoryType = true)
    (hfresh : bv = b → nv < n)
    (ha : f.operand a = some (.scalar (.int (addressType isFarAddress).bits x)))
    (hv : f.operand (.inst bv nv) = some (.scalar (.int memoryType.bits t))) :
    ∃ f1, runInsts jitModule b n
        (maskedAddressCode (.literal .I64 m) isFarAddress a memoryType b n ++
          [.store (.inst bv nv) (maskedPointer isFarAddress b n) alignment]) f = .next f1 ∧
      f1.memory =
        writeMemory f.memory (toSigned 64 (x &&& m)) memoryType.byteWidth t := by
  obtain ⟨f1, hrun, hmem, -, hptr, hother⟩ :=
    runInsts_maskedAddressCode jitModule m f isFarAddress a b n x memoryType ha
  have hv1 : f1.operand (.inst bv nv) = some (.scalar (.int memoryType.bits t)) := by
    rw [hother _ ?_, hv]
    intro j _ he
    simp only [Value.inst.injEq] at he
    have := hfresh he.1
    omega
  rw [runInsts_append, hrun]
  refine ⟨_, by simp [runInsts, stepInst, hptr, hv1, hint]; rfl, ?_⟩
  simp [hmem]

/-- The truncation of a value in a frame. -/
theorem stepInst_trunc (jitModule : JITModule) (block index : Nat) (f : Frame) (v : Value)
    (type : TypeId) (bits y : Nat) (hv : f.operand v = some (.scalar (.int bits y))) :
    stepInst jitModule block index f (.cast .Trunc v type) =
      .next (f.bind (.inst block index) (.scalar (.int type.bits (y % 2 ^ type.bits)))) := by
  simp [stepInst, execInst, operand_scalar hv]

/-- C16.  With `m` the address mask of the module: an integer load with extension whose
memory type is an integer type narrower than its result type emits, after its address, code
that, run in a frame in which the address has the value `x`, goes on with the next
instruction, leaves the memory as it is and gives the value of the load the number of the
width of the result type that is the zero extension, for `loadZExt`, or the sign extension,
for `loadSExt`, of the number read from the bytes of the memory type at the masked address.
The number read is below `2 ^ bits` of the memory type; its zero extension is the number
itself and its sign extension has the same signed reading.  An integer store whose value
type is not its memory type, emitted in a state with the invariant of the emitter, the
memory type then being an integer type, truncates the value to the memory type right after
the value is emitted, which gives the value modulo `2 ^ bits` of the memory type, and the
code it emits after its address writes the truncated value to the bytes of the memory type
at the masked address, so that reading these bytes gives the low-order bits of the
value. -/
theorem load_extends_and_store_truncates (cx : JITFunctionContext) (m : Nat)
    (hmask : cx.jitModule.instanceMemoryAddressMask = .literal .I64 m) :
    (∀ (type : TypeId) (op : LoadOp) (address : Expression) (isFarAddress : Bool)
      (alignmentLog2 : Nat) (memoryType : TypeId) (s : EmitState) (v : Value)
      (s' : EmitState),
      (op = .loadZExt ∨ op = .loadSExt) → isIntType memoryType = true →
      memoryType.bits < type.bits →
      dispatch cx (.load op address isFarAddress alignmentLog2 memoryType) type s =
        .ok (v, s') →
      ∃ a s1 code, dispatch cx address (addressType isFarAddress) s = .ok (a, s1) ∧
        s' = appendCode code s1 ∧
        ∀ (f : Frame) (x : Nat),
          f.operand a = some (.scalar (.int (addressType isFarAddress).bits x)) →
          ∃ f1, runInsts cx.jitModule s1.insertBlock (s1.blocks s1.insertBlock).length code
              f = .next f1 ∧
            f1.memory = f.memory ∧
            f1.operand v = some (.scalar (.int type.bits
              (extendedValue op type.bits memoryType.bits
                (readMemory f.memory (toSigned 64 (x &&& m)) memoryType.byteWidth)))) ∧
            readMemory f.memory (toSigned 64 (x &&& m)) memoryType.byteWidth <
              2 ^ memoryType.bits ∧
            extendedValue op type.bits memoryType.bits
                (readMemory f.memory (toSigned 64 (x &&& m)) memoryType.byteWidth) <
              2 ^ type.bits ∧
            (op = .loadZExt → extendedValue op type.bits memoryType.bits
                (readMemory f.memory (toSigned 64 (x &&& m)) memoryType.byteWidth) =
              readMemory f.memory (toSigned 64 (x &&& m)) memoryType.byteWidth) ∧
            (op = .loadSExt → toSigned type.bits (extendedValue op type.bits memoryType.bits
                (readMemory f.memory (toSigned 64 (x &&& m)) memoryType.byteWidth)) =
              toSigned memoryType.bits
                (readMemory f.memory (toSigned 64 (x &&& m)) memoryType.byteWidth))) ∧
    (∀ (type : TypeId) (address : Expression) (isFarAddress : Bool) (alignmentLog2 : Nat)
      (value : Expression) (valueType memoryType : TypeId) (s : EmitState) (v : Value)
      (s' : EmitState),
      Inv cx s → valueType ≠ memoryType →
      dispatch cx (.store true address isFarAddress alignmentLog2 value valueType memoryType)
        type s = .ok (v, s') →
      isIntType memoryType = true ∧
      ∃ sv a s1 code, dispatch cx value valueType s = .ok (v, sv) ∧
        dispatch cx address (addressType isFarAddress)
          (appendCode [.cast .Trunc v memoryType] sv) = .ok (a, s1) ∧
        s' = appendCode code s1 ∧
        (∀ (f0 : Frame) (bits y : Nat), f0.operand v = some (.scalar (.int bits y)) →
          stepInst cx.jitModule sv.insertBlock (sv.blocks sv.insertBlock).length f0
              (.cast .Trunc v memoryType) =
            .next (f0.bind (.inst sv.insertBlock (sv.blocks sv.insertBlock).length)
              (.scalar (.int memoryType.bits (y % 2 ^ memoryType.bits))))) ∧
        ∀ (f : Frame) (x y : Nat),
          f.operand a = some (.scalar (.int (addressType isFarAddress).bits x)) →
          f.operand (.inst sv.insertBlock (sv.blocks sv.insertBlock).length) =
            some (.scalar (.int memoryType.bits (y % 2 ^ memoryType.bits))) →
          ∃ f1, runInsts cx.jitModule s1.insertBlock (s1.blocks s1.insertBlock).length code
              f = .next f1 ∧
            f1.memory = writeMemory f.memory (toSigned 64 (x &&& m)) memoryType.byteWidth
              (y % 2 ^ memoryType.bits) ∧
            readMemory f1.memory (toSigned 64 (x &&& m)) memoryType.byteWidth =
              y % 2 ^ memoryType.bits) := by
  constructor
  · intro type op address isFarAddress alignmentLog2 memoryType s v s' hop hint hwide h
    rw [dispatch] at h
    obtain ⟨a, s1, ha, hs, hv⟩ := visitLoad_facts cx type op _ isFarAddress alignmentLog2
      memoryType s s' v h
    refine ⟨a, s1, _, ha, hs, ?_⟩
    intro f x hx
    rw [hmask]
    obtain ⟨f1, hrun, hmem, hval⟩ := runInsts_loadExtension cx.jitModule m f isFarAddress a
      s1.insertBlock (s1.blocks s1.insertBlock).length x type memoryType op
      (some (1 <<< alignmentLog2)) hop hint hx
    have hlt : readMemory f.memory (toSigned 64 (x &&& m)) memoryType.byteWidth <
        2 ^ memoryType.bits := by
      rw [← byteWidth_pow memoryType hint]
      exact readMemory_lt _ _ _
    have hpos : 0 < memoryType.bits := by
      cases memoryType <;> simp [isIntType] at hint <;> simp [TypeId.bits]
    have hsign := signExtension_toSigned type.bits memoryType.bits _ hpos (le_of_lt hwide) hlt
    refine ⟨f1, hrun, hmem, by rw [hv]; exact hval, hlt, ?_, ?_, ?_⟩
    · rcases hop with hop | hop <;> subst hop
      · exact lt_of_lt_of_le hlt (Nat.pow_le_pow_right (by decide) (le_of_lt hwide))
      · exact hsign.1
    · intro hz
      subst hz
      rfl
    · intro hz
      subst hz
      exact hsign.2
  · intro type address isFarAddress alignmentLog2 value valueType memoryType s v s' hinv hne h
    rw [dispatch] at h
    have hint := visitStore_memoryType cx _ isFarAddress alignmentLog2 _ valueType memoryType
      s s' v hne h
    obtain ⟨sv, a, s1, hv, ha, hs⟩ := visitStore_facts cx true _ isFarAddress alignmentLog2 _
      valueType memoryType s s' v h
    have hconv : storeConversion true valueType memoryType v = [.cast .Trunc v memoryType] := by
      simp [storeConversion, hne]
    have hstored : storedValue true valueType memoryType v sv.insertBlock
        (sv.blocks sv.insertBlock).length =
        .inst sv.insertBlock (sv.blocks sv.insertBlock).length := by
      simp [storedValue, hne]
    rw [hconv] at ha
    rw [hstored] at hs
    have hgv := dispatch_frames cx value valueType s v sv hinv hv
    have hgt : Inv cx (appendCode [.cast .Trunc v memoryType] sv) :=
      hgv.1.inv_appendCode_plain _ (by simp [Inst.isTerminator])
    have hga := dispatch_frames cx address (addressType isFarAddress) _ a s1 hgt ha
    obtain ⟨extra, hextra⟩ := hga.2.step.blocks_extend sv.insertBlock
    have hfresh : sv.insertBlock = s1.insertBlock →
        (sv.blocks sv.insertBlock).length < (s1.blocks s1.insertBlock).length := by
      intro hb
      rw [← hb, hextra]
      simp
    refine ⟨hint, sv, a, s1, _, hv, ha, hs, ?_, ?_⟩
    · intro f0 bits y hy
      exact stepInst_trunc cx.jitModule _ _ f0 v memoryType bits y hy
    · intro f x y hx hy
      rw [hmask]
      obtain ⟨f1, hrun, hmem⟩ := runInsts_store cx.jitModule m f isFarAddress a s1.insertBlock
        (s1.blocks s1.insertBlock).length x memoryType sv.insertBlock
        (sv.blocks sv.insertBlock).length (y % 2 ^ memoryType.bits)
        (storeAlignment true alignmentLog2) hint hfresh hx hy
      refine ⟨f1, hrun, hmem, ?_⟩
      rw [hmem, readMemory_writeMemory, byteWidth_pow memoryType hint, Nat.mod_mod]

/-- C16 at the load of the `i8` at address 16, sign-extended to an `i32`, in a memory
whose byte 16 is `0xff`: the code of the load yields the `i32` value `0xffffffff`. -/
theorem load_extends_and_store_truncates_witness :
    Example.context.jitModule.instanceMemoryAddressMask = .literal .I64 (2 ^ 33 - 1) ∧
    ∃ s', dispatch Example.context Example.signedByteLoad .I32 Example.entryState =
        .ok (.inst 1 5, s') ∧
      (∃ f1, runInsts Example.jitModule 1 0 (s'.blocks 1)
          (callFrame [] Example.memoryWithByte) = .next f1 ∧
        f1.operand (.inst 1 5) = some (.scalar (.int 32 (2 ^ 32 - 1)))) ∧
      ∃ a s1 code, dispatch Example.context (.literal .I32 16) (addressType false)
          Example.entryState = .ok (a, s1) ∧ s' = appendCode code s1 :=
  ⟨by decide, _, rfl, ⟨_, rfl, rfl⟩,
    match (load_extends_and_store_truncates Example.context (2 ^ 33 - 1) (by decide)).1 .I32
      .loadSExt (.literal .I32 16) false 0 .I8 Example.entryState _ _ (Or.inr rfl) rfl
      (by decide) rfl with
    | ⟨a, s1, code, ha, hs, _⟩ => ⟨a, s1, code, ha, hs⟩⟩

/-! ## The prologue of a function -/

theorem emitLocals_eq : ∀ (locals : List LocalVariable) (s : EmitState),
    emitLocals locals s =
      (localPointers s.insertBlock (s.blocks s.insertBlock).length locals,
        appendCode (localsCode s.insertBlock (s.blocks s.insertBlock).length locals) s)
  | [], s => by simp [emitLocals, localPointers, localsCode, appendCode_nil]
  | localVariable :: rest, s => by
    simp only [emitLocals, insert_eq, localPointers, localsCode]
    rw [emitLocals_eq rest]
    simp only [appendCode_insertBlock, appendCode_blocks_self, List.length_append,
      List.length_singleton, appendCode_append, Nat.add_assoc]
    rfl

theorem emitArguments_eq (parameterLocalIndices : List Nat)
    (localVariablePointers : List Value) :
    ∀ (numRemaining parameterIndex : Nat) (s s' : EmitState),
      emitArguments parameterLocalIndices localVariablePointers numRemaining parameterIndex s =
        .ok s' →
      s' = appendCode (argumentsCode parameterLocalIndices localVariablePointers numRemaining
        parameterIndex) s ∧
      ∀ q, parameterIndex ≤ q → q < parameterIndex + numRemaining →
        ∃ i pointer, parameterLocalIndices[q]? = some i ∧
          localVariablePointers[i]? = some pointer
  | 0, _, s, s', h => by
    simp only [emitArguments, Except.ok.injEq] at h
    refine ⟨by simp [argumentsCode, appendCode_nil, h], ?_⟩
    intro q h1 h2
    omega
  | numRemaining + 1, parameterIndex, s, s', h => by
    unfold emitArguments at h
    unfold argumentsCode
    cases h1 : parameterLocalIndices[parameterIndex]? with
    | none => simp [h1] at h
    | some localIndex =>
      cases h2 : localVariablePointers[localIndex]? with
      | none => simp [h1, h2] at h
      | some pointer =>
        simp only [h1, h2, insert_eq] at h
        obtain ⟨he, hv⟩ := emitArguments_eq parameterLocalIndices localVariablePointers
          numRemaining (parameterIndex + 1) _ s' h
        refine ⟨?_, ?_⟩
        · rw [he, appendCode_append]
          simp only [h2, List.singleton_append]
        · intro q hq1 hq2
          by_cases hq : q = parameterIndex
          · subst hq
            exact ⟨localIndex, pointer, h1, h2⟩
          · exact hv q (by omega) (by omega)

/-- The loop over the arguments ends when the local of every argument exists. -/
theorem emitArguments_ok (parameterLocalIndices : List Nat)
    (localVariablePointers : List Value) :
    ∀ (numRemaining parameterIndex : Nat) (s : EmitState),
      (∀ q, parameterIndex ≤ q → q < parameterIndex + numRemaining →
        ∃ i pointer, parameterLocalIndices[q]? = some i ∧
          localVariablePointers[i]? = some pointer) →
      ∃ s', emitArguments parameterLocalIndices localVariablePointers numRemaining
        parameterIndex s = .ok s'
  | 0, _, s, _ => ⟨s, rfl⟩
  | numRemaining + 1, parameterIndex, s, h => by
    obtain ⟨i, pointer, h1, h2⟩ := h parameterIndex (le_refl _) (by omega)
    unfold emitArguments
    simp only [h1, h2]
    exact emitArguments_ok parameterLocalIndices localVariablePointers numRemaining
      (parameterIndex + 1) _ (fun q hq1 hq2 => h q (by omega) (by omega))

theorem localPointers_length (b : Nat) : ∀ (locals : List LocalVariable) (n : Nat),
    (localPointers b n locals).length = locals.length
  | [], _ => rfl
  | _ :: rest, n => by simp [localPointers, localPointers_length b rest]

theorem localPointers_getElem? (b : Nat) : ∀ (locals : List LocalVariable) (n i : Nat),
    i < locals.length → (localPointers b n locals)[i]? = some (.inst b (n + 2 * i))
  | [], _, _, h => by simp at h
  | _ :: rest, n, 0, _ => by simp [localPointers]
  | _ :: rest, n, i + 1, h => by
    simp only [localPointers, List.getElem?_cons_succ]
    rw [localPointers_getElem? b rest (n + 2) i (by simpa using h)]
    congr 2
    omega

theorem localsCode_length (b : Nat) : ∀ (locals : List LocalVariable) (n : Nat),
    (localsCode b n locals).length = 2 * locals.length
  | [], _ => rfl
  | _ :: rest, n => by
    simp only [localsCode, List.length_cons, localsCode_length b rest]
    omega
theorem Frame.operand_typedZero (f : Frame) (type : TypeId) :
    f.operand (.typedZero type) = some (.scalar (.int type.bits 0)) := rfl

theorem Frame.operand_congr {f g : Frame} (h : g.values = f.values) (v : Value) :
    g.operand v = f.operand v := by
  unfold Frame.operand Frame.scalars
  rw [h]

theorem stepInst_store_local (jitModule : JITModule) (block index : Nat) (f : Frame)
    (value pointer : Value) (alignment : Option Nat) (slot : Nat) (x : RuntimeValue)
    (hp : f.operand pointer = some (.localPointer slot))
    (hv : f.operand value = some (.scalar x)) (hs : slot < f.slots.length) :
    stepInst jitModule block index f (.store value pointer alignment) =
      .next { f with slots := f.slots.set slot (some x) } := by
  simp [stepInst, hp, hv, hs]

theorem runInsts_local (jitModule : JITModule) (b n : Nat) (f : Frame) (type : TypeId) :
    ∃ fb, runInsts jitModule b n [.alloca type, .store (.typedZero type) (.inst b n) none] f =
        .next fb ∧
      fb.slots = f.slots ++ [some (.int type.bits 0)] ∧ fb.memory = f.memory ∧
      fb.operand (.inst b n) = some (.localPointer f.slots.length) ∧
      ∀ w, w ≠ .inst b n → fb.operand w = f.operand w := by
  have halloca : stepInst jitModule b n f (.alloca type) =
      .next (({ f with slots := f.slots ++ [none] } : Frame).bind (.inst b n)
        (.localPointer f.slots.length)) := rfl
  have hstore := stepInst_store_local jitModule b (n + 1)
    (({ f with slots := f.slots ++ [none] } : Frame).bind (.inst b n)
      (.localPointer f.slots.length)) (.typedZero type) (.inst b n) none f.slots.length _
    (Frame.operand_bind_self _ _ _ _) (Frame.operand_typedZero _ _) (by simp [Frame.bind])
  refine ⟨⟨(f.bind (.inst b n) (.localPointer f.slots.length)).values,
    f.slots ++ [some (.int type.bits 0)], f.memory⟩, ?_, rfl, rfl, ?_, ?_⟩
  · simp only [runInsts, halloca, hstore]
    simp [Frame.bind]
  · exact (Frame.operand_congr (f := f.bind (.inst b n) (.localPointer f.slots.length))
      (by rfl) _).trans (Frame.operand_bind_self _ _ _ _)
  · intro w hw
    exact (Frame.operand_congr (f := f.bind (.inst b n) (.localPointer f.slots.length))
      (by rfl) _).trans (Frame.operand_bind_of_ne _ _ _ _ hw)

/-- The run of the instructions of the prologue for the locals: every local gets a slot
that holds the zero value of its type. -/
theorem runInsts_localsCode (jitModule : JITModule) (b : Nat) :
    ∀ (locals : List LocalVariable) (n : Nat) (f : Frame),
      ∃ f1, runInsts jitModule b n (localsCode b n locals) f = .next f1 ∧
        f1.slots = f.slots ++ locals.map (fun l => some (.int l.type.bits 0)) ∧
        f1.memory = f.memory ∧
        (∀ i, i < locals.length →
          f1.operand (.inst b (n + 2 * i)) = some (.localPointer (f.slots.length + i))) ∧
        ∀ w, (∀ i, i < locals.length → w ≠ .inst b (n + 2 * i)) → f1.operand w = f.operand w
  | [], n, f => ⟨f, rfl, by simp, rfl, fun i hi => by simp at hi, fun _ _ => rfl⟩
  | localVariable :: rest, n, f => by
    obtain ⟨fb, hrunb, hslotsb, hmemb, hptrb, hotherb⟩ :=
      runInsts_local jitModule b n f localVariable.type
    obtain ⟨f1, hrun, hslots, hmem, hptr, hother⟩ :=
      runInsts_localsCode jitModule b rest (n + 2) fb
    have hlen : fb.slots.length = f.slots.length + 1 := by rw [hslotsb]; simp
    refine ⟨f1, ?_, ?_, hmem.trans hmemb, ?_, ?_⟩
    · have hcode : localsCode b n (localVariable :: rest) =
          [.alloca localVariable.type,
            .store (.typedZero localVariable.type) (.inst b n) none] ++
          localsCode b (n + 2) rest := rfl
      rw [hcode, runInsts_append, hrunb]
      exact hrun
    · rw [hslots, hslotsb]
      simp
    · intro i hi
      cases i with
      | zero =>
        rw [hother _ (fun j _ => by simp only [ne_eq, Value.inst.injEq, true_and]; omega)]
        exact hptrb
      | succ j =>
        have := hptr j (by simpa using hi)
        have e1 : n + 2 * (j + 1) = n + 2 + 2 * j := by omega
        have e2 : f.slots.length + (j + 1) = fb.slots.length + j := by omega
        rw [e1, e2]
        exact this
    · intro w hw
      rw [hother w (fun j hj => by
        have := hw (j + 1) (by simpa using hj)
        have e1 : n + 2 * (j + 1) = n + 2 + 2 * j := by omega
        rwa [e1] at this)]
      exact hotherb w (hw 0 (by simp))

/-- The run of the instructions of the prologue for the arguments: the slot of the local
of every argument holds the argument, and the other slots are left as they are. -/
theorem runInsts_argumentsCode (jitModule : JITModule) (b : Nat)
    (parameterLocalIndices : List Nat) (localVariablePointers : List Value)
    (args : List RuntimeValue) :
    ∀ (numRemaining parameterIndex n : Nat) (f : Frame),
      (∀ q, parameterIndex ≤ q → q < parameterIndex + numRemaining →
        ∃ i pointer, parameterLocalIndices[q]? = some i ∧
          localVariablePointers[i]? = some pointer) →
      (∀ i pointer, localVariablePointers[i]? = some pointer →
        f.operand pointer = some (.localPointer i) ∧ i < f.slots.length) →
      (∀ q, parameterIndex ≤ q → q < parameterIndex + numRemaining →
        ∃ r, args[q]? = some r ∧ f.operand (.argument q) = some (.scalar r)) →
      (∀ q1 q2 i, parameterIndex ≤ q1 → q1 < parameterIndex + numRemaining →
        parameterIndex ≤ q2 → q2 < parameterIndex + numRemaining →
        parameterLocalIndices[q1]? = some i → parameterLocalIndices[q2]? = some i → q1 = q2) →
      ∃ f1, runInsts jitModule b n
          (argumentsCode parameterLocalIndices localVariablePointers numRemaining
            parameterIndex) f = .next f1 ∧
        f1.memory = f.memory ∧ f1.values = f.values ∧ f1.slots.length = f.slots.length ∧
        (∀ q, parameterIndex ≤ q → q < parameterIndex + numRemaining →
          ∃ i, parameterLocalIndices[q]? = some i ∧ f1.slots[i]? = (args[q]?).map some) ∧
        ∀ j, (∀ q, parameterIndex ≤ q → q < parameterIndex + numRemaining →
          parameterLocalIndices[q]? ≠ some j) → f1.slots[j]? = f.slots[j]?
  | 0, p, n, f, _, _, _, _ =>
    ⟨f, rfl, rfl, rfl, rfl, fun q h1 h2 => by omega, fun _ _ => rfl⟩
  | numRemaining + 1, p, n, f, hvalid, hptr, harg, hdist => by
    obtain ⟨i, pointer, h1, h2⟩ := hvalid p (le_refl _) (by omega)
    obtain ⟨r, hr, hop⟩ := harg p (le_refl _) (by omega)
    obtain ⟨hpi, hlt⟩ := hptr i pointer h2
    have hstep := stepInst_store_local jitModule b n f (.argument p) pointer none i r hpi hop hlt
    obtain ⟨f1, hrun, hmem, hvalues, hlen, hslot, hother⟩ :=
      runInsts_argumentsCode jitModule b parameterLocalIndices localVariablePointers args
        numRemaining (p + 1) (n + 1) { f with slots := f.slots.set i (some r) }
        (fun q hq1 hq2 => hvalid q (by omega) (by omega))
        (fun j ptr hj => ⟨(Frame.operand_congr (by rfl) _).trans (hptr j ptr hj).1,
          by simpa using (hptr j ptr hj).2⟩)
        (fun q hq1 hq2 => by
          obtain ⟨r', hr', hop'⟩ := harg q (by omega) (by omega)
          exact ⟨r', hr', (Frame.operand_congr (by rfl) _).trans hop'⟩)
        (fun q1 q2 j a1 a2 a3 a4 => hdist q1 q2 j (by omega) (by omega) (by omega) (by omega))
    refine ⟨f1, ?_, hmem, hvalues, by simpa using hlen, ?_, ?_⟩
    · unfold argumentsCode
      simp only [h1, h2, runInsts, hstep]
      exact hrun
    · intro q hq1 hq2
      by_cases hq : q = p
      · subst hq
        refine ⟨i, h1, ?_⟩
        rw [hother i (fun q' hq1' hq2' he => by
          have := hdist q' q i (by omega) (by omega) (le_refl _) (by omega) he h1
          omega)]
        simp [hr, hlt]
      · exact hslot q (by omega) (by omega)
    · intro j hj
      rw [hother j (fun q hq1 hq2 => hj q (by omega) (by omega))]
      have hne : i ≠ j := by
        intro he
        subst he
        exact hj p (le_refl _) (by omega) h1
      simp [List.getElem?_set, hne]
theorem bodyEntry_eq (jitModule : JITModule) (astFunction : Function) :
    bodyEntry jitModule astFunction =
      match emitArguments astFunction.parameterLocalIndices
          (localPointers 1 0 astFunction.locals) astFunction.type.parameters.length 0
          (appendCode (localsCode 1 0 astFunction.locals)
            (setInsertPoint 1 ⟨2, fun _ => [], 0, []⟩)) with
      | .error e => .error e
      | .ok s4 =>
        .ok (⟨jitModule, astFunction, localPointers 1 0 astFunction.locals, 0⟩, s4) := by
  unfold bodyEntry
  simp only [createBasicBlock, initialState, emitLocals_eq]
  rfl

theorem callFrame_operand_argument (args : List RuntimeValue) (memory : MemoryBytes)
    (q : Nat) (r : RuntimeValue) (h : args[q]? = some r) :
    (callFrame args memory).operand (.argument q) = some (.scalar r) := by
  simp [Frame.operand, evalOperand, Frame.scalars, callFrame, h]

/-- The run of the prologue of a function from the frame at its entry. -/
theorem runInsts_prologue (jitModule : JITModule) (astFunction : Function)
    (args : List RuntimeValue) (memory : MemoryBytes)
    (hargs : args.length = astFunction.type.parameters.length)
    (hvalid : ∀ p, p < astFunction.type.parameters.length →
      ∃ i, astFunction.parameterLocalIndices[p]? = some i ∧ i < astFunction.locals.length)
    (hdistinct : ∀ p q i, p < astFunction.type.parameters.length →
      q < astFunction.type.parameters.length →
      astFunction.parameterLocalIndices[p]? = some i →
      astFunction.parameterLocalIndices[q]? = some i → p = q) :
    ∃ f, runInsts jitModule 1 0
        (localsCode 1 0 astFunction.locals ++
          argumentsCode astFunction.parameterLocalIndices
            (localPointers 1 0 astFunction.locals) astFunction.type.parameters.length 0)
        (callFrame args memory) = .next f ∧
      f.memory = memory ∧ f.slots.length = astFunction.locals.length ∧
      (∀ i, i < astFunction.locals.length →
        f.operand (.inst 1 (0 + 2 * i)) = some (.localPointer i)) ∧
      (∀ p, p < astFunction.type.parameters.length →
        ∃ i r, astFunction.parameterLocalIndices[p]? = some i ∧ args[p]? = some r ∧
          f.slots[i]? = some (some r)) ∧
      ∀ i l, astFunction.locals[i]? = some l →
        (∀ p, p < astFunction.type.parameters.length →
          astFunction.parameterLocalIndices[p]? ≠ some i) →
        f.slots[i]? = some (some (.int l.type.bits 0)) := by
  obtain ⟨f1, hrun1, hslots1, hmem1, hptr1, hother1⟩ :=
    runInsts_localsCode jitModule 1 astFunction.locals 0 (callFrame args memory)
  have hslots1' : f1.slots = astFunction.locals.map (fun l => some (.int l.type.bits 0)) := by
    rw [hslots1]; rfl
  have hlen1 : f1.slots.length = astFunction.locals.length := by rw [hslots1']; simp
  have hpointers : ∀ i pointer, (localPointers 1 0 astFunction.locals)[i]? = some pointer →
      f1.operand pointer = some (.localPointer i) ∧ i < f1.slots.length := by
    intro i pointer hi
    have hlt : i < astFunction.locals.length := by
      have := (List.getElem?_eq_some.mp hi).1
      rwa [localPointers_length] at this
    rw [localPointers_getElem? 1 _ 0 i hlt] at hi
    cases hi
    refine ⟨?_, by omega⟩
    have := hptr1 i hlt
    simpa [callFrame] using this
  obtain ⟨f2, hrun2, hmem2, hvalues2, hlen2, hslot2, hother2⟩ :=
    runInsts_argumentsCode jitModule 1 astFunction.parameterLocalIndices
      (localPointers 1 0 astFunction.locals) args astFunction.type.parameters.length 0
      (0 + (localsCode 1 0 astFunction.locals).length) f1
      (fun q _ hq => by
        obtain ⟨i, hi, hlt⟩ := hvalid q (by omega)
        exact ⟨i, _, hi, localPointers_getElem? 1 _ 0 i hlt⟩)
      hpointers
      (fun q _ hq => by
        have hq' : q < args.length := by omega
        refine ⟨args[q], List.getElem?_eq_getElem hq', ?_⟩
        rw [hother1 _ (fun i _ => by simp)]
        exact callFrame_operand_argument args memory q _ (List.getElem?_eq_getElem hq'))
      (fun q1 q2 i _ h1 _ h2 => hdistinct q1 q2 i (by omega) (by omega))
  refine ⟨f2, ?_, hmem2.trans hmem1, hlen2.trans hlen1, ?_, ?_, ?_⟩
  · rw [runInsts_append, hrun1]
    exact hrun2
  · intro i hi
    rw [Frame.operand_congr hvalues2]
    have := hptr1 i hi
    simpa [callFrame] using this
  · intro p hp
    obtain ⟨i, hi, hs⟩ := hslot2 p (Nat.zero_le _) (by omega)
    have hp' : p < args.length := by omega
    refine ⟨i, args[p], hi, List.getElem?_eq_getElem hp', ?_⟩
    rw [hs, List.getElem?_eq_getElem hp']
    rfl
  · intro i l hl hnot
    rw [hother2 i (fun q _ hq => hnot q (by omega)), hslots1', List.getElem?_map, hl]
    rfl
/-- C15.  For a function whose first parameter local indices, one for each parameter, are
distinct indices of locals, called with one argument for each parameter: the part of
`emit` before the body ends, with the insertion point at the entry block, block 1, which
holds the prologue, and the run of the prologue from the frame at the entry of the function
goes on with the next instruction, leaves the memory as it is, and ends with one slot for
each local, to which the pointer of the local points; the slot of the local of parameter
`p` holds argument `p`, and the slot of every other local holds the zero value of its type.
When the emission of the body ends at a block that is not the unreachable block, `emit`
ends, and it creates at that block one more instruction, the return of the value of the
body, or of nothing for a function of type void, whose execution returns the value the
frame gives to the value of the body.  The function that `emit` creates for
`add(i32, i32)` with the body `local0 + local1` has one block, and its run with the
arguments 2 and 3 returns 5. -/
theorem prologue_fills_local_slots (jitModule : JITModule) (astFunction : Function)
    (args : List RuntimeValue) (memory : MemoryBytes)
    (hargs : args.length = astFunction.type.parameters.length)
    (hvalid : ∀ p, p < astFunction.type.parameters.length →
      ∃ i, astFunction.parameterLocalIndices[p]? = some i ∧ i < astFunction.locals.length)
    (hdistinct : ∀ p q i, p < astFunction.type.parameters.length →
      q < astFunction.type.parameters.length →
      astFunction.parameterLocalIndices[p]? = some i →
      astFunction.parameterLocalIndices[q]? = some i → p = q) :
    (∃ cx s4 f, bodyEntry jitModule astFunction = .ok (cx, s4) ∧
      s4.insertBlock = 1 ∧ cx.unreachableBlock = 0 ∧ s4.blocks 0 = [] ∧
      runInsts jitModule 1 0 (s4.blocks 1) (callFrame args memory) = .next f ∧
      f.memory = memory ∧ f.slots.length = astFunction.locals.length ∧
      (∀ i, i < astFunction.locals.length →
        ∃ pointer, cx.localVariablePointers[i]? = some pointer ∧
          f.operand pointer = some (.localPointer i)) ∧
      (∀ p, p < astFunction.type.parameters.length →
        ∃ i r, astFunction.parameterLocalIndices[p]? = some i ∧ args[p]? = some r ∧
          f.slots[i]? = some (some r)) ∧
      (∀ i l, astFunction.locals[i]? = some l →
        (∀ p, p < astFunction.type.parameters.length →
          astFunction.parameterLocalIndices[p]? ≠ some i) →
        f.slots[i]? = some (some (.int l.type.bits 0))) ∧
      ∀ value s5,
        dispatch cx astFunction.expression astFunction.type.returnType s4 = .ok (value, s5) →
        s5.insertBlock ≠ cx.unreachableBlock →
        ∃ s, emitBody jitModule astFunction = .ok (cx, s) ∧
          emit jitModule astFunction = .ok (eraseBlock cx.unreachableBlock s) ∧
          s.blocks s5.insertBlock = s5.blocks s5.insertBlock ++
            [.ret (if astFunction.type.returnType = .Void then none else some value)] ∧
          (∀ b, b ≠ s5.insertBlock → s.blocks b = s5.blocks b) ∧
          ∀ (block index : Nat) (frame : Frame) (r : RuntimeValue),
            frame.operand value = some (.scalar r) →
            stepInst jitModule block index frame
                (.ret (if astFunction.type.returnType = .Void then none else some value)) =
              .returns (if astFunction.type.returnType = .Void then none else some r)) ∧
    ∀ exampleMemory : MemoryBytes,
      ∃ block, emit Example.jitModule Example.addFunction = .ok [(1, block)] ∧
        runInsts Example.jitModule 1 0 block
          (callFrame [.int 32 2, .int 32 3] exampleMemory) = .returns (some (.int 32 5)) := by
  constructor
  · obtain ⟨s4, h4⟩ := emitArguments_ok astFunction.parameterLocalIndices
      (localPointers 1 0 astFunction.locals) astFunction.type.parameters.length 0
      (appendCode (localsCode 1 0 astFunction.locals)
        (setInsertPoint 1 ⟨2, fun _ => [], 0, []⟩))
      (fun q _ hq => by
        obtain ⟨i, hi, hlt⟩ := hvalid q (by omega)
        exact ⟨i, _, hi, localPointers_getElem? 1 _ 0 i hlt⟩)
    have hentry : bodyEntry jitModule astFunction =
        .ok (⟨jitModule, astFunction, localPointers 1 0 astFunction.locals, 0⟩, s4) := by
      rw [bodyEntry_eq, h4]
    obtain ⟨hs4, -⟩ := emitArguments_eq _ _ _ _ _ _ h4
    obtain ⟨f, hrun, hmem, hlen, hptr, hparam, hother⟩ :=
      runInsts_prologue jitModule astFunction args memory hargs hvalid hdistinct
    have hblock : s4.blocks 1 = localsCode 1 0 astFunction.locals ++
        argumentsCode astFunction.parameterLocalIndices
          (localPointers 1 0 astFunction.locals) astFunction.type.parameters.length 0 := by
      rw [hs4, appendCode_append]
      simp [appendCode, setInsertPoint]
    refine ⟨_, s4, f, hentry, by rw [hs4]; rfl, rfl, by rw [hs4]; simp [appendCode, setInsertPoint],
      by rw [hblock]; exact hrun, hmem, hlen, ?_, hparam, hother, ?_⟩
    · intro i hi
      exact ⟨_, localPointers_getElem? 1 _ 0 i hi, hptr i hi⟩
    · intro value s5 hd hu
      have hbody : emitBody jitModule astFunction =
          .ok (⟨jitModule, astFunction, localPointers 1 0 astFunction.locals, 0⟩,
            appendCode [.ret (if astFunction.type.returnType = .Void then none else some value)]
              s5) := by
        rw [emitBody_eq, hentry]
        simp only [hd, hu, ne_eq, not_false_eq_true, if_true, insert_eq]
        by_cases hty : astFunction.type.returnType = .Void <;> simp [hty]
      refine ⟨_, hbody, by simp [emit, hbody], by simp, ?_, ?_⟩
      · intro b hb
        exact appendCode_blocks_of_ne _ _ _ hb
      · intro block index frame r hr
        by_cases hty : astFunction.type.returnType = .Void
        · simp [hty, stepInst]
        · simp [hty, stepInst, hr]
  · intro exampleMemory
    exact ⟨_, rfl, rfl⟩

/-- C15 at `add(i32, i32)` called with 2 and 3: after the prologue the slot of the first
local holds 2 and the slot of the second local holds 3. -/
theorem prologue_fills_local_slots_witness :
    ([.int 32 2, .int 32 3] : List RuntimeValue).length =
      Example.addFunction.type.parameters.length ∧
    (∃ cx s4 f, bodyEntry Example.jitModule Example.addFunction = .ok (cx, s4) ∧
      runInsts Example.jitModule 1 0 (s4.blocks 1)
        (callFrame [.int 32 2, .int 32 3] fun _ => 0) = .next f ∧
      f.slots = [some (.int 32 2), some (.int 32 3)]) ∧
    ∃ cx s4 f, bodyEntry Example.jitModule Example.addFunction = .ok (cx, s4) ∧
      runInsts Example.jitModule 1 0 (s4.blocks 1)
        (callFrame [.int 32 2, .int 32 3] fun _ => 0) = .next f ∧
      f.slots.length = Example.addFunction.locals.length :=
  ⟨rfl, ⟨_, _, _, rfl, rfl, rfl⟩,
    match (prologue_fills_local_slots Example.jitModule Example.addFunction
      [.int 32 2, .int 32 3] (fun _ => 0) rfl
      (by
        intro p hp
        have hp2 : p < 2 := hp
        interval_cases p
        · exact ⟨0, rfl, by decide⟩
        · exact ⟨1, rfl, by decide⟩)
      (by
        intro p q i hp hq h1 h2
        have hp2 : p < 2 := hp
        have hq2 : q < 2 := hq
        interval_cases p <;> interval_cases q <;>
          simp_all [Example.addFunction])).1 with
    | ⟨cx, s4, f, hb, _, _, _, hrun, _, hlen, _⟩ => ⟨cx, s4, f, hb, hrun, hlen⟩⟩

/-! ## The command line of `wavm-run` -/

namespace WavmRun

theorem stringStartsWith_iff (string literal : CString) :
    stringStartsWith string literal = true ↔ literal <+: string := by
  simp only [stringStartsWith, strncmpEq, Nat.add_sub_cancel, List.take_length, beq_iff_eq]
  constructor
  · intro h
    have := List.take_append_drop literal.length string
    rw [h] at this
    exact ⟨_, this⟩
  · rintro ⟨t, rfl⟩
    simp

theorem advance_append (literal rest : CString) :
    advance (literal ++ rest) literal.length = rest := by
  simp [advance]


theorem append_ne_of_take (start rest other : CString) (k : Nat) (hk : k ≤ start.length)
    (h : start.take k ≠ other.take k) : start ++ rest ≠ other := by
  intro e
  apply h
  rw [← e, List.take_append_of_le_length hk]

theorem not_startsWith_of_take (start rest literal : CString) (k : Nat)
    (hk : k ≤ start.length) (hl : k ≤ literal.length) (h : start.take k ≠ literal.take k) :
    stringStartsWith (start ++ rest) literal = false := by
  rw [Bool.eq_false_iff, ne_eq, stringStartsWith_iff]
  rintro ⟨t, ht⟩
  apply h
  have := congrArg (List.take k) ht
  rw [List.take_append_of_le_length hl, List.take_append_of_le_length hk] at this
  exact this.symm

theorem startsWith_append (literal rest : CString) :
    stringStartsWith (literal ++ rest) literal = true :=
  (stringStartsWith_iff _ _).mpr ⟨rest, rfl⟩

/-- The loop of `parseCommandLine` at an argument that starts with `--wasi-trace=`. -/
theorem parseOptions_wasiTrace (host : Host) (level : CString) (rest : List CString)
    (st : State) :
    parseOptions host (("--wasi-trace=".toList ++ level) :: rest) st =
      if st.wasiTraceLavel ≠ .none then .error .wasiTraceTwice
      else if level = "syscalls".toList then
        parseOptions host rest { st with wasiTraceLavel := .syscalls }
      else if level = "syscalls-with-callstacks".toList then
        parseOptions host rest { st with wasiTraceLavel := .syscallsWithCallstacks }
      else .error (.invalidTraceLevel level) := by
  have h1 : "--wasi-trace=".toList ++ level ≠ "--help".toList :=
    append_ne_of_take _ _ _ 3 (by decide) (by decide)
  have h2 : "--wasi-trace=".toList ++ level ≠ "-h".toList :=
    append_ne_of_take _ _ _ 3 (by decide) (by decide)
  have h3 : "--wasi-trace=".toList ++ level ≠ "--debug".toList :=
    append_ne_of_take _ _ _ 3 (by decide) (by decide)
  have h4 : "--wasi-trace=".toList ++ level ≠ "-d".toList :=
    append_ne_of_take _ _ _ 3 (by decide) (by decide)
  have h5 : "--wasi-trace=".toList ++ level ≠ "--function".toList :=
    append_ne_of_take _ _ _ 3 (by decide) (by decide)
  have h6 : "--wasi-trace=".toList ++ level ≠ "-f".toList :=
    append_ne_of_take _ _ _ 3 (by decide) (by decide)
  have h7 : "--wasi-trace=".toList ++ level ≠ "--metrics".toList :=
    append_ne_of_take _ _ _ 3 (by decide) (by decide)
  have h8 : "--wasi-trace=".toList ++ level ≠ "--trace".toList :=
    append_ne_of_take _ _ _ 3 (by decide) (by decide)
  have h9 : "--wasi-trace=".toList ++ level ≠ "--enable".toList :=
    append_ne_of_take _ _ _ 3 (by decide) (by decide)
  have h10 : "--wasi-trace=".toList ++ level ≠ "--precompiled".toList :=
    append_ne_of_take _ _ _ 3 (by decide) (by decide)
  have h11 : stringStartsWith ("--wasi-trace=".toList ++ level) "--sys=".toList = false :=
    not_startsWith_of_take _ _ _ 3 (by decide) (by decide) (by decide)
  have h12 : stringStartsWith ("--wasi-trace=".toList ++ level) "--mount-root=".toList =
      false := not_startsWith_of_take _ _ _ 3 (by decide) (by decide) (by decide)
  have h13 := startsWith_append "--wasi-trace=".toList level
  have hlen : "--mount-root=".toList.length = "--wasi-trace=".toList.length := by decide
  have h14 : advance ("--wasi-trace=".toList ++ level) "--mount-root=".toList.length = level := by
    rw [hlen]
    exact advance_append _ _
  rw [parseOptions.eq_def]
  simp only [h1, h2, h3, h4, h5, h6, h7, h8, h9, h10, h11, h12, h13, h14, or_self, if_false,
    if_true, Bool.false_eq_true]

theorem KeepsOptions.keeps_refl (st : State) : KeepsOptions st st :=
  ⟨rfl, fun _ => rfl, fun _ => rfl, fun _ => rfl⟩

theorem KeepsOptions.keeps_trans {a b c : State} (h1 : KeepsOptions a b)
    (h2 : KeepsOptions b c) : KeepsOptions a c := by
  obtain ⟨r1, t1, s1, m1⟩ := h1
  obtain ⟨r2, t2, s2, m2⟩ := h2
  refine ⟨r2.trans r1, ?_, ?_, ?_⟩
  · intro h
    rw [t2 (by rw [t1 h]; exact h), t1 h]
  · intro h
    rw [s2 (by rw [s1 h]; exact h), s1 h]
  · intro h
    rw [m2 (by rw [m1 h]; exact h), m1 h]

/-- One round of the loop of `parseCommandLine`: it fails, or it takes the argument as the
file name and ends, or the argument is an option and the loop goes on after it, or after
the value it consumes. -/
theorem parseOptions_step (host : Host) (arg : CString) (rest : List CString) (st : State) :
    (∃ e, parseOptions host (arg :: rest) st = .error e) ∨
    (isOption arg = false ∧
      parseOptions host (arg :: rest) st = .ok ({ st with filename := some arg }, rest)) ∨
    (isOption arg = true ∧ consumesValue arg = false ∧
      ∃ st2, parseOptions host (arg :: rest) st = parseOptions host rest st2 ∧
        KeepsOptions st st2 ∧ st2.filename = st.filename) ∨
    (consumesValue arg = true ∧
      ∃ value rest2 st2, rest = value :: rest2 ∧
        parseOptions host (arg :: rest) st = parseOptions host rest2 st2 ∧
        KeepsOptions st st2 ∧ st2.filename = st.filename) := by
  have hsys := stringStartsWith_iff arg "--sys=".toList
  have hmount := stringStartsWith_iff arg "--mount-root=".toList
  have htrace := stringStartsWith_iff arg "--wasi-trace=".toList
  rw [parseOptions.eq_def]
  simp only
  by_cases c1 : arg = "--help".toList ∨ arg = "-h".toList
  · exact Or.inl ⟨_, by rw [if_pos c1]⟩
  rw [if_neg c1]
  by_cases c2 : arg = "--debug".toList ∨ arg = "-d".toList
  · rw [if_pos c2]
    refine Or.inr (Or.inr (Or.inl ⟨?_, ?_, _, rfl, ⟨rfl, fun _ => rfl, fun _ => rfl, fun _ => rfl⟩, rfl⟩))
    · rcases c2 with rfl | rfl <;> decide
    · rcases c2 with rfl | rfl <;> decide
  rw [if_neg c2]
  by_cases c3 : arg = "--function".toList ∨ arg = "-f".toList
  · rw [if_pos c3]
    have hc : consumesValue arg = true := by rcases c3 with rfl | rfl <;> decide
    cases rest with
    | nil => exact Or.inl ⟨_, rfl⟩
    | cons value rest2 =>
      exact Or.inr (Or.inr (Or.inr ⟨hc, value, rest2, _, rfl, rfl, ⟨rfl, fun _ => rfl, fun _ => rfl, fun _ => rfl⟩, rfl⟩))
  rw [if_neg c3]
  by_cases c4 : arg = "--metrics".toList
  · rw [if_pos c4]
    refine Or.inr (Or.inr (Or.inl ⟨?_, ?_, _, rfl, ⟨rfl, fun _ => rfl, fun _ => rfl, fun _ => rfl⟩, rfl⟩))
    · subst c4; decide
    · subst c4; decide
  rw [if_neg c4]
  by_cases c5 : arg = "--trace".toList
  · rw [if_pos c5]
    refine Or.inr (Or.inr (Or.inl ⟨?_, ?_, _, rfl, ⟨rfl, fun _ => rfl, fun _ => rfl, fun _ => rfl⟩, rfl⟩))
    · subst c5; decide
    · subst c5; decide
  rw [if_neg c5]
  have hne : arg ≠ "--enable".toList → consumesValue arg = false := by
    intro h
    simp only [consumesValue, decide_eq_false_iff_not]
    rintro (h1 | h1 | h1)
    · exact c3 (Or.inl h1)
    · exact c3 (Or.inr h1)
    · exact h h1
  by_cases c6 : stringStartsWith arg "--sys=".toList = true
  · rw [if_pos c6]
    have hp := hsys.mp c6
    have ho : isOption arg = true := by
      simp only [isOption, decide_eq_true_eq]; tauto
    have hc : consumesValue arg = false := by
      apply hne
      obtain ⟨t, rfl⟩ := hp
      exact append_ne_of_take _ _ _ 3 (by decide) (by decide)
    by_cases d1 : st.system ≠ .detect
    · exact Or.inl ⟨_, by rw [if_pos d1]⟩
    rw [if_neg d1]
    by_cases d2 : advance arg "--sys=".toList.length = "bare".toList
    · rw [if_pos d2]
      exact Or.inr (Or.inr (Or.inl ⟨ho, hc, _, rfl,
        ⟨rfl, fun _ => rfl, fun h => absurd h d1, fun _ => rfl⟩, rfl⟩))
    rw [if_neg d2]
    by_cases d3 : advance arg "--sys=".toList.length = "emscripten".toList
    · rw [if_pos d3]
      exact Or.inr (Or.inr (Or.inl ⟨ho, hc, _, rfl,
        ⟨rfl, fun _ => rfl, fun h => absurd h d1, fun _ => rfl⟩, rfl⟩))
    rw [if_neg d3]
    by_cases d4 : advance arg "--sys=".toList.length = "wasi".toList
    · rw [if_pos d4]
      exact Or.inr (Or.inr (Or.inl ⟨ho, hc, _, rfl,
        ⟨rfl, fun _ => rfl, fun h => absurd h d1, fun _ => rfl⟩, rfl⟩))
    rw [if_neg d4]
    exact Or.inl ⟨_, rfl⟩
  rw [if_neg c6]
  by_cases c7 : arg = "--enable".toList
  · rw [if_pos c7]
    have hc : consumesValue arg = true := by subst c7; decide
    cases rest with
    | nil => exact Or.inl ⟨_, rfl⟩
    | cons value rest2 =>
      simp only
      by_cases d1 : host.isFeature value = true
      · rw [if_pos d1]
        exact Or.inr (Or.inr (Or.inr ⟨hc, value, rest2, _, rfl, rfl, ⟨rfl, fun _ => rfl, fun _ => rfl, fun _ => rfl⟩, rfl⟩))
      · rw [if_neg d1]
        exact Or.inl ⟨_, rfl⟩
  rw [if_neg c7]
  have hc : consumesValue arg = false := hne c7
  by_cases c8 : arg = "--precompiled".toList
  · rw [if_pos c8]
    refine Or.inr (Or.inr (Or.inl ⟨?_, hc, _, rfl, ⟨rfl, fun _ => rfl, fun _ => rfl, fun _ => rfl⟩, rfl⟩))
    subst c8; decide
  rw [if_neg c8]
  by_cases c9 : stringStartsWith arg "--mount-root=".toList = true
  · rw [if_pos c9]
    have hp := hmount.mp c9
    have ho : isOption arg = true := by
      simp only [isOption, decide_eq_true_eq]; tauto
    by_cases d1 : st.rootMountPath.isSome = true
    · exact Or.inl ⟨_, by rw [if_pos d1]⟩
    rw [if_neg d1]
    exact Or.inr (Or.inr (Or.inl ⟨ho, hc, _, rfl, ⟨rfl, fun _ => rfl, fun _ => rfl, fun h => absurd h d1⟩, rfl⟩))
  rw [if_neg c9]
  by_cases c10 : stringStartsWith arg "--wasi-trace=".toList = true
  · rw [if_pos c10]
    have hp := htrace.mp c10
    have ho : isOption arg = true := by
      simp only [isOption, decide_eq_true_eq]; tauto
    by_cases d1 : st.wasiTraceLavel ≠ .none
    · exact Or.inl ⟨_, by rw [if_pos d1]⟩
    rw [if_neg d1]
    by_cases d2 : advance arg "--mount-root=".toList.length = "syscalls".toList
    · rw [if_pos d2]
      exact Or.inr (Or.inr (Or.inl ⟨ho, hc, _, rfl,
        ⟨rfl, fun h => absurd h d1, fun _ => rfl, fun _ => rfl⟩, rfl⟩))
    rw [if_neg d2]
    by_cases d3 : advance arg "--mount-root=".toList.length =
        "syscalls-with-callstacks".toList
    · rw [if_pos d3]
      exact Or.inr (Or.inr (Or.inl ⟨ho, hc, _, rfl,
        ⟨rfl, fun h => absurd h d1, fun _ => rfl, fun _ => rfl⟩, rfl⟩))
    rw [if_neg d3]
    exact Or.inl ⟨_, rfl⟩
  rw [if_neg c10]
  refine Or.inr (Or.inl ⟨?_, rfl⟩)
  rw [hsys] at c6
  rw [hmount] at c9
  rw [htrace] at c10
  simp only [isOption, decide_eq_false_iff_not]
  rintro (h | h | h | h | h | h | h | h | h | h | h | h | h)
  · exact c1 (Or.inl h)
  · exact c1 (Or.inr h)
  · exact c2 (Or.inl h)
  · exact c2 (Or.inr h)
  · exact c3 (Or.inl h)
  · exact c3 (Or.inr h)
  · exact c8 h
  · exact c4 h
  · exact c5 h
  · exact c7 h
  · exact c6 h
  · exact c9 h
  · exact c10 h

theorem consumesValue_isOption (arg : CString) (h : consumesValue arg = true) :
    isOption arg = true := by
  simp only [consumesValue, decide_eq_true_eq] at h
  simp only [isOption, decide_eq_true_eq]
  tauto

theorem programFileIndex_file (arg : CString) (rest : List CString)
    (ho : isOption arg = false) : programFileIndex (arg :: rest) = some 0 := by
  have hc : consumesValue arg = false := by
    cases hcv : consumesValue arg with
    | false => rfl
    | true => rw [consumesValue_isOption arg hcv] at ho; cases ho
  rw [programFileIndex.eq_def]
  simp [hc, ho]

theorem programFileIndex_option (arg : CString) (rest : List CString)
    (ho : isOption arg = true) (hc : consumesValue arg = false) :
    programFileIndex (arg :: rest) = (programFileIndex rest).map (· + 1) := by
  rw [programFileIndex.eq_def]
  simp [hc, ho]

theorem programFileIndex_consumes (arg value : CString) (rest2 : List CString)
    (hc : consumesValue arg = true) :
    programFileIndex (arg :: value :: rest2) = (programFileIndex rest2).map (· + 2) := by
  rw [programFileIndex.eq_def]
  simp [hc]

/-- The loop of `parseCommandLine` ends at the first argument that is neither an option
nor a value an option consumes, or with no argument left. -/
theorem parseOptions_shape (host : Host) :
    ∀ (n : Nat) (args : List CString) (st st2 : State) (left : List CString),
      args.length ≤ n → parseOptions host args st = .ok (st2, left) →
      KeepsOptions st st2 ∧
      ((∃ i file, programFileIndex args = some i ∧ args[i]? = some file ∧
          st2.filename = some file ∧ left = args.drop (i + 1)) ∨
        (programFileIndex args = none ∧ st2.filename = st.filename ∧ left = [])) := by
  intro n
  induction n with
  | zero =>
    intro args st st2 left hlen h
    have : args = [] := List.length_eq_zero.mp (Nat.le_zero.mp hlen)
    subst this
    simp only [parseOptions, Except.ok.injEq, Prod.mk.injEq] at h
    obtain ⟨rfl, rfl⟩ := h
    exact ⟨KeepsOptions.keeps_refl _, Or.inr ⟨rfl, rfl, rfl⟩⟩
  | succ n ih =>
    intro args st st2 left hlen h
    cases args with
    | nil =>
      simp only [parseOptions, Except.ok.injEq, Prod.mk.injEq] at h
      obtain ⟨rfl, rfl⟩ := h
      exact ⟨KeepsOptions.keeps_refl _, Or.inr ⟨rfl, rfl, rfl⟩⟩
    | cons arg rest =>
      have hlen2 : rest.length ≤ n := by simpa using hlen
      rcases parseOptions_step host arg rest st with ⟨e, he⟩ | ⟨ho, he⟩ |
        ⟨ho, hc, st1, he, hk, hf⟩ | ⟨hc, value, rest2, st1, hr, he, hk, hf⟩
      · rw [he] at h
        cases h
      · rw [he] at h
        simp only [Except.ok.injEq, Prod.mk.injEq] at h
        obtain ⟨rfl, rfl⟩ := h
        exact ⟨⟨rfl, fun _ => rfl, fun _ => rfl, fun _ => rfl⟩,
          Or.inl ⟨0, arg, programFileIndex_file arg _ ho, by simp, rfl, rfl⟩⟩
      · rw [he] at h
        obtain ⟨hk2, hshape⟩ := ih rest st1 st2 left hlen2 h
        refine ⟨hk.keeps_trans hk2, ?_⟩
        rcases hshape with ⟨i, file, hi, hfile, hname, hleft⟩ | ⟨hi, hname, hleft⟩
        · exact Or.inl ⟨i + 1, file, by rw [programFileIndex_option arg rest ho hc, hi]; rfl,
            by simpa using hfile, hname, by simpa using hleft⟩
        · exact Or.inr ⟨by rw [programFileIndex_option arg rest ho hc, hi]; rfl,
            hname.trans hf, hleft⟩
      · subst hr
        rw [he] at h
        obtain ⟨hk2, hshape⟩ := ih rest2 st1 st2 left
          (by simp only [List.length_cons] at hlen2; omega) h
        refine ⟨hk.keeps_trans hk2, ?_⟩
        rcases hshape with ⟨i, file, hi, hfile, hname, hleft⟩ | ⟨hi, hname, hleft⟩
        · exact Or.inl ⟨i + 2, file, by rw [programFileIndex_consumes arg value rest2 hc, hi]; rfl,
            by simpa using hfile, hname, by simpa using hleft⟩
        · exact Or.inr ⟨by rw [programFileIndex_consumes arg value rest2 hc, hi]; rfl,
            hname.trans hf, hleft⟩

end WavmRun
namespace WavmRun

theorem parseCommandLine_error (host : Host) (argv0 : CString) (args : List CString)
    (st : State) (e : CommandLineError) (h : parseOptions host args st = .error e) :
    parseCommandLine host (argv0 :: args) st = .error e := by
  simp only [parseCommandLine, h]

/-- C21.  An argument at which the loop of `parseCommandLine` arrives and which starts with
`--wasi-trace=` is this text followed by a level, and the loop compares the level, the text
after `--wasi-trace=`: the texts `--mount-root=`, whose length the code skips, and
`--wasi-trace=` are of the same length.  When a trace level is set already the loop fails;
else the level `syscalls` sets the trace level `syscalls` and the level
`syscalls-with-callstacks` sets the trace level `syscallsWithCallstacks`, with which the
loop goes on and which the options after it leave as it is, and every other level makes
the loop and `parseCommandLine` fail. -/
theorem wasi_trace_level_follows_prefix (host : Host) (arg : CString) (rest : List CString)
    (st : State) (harg : stringStartsWith arg "--wasi-trace=".toList = true) :
    ∃ level, arg = "--wasi-trace=".toList ++ level ∧
      advance arg "--mount-root=".toList.length = level ∧
      parseOptions host (arg :: rest) st =
        (if st.wasiTraceLavel ≠ .none then .error .wasiTraceTwice
        else if level = "syscalls".toList then
          parseOptions host rest { st with wasiTraceLavel := .syscalls }
        else if level = "syscalls-with-callstacks".toList then
          parseOptions host rest { st with wasiTraceLavel := .syscallsWithCallstacks }
        else .error (.invalidTraceLevel level)) ∧
      (∀ st2 left, parseOptions host (arg :: rest) st = .ok (st2, left) →
        st.wasiTraceLavel = .none ∧
        ((level = "syscalls".toList ∧ st2.wasiTraceLavel = .syscalls) ∨
          (level = "syscalls-with-callstacks".toList ∧
            st2.wasiTraceLavel = .syscallsWithCallstacks))) ∧
      (level ≠ "syscalls".toList → level ≠ "syscalls-with-callstacks".toList →
        (∃ e, parseOptions host (arg :: rest) st = .error e) ∧
        ∀ argv0, ∃ e, parseCommandLine host (argv0 :: arg :: rest) st = .error e) := by
  obtain ⟨level, rfl⟩ := (stringStartsWith_iff _ _).mp harg
  have heq := parseOptions_wasiTrace host level rest st
  have hlen : "--mount-root=".toList.length = "--wasi-trace=".toList.length := by decide
  refine ⟨level, rfl, by rw [hlen]; exact advance_append _ _, heq, ?_, ?_⟩
  · intro st2 left h
    rw [heq] at h
    by_cases h0 : st.wasiTraceLavel ≠ .none
    · rw [if_pos h0] at h
      cases h
    rw [if_neg h0] at h
    refine ⟨not_not.mp h0, ?_⟩
    by_cases h1 : level = "syscalls".toList
    · rw [if_pos h1] at h
      have hk := (parseOptions_shape host _ _ _ _ _ (le_refl _) h).1
      exact Or.inl ⟨h1, hk.2.1 (by simp)⟩
    rw [if_neg h1] at h
    by_cases h2 : level = "syscalls-with-callstacks".toList
    · rw [if_pos h2] at h
      have hk := (parseOptions_shape host _ _ _ _ _ (le_refl _) h).1
      exact Or.inr ⟨h2, hk.2.1 (by simp)⟩
    rw [if_neg h2] at h
    cases h
  · intro h1 h2
    have herr : ∃ e, parseOptions host (("--wasi-trace=".toList ++ level) :: rest) st =
        .error e := by
      rw [heq]
      by_cases h0 : st.wasiTraceLavel ≠ .none
      · exact ⟨_, by rw [if_pos h0]⟩
      · exact ⟨_, by rw [if_neg h0, if_neg h1, if_neg h2]⟩
    obtain ⟨e, he⟩ := herr
    exact ⟨⟨e, he⟩, fun argv0 => ⟨e, parseCommandLine_error host argv0 _ st e he⟩⟩

/-- C21 at the argument `--wasi-trace=syscalls` as the first argument of a command line:
the parse gives a state with the trace level `syscalls`. -/
theorem wasi_trace_level_follows_prefix_witness :
    stringStartsWith "--wasi-trace=syscalls".toList "--wasi-trace=".toList = true ∧
    (∃ st, parseCommandLine Example.host Example.commandLine .initial = .ok st ∧
      st.wasiTraceLavel = .syscalls) ∧
    ∃ level, "--wasi-trace=syscalls".toList = "--wasi-trace=".toList ++ level ∧
      advance "--wasi-trace=syscalls".toList "--mount-root=".toList.length = level :=
  ⟨by decide, ⟨_, rfl, rfl⟩,
    match wasi_trace_level_follows_prefix Example.host "--wasi-trace=syscalls".toList []
      .initial (by decide) with
    | ⟨level, h1, h2, _⟩ => ⟨level, h1, h2⟩⟩

/-- C22.  A parse of a command line that starts in a state without a file name and
succeeds takes as the file name the first argument after `argv[0]` that is neither an
option nor the value that `-f`, `--function` or `--enable` consumes, and adds the
arguments after it, all of them and in their order, to the program arguments.  When there
is no such argument the parse fails.  The parse succeeds when the loop over the options
ends with a file name and the host supports the enabled features. -/
theorem program_file_is_first_non_option (host : Host) (argv0 : CString)
    (args : List CString) (st : State) (hfile : st.filename = none) :
    (∀ st2, parseCommandLine host (argv0 :: args) st = .ok st2 →
      ∃ i file, programFileIndex args = some i ∧ args[i]? = some file ∧
        st2.filename = some file ∧ st2.runArgs = st.runArgs ++ args.drop (i + 1)) ∧
    (programFileIndex args = none →
      ∃ e, parseCommandLine host (argv0 :: args) st = .error e) ∧
    (∀ st1 left, parseOptions host args st = .ok (st1, left) → st1.filename.isSome = true →
      host.validateTarget st1.featureSpec = .valid →
      parseCommandLine host (argv0 :: args) st =
        .ok { st1 with runArgs := st1.runArgs ++ left }) := by
  refine ⟨?_, ?_, ?_⟩
  · intro st2 h
    simp only [parseCommandLine] at h
    cases hp : parseOptions host args st with
    | error e => simp [hp] at h
    | ok r =>
      obtain ⟨st1, left⟩ := r
      obtain ⟨hk, hshape⟩ := parseOptions_shape host _ args st st1 left (le_refl _) hp
      simp only [hp] at h
      by_cases hn : st1.filename.isNone = true
      · simp [hn] at h
      simp only [hn, if_false] at h
      have hst2 : st2.filename = st1.filename ∧ st2.runArgs = st1.runArgs ++ left := by
        cases hv : host.validateTarget st1.featureSpec <;> simp only [hv] at h <;> cases h
        exact ⟨rfl, rfl⟩
      rcases hshape with ⟨i, file, hi, hfl, hname, hleft⟩ | ⟨-, hname, -⟩
      · exact ⟨i, file, hi, hfl, hst2.1.trans hname, by rw [hst2.2, hk.1, hleft]⟩
      · rw [hname, hfile] at hn
        exact absurd rfl hn
  · intro hnone
    cases hp : parseOptions host args st with
    | error e => exact ⟨e, parseCommandLine_error host argv0 args st e hp⟩
    | ok r =>
      obtain ⟨st1, left⟩ := r
      obtain ⟨-, hshape⟩ := parseOptions_shape host _ args st st1 left (le_refl _) hp
      rcases hshape with ⟨i, file, hi, -⟩ | ⟨-, hname, -⟩
      · rw [hnone] at hi
        cases hi
      · refine ⟨.help, ?_⟩
        simp [parseCommandLine, hp, hname, hfile]
  · intro st1 left hp hsome hvalid
    have hn : ¬ st1.filename.isNone = true := by
      cases hf : st1.filename with
      | none => rw [hf] at hsome; cases hsome
      | some f => simp
    simp only [parseCommandLine, hp, hn, if_false, hvalid]
    rfl

/-- C22 at a command line whose function name reads `--help` and whose first program
argument reads `--debug`: the file name is the fifth argument, and the two arguments after
it are the program arguments. -/
theorem program_file_is_first_non_option_witness :
    State.initial.filename = none ∧
    (∃ st, parseCommandLine Example.host Example.commandLine .initial = .ok st ∧
      st.filename = some "a.wasm".toList ∧ st.functionName = some "--help".toList ∧
      st.runArgs = ["--debug".toList, "x".toList] ∧ st.debugEnabled = false) ∧
    programFileIndex Example.commandLine.tail = some 3 ∧
    ∀ st2, parseCommandLine Example.host
        ("wavm-run".toList :: Example.commandLine.tail) .initial = .ok st2 →
      ∃ i file, programFileIndex Example.commandLine.tail = some i ∧
        Example.commandLine.tail[i]? = some file ∧ st2.filename = some file ∧
        st2.runArgs = State.initial.runArgs ++ Example.commandLine.tail.drop (i + 1) :=
  ⟨rfl, ⟨_, rfl, rfl, rfl, rfl, rfl⟩, by decide,
    (program_file_is_first_non_option Example.host "wavm-run".toList
      Example.commandLine.tail .initial rfl).1⟩

end WavmRun

/-! ## The system of `wavm-run` -/

namespace WavmRun

theorem isWASIModule_iff (irModule : IRModule) :
    isWASIModule irModule = true ↔
      ∃ i ∈ irModule.functionImports, i.moduleName = "wasi_unstable".toList := by
  simp only [isWASIModule, List.any_eq_true, beq_iff_eq]

theorem isEmscriptenModule_iff (irModule : IRModule) :
    isEmscriptenModule irModule = true ↔
      (∃ first, irModule.memoryImports.head? = some first ∧
        first.moduleName = "env".toList ∧ first.exportName = "memory".toList) ∧
      ∃ i ∈ irModule.functionImports, i.moduleName = "env".toList := by
  unfold isEmscriptenModule
  cases hm : irModule.memoryImports with
  | nil => simp
  | cons first rest =>
    simp only [List.head?_cons, Option.some.injEq, exists_eq_left']
    by_cases h : first.moduleName ≠ "env".toList ∨ first.exportName ≠ "memory".toList
    · rw [if_pos h]
      constructor
      · intro hf
        cases hf
      · rintro ⟨⟨h1, h2⟩, -⟩
        rcases h with h | h
        · exact absurd h1 h
        · exact absurd h2 h
    · rw [if_neg h]
      simp only [ne_eq, not_or, not_not] at h
      simp only [List.any_eq_true, beq_iff_eq, h, and_self, true_and]

/-- The state of `initSystem` after the detection of the system. -/
theorem detection_eq (irModule : IRModule) (st : State) :
    (if st.system = .detect then
      if isWASIModule irModule = true then { st with system := .wasi }
      else if isEmscriptenModule irModule = true then { st with system := .emscripten }
      else st
    else st) = { st with system := systemInEffect irModule st.system } := by
  unfold systemInEffect
  by_cases hd : st.system = .detect
  · simp only [hd, if_true, ne_eq, not_true_eq_false, if_false]
    by_cases hw : isWASIModule irModule = true
    · rw [if_pos hw, if_pos ((isWASIModule_iff _).mp hw)]
    · rw [if_neg hw, if_neg (fun h => hw ((isWASIModule_iff _).mpr h))]
      by_cases he : isEmscriptenModule irModule = true
      · rw [if_pos he, if_pos ((isEmscriptenModule_iff _).mp he)]
      · rw [if_neg he, if_neg (fun h => he ((isEmscriptenModule_iff _).mpr h))]
        cases st
        simp only at hd
        rw [hd]
  · simp only [hd, if_false, ne_eq, not_false_eq_true, if_true]

/-- The method `initSystem`, with the system in effect. -/
theorem initSystem_eq (host : Host) (irModule : IRModule) (st : State) :
    initSystem host irModule st =
      match (match st.rootMountPath with
        | none => .ok (some { st with system := systemInEffect irModule st.system })
        | some rootMountPath =>
          if systemInEffect irModule st.system ≠ .wasi then .ok none
          else
            match isAbsolutePathTest rootMountPath with
            | none => .error .outOfBounds
            | some true =>
              .ok (some { st with system := systemInEffect irModule st.system,
                                  sandboxFS := some rootMountPath })
            | some false =>
              .ok (some { st with
                system := systemInEffect irModule st.system,
                sandboxFS := some (host.currentWorkingDirectory ++ '/' :: rootMountPath) }) :
          Except InitError (Option State)) with
      | .error e => .error e
      | .ok none => .ok (false, { st with system := systemInEffect irModule st.system })
      | .ok (some st2) =>
        if st2.wasiTraceLavel ≠ .none then
          if st2.system ≠ .wasi then
            .ok (false,
              if st2.system = .emscripten then { st2 with emscriptenInstance := true } else st2)
          else
            .ok (true, { st2 with wasiProcess := some ("/proc/1/exe".toList :: st2.runArgs),
                                  syscallTraceLevel := some st2.wasiTraceLavel })
        else
          .ok (true,
            if st2.system = .emscripten then { st2 with emscriptenInstance := true }
            else if st2.system = .wasi then
              { st2 with wasiProcess := some ("/proc/1/exe".toList :: st2.runArgs) }
            else st2) := by
  unfold initSystem
  simp only [detection_eq]
  cases hm : st.rootMountPath with
  | none =>
    simp only
    cases hs : systemInEffect irModule st.system <;> simp
  | some path =>
    simp only
    by_cases hw : systemInEffect irModule st.system = .wasi
    · simp only [hw, ne_eq, not_true_eq_false, if_false]
      cases isAbsolutePathTest path with
      | none => rfl
      | some b =>
        cases b <;> simp
    · simp only [hw, ne_eq, not_false_eq_true, if_true]

/-- C23.  With the system in effect, the system given by `--sys=` or else the detected
one: when a mount path is given and the system in effect is not WASI, `initSystem` returns
false, right after the detection; when a trace level is given and the system in effect is
not WASI, `initSystem` returns false as well, and gives the trace level to no one. -/
theorem wasi_only_options_fail (host : Host) (irModule : IRModule) (st : State)
    (hsys : systemInEffect irModule st.system ≠ .wasi) :
    (st.rootMountPath.isSome = true →
      initSystem host irModule st =
        .ok (false, { st with system := systemInEffect irModule st.system })) ∧
    (st.wasiTraceLavel ≠ .none →
      ∃ st2, initSystem host irModule st = .ok (false, st2) ∧
        st2.system = systemInEffect irModule st.system ∧
        st2.syscallTraceLevel = st.syscallTraceLevel ∧ st2.wasiProcess = st.wasiProcess) := by
  constructor
  · intro hm
    rw [initSystem_eq]
    cases hp : st.rootMountPath with
    | none => rw [hp] at hm; cases hm
    | some path => simp only [hsys, ne_eq, not_false_eq_true, if_true]
  · intro ht
    rw [initSystem_eq]
    cases hp : st.rootMountPath with
    | none =>
      simp only [ht, hsys, ne_eq, not_false_eq_true, if_true]
      refine ⟨_, rfl, ?_, ?_, ?_⟩
      · split <;> rfl
      · split <;> rfl
      · split <;> rfl
    | some path =>
      simp only [hsys, ne_eq, not_false_eq_true, if_true]
      exact ⟨_, rfl, rfl, rfl, rfl⟩

/-- C23 at the state after the parse of a command line with `--sys=bare` and a trace
level, for a module without imports: `initSystem` returns false. -/
theorem wasi_only_options_fail_witness :
    systemInEffect Example.bareModule Example.bareTraceState.system ≠ .wasi ∧
    parseCommandLine Example.host
      ["wavm-run".toList, "--sys=bare".toList, "--wasi-trace=syscalls".toList,
        "a.wasm".toList] .initial = .ok Example.bareTraceState ∧
    ∃ st2, initSystem Example.host Example.bareModule Example.bareTraceState =
        .ok (false, st2) ∧
      st2.system = systemInEffect Example.bareModule Example.bareTraceState.system ∧
      st2.syscallTraceLevel = Example.bareTraceState.syscallTraceLevel ∧
      st2.wasiProcess = Example.bareTraceState.wasiProcess :=
  ⟨by decide, rfl,
    (wasi_only_options_fail Example.host Example.bareModule Example.bareTraceState
      (by decide)).2 (by decide)⟩

end WavmRun
namespace WavmRun

/-- The loop of `parseCommandLine` at an argument that starts with `--sys=`. -/
theorem parseOptions_sys (host : Host) (value : CString) (rest : List CString)
    (st : State) :
    parseOptions host (("--sys=".toList ++ value) :: rest) st =
      if st.system ≠ .detect then .error .sysTwice
      else if value = "bare".toList then parseOptions host rest { st with system := .bare }
      else if value = "emscripten".toList then
        parseOptions host rest { st with system := .emscripten }
      else if value = "wasi".toList then parseOptions host rest { st with system := .wasi }
      else .error (.unknownSystem value) := by
  have h1 : "--sys=".toList ++ value ≠ "--help".toList :=
    append_ne_of_take _ _ _ 3 (by decide) (by decide)
  have h2 : "--sys=".toList ++ value ≠ "-h".toList :=
    append_ne_of_take _ _ _ 3 (by decide) (by decide)
  have h3 : "--sys=".toList ++ value ≠ "--debug".toList :=
    append_ne_of_take _ _ _ 3 (by decide) (by decide)
  have h4 : "--sys=".toList ++ value ≠ "-d".toList :=
    append_ne_of_take _ _ _ 3 (by decide) (by decide)
  have h5 : "--sys=".toList ++ value ≠ "--function".toList :=
    append_ne_of_take _ _ _ 3 (by decide) (by decide)
  have h6 : "--sys=".toList ++ value ≠ "-f".toList :=
    append_ne_of_take _ _ _ 3 (by decide) (by decide)
  have h7 : "--sys=".toList ++ value ≠ "--metrics".toList :=
    append_ne_of_take _ _ _ 3 (by decide) (by decide)
  have h8 : "--sys=".toList ++ value ≠ "--trace".toList :=
    append_ne_of_take _ _ _ 3 (by decide) (by decide)
  have h13 := startsWith_append "--sys=".toList value
  have h14 : advance ("--sys=".toList ++ value) "--sys=".toList.length = value :=
    advance_append _ _
  rw [parseOptions.eq_def]
  simp only [h1, h2, h3, h4, h5, h6, h7, h8, h13, h14, or_self, if_false, if_true]

/-- C24.  Whenever `initSystem` returns, the system of the state is the system in effect:
the system of the state before when that is not `detect`, as after a `--sys=` option, which
the options after it leave as it is; and for `detect`, WASI when some function import has
the module name `wasi_unstable`, else Emscripten when the first memory import is
`env.memory` and some function import has the module name `env`, else `detect` still.
Without a mount path `initSystem` returns. -/
theorem system_detection (host : Host) (irModule : IRModule) (st : State) :
    (∀ r st2, initSystem host irModule st = .ok (r, st2) →
      st2.system = systemInEffect irModule st.system) ∧
    (st.rootMountPath = none → ∃ r st2, initSystem host irModule st = .ok (r, st2)) ∧
    (st.system ≠ .detect → systemInEffect irModule st.system = st.system) ∧
    (st.system = .detect →
      (∃ i ∈ irModule.functionImports, i.moduleName = "wasi_unstable".toList) →
      systemInEffect irModule st.system = .wasi) ∧
    (st.system = .detect →
      (¬ ∃ i ∈ irModule.functionImports, i.moduleName = "wasi_unstable".toList) →
      (∃ first, irModule.memoryImports.head? = some first ∧
        first.moduleName = "env".toList ∧ first.exportName = "memory".toList) →
      (∃ i ∈ irModule.functionImports, i.moduleName = "env".toList) →
      systemInEffect irModule st.system = .emscripten) ∧
    (st.system = .detect →
      (¬ ∃ i ∈ irModule.functionImports, i.moduleName = "wasi_unstable".toList) →
      ¬ ((∃ first, irModule.memoryImports.head? = some first ∧
          first.moduleName = "env".toList ∧ first.exportName = "memory".toList) ∧
        ∃ i ∈ irModule.functionImports, i.moduleName = "env".toList) →
      systemInEffect irModule st.system = .detect) ∧
    (∀ (args : List CString) (st0 st1 : State) (left : List CString),
      parseOptions host args st0 = .ok (st1, left) → st0.system ≠ .detect →
      st1.system = st0.system) ∧
    (∀ (value : CString) (rest : List CString) (st1 : State) (left : List CString),
      st.system = .detect →
      parseOptions host (("--sys=".toList ++ value) :: rest) st = .ok (st1, left) →
      st1.system ≠ .detect ∧
      (value = "bare".toList ∧ st1.system = .bare ∨
        value = "emscripten".toList ∧ st1.system = .emscripten ∨
        value = "wasi".toList ∧ st1.system = .wasi)) := by
  refine ⟨?_, ?_, ?_, ?_, ?_, ?_, ?_, ?_⟩
  · intro r st2 h
    rw [initSystem_eq] at h
    cases hm : st.rootMountPath with
    | none =>
      simp only [hm] at h
      split at h <;> (try split at h) <;> simp only [Except.ok.injEq, Prod.mk.injEq] at h <;>
        obtain ⟨-, rfl⟩ := h <;> (try split) <;> rfl
    | some path =>
      simp only [hm] at h
      by_cases hw : systemInEffect irModule st.system = .wasi
      · simp only [hw, ne_eq, not_true_eq_false, if_false] at h
        cases ha : isAbsolutePathTest path with
        | none => simp [ha] at h
        | some b =>
          cases b <;> simp only [ha] at h <;> split at h <;>
            simp only [Except.ok.injEq, Prod.mk.injEq, if_false, reduceCtorEq] at h <;>
            obtain ⟨-, rfl⟩ := h <;> exact hw.symm
      · simp only [hw, ne_eq, not_false_eq_true, if_true, Except.ok.injEq,
          Prod.mk.injEq] at h
        obtain ⟨-, rfl⟩ := h
        rfl
  · intro hm
    rw [initSystem_eq, hm]
    simp only
    split
    · split <;> exact ⟨_, _, rfl⟩
    · exact ⟨_, _, rfl⟩
  · intro h
    simp [systemInEffect, h]
  · intro hd hw
    unfold systemInEffect
    rw [if_neg (by simp [hd]), if_pos hw]
  · intro hd hw he1 he2
    unfold systemInEffect
    rw [if_neg (by simp [hd]), if_neg hw, if_pos ⟨he1, he2⟩]
  · intro hd hw he
    unfold systemInEffect
    rw [if_neg (by simp [hd]), if_neg hw, if_neg he]
  · intro args st0 st1 left h hs
    exact (parseOptions_shape host _ args st0 st1 left (le_refl _) h).1.2.2.1 hs
  · intro value rest st1 left hd h
    rw [parseOptions_sys, if_neg (by simp [hd])] at h
    have keep : ∀ st0 : State, st0.system ≠ .detect →
        parseOptions host rest st0 = .ok (st1, left) → st1.system = st0.system :=
      fun st0 hs h0 => (parseOptions_shape host _ rest st0 st1 left (le_refl _) h0).1.2.2.1 hs
    by_cases h1 : value = "bare".toList
    · rw [if_pos h1] at h
      have := keep _ (by simp) h
      exact ⟨by rw [this]; simp, Or.inl ⟨h1, this⟩⟩
    rw [if_neg h1] at h
    by_cases h2 : value = "emscripten".toList
    · rw [if_pos h2] at h
      have := keep _ (by simp) h
      exact ⟨by rw [this]; simp, Or.inr (Or.inl ⟨h2, this⟩)⟩
    rw [if_neg h2] at h
    by_cases h3 : value = "wasi".toList
    · rw [if_pos h3] at h
      have := keep _ (by simp) h
      exact ⟨by rw [this]; simp, Or.inr (Or.inr ⟨h3, this⟩)⟩
    rw [if_neg h3] at h
    cases h

/-- C24 at a module that imports a function of `wasi_unstable`, a function of `env` and
the memory `env.memory`: without `--sys=` the system is WASI, and with `--sys=bare` it is
`bare`. -/
theorem system_detection_witness :
    Example.plainState.system = .detect ∧
    (∃ i ∈ Example.mixedModule.functionImports, i.moduleName = "wasi_unstable".toList) ∧
    isEmscriptenModule Example.mixedModule = true ∧
    systemInEffect Example.mixedModule Example.plainState.system = .wasi ∧
    (∃ st2, initSystem Example.host Example.mixedModule Example.plainState = .ok (true, st2) ∧
      st2.system = .wasi) ∧
    ∃ st2, initSystem Example.host Example.mixedModule
        { Example.plainState with system := .bare } = .ok (true, st2) ∧ st2.system = .bare :=
  ⟨rfl, by decide, by decide,
    (system_detection Example.host Example.mixedModule Example.plainState).2.2.2.1 rfl
      (by decide),
    ⟨_, rfl, rfl⟩, ⟨_, rfl, rfl⟩⟩

end WavmRun
/-! ## The mount path of `wavm-run` -/

namespace WavmRun

theorem isAbsolutePathTest_eq_none_iff (path : CString) :
    isAbsolutePathTest path = none ↔ path = [] := by
  cases path with
  | nil => simp only [isAbsolutePathTest, readChar]; decide
  | cons c rest =>
    simp only [isAbsolutePathTest, readChar, List.length_cons, Nat.zero_lt_succ, dite_true,
      List.get, reduceCtorEq, iff_false]
    by_cases hc : c = '/' ∨ c = '\\' ∨ c = '~'
    · rw [if_pos hc]
      simp
    · rw [if_neg hc]
      cases rest with
      | nil => simp
      | cons d rest2 => simp

/-- C30: the test of `initSystem` for an absolute path reads the character at index 1 of
the empty mount path, the character after its terminating NUL.  The test reads the
character at index 1 whenever the first character is none of `/`, `\` and `~`, which
the terminating NUL of the empty path is not; the read is past the end for the empty path
and for no other path.  So `initSystem` reads past the end of the path for the empty mount
path when the system in effect is WASI, as after the parse of the command line
`wavm-run --sys=wasi --mount-root= a.wasm`. -/
theorem empty_mount_path_reads_past_end :
    readChar [] 0 = some (Char.ofNat 0) ∧ readChar [] 1 = none ∧
    isAbsolutePathTest [] = none ∧
    (∀ path : CString, isAbsolutePathTest path = none ↔ path = []) ∧
    (∀ (host : Host) (irModule : IRModule) (st : State),
      st.rootMountPath = some [] → systemInEffect irModule st.system = .wasi →
      initSystem host irModule st = .error .outOfBounds) ∧
    ∃ st, parseCommandLine Example.host Example.emptyMountCommandLine .initial = .ok st ∧
      st.rootMountPath = some [] ∧ st.system = .wasi ∧
      initSystem Example.host Example.bareModule st = .error .outOfBounds := by
  refine ⟨by decide, by decide, by decide, isAbsolutePathTest_eq_none_iff, ?_,
    ⟨_, rfl, rfl, rfl, rfl⟩⟩
  intro host irModule st hm hw
  rw [initSystem_eq, hm]
  simp only [hw, ne_eq, not_true_eq_false, if_false]
  rfl

end WavmRun

/-! ## The names of the LLVM functions -/

/-- C25: the name of a function that is not exported can be the name of an exported
function.  `getLLVMName` puts `_` before the name, so the name it gives is the export
name `e` exactly when `e` is `_` followed by the name: it differs from every export name
that does not start with `_`, and it is the export name `_f` for the name `f`.  For a
module with the function `f`, not exported, and a function exported as `_f`, `emitModule`
asks for the name `_f` for both. -/
theorem internal_name_collides_with_export_name :
    (∀ (n e : String), getLLVMName (some n) = e ↔ e = "_" ++ n) ∧
    (∀ (n e : String), e.data.head? ≠ some '_' → getLLVMName (some n) ≠ e) ∧
    getLLVMName (some "f") = "_f" ∧
    functionNames Example.collidingModule = .ok ["_f", "_f"] ∧
    (Example.collidingModule.exportNameToFunctionIndexMap.map Prod.snd = [1]) := by
  refine ⟨fun n e => ⟨fun h => h.symm, fun h => h.symm⟩, ?_, rfl, rfl, rfl⟩
  intro n e he h
  apply he
  rw [← h]
  simp [getLLVMName, String.data_append]

/-! ## Integer abs -/

theorem xor_allOnes_eq (w y : Nat) (hy : y < 2 ^ w) : y ^^^ (2 ^ w - 1) = 2 ^ w - 1 - y := by
  have h := BitVec.toNat_xor (BitVec.ofNat w y) (BitVec.allOnes w)
  rw [BitVec.xor_allOnes, BitVec.toNat_not, BitVec.toNat_ofNat, BitVec.toNat_allOnes,
    Nat.mod_eq_of_lt hy] at h
  exact h.symm

/-- The arithmetic of `compileIntAbs` on numbers of `w` bits. -/
theorem intAbs_arithmetic (w x : Nat) (hw : 0 < w) (hx : x < 2 ^ w) :
    execBinary .AShr w x (w - 1) =
      .value (.int w (if x < 2 ^ (w - 1) then 0 else 2 ^ w - 1)) ∧
    ((x + (if x < 2 ^ (w - 1) then 0 else 2 ^ w - 1)) % 2 ^ w) ^^^
        (if x < 2 ^ (w - 1) then 0 else 2 ^ w - 1) = intAbsValue w x := by
  obtain ⟨k, rfl⟩ : ∃ k, w = k + 1 := ⟨w - 1, by omega⟩
  have hk : 2 ^ (k + 1) = 2 * 2 ^ k := by rw [pow_succ]; ring
  have hkI : ((2 : Int) ^ (k + 1)) = 2 * ((2 ^ k : Nat) : Int) := by
    push_cast; rw [pow_succ]; ring
  have hkI2 : ((2 : Int) ^ k) = ((2 ^ k : Nat) : Int) := by push_cast; rfl
  have hpos : 0 < 2 ^ k := Nat.two_pow_pos k
  have hxor : ∀ y, y < 2 * 2 ^ k → y ^^^ (2 * 2 ^ k - 1) = 2 * 2 ^ k - 1 - y := by
    intro y hy
    rw [← hk] at hy ⊢
    exact xor_allOnes_eq (k + 1) y hy
  simp only [execBinary, Nat.add_sub_cancel, show ¬ (k + 1 ≤ k) by omega, if_false,
    intAbsValue, toSigned, ofSigned]
  rw [hk] at hx ⊢
  rw [hkI, hkI2]
  generalize 2 ^ k = P at *
  by_cases hlt : x < P
  · simp only [hlt, if_true]
    have hdiv : (x : Int) / (P : Int) = 0 := Int.ediv_eq_zero_of_lt (by omega) (by omega)
    refine ⟨by rw [hdiv]; simp, ?_⟩
    simp only [Nat.add_zero, Nat.xor_zero, Int.natAbs_ofNat]
  · simp only [hlt, if_false]
    have hdiv : ((x : Int) - 2 * (P : Int)) / (P : Int) = -1 := by
      have h1 : (x : Int) - 2 * (P : Int) = ((x : Int) - P) + (P : Int) * (-2 + 1) := by ring
      rw [h1, Int.add_mul_ediv_left _ _ (by omega)]
      rw [Int.ediv_eq_zero_of_lt (by omega) (by omega)]
      rfl
    have hm : ((-1 : Int) % (2 * (P : Int))).toNat = 2 * P - 1 := by
      have h2 : (-1 : Int) % (2 * (P : Int)) = 2 * (P : Int) - 1 := by
        rw [← Int.add_mul_emod_self_left (-1) (2 * (P : Int)) 1, Int.mul_one]
        exact Int.emod_eq_of_lt (by omega) (by omega)
      rw [h2]
      omega
    refine ⟨by rw [hdiv, hm], ?_⟩
    have hsum : (x + (2 * P - 1)) % (2 * P) = x - 1 := by
      have : x + (2 * P - 1) = (x - 1) + 2 * P := by omega
      rw [this, Nat.add_mod_right, Nat.mod_eq_of_lt (by omega)]
    have habs : ((x : Int) - 2 * (P : Int)).natAbs = 2 * P - x := by omega
    rw [hsum, habs, Nat.mod_eq_of_lt (by omega), hxor (x - 1) (by omega)]
    omega
theorem intAbsValue_cases (w x : Nat) (hw : 0 < w) (hx : x < 2 ^ w) :
    (x < 2 ^ (w - 1) → toSigned w x = x ∧ intAbsValue w x = x) ∧
    (2 ^ (w - 1) ≤ x → toSigned w x = (x : Int) - 2 ^ w ∧ toSigned w x < 0 ∧
      intAbsValue w x = 2 ^ w - x) := by
  obtain ⟨k, rfl⟩ : ∃ k, w = k + 1 := ⟨w - 1, by omega⟩
  have hk : 2 ^ (k + 1) = 2 * 2 ^ k := by rw [pow_succ]; ring
  have hkI : ((2 : Int) ^ (k + 1)) = 2 * ((2 ^ k : Nat) : Int) := by
    push_cast; rw [pow_succ]; ring
  simp only [intAbsValue, toSigned, Nat.add_sub_cancel]
  rw [hk] at hx ⊢
  rw [hkI]
  generalize 2 ^ k = P at *
  constructor
  · intro hlt
    simp only [hlt, if_true, Int.natAbs_ofNat, true_and]
    exact Nat.mod_eq_of_lt hx
  · intro hge
    have hlt : ¬ x < P := by omega
    simp only [hlt, if_false, true_and]
    have habs : ((x : Int) - 2 * (P : Int)).natAbs = 2 * P - x := by omega
    rw [habs]
    exact ⟨by omega, Nat.mod_eq_of_lt (by omega)⟩

/-- What the code of `compileIntAbs` computes. -/
theorem exec_intAbsCode (jitModule : JITModule) (type : TypeId) (operand : Value)
    (b n : Nat) (env : Env) (x : Nat) (hw : 0 < type.bits) (hx : x < 2 ^ type.bits)
    (hop : evalOperand env operand = some (.int type.bits x))
    (hfresh : operand ≠ .inst b n) :
    execInsts jitModule b n (intAbsCode type operand b n) env (.inst b (n + 2)) =
      some (.int type.bits (intAbsValue type.bits x)) := by
  obtain ⟨h1, h2⟩ := intAbs_arithmetic type.bits x hw hx
  have hop2 : evalOperand
      (fun v => if v = .inst b n then
        some (.int type.bits (if x < 2 ^ (type.bits - 1) then 0 else 2 ^ type.bits - 1))
        else env v) operand = some (.int type.bits x) := by
    cases operand <;> simp_all [evalOperand]
  simp only [intAbsCode, execInsts, execInst, hop, evalOperand_literal, if_true, h1,
    Outcome.result, hop2]
  simp [evalOperand, execBinary, h2]
/-- C27.  For every width `w` of at least one bit and every number `x` of `w` bits: the
arithmetic shift of `x` to the right by `w - 1` gives the mask `m`, which is 0 when `x`
read as a signed number is not negative and has all bits set when it is negative, and
`((x + m) mod 2 ^ w) XOR m` is the absolute value of the signed reading of `x` modulo
`2 ^ w`: `x` itself when it is not negative, `2 ^ w - x`, which is `-x` modulo `2 ^ w`,
when it is negative, and so the minimum integer for the minimum integer.  The emission of
an integer abs emits the operand and creates the three instructions of `compileIntAbs`,
which compute this value for an operand of the value `x`. -/
theorem compileIntAbs_computes_abs :
    (∀ w x : Nat, 0 < w → x < 2 ^ w →
      execBinary .AShr w x (w - 1) =
        .value (.int w (if x < 2 ^ (w - 1) then 0 else 2 ^ w - 1)) ∧
      ((x + (if x < 2 ^ (w - 1) then 0 else 2 ^ w - 1)) % 2 ^ w) ^^^
          (if x < 2 ^ (w - 1) then 0 else 2 ^ w - 1) = intAbsValue w x ∧
      (x < 2 ^ (w - 1) → toSigned w x = x ∧ intAbsValue w x = x) ∧
      (2 ^ (w - 1) ≤ x → toSigned w x = (x : Int) - 2 ^ w ∧ toSigned w x < 0 ∧
        intAbsValue w x = 2 ^ w - x) ∧
      intAbsValue w (2 ^ (w - 1)) = 2 ^ (w - 1)) ∧
    (∀ (cx : JITFunctionContext) (type : TypeId) (operand : Expression) (s : EmitState)
      (v : Value) (s' : EmitState),
      dispatch cx (.unary .intAbs operand) type s = .ok (v, s') →
      ∃ o s1, dispatch cx operand type s = .ok (o, s1) ∧
        s' = appendCode (intAbsCode type o s1.insertBlock (s1.blocks s1.insertBlock).length)
          s1 ∧
        v = .inst s1.insertBlock ((s1.blocks s1.insertBlock).length + 2) ∧
        ∀ (env : Env) (x : Nat), 0 < type.bits → x < 2 ^ type.bits →
          evalOperand env o = some (.int type.bits x) →
          o ≠ .inst s1.insertBlock (s1.blocks s1.insertBlock).length →
          execInsts cx.jitModule s1.insertBlock (s1.blocks s1.insertBlock).length
            (intAbsCode type o s1.insertBlock (s1.blocks s1.insertBlock).length) env v =
            some (.int type.bits (intAbsValue type.bits x))) ∧
    ∃ s', dispatch Example.context (.unary .intAbs (.literal .I32 (2 ^ 31))) .I32
        Example.entryState = .ok (.inst 1 2, s') ∧
      execInsts Example.jitModule 1 0 (s'.blocks 1) (fun _ => none) (.inst 1 2) =
        some (.int 32 (2 ^ 31)) := by
  refine ⟨?_, ?_, ⟨_, rfl, by decide⟩⟩
  · intro w x hw hx
    obtain ⟨h1, h2⟩ := intAbs_arithmetic w x hw hx
    obtain ⟨h3, h4⟩ := intAbsValue_cases w x hw hx
    have hmin : 2 ^ (w - 1) < 2 ^ w := Nat.pow_lt_pow_right (by decide) (by omega)
    have h5 := (intAbsValue_cases w (2 ^ (w - 1)) hw hmin).2 (le_refl _)
    refine ⟨h1, h2, h3, h4, ?_⟩
    rw [h5.2.2]
    obtain ⟨k, rfl⟩ : ∃ k, w = k + 1 := ⟨w - 1, by omega⟩
    simp only [Nat.add_sub_cancel, pow_succ]
    omega
  · intro cx type operand s v s' h
    rw [dispatch] at h
    unfold visitUnary at h
    cases hd : dispatch cx operand type s with
    | error e => simp [hd] at h
    | ok r =>
      obtain ⟨o, s1⟩ := r
      simp only [hd, compileUnaryOp, compileIntAbs, insert_eq, Except.ok.injEq,
        Prod.mk.injEq, appendCode_insertBlock, appendCode_blocks_self, List.length_append,
        List.length_singleton, appendCode_append] at h
      obtain ⟨hv, hs⟩ := h
      refine ⟨o, s1, rfl, ?_, ?_, ?_⟩
      · rw [← hs]
        rfl
      · rw [← hv]
      · intro env x hw hx hop hfresh
        rw [← hv]
        exact exec_intAbsCode cx.jitModule type o _ _ env x hw hx hop hfresh

/-! ## The stack of in-scope branch targets -/

theorem scopeStack_of_contexts {cx : JITFunctionContext} {s s' : EmitState}
    {l l' : List BranchContext} (h : List.Forall₂ (ContextStep cx s s') l l') :
    scopeStack l' = scopeStack l := by
  induction h with
  | nil => rfl
  | @cons c c' t t' hc _ ih =>
    simp only [scopeStack, List.map_cons, List.cons.injEq, Prod.mk.injEq] at ih ⊢
    exact ⟨⟨hc.1, hc.2.1⟩, ih⟩

theorem resolveTarget_cons (branchTarget : BranchTarget) (c : BranchContext)
    (outer : List BranchContext) :
    resolveTarget branchTarget (c :: outer) =
      if c.branchTarget ≠ branchTarget then
        (resolveTarget branchTarget outer).map fun p => (p.1 + 1, p.2)
      else some (0, c.basicBlock) := by
  unfold resolveTarget
  rw [findTargetContext]
  by_cases hc : c.branchTarget = branchTarget
  · simp [hc]
  · simp only [ne_eq, hc, not_false_eq_true, if_true]
    cases findTargetContext branchTarget outer with
    | none => rfl
    | some p => rfl

/-- Where a branch goes depends on the stack of in-scope targets only. -/
theorem resolveTarget_of_scopeStack (branchTarget : BranchTarget) :
    ∀ l l' : List BranchContext, scopeStack l' = scopeStack l →
      resolveTarget branchTarget l' = resolveTarget branchTarget l
  | [], [], _ => rfl
  | [], _ :: _, h => by simp [scopeStack] at h
  | _ :: _, [], h => by simp [scopeStack] at h
  | c :: l, c' :: l', h => by
    simp only [scopeStack, List.map_cons, List.cons.injEq, Prod.mk.injEq] at h
    rw [resolveTarget_cons, resolveTarget_cons, h.1.1, h.1.2,
      resolveTarget_of_scopeStack branchTarget l l' h.2]

theorem visitLabel_ok (cx : JITFunctionContext) (type : TypeId) (endTarget : BranchTarget)
    (expression : Dispatcher) (s : EmitState) (value : Value) (s6 : EmitState)
    (hbody : expression type (labelBodyState cx endTarget s) = .ok (value, s6))
    (hstack : scopeStack s6.branchContext =
      (endTarget, s.numBlocks + 1) :: scopeStack s.branchContext) :
    ∃ r, visitLabel cx type endTarget expression s = .ok r := by
  unfold visitLabel
  simp only [createBasicBlock]
  generalize hd : expression type _ = r
  have hr : r = .ok (value, s6) := hd.symm.trans hbody
  subst hr
  cases hc : s6.branchContext with
  | nil => simp [hc, scopeStack] at hstack
  | cons D outer =>
    rw [hc] at hstack
    simp only [scopeStack, List.map_cons, List.cons.injEq] at hstack
    have hl : outer.length = s.branchContext.length := by
      have := congrArg List.length hstack.2
      simpa using this
    simp only [setInsertPoint_branchContext, compileBranch_branchContext, hl, ne_eq,
      not_true_eq_false, if_false]
    by_cases hty : type = .Void
    · simp [hty, hc, hl]
    · simp [hty, hc, hl]

theorem visitLoop_ok (cx : JITFunctionContext) (type : TypeId) (expression : Dispatcher)
    (breakTarget continueTarget : BranchTarget) (s : EmitState) (value : Value)
    (s5 : EmitState)
    (hbody : expression .Void (loopBodyState cx breakTarget continueTarget s) =
      .ok (value, s5))
    (hstack : scopeStack s5.branchContext =
      (breakTarget, s.numBlocks + 1) :: (continueTarget, s.numBlocks) ::
        scopeStack s.branchContext) :
    ∃ r, visitLoop cx type expression breakTarget continueTarget s = .ok r := by
  unfold visitLoop
  simp only [createBasicBlock]
  generalize hd : expression .Void _ = r
  have hr : r = .ok (value, s5) := hd.symm.trans hbody
  subst hr
  cases hc : s5.branchContext with
  | nil => simp [hc, scopeStack] at hstack
  | cons Db rest =>
    cases rest with
    | nil => simp [hc, scopeStack] at hstack
    | cons Dc outer =>
      rw [hc] at hstack
      simp only [scopeStack, List.map_cons, List.cons.injEq] at hstack
      have hl : outer.length = s.branchContext.length := by
        have := congrArg List.length hstack.2.2
        simpa using this
      simp only [compileBranch_branchContext, hc, hl, ne_eq, not_true_eq_false, if_false]
      by_cases hty : type = .Void
      · simp [hty, hc, hl]
      · simp [hty, hc, hl]

theorem visitSwitch_ok (type : TypeId) (key : EmitState → EmitResult Value)
    (keyType : TypeId) (numArms : Nat) (armKeys : List Nat) (defaultArmIndex : Nat)
    (endTarget : BranchTarget) (arms : Nat → Nat → EmitState → EmitResult Unit)
    (s : EmitState) (value : Value) (s1 : EmitState) (u : Unit) (s6 : EmitState)
    (hkey : key s = .ok (value, s1)) (h1 : endTarget.type = type)
    (h3 : defaultArmIndex < numArms)
    (harms : arms s1.numBlocks (s1.numBlocks + numArms)
      (armLoopState value keyType numArms armKeys defaultArmIndex endTarget s1) = .ok (u, s6))
    (hstack : scopeStack s6.branchContext =
      (endTarget, s1.numBlocks + numArms) :: scopeStack s1.branchContext) :
    ∃ r, visitSwitch type key keyType numArms armKeys defaultArmIndex endTarget arms s =
      .ok r := by
  unfold visitSwitch
  have h2 : 0 < numArms := by omega
  simp only [hkey, createBasicBlocks, createBasicBlock, h1, h2, h3, ne_eq, not_true_eq_false,
    if_false, insert_eq]
  generalize hd : arms _ _ _ = r
  have hr : r = .ok (u, s6) := hd.symm.trans harms
  subst hr
  cases hc : s6.branchContext with
  | nil => simp [hc, scopeStack] at hstack
  | cons D outer =>
    rw [hc] at hstack
    simp only [scopeStack, List.map_cons, List.cons.injEq] at hstack
    have hl : outer.length = s1.branchContext.length := by
      have := congrArg List.length hstack.2
      simpa using this
    simp only [hl, ne_eq, not_true_eq_false, if_false]
    by_cases hty : type = .Void
    · simp [hty, hc, hl]
    · simp [hty, hc, hl]

/-- C29.  The stack of in-scope branch targets around the emission of an expression, in a
state with the invariant of the emitter.  When the emission completes, the stack is the one
before the emission, and every branch target resolves as it did before.  In a label, a loop
and a switch the body is emitted with the targets of the construct pushed on the stack; when
the emission of the body completes, the stack is again the one with the pushed targets
innermost, so that the check before the targets are popped passes and the emission of the
construct completes. -/
theorem branch_target_stack_is_scoped (cx : JITFunctionContext) (e : Expression)
    (type : TypeId) (s : EmitState) (hinv : Inv cx s) :
    (∀ v s', dispatch cx e type s = .ok (v, s') →
      scopeStack s'.branchContext = scopeStack s.branchContext ∧
      ∀ t, resolveTarget t s'.branchContext = resolveTarget t s.branchContext) ∧
    (∀ endTarget body, e = .label endTarget body →
      scopeStack (labelBodyState cx endTarget s).branchContext =
        (endTarget, s.numBlocks + 1) :: scopeStack s.branchContext ∧
      ∀ value s6, dispatch cx body type (labelBodyState cx endTarget s) = .ok (value, s6) →
        scopeStack s6.branchContext =
          (endTarget, s.numBlocks + 1) :: scopeStack s.branchContext ∧
        ∃ r, dispatch cx e type s = .ok r) ∧
    (∀ body breakTarget continueTarget, e = .loop body breakTarget continueTarget →
      scopeStack (loopBodyState cx breakTarget continueTarget s).branchContext =
        (breakTarget, s.numBlocks + 1) :: (continueTarget, s.numBlocks) ::
          scopeStack s.branchContext ∧
      ∀ value s5,
        dispatch cx body .Void (loopBodyState cx breakTarget continueTarget s) =
          .ok (value, s5) →
        scopeStack s5.branchContext =
          (breakTarget, s.numBlocks + 1) :: (continueTarget, s.numBlocks) ::
            scopeStack s.branchContext ∧
        ∃ r, dispatch cx e type s = .ok r) ∧
    (∀ key keyType arms defaultArmIndex endTarget,
      e = .switch key keyType arms defaultArmIndex endTarget →
      ∀ value s1, dispatch cx key keyType s = .ok (value, s1) → endTarget.type = type →
        defaultArmIndex < arms.numArms →
        scopeStack (armLoopState value keyType arms.numArms arms.keys defaultArmIndex
            endTarget s1).branchContext =
          (endTarget, s1.numBlocks + arms.numArms) :: scopeStack s.branchContext ∧
        ∀ s6, visitSwitchArms cx type keyType defaultArmIndex arms.numArms s1.numBlocks
            (s1.numBlocks + arms.numArms) arms 0
            (armLoopState value keyType arms.numArms arms.keys defaultArmIndex endTarget s1) =
              .ok ((), s6) →
          scopeStack s6.branchContext =
            (endTarget, s1.numBlocks + arms.numArms) :: scopeStack s.branchContext ∧
          ∃ r, dispatch cx e type s = .ok r) := by
  refine ⟨?_, ?_, ?_, ?_⟩
  · intro v s' h
    have hst := scopeStack_of_contexts (dispatch_frames cx e type s v s' hinv h).2.step.contexts
    exact ⟨hst, fun t => resolveTarget_of_scopeStack t _ _ hst⟩
  · rintro endTarget body rfl
    have h0 : scopeStack (labelBodyState cx endTarget s).branchContext =
        (endTarget, s.numBlocks + 1) :: scopeStack s.branchContext := by
      rw [labelBodyState_branchContext]
      rfl
    refine ⟨h0, fun value s6 hbody => ?_⟩
    have h5 : Inv cx (labelBodyState cx endTarget s) := by
      rw [labelBodyState_eq]
      refine (label_enter hinv).1.push _ ?_
      intro c hc
      simp only [List.mem_singleton] at hc
      subst hc
      show s.numBlocks + 1 < s.numBlocks + 1 + 1
      omega
    have hst := scopeStack_of_contexts
      (dispatch_frames cx body type _ value s6 h5 hbody).2.step.contexts
    rw [h0] at hst
    refine ⟨hst, ?_⟩
    rw [dispatch]
    exact visitLabel_ok cx type endTarget _ s value s6 hbody hst
  · rintro body breakTarget continueTarget rfl
    have h0 : scopeStack (loopBodyState cx breakTarget continueTarget s).branchContext =
        (breakTarget, s.numBlocks + 1) :: (continueTarget, s.numBlocks) ::
          scopeStack s.branchContext := by
      rw [loopBodyState_branchContext]
      rfl
    refine ⟨h0, fun value s5 hbody => ?_⟩
    have h5 : Inv cx (loopBodyState cx breakTarget continueTarget s) := by
      rw [loopBodyState_eq]
      refine (label_enter hinv).1.push _ ?_
      intro c hc
      simp only [List.mem_cons, List.mem_singleton, List.not_mem_nil, or_false] at hc
      rcases hc with hc | hc <;> subst hc
      · show s.numBlocks + 1 < s.numBlocks + 1 + 1
        omega
      · show s.numBlocks < s.numBlocks + 1 + 1
        omega
    have hst := scopeStack_of_contexts
      (dispatch_frames cx body .Void _ value s5 h5 hbody).2.step.contexts
    rw [h0] at hst
    refine ⟨hst, ?_⟩
    rw [dispatch]
    exact visitLoop_ok cx type _ breakTarget continueTarget s value s5 hbody hst
  · rintro key keyType arms defaultArmIndex endTarget rfl value s1 hkey h1 h3
    have hg1 := dispatch_frames cx key keyType s value s1 hinv hkey
    have hs1 := scopeStack_of_contexts hg1.2.step.contexts
    have h0 : scopeStack (armLoopState value keyType arms.numArms arms.keys defaultArmIndex
        endTarget s1).branchContext =
        (endTarget, s1.numBlocks + arms.numArms) :: scopeStack s.branchContext := by
      rw [← hs1]
      rfl
    refine ⟨h0, fun s6 harms => ?_⟩
    have hready := armLoopState_ready cx value keyType arms.numArms arms.keys defaultArmIndex
      endTarget s s1 hg1 (le_of_eq arms.keys_length) h3
    have hdone := visitSwitchArms_frames cx type keyType defaultArmIndex arms.numArms
      s1.numBlocks (s1.numBlocks + arms.numArms) arms 0 _ () s6 hready (le_refl _) harms
    have hst := scopeStack_of_contexts hdone.step.contexts
    rw [h0] at hst
    refine ⟨hst, ?_⟩
    rw [dispatch]
    exact visitSwitch_ok type _ keyType arms.numArms arms.keys defaultArmIndex endTarget _ s
      value s1 () s6 hkey h1 h3 harms (by rw [hst, hs1])

/-- C29 at a label whose body branches to the end target of the label, followed by a branch
to the same target: the emission of the label completes and leaves the empty stack it found,
and the branch after the label does not resolve. -/
theorem branch_target_stack_is_scoped_witness :
    Inv Example.context Example.entryState ∧
    (∃ v s', dispatch Example.context (.label Example.targetU (.branch Example.targetU .nop))
        .Void Example.entryState = .ok (v, s') ∧
      scopeStack s'.branchContext = scopeStack Example.entryState.branchContext ∧
      resolveTarget Example.targetU s'.branchContext = none) ∧
    dispatch Example.context Example.branchAfterLabel .Void Example.entryState =
      .error .thrown :=
  ⟨Example.entryState_inv,
    ⟨_, _, rfl,
      ((branch_target_stack_is_scoped Example.context
        (.label Example.targetU (.branch Example.targetU .nop)) .Void Example.entryState
        Example.entryState_inv).1 _ _ rfl).1, rfl⟩, rfl⟩

/-! ## Typed joins -/

theorem thenArmState_eq (cx : JITFunctionContext) (cond : Value) (s1 : EmitState) :
    thenArmState cx cond s1 = setInsertPoint s1.numBlocks
      (compileCondBranch cx cond s1.numBlocks (s1.numBlocks + 1)
        { s1 with numBlocks := s1.numBlocks + 1 + 1 + 1 }).2 := rfl

/-- What `visitIfElse` does, given the frames of the emission of the condition and of the
arms. -/
theorem visitIfElse_facts (cx : JITFunctionContext) (type : TypeId)
    (condition thenExpression elseExpression : Dispatcher)
    (hc : ∀ ty, Frames cx (condition ty)) (ht : ∀ ty, Frames cx (thenExpression ty))
    (he : ∀ ty, Frames cx (elseExpression ty)) (s : EmitState) (v : Value) (s' : EmitState)
    (hinv : Inv cx s)
    (h : visitIfElse cx type condition thenExpression elseExpression s = .ok (v, s')) :
    ∃ cond s1 trueValue s6 falseValue s8,
      condition .Bool s = .ok (cond, s1) ∧ Inv cx s1 ∧ Rel cx s s1 ∧
      Inv cx (thenArmState cx cond s1) ∧ Rel cx s (thenArmState cx cond s1) ∧
      thenExpression type (thenArmState cx cond s1) = .ok (trueValue, s6) ∧
      Inv cx s6 ∧ Rel cx (thenArmState cx cond s1) s6 ∧
      Inv cx (elseArmState cx s1 s6) ∧ Rel cx s (elseArmState cx s1 s6) ∧
      elseExpression type (elseArmState cx s1 s6) = .ok (falseValue, s8) ∧
      Inv cx s8 ∧ Rel cx (elseArmState cx s1 s6) s8 ∧
      s1.numBlocks + 1 + 1 + 1 ≤ s6.numBlocks ∧ s6.numBlocks ≤ s8.numBlocks ∧
      s8.blocks (s1.numBlocks + 1 + 1) = [] ∧ s1.numBlocks + 1 + 1 ≠ s8.insertBlock ∧
      Inv cx (setInsertPoint (s1.numBlocks + 1 + 1)
        (compileBranch cx (s1.numBlocks + 1 + 1) s8).2) ∧
      Rel cx s (setInsertPoint (s1.numBlocks + 1 + 1)
        (compileBranch cx (s1.numBlocks + 1 + 1) s8).2) ∧
      (v, s') =
        (if type = .Void then
          (.voidDummy, setInsertPoint (s1.numBlocks + 1 + 1)
            (compileBranch cx (s1.numBlocks + 1 + 1) s8).2)
        else insert (.phi type (exitEdge trueValue (exitBlockOf cx s6) ++
            exitEdge falseValue (exitBlockOf cx s8)))
          (setInsertPoint (s1.numBlocks + 1 + 1)
            (compileBranch cx (s1.numBlocks + 1 + 1) s8).2)) := by
  unfold visitIfElse at h
  cases hcd : condition .Bool s with
  | error e => simp [hcd] at h
  | ok r =>
    obtain ⟨cond, s1⟩ := r
    simp only [hcd, createBasicBlock] at h
    have hg1 := good_trans (good_refl hinv) (hc _) hcd
    have hn1 := hg1.2.step.numBlocks_le
    have hi1 := hg1.1.insertBlock_lt
    have hu1 := hg1.1.inv0.unreachable_lt
    have hg4 : Inv cx { s1 with numBlocks := s1.numBlocks + 1 + 1 + 1 } ∧
        Rel cx s { s1 with numBlocks := s1.numBlocks + 1 + 1 + 1 } :=
      good_create (good_create (good_create hg1 1) 1) 1
    have hgT := good_condBranch_enter hg4 cond s1.numBlocks (s1.numBlocks + 1) s1.numBlocks
      hn1 (by show s1.numBlocks < s1.numBlocks + 1 + 1 + 1; omega) (by omega)
      (by show s1.numBlocks + 1 < s1.numBlocks + 1 + 1 + 1; omega) hn1
      (by show s1.numBlocks < s1.numBlocks + 1 + 1 + 1; omega)
      (hg1.1.inv0.fresh_empty _ (le_refl _))
      (by show s1.numBlocks ≠ s1.insertBlock; omega)
    generalize hd : thenExpression type _ = r at h
    have hd2 : thenExpression type (thenArmState cx cond s1) = r := hd
    clear hd
    cases r with
    | error e => simp at h
    | ok r =>
      obtain ⟨trueValue, s6⟩ := r
      have h6 := ht type _ _ _ hgT.1 hd2
      have hg6 : Inv cx s6 ∧ Rel cx s s6 := ⟨h6.1, hgT.2.rel_trans h6.2⟩
      have hnT : s1.numBlocks + 1 + 1 + 1 ≤ s6.numBlocks := by
        have := h6.2.step.numBlocks_le
        simpa using this
      have hres : ∀ X, s1.numBlocks < X → X < s1.numBlocks + 1 + 1 + 1 →
          s6.blocks X = [] ∧ X ≠ s6.insertBlock := by
        intro X hX1 hX2
        have hfr : Frozen cx (thenArmState cx cond s1) X := by
          refine ⟨?_, ?_, ?_⟩
          · rw [thenArmState_eq, setInsertPoint_numBlocks, compileCondBranch_snd]; exact hX2
          · show X ≠ s1.numBlocks
            omega
          · omega
        refine ⟨?_, fun hX => h6.2.not_frozen (hX ▸ hfr)⟩
        rw [h6.2.step.frozen X hfr]
        show (compileCondBranch cx cond s1.numBlocks (s1.numBlocks + 1) _).2.blocks X = []
        rw [compileCondBranch_blocks_of_ne]
        · exact hg1.1.inv0.fresh_empty X (by omega)
        · show X ≠ s1.insertBlock
          omega
      have hgF := good_branch_enter hg6 (s1.numBlocks + 1 + 1) (s1.numBlocks + 1)
        (by omega) (by omega) (by omega) (by omega)
        (hres (s1.numBlocks + 1) (by omega) (by omega)).1
        (hres (s1.numBlocks + 1) (by omega) (by omega)).2
      simp only [] at h
      generalize hd : elseExpression type _ = r at h
      have hd3 : elseExpression type (elseArmState cx s1 s6) = r := hd
      clear hd
      cases r with
      | error e => simp at h
      | ok r =>
        obtain ⟨falseValue, s8⟩ := r
        have h8 := he type _ _ _ hgF.1 hd3
        have hg8 : Inv cx s8 ∧ Rel cx s s8 := ⟨h8.1, hgF.2.rel_trans h8.2⟩
        have hnF : s6.numBlocks ≤ s8.numBlocks := by
          have := h8.2.step.numBlocks_le
          simpa [elseArmState] using this
        have hfr : Frozen cx (elseArmState cx s1 s6) (s1.numBlocks + 1 + 1) := by
          refine ⟨?_, ?_, ?_⟩
          · show s1.numBlocks + 1 + 1 < (compileBranch cx _ s6).2.numBlocks
            rw [compileBranch_numBlocks]
            omega
          · show s1.numBlocks + 1 + 1 ≠ s1.numBlocks + 1
            omega
          · omega
        have hS := hres (s1.numBlocks + 1 + 1) (by omega) (by omega)
        have hempty : s8.blocks (s1.numBlocks + 1 + 1) = [] := by
          rw [h8.2.step.frozen _ hfr]
          show (compileBranch cx _ s6).2.blocks (s1.numBlocks + 1 + 1) = []
          rw [compileBranch_blocks_of_ne _ _ _ _ hS.2]
          exact hS.1
        have hne8 : s1.numBlocks + 1 + 1 ≠ s8.insertBlock :=
          fun hX => h8.2.not_frozen (hX ▸ hfr)
        have hg10 := good_branch_enter hg8 (s1.numBlocks + 1 + 1) (s1.numBlocks + 1 + 1)
          (by omega) (by omega) (by omega) (by omega) hempty hne8
        refine ⟨cond, s1, trueValue, s6, falseValue, s8, rfl, hg1.1, hg1.2, hgT.1, hgT.2, hd2,
          h6.1, h6.2, hgF.1, hgF.2, hd3, h8.1, h8.2, hnT, hnF, hempty, hne8, hg10.1, hg10.2, ?_⟩
        by_cases hty : type = .Void
        · simp only [hty, if_true] at h ⊢
          exact (Except.ok.inj h).symm
        · simp only [hty, if_false] at h ⊢
          rw [← Except.ok.inj h, compileBranch_fst, compileBranch_fst]
          rfl
theorem phiIncoming_blocks (results : List BranchResult) :
    (phiIncoming results).map Prod.snd = incomingBlocks results := by
  simp [phiIncoming, incomingBlocks, List.map_map, Function.comp_def]

theorem exitEdge_blocks (cx : JITFunctionContext) (value : Value) (s : EmitState) :
    (exitEdge value (exitBlockOf cx s)).map Prod.snd =
      if s.insertBlock = cx.unreachableBlock then [] else [s.insertBlock] := by
  unfold exitBlockOf
  by_cases hu : s.insertBlock = cx.unreachableBlock <;> simp [hu, exitEdge]

/-- A phi node that is created in an empty block, whose edges are the edges of the jumps
to the block, is a typed join. -/
theorem typedJoin_insert (cx : JITFunctionContext) (type : TypeId)
    (edges : List (Value × Nat)) (s9 : EmitState)
    (hempty : s9.blocks s9.insertBlock = []) (hnd : (edges.map Prod.snd).Nodup)
    (hunr : cx.unreachableBlock ∉ edges.map Prod.snd)
    (hj : ∀ b, JumpsTo s9 b s9.insertBlock ↔ b ∈ edges.map Prod.snd) :
    TypedJoin cx (insert (.phi type edges) s9).2 type (insert (.phi type edges) s9).1 := by
  refine ⟨edges, ?_, ?_, hnd, hunr, ?_⟩
  · rw [insert_fst, insert_insertBlock, hempty]
    rfl
  · rw [insert_insertBlock, insert_blocks_self, hempty]
    rfl
  · intro b
    rw [insert_insertBlock, JumpsTo_insert_plain _ (by rfl)]
    exact hj b

/-- The join of a label of a type other than `void`. -/
theorem label_join (cx : JITFunctionContext) (type : TypeId) (endTarget : BranchTarget)
    (e : Expression) (s : EmitState) (v : Value) (s' : EmitState) (hty : type ≠ .Void)
    (hinv : Inv cx s) (h : dispatch cx (.label endTarget e) type s = .ok (v, s')) :
    TypedJoin cx s' type v := by
  rw [dispatch] at h
  obtain ⟨value, s6, D, outer, hd, h5, hInv6, hRel6, heq, hD, hInv7, hRel7, hempty, hne, hlt,
    hfinal⟩ := visitLabel_facts cx type endTarget (fun ty st => dispatch cx e ty st)
      (fun t => dispatch_frames cx e t) s v s' hinv h
  simp only [hty, if_false] at hfinal
  have hres := contextStep_results hD
  have hjump : ∀ b, JumpsTo s6 b (s.numBlocks + 1) ↔ b ∈ incomingBlocks D.results := by
    intro b
    rw [scope_edges hinv hRel6 ⟨endTarget, s.numBlocks + 1, []⟩ D outer
      (labelBodyState_branchContext cx endTarget s) heq (s.numBlocks + 1) b (by omega)
      (by simp), hres]
    constructor
    · rintro (h | ⟨-, h⟩)
      · exact absurd h (not_jumpsTo_fresh hinv (labelBodyState_blocks cx endTarget s) b _
          (by omega))
      · exact h
    · exact fun h => Or.inr ⟨rfl, h⟩
  have hnew : ∀ b ∈ incomingBlocks D.results, b ≠ cx.unreachableBlock := by
    intro b hb
    rw [← hres] at hb
    exact (hD.2.2.2.2 b hb).1
  have hnd : (incomingBlocks D.results).Nodup := by
    have := hD.2.2.2.1
    rw [hres] at this
    exact this
  have hv : v = (insert (.phi type (exitEdge value (exitBlockOf cx s6) ++
      phiIncoming D.results)) (setInsertPoint (s.numBlocks + 1)
        (compileBranch cx (s.numBlocks + 1) { s6 with branchContext := outer }).2)).1 := by
    rw [← hfinal]
  have hs : s' = (insert (.phi type (exitEdge value (exitBlockOf cx s6) ++
      phiIncoming D.results)) (setInsertPoint (s.numBlocks + 1)
        (compileBranch cx (s.numBlocks + 1) { s6 with branchContext := outer }).2)).2 := by
    rw [← hfinal]
  have hmap : (exitEdge value (exitBlockOf cx s6) ++ phiIncoming D.results).map Prod.snd =
      (if s6.insertBlock = cx.unreachableBlock then [] else [s6.insertBlock]) ++
        incomingBlocks D.results := by
    rw [List.map_append, exitEdge_blocks, phiIncoming_blocks]
  rw [hv, hs]
  refine typedJoin_insert cx type _ _ ?_ ?_ ?_ ?_
  · rw [setInsertPoint_insertBlock, setInsertPoint_blocks]
    exact (compileBranch_blocks_of_ne cx _ { s6 with branchContext := outer } _ hne).trans hempty
  · rw [hmap]
    by_cases hu : s6.insertBlock = cx.unreachableBlock
    · simpa [hu] using hnd
    · simp only [hu, if_false, List.singleton_append, List.nodup_cons]
      refine ⟨fun hmem => ?_, hnd⟩
      exact hInv6.insert_open hu (Terminated_of_JumpsTo ((hjump _).mpr hmem))
  · rw [hmap]
    by_cases hu : s6.insertBlock = cx.unreachableBlock
    · simp only [hu, if_true, List.nil_append]
      exact fun hmem => hnew _ hmem rfl
    · simp only [hu, if_false, List.singleton_append, List.mem_cons, not_or]
      exact ⟨fun hc => hu hc.symm, fun hmem => hnew _ hmem rfl⟩
  · intro b
    rw [hmap, setInsertPoint_insertBlock, JumpsTo_congr (setInsertPoint_blocks _ _),
      JumpsTo_compileBranch]
    have hj7 : JumpsTo { s6 with branchContext := outer } b (s.numBlocks + 1) ↔
        JumpsTo s6 b (s.numBlocks + 1) := Iff.rfl
    rw [hj7, hjump b]
    by_cases hu : s6.insertBlock = cx.unreachableBlock
    · simp [hu]
    · simp only [hu, if_false, List.singleton_append, List.mem_cons, ne_eq, not_false_eq_true,
        and_true, true_and]
      constructor
      · rintro (h | h)
        · exact Or.inr h
        · exact Or.inl h
      · rintro (h | h)
        · exact Or.inr h
        · exact Or.inl h

/-- The join of a loop of a type other than `void`. -/
theorem loop_join (cx : JITFunctionContext) (type : TypeId) (e : Expression)
    (breakTarget continueTarget : BranchTarget) (s : EmitState) (v : Value) (s' : EmitState)
    (hty : type ≠ .Void) (hinv : Inv cx s)
    (h : dispatch cx (.loop e breakTarget continueTarget) type s = .ok (v, s')) :
    TypedJoin cx s' type v := by
  rw [dispatch] at h
  obtain ⟨bodyValue, s5, Db, Dc, outer, hd, h5, hInv5, hRel5, heq, hDb, hDc, hInv7, hRel7,
    hempty, hne, hlt, hfinal⟩ := visitLoop_facts cx type (fun ty st => dispatch cx e ty st)
      breakTarget continueTarget (fun t => dispatch_frames cx e t) s v s' hinv h
  simp only [hty, if_false] at hfinal
  have hres := contextStep_results hDb
  have hv : v = (insert (.phi type (phiIncoming Db.results)) (setInsertPoint (s.numBlocks + 1)
        (compileBranch cx s.numBlocks { s5 with branchContext := outer }).2)).1 := by
    rw [← hfinal]
  have hs : s' = (insert (.phi type (phiIncoming Db.results)) (setInsertPoint (s.numBlocks + 1)
        (compileBranch cx s.numBlocks { s5 with branchContext := outer }).2)).2 := by
    rw [← hfinal]
  rw [hv, hs]
  refine typedJoin_insert cx type _ _ ?_ ?_ ?_ ?_
  · rw [setInsertPoint_insertBlock, setInsertPoint_blocks]
    exact (compileBranch_blocks_of_ne cx _ { s5 with branchContext := outer } _ hne).trans hempty
  · rw [phiIncoming_blocks]
    have := hDb.2.2.2.1
    rw [hres] at this
    exact this
  · rw [phiIncoming_blocks]
    intro hmem
    rw [← hres] at hmem
    exact (hDb.2.2.2.2 _ hmem).1 rfl
  · intro b
    rw [phiIncoming_blocks, setInsertPoint_insertBlock,
      JumpsTo_congr (setInsertPoint_blocks _ _), JumpsTo_compileBranch]
    have hj7 : JumpsTo { s5 with branchContext := outer } b (s.numBlocks + 1) ↔
        JumpsTo s5 b (s.numBlocks + 1) := Iff.rfl
    rw [hj7, (loop_edges hinv hRel5 Db Dc outer heq hDb hDc b).1]
    constructor
    · rintro (h | ⟨-, -, h⟩)
      · exact h
      · omega
    · exact Or.inl
theorem JumpsTo_compileCondBranch {cx : JITFunctionContext} {condition : Value}
    {trueDest falseDest : Nat} {s : EmitState} {b J : Nat}
    (h : JumpsTo (compileCondBranch cx condition trueDest falseDest s).2 b J) :
    JumpsTo s b J ∨ J = trueDest ∨ J = falseDest := by
  rw [compileCondBranch_snd] at h
  rcases JumpsTo_appendCode h with h | ⟨-, i, hi, hJ⟩
  · exact Or.inl h
  · right
    by_cases hu : s.insertBlock = cx.unreachableBlock
    · simp [hu] at hi
    · simp only [hu, if_false, List.mem_singleton] at hi
      subst hi
      simpa [Inst.successors] using hJ

/-- No edge is added to a context for a block that is not the block of an in-scope
context. -/
theorem not_newEdge {s s' : EmitState} {J b n : Nat}
    (hctx : ∀ c ∈ s.branchContext, c.basicBlock < n) (hJ : n ≤ J) : ¬ NewEdge s s' J b := by
  rintro ⟨p, hp, hpJ, -⟩
  have := hctx p.1 (List.of_mem_zip hp).1
  omega

theorem thenArmState_branchContext (cx : JITFunctionContext) (cond : Value) (s1 : EmitState) :
    (thenArmState cx cond s1).branchContext = s1.branchContext := by
  rw [thenArmState_eq, setInsertPoint_branchContext, compileCondBranch_snd]
  rfl

theorem elseArmState_branchContext (cx : JITFunctionContext) (s1 s6 : EmitState) :
    (elseArmState cx s1 s6).branchContext = s6.branchContext := by
  unfold elseArmState
  rw [setInsertPoint_branchContext, compileBranch_branchContext]

/-- The join of an if-else of a type other than `void`. -/
theorem ifElse_join (cx : JITFunctionContext) (type : TypeId) (c t e : Expression)
    (s : EmitState) (v : Value) (s' : EmitState) (hty : type ≠ .Void) (hinv : Inv cx s)
    (h : dispatch cx (.ifElse c t e) type s = .ok (v, s')) : TypedJoin cx s' type v := by
  rw [dispatch] at h
  obtain ⟨cond, s1, trueValue, s6, falseValue, s8, -, hInv1, -, hInvT, -, -, hInv6, hRel6,
    hInvF, -, -, hInv8, hRel8, hn6, hn8, hempty, hne8, -, -, hfinal⟩ :=
    visitIfElse_facts cx type _ _ _ (fun ty => dispatch_frames cx c ty)
      (fun ty => dispatch_frames cx t ty) (fun ty => dispatch_frames cx e ty) s v s' hinv h
  simp only [hty, if_false] at hfinal
  have hctx1 : ∀ c ∈ (thenArmState cx cond s1).branchContext, c.basicBlock < s1.numBlocks := by
    rw [thenArmState_branchContext]
    exact hInv1.inv0.contexts_lt
  have hctx6 : ∀ c ∈ (elseArmState cx s1 s6).branchContext, c.basicBlock < s1.numBlocks := by
    rw [elseArmState_branchContext]
    exact contexts_basicBlock_lt hRel6.step.contexts _ hctx1
  have hjT : ∀ b, ¬ JumpsTo (thenArmState cx cond s1) b (s1.numBlocks + 1 + 1) := by
    intro b hj
    rw [thenArmState_eq, JumpsTo_congr (setInsertPoint_blocks _ _)] at hj
    rcases JumpsTo_compileCondBranch hj with hj | hj | hj
    · have := hInv1.inv0.targets_lt b _ hj
      omega
    · omega
    · omega
  have hj6 : ∀ b, ¬ JumpsTo s6 b (s1.numBlocks + 1 + 1) := by
    intro b hj
    rcases (hRel6.step.jumpsTo_iff _ b (by
      rw [thenArmState_eq, setInsertPoint_numBlocks, compileCondBranch_numBlocks]
      show s1.numBlocks + 1 + 1 < s1.numBlocks + 1 + 1 + 1
      omega)).mp hj with hj | hj
    · exact hjT b hj
    · exact not_newEdge hctx1 (by omega) hj
  have hjF : ∀ b, JumpsTo (elseArmState cx s1 s6) b (s1.numBlocks + 1 + 1) ↔
      (b = s6.insertBlock ∧ s6.insertBlock ≠ cx.unreachableBlock) := by
    intro b
    unfold elseArmState
    rw [JumpsTo_congr (setInsertPoint_blocks _ _), JumpsTo_compileBranch]
    constructor
    · rintro (hj | ⟨h1, h2, -⟩)
      · exact absurd hj (hj6 b)
      · exact ⟨h1, h2⟩
    · rintro ⟨h1, h2⟩
      exact Or.inr ⟨h1, h2, rfl⟩
  have hj8 : ∀ b, JumpsTo s8 b (s1.numBlocks + 1 + 1) ↔
      (b = s6.insertBlock ∧ s6.insertBlock ≠ cx.unreachableBlock) := by
    intro b
    rw [hRel8.step.jumpsTo_iff _ b (by
      unfold elseArmState
      rw [setInsertPoint_numBlocks, compileBranch_numBlocks]
      omega), hjF]
    constructor
    · rintro (hj | hj)
      · exact hj
      · exact absurd hj (not_newEdge hctx6 (by omega))
    · exact Or.inl
  have hv : v = (insert (.phi type (exitEdge trueValue (exitBlockOf cx s6) ++
      exitEdge falseValue (exitBlockOf cx s8))) (setInsertPoint (s1.numBlocks + 1 + 1)
        (compileBranch cx (s1.numBlocks + 1 + 1) s8).2)).1 := by
    rw [← hfinal]
  have hs : s' = (insert (.phi type (exitEdge trueValue (exitBlockOf cx s6) ++
      exitEdge falseValue (exitBlockOf cx s8))) (setInsertPoint (s1.numBlocks + 1 + 1)
        (compileBranch cx (s1.numBlocks + 1 + 1) s8).2)).2 := by
    rw [← hfinal]
  have hmap : (exitEdge trueValue (exitBlockOf cx s6) ++
      exitEdge falseValue (exitBlockOf cx s8)).map Prod.snd =
      (if s6.insertBlock = cx.unreachableBlock then [] else [s6.insertBlock]) ++
        (if s8.insertBlock = cx.unreachableBlock then [] else [s8.insertBlock]) := by
    rw [List.map_append, exitEdge_blocks, exitEdge_blocks]
  rw [hv, hs]
  refine typedJoin_insert cx type _ _ ?_ ?_ ?_ ?_
  · rw [setInsertPoint_insertBlock, setInsertPoint_blocks]
    exact (compileBranch_blocks_of_ne cx _ s8 _ hne8).trans hempty
  · rw [hmap]
    by_cases hu6 : s6.insertBlock = cx.unreachableBlock
    · by_cases hu8 : s8.insertBlock = cx.unreachableBlock <;> simp [hu6, hu8]
    · by_cases hu8 : s8.insertBlock = cx.unreachableBlock
      · simp [hu6, hu8]
      · simp only [hu6, hu8, if_false, List.singleton_append, List.nodup_cons,
          List.mem_singleton, List.not_mem_nil, not_false_eq_true, List.nodup_nil, and_true]
        intro heq
        refine hInv8.insert_open hu8 (Terminated_of_JumpsTo ((hj8 s8.insertBlock).mpr ?_))
        exact ⟨heq.symm, hu6⟩
  · rw [hmap]
    by_cases hu6 : s6.insertBlock = cx.unreachableBlock
    · by_cases hu8 : s8.insertBlock = cx.unreachableBlock
      · simp [hu6, hu8]
      · simp only [hu6, hu8, if_true, if_false, List.nil_append, List.mem_singleton]
        exact fun hc => hu8 hc.symm
    · by_cases hu8 : s8.insertBlock = cx.unreachableBlock
      · simp only [hu6, hu8, if_true, if_false, List.append_nil, List.mem_singleton]
        exact fun hc => hu6 hc.symm
      · simp only [hu6, hu8, if_false, List.singleton_append, List.mem_cons,
          List.mem_singleton, List.not_mem_nil, or_false, not_or]
        exact ⟨fun hc => hu6 hc.symm, fun hc => hu8 hc.symm⟩
  · intro b
    rw [hmap, setInsertPoint_insertBlock, JumpsTo_congr (setInsertPoint_blocks _ _),
      JumpsTo_compileBranch, hj8]
    by_cases hu6 : s6.insertBlock = cx.unreachableBlock
    · by_cases hu8 : s8.insertBlock = cx.unreachableBlock <;> simp [hu6, hu8]
    · by_cases hu8 : s8.insertBlock = cx.unreachableBlock <;> simp [hu6, hu8]
theorem incomingBlocks_append (l1 l2 : List BranchResult) :
    incomingBlocks (l1 ++ l2) = incomingBlocks l1 ++ incomingBlocks l2 := by
  simp [incomingBlocks]

/-- The arm loop of a switch of a type other than `void` records every jump to the
successor block in the `results` of the context of the switch. -/
theorem visitSwitchArms_join (cx : JITFunctionContext) (type keyType : TypeId)
    (defaultArmIndex numArms A : Nat) (hty : type ≠ .Void) :
    ∀ (arms : SwitchArms) (index : Nat) (s : EmitState) (u : Unit) (s' : EmitState),
      ArmsReady cx A (A + numArms) index s → index + arms.numArms = numArms →
      JoinTracked A (A + numArms) s →
      visitSwitchArms cx type keyType defaultArmIndex numArms A (A + numArms) arms index s =
        .ok (u, s') →
      JoinTracked A (A + numArms) s'
  | .nil, _, s, u, s', _, _, htracked, h => by
    rw [visitSwitchArms] at h
    rw [snd_eq h]
    exact htracked
  | .cons key value rest, index, s, u, s', hready, hb, htracked, h => by
    rw [visitSwitchArms] at h
    have hb' : index + 1 + rest.numArms = numArms := by
      simp only [SwitchArms.numArms] at hb
      omega
    by_cases hthrow : index ≠ defaultArmIndex ∧ isIntType keyType = false
    · simp [hthrow] at h
    · simp only [hthrow, if_false, decide_eq_true_eq] at h
      cases hd : dispatch cx value (if index + 1 = numArms then type else .Void)
          (setInsertPoint (A + index) s) with
      | error err => simp [hd] at h
      | ok r =>
        obtain ⟨armValue, s1⟩ := r
        simp only [hd] at h
        have hSlt := hready.successor_lt
        have hA : Inv cx (setInsertPoint (A + index) s) :=
          Inv.at_empty hready.inv0 (A + index) (by omega)
            (hready.reserved _ (le_refl _) (by omega))
        have h1 := dispatch_frames cx value _ _ armValue s1 hA hd
        obtain ⟨hready1, -⟩ := switchArm_step cx type (decide (index + 1 = numArms)) A
          (A + numArms) index _ (dispatch_frames cx value _) s s1 armValue hready (by omega) hd
        obtain ⟨D, outer, hD, hDS, houter, hj⟩ := htracked
        have hctx := h1.2.step.contexts
        rw [setInsertPoint_branchContext, hD] at hctx
        cases hc1 : s1.branchContext with
        | nil => rw [hc1] at hctx; cases hctx
        | cons D1 outer1 =>
          rw [hc1] at hctx
          cases hctx with
          | cons hab htail =>
            have houter1 := contexts_basicBlock_lt htail A houter
            have hj1 : ∀ b, JumpsTo s1 b (A + numArms) → b ∈ incomingBlocks D1.results := by
              intro b hjb
              rw [hab.2.2.1, incomingBlocks_append]
              rcases (h1.2.step.jumpsTo_iff _ b (by
                rw [setInsertPoint_numBlocks]; exact hSlt)).mp hjb with hjs | hnew
              · exact List.mem_append_right _ (hj b hjs)
              · rcases (newEdge_cons_iff (setInsertPoint (A + index) s) s1 D D1 outer outer1
                  (by rw [setInsertPoint_branchContext, hD]) hc1 _ b).mp hnew with
                  ⟨-, hmem⟩ | ⟨p, hp, hpJ, -⟩
                · exact List.mem_append_left _ hmem
                · have := houter p.1 (List.of_mem_zip hp).1
                  omega
            have htracked1 : JoinTracked A (A + numArms)
                (finishSwitchArm cx type (decide (index + 1 = numArms)) (A + index + 1)
                  (A + numArms) armValue s1) := by
              rw [finishSwitchArm_eq]
              unfold armEndState
              by_cases hu : s1.insertBlock = cx.unreachableBlock
              · simp only [hu, if_true]
                exact ⟨D1, outer1, hc1, hab.2.1.trans hDS, houter1, hj1⟩
              · simp only [hu, if_false]
                by_cases hfin : index + 1 = numArms
                · simp only [hfin, decide_True, if_true, ne_eq, hty, not_false_eq_true,
                    and_self]
                  refine ⟨{ D1 with results := ⟨s1.insertBlock, armValue⟩ :: D1.results }, outer1,
                    by rw [hc1]; rfl, hab.2.1.trans hDS, houter1, ?_⟩
                  intro b hjb
                  have hjb' : JumpsTo (appendCode [.br (A + numArms)] s1) b (A + numArms) := hjb
                  simp only [incomingBlocks, List.map_cons, List.mem_cons]
                  rcases JumpsTo_appendCode hjb' with hjs | ⟨hbi, -⟩
                  · exact Or.inr (hj1 b hjs)
                  · exact Or.inl hbi
                · simp only [hfin, decide_False, Bool.false_eq_true, false_and, if_false]
                  refine ⟨D1, outer1, hc1, hab.2.1.trans hDS, houter1, ?_⟩
                  intro b hjb
                  have hjb' : JumpsTo (appendCode [.br (A + index + 1)] s1) b (A + numArms) :=
                    hjb
                  rcases JumpsTo_appendCode hjb' with hjs | ⟨-, i, hi, hJ⟩
                  · exact hj1 b hjs
                  · simp only [List.mem_singleton] at hi
                    subst hi
                    simp only [Inst.successors, List.mem_singleton] at hJ
                    omega
            exact visitSwitchArms_join cx type keyType defaultArmIndex numArms A hty rest
              (index + 1) _ u s' hready1 hb' htracked1 h

/-- The join of a switch of a type other than `void`. -/
theorem switch_join (cx : JITFunctionContext) (type : TypeId) (key : Expression)
    (keyType : TypeId) (arms : SwitchArms) (defaultArmIndex : Nat) (endTarget : BranchTarget)
    (s : EmitState) (v : Value) (s' : EmitState) (hty : type ≠ .Void) (hinv : Inv cx s)
    (h : dispatch cx (.switch key keyType arms defaultArmIndex endTarget) type s =
      .ok (v, s')) : TypedJoin cx s' type v := by
  obtain ⟨value, s1, s6, D, outer, hk, -, h3, harms, hc, -, hnonvoid⟩ :=
    dispatch_switch_facts cx type key keyType arms defaultArmIndex endTarget s v s' h
  obtain ⟨hv, hs⟩ := hnonvoid hty
  have hg1 := dispatch_frames cx key keyType s value s1 hinv hk
  have hready := armLoopState_ready cx value keyType arms.numArms arms.keys defaultArmIndex
    endTarget s s1 hg1 (le_of_eq arms.keys_length) h3
  have hctx0 : (armLoopState value keyType arms.numArms arms.keys defaultArmIndex endTarget
      s1).branchContext = ⟨endTarget, s1.numBlocks + arms.numArms, []⟩ :: s1.branchContext :=
    rfl
  have htracked0 : JoinTracked s1.numBlocks (s1.numBlocks + arms.numArms)
      (armLoopState value keyType arms.numArms arms.keys defaultArmIndex endTarget s1) := by
    refine ⟨_, _, hctx0, rfl, hg1.1.inv0.contexts_lt, ?_⟩
    intro b hjb
    exfalso
    unfold armLoopState at hjb
    rcases JumpsTo_appendCode hjb with hjs | ⟨-, i, hi, hJ⟩
    · have hjs' : JumpsTo s1 b (s1.numBlocks + arms.numArms) := hjs
      have := hg1.1.inv0.targets_lt b _ hjs'
      omega
    · simp only [List.mem_singleton] at hi
      subst hi
      simp only [Inst.successors, List.mem_cons, List.mem_map] at hJ
      rcases hJ with hJ | ⟨p, hp, hJ⟩
      · omega
      · have := switchCases_targets keyType defaultArmIndex s1.numBlocks arms.keys 0 p hp
        have hl := arms.keys_length
        omega
  have hdone := visitSwitchArms_frames cx type keyType defaultArmIndex arms.numArms
    s1.numBlocks (s1.numBlocks + arms.numArms) arms 0 _ () s6 hready (le_refl _) harms
  obtain ⟨D', outer', hc', -, -, hj6⟩ := visitSwitchArms_join cx type keyType defaultArmIndex
    arms.numArms s1.numBlocks hty arms 0 _ () s6 hready (by omega) htracked0 harms
  rw [hc] at hc'
  obtain ⟨hDD, -⟩ := List.cons.inj hc'
  subst hDD
  have hstep := hdone.step.contexts
  rw [hctx0, hc] at hstep
  cases hstep with
  | cons hD _ =>
    have hres := contextStep_results hD
    have hvs : (v, s') = insert (.phi type (phiIncoming D.results))
        (setInsertPoint (s1.numBlocks + arms.numArms) { s6 with branchContext := outer }) := by
      rw [hv, hs]
      rfl
    have hv' : v = (insert (.phi type (phiIncoming D.results))
        (setInsertPoint (s1.numBlocks + arms.numArms)
          { s6 with branchContext := outer })).1 := by rw [← hvs]
    have hs' : s' = (insert (.phi type (phiIncoming D.results))
        (setInsertPoint (s1.numBlocks + arms.numArms)
          { s6 with branchContext := outer })).2 := by rw [← hvs]
    rw [hv', hs']
    refine typedJoin_insert cx type _ _ ?_ ?_ ?_ ?_
    · exact hdone.successor_empty
    · rw [phiIncoming_blocks]
      have := hD.2.2.2.1
      rw [hres] at this
      exact this
    · rw [phiIncoming_blocks]
      intro hmem
      rw [← hres] at hmem
      exact (hD.2.2.2.2 _ hmem).1 rfl
    · intro b
      rw [phiIncoming_blocks]
      constructor
      · exact hj6 b
      · intro hmem
        rw [← hres] at hmem
        exact (hD.2.2.2.2 _ hmem).2.2

/-- C26.  The value of a label, a loop, a switch or an if-else of a type other than `void`,
emitted in a state with the invariant of the emitter, is a typed join: the emission ends
at the join block, which holds the phi node only; the incoming edges of the phi node come
from different blocks, which are the blocks that hold a jump to the join block, and none of
them is the unreachable block, so that an arm or a branch whose end is not reachable has no
edge. -/
theorem typed_join_edges (cx : JITFunctionContext) (e : Expression) (type : TypeId)
    (s : EmitState) (v : Value) (s' : EmitState) (hjoin : e.isJoin = true)
    (hty : type ≠ .Void) (hinv : Inv cx s) (h : dispatch cx e type s = .ok (v, s')) :
    TypedJoin cx s' type v := by
  cases e with
  | label endTarget body => exact label_join cx type endTarget body s v s' hty hinv h
  | loop body breakTarget continueTarget =>
    exact loop_join cx type body breakTarget continueTarget s v s' hty hinv h
  | switch key keyType arms defaultArmIndex endTarget =>
    exact switch_join cx type key keyType arms defaultArmIndex endTarget s v s' hty hinv h
  | ifElse c t e => exact ifElse_join cx type c t e s v s' hty hinv h
  | _ => simp [Expression.isJoin] at hjoin

/-- C26 at an if-else of type `i32` whose then-arm returns from the function: the phi node
of the join, block 4, has the edge of the else-arm only, from block 3, and block 3 is the
only block that jumps to block 4. -/
theorem typed_join_edges_witness :
    Example.ifElseWithReturn.isJoin = true ∧ TypeId.I32 ≠ .Void ∧
    Inv Example.context Example.entryState ∧
    ∃ v s', dispatch Example.context Example.ifElseWithReturn .I32 Example.entryState =
        .ok (v, s') ∧
      s'.insertBlock = 4 ∧ s'.blocks 4 = [.phi .I32 [(.literal .I32 2, 3)]] ∧
      s'.blocks 2 = [.ret (some (.literal .I32 1))] ∧ s'.blocks 3 = [.br 4] ∧
      TypedJoin Example.context s' .I32 v :=
  ⟨rfl, by decide, Example.entryState_inv, _, _, rfl, rfl, by decide, by decide, by decide,
    typed_join_edges Example.context Example.ifElseWithReturn .I32 Example.entryState _ _ rfl
      (by decide) Example.entryState_inv rfl⟩

/-! ## Well-formed basic blocks -/

theorem endsInTerminator_concat (body : List Inst) (t : Inst) :
    EndsInTerminator (body ++ [t]) ↔
      t.isTerminator = true ∧ ∀ i ∈ body, i.isTerminator = false := by
  unfold EndsInTerminator
  simp [List.getLast?_append, List.dropLast_concat]

theorem wellFormed_of_same {cx : JITFunctionContext} {s s' : EmitState}
    (hb : s'.blocks = s.blocks) (h : WellFormedBlocks cx s) : WellFormedBlocks cx s' := by
  intro b hne ht
  rw [hb]
  exact h b hne (by
    obtain ⟨i, hi, hit⟩ := ht
    exact ⟨i, by rw [← hb]; exact hi, hit⟩)

/-- Instructions that are created at an insertion point without a terminator keep the
blocks well-formed, when they hold no terminator or are one instruction. -/
theorem wellFormed_appendCode {cx : JITFunctionContext} {s : EmitState}
    (hopen : s.insertBlock ≠ cx.unreachableBlock → ¬ Terminated s s.insertBlock)
    (h : WellFormedBlocks cx s) (code : List Inst)
    (hcode : (∀ i ∈ code, i.isTerminator = false) ∨ ∃ t, code = [t]) :
    WellFormedBlocks cx (appendCode code s) := by
  intro b hne ht
  by_cases hb : b = s.insertBlock
  · subst hb
    have hold : ∀ i ∈ s.blocks s.insertBlock, i.isTerminator = false := by
      intro i hi
      cases hit : i.isTerminator with
      | false => rfl
      | true => exact absurd ⟨i, hi, hit⟩ (hopen hne)
    rcases Terminated_appendCode ht with ht' | ⟨-, i, hi, hit⟩
    · exact absurd ht' (hopen hne)
    · rcases hcode with hplain | ⟨t, hcode⟩
      · rw [hplain i hi] at hit
        simp at hit
      · subst hcode
        simp only [List.mem_singleton] at hi
        subst hi
        rw [appendCode_blocks_self, endsInTerminator_concat]
        exact ⟨hit, hold⟩
  · rw [appendCode_blocks_of_ne _ _ _ hb]
    refine h b hne ?_
    rcases Terminated_appendCode ht with ht' | ⟨hbi, -⟩
    · exact ht'
    · exact absurd hbi hb

theorem wellFormed_branchCode {cx : JITFunctionContext} {s : EmitState}
    (hopen : s.insertBlock ≠ cx.unreachableBlock → ¬ Terminated s s.insertBlock)
    (h : WellFormedBlocks cx s) (c : Prop) [Decidable c] (t : Inst) :
    WellFormedBlocks cx (appendCode (if c then [] else [t]) s) := by
  by_cases hc : c
  · simp only [hc, if_true, appendCode_nil]
    exact h
  · simp only [hc, if_false]
    exact wellFormed_appendCode hopen h _ (Or.inr ⟨t, rfl⟩)

theorem closes_refl (cx : JITFunctionContext) (s : EmitState) :
    ClosesBlocks cx (fun _ => False) s s := by
  intro b hb
  by_cases h : b = s.insertBlock
  · exact Or.inl h
  · exact Or.inr (Or.inr ⟨hb.1, h⟩)

theorem closes_mono {cx : JITFunctionContext} {P Q : Nat → Prop} {s s' : EmitState}
    (h : ClosesBlocks cx P s s') (hPQ : ∀ b, P b → Q b) : ClosesBlocks cx Q s s' := by
  intro b hb
  rcases h b hb with h1 | h1 | h1
  · exact Or.inl h1
  · exact Or.inr (Or.inl (hPQ b h1))
  · exact Or.inr (Or.inr h1)

theorem closes_of_same {cx : JITFunctionContext} {P : Nat → Prop} {s s1 s2 : EmitState}
    (h : ClosesBlocks cx P s s1) (hb : s2.blocks = s1.blocks)
    (hn : s2.numBlocks = s1.numBlocks) (hi : s2.insertBlock = s1.insertBlock) :
    ClosesBlocks cx P s s2 := by
  intro b hopen
  rw [hi]
  refine h b ⟨hn ▸ hopen.1, hopen.2.1, fun ht => hopen.2.2 ?_⟩
  obtain ⟨i, hi', hit⟩ := ht
  exact ⟨i, by rw [hb]; exact hi', hit⟩

theorem closes_appendCode {cx : JITFunctionContext} {P : Nat → Prop} {s s1 : EmitState}
    (h : ClosesBlocks cx P s s1) (code : List Inst) :
    ClosesBlocks cx P s (appendCode code s1) := by
  intro b hopen
  exact h b ⟨hopen.1, hopen.2.1,
    fun ht => hopen.2.2 (Terminated_mono (appendCode_extend code s1 b) ht)⟩

theorem closes_create {cx : JITFunctionContext} {P : Nat → Prop} {s s1 : EmitState}
    (h : ClosesBlocks cx P s s1) (n : Nat) :
    ClosesBlocks cx (fun b => P b ∨ (s1.numBlocks ≤ b ∧ b < s1.numBlocks + n)) s
      { s1 with numBlocks := s1.numBlocks + n } := by
  intro b hopen
  by_cases hb : b < s1.numBlocks
  · rcases h b ⟨hb, hopen.2.1, hopen.2.2⟩ with h1 | h1 | h1
    · exact Or.inl h1
    · exact Or.inr (Or.inl (Or.inl h1))
    · exact Or.inr (Or.inr h1)
  · exact Or.inr (Or.inl (Or.inr ⟨by omega, hopen.1⟩))

/-- Moving the insertion point away from a block that is ended, or from the unreachable
block, to a block that was created for later. -/
theorem closes_move {cx : JITFunctionContext} {P : Nat → Prop} {s s1 : EmitState}
    (h : ClosesBlocks cx P s s1)
    (hdone : s1.insertBlock ≠ cx.unreachableBlock → Terminated s1 s1.insertBlock) (X : Nat) :
    ClosesBlocks cx (fun b => P b ∧ b ≠ X) s (setInsertPoint X s1) := by
  intro b hopen
  by_cases hX : b = X
  · exact Or.inl hX
  · have hopen1 : OpenBlock cx s1 b := hopen
    rcases h b hopen1 with h1 | h1 | h1
    · exact absurd (hdone (h1 ▸ hopen.2.1)) (h1 ▸ hopen1.2.2)
    · exact Or.inr (Or.inl ⟨h1, hX⟩)
    · exact Or.inr (Or.inr h1)

theorem closes_trans {cx : JITFunctionContext} {P : Nat → Prop} {s s1 s2 : EmitState}
    (h1 : ClosesBlocks cx P s s1) (h2 : ClosesBlocks cx (fun _ => False) s1 s2)
    (hext : ∀ b, ∃ code, s2.blocks b = s1.blocks b ++ code) : ClosesBlocks cx P s s2 := by
  intro b hopen
  rcases h2 b hopen with h | h | ⟨hlt, hne⟩
  · exact Or.inl h
  · exact absurd h id
  · rcases h1 b ⟨hlt, hopen.2.1, fun ht => hopen.2.2 (Terminated_mono (hext b) ht)⟩ with
      h | h | h
    · exact absurd h hne
    · exact Or.inr (Or.inl h)
    · exact Or.inr (Or.inr h)

theorem terminated_branchCode {cx : JITFunctionContext} (s : EmitState) (t : Inst)
    (ht : t.isTerminator = true) (hu : s.insertBlock ≠ cx.unreachableBlock) :
    Terminated (appendCode (if s.insertBlock = cx.unreachableBlock then [] else [t]) s)
      s.insertBlock := by
  refine ⟨t, ?_, ht⟩
  rw [appendCode_blocks_self]
  simp [hu]

/-- Ending the block at the insertion point, unless it is the unreachable block, and moving
the insertion point to a block that was created for later. -/
theorem closes_enter {cx : JITFunctionContext} {P : Nat → Prop} {s s1 : EmitState}
    (h : ClosesBlocks cx P s s1) (t : Inst) (ht : t.isTerminator = true) (X : Nat) :
    ClosesBlocks cx (fun b => P b ∧ b ≠ X) s
      (setInsertPoint X
        (appendCode (if s1.insertBlock = cx.unreachableBlock then [] else [t]) s1)) :=
  closes_move (closes_appendCode h _) (terminated_branchCode s1 t ht) X

theorem Tidies.to_frames {α : Type} {cx : JITFunctionContext} {d : EmitState → EmitResult α}
    (h : Tidies cx d) : Frames cx d :=
  fun s v s' hinv he => ⟨(h s v s' hinv he).1, (h s v s' hinv he).2.1⟩

theorem tidy_refl {cx : JITFunctionContext} {s : EmitState} (h : Inv cx s) : Tidy cx s s :=
  ⟨h, Rel.rel_refl cx s, id, closes_refl cx s⟩

theorem tidy_trans {α : Type} {cx : JITFunctionContext} {s s1 s2 : EmitState}
    (h : Tidy cx s s1) {d : EmitState → EmitResult α} (hd : Tidies cx d) {v : α}
    (he : d s1 = .ok (v, s2)) : Tidy cx s s2 :=
  have h2 := hd s1 v s2 h.1 he
  ⟨h2.1, h.2.1.rel_trans h2.2.1, fun hwf => h2.2.2.1 (h.2.2.1 hwf),
    closes_trans h.2.2.2 h2.2.2.2 h2.2.1.step.blocks_extend⟩

theorem tidy_insert {cx : JITFunctionContext} {s s1 : EmitState} (h : Tidy cx s s1)
    (i : Inst) (hi : i.isTerminator = false) : Tidy cx s (insert i s1).2 := by
  have hg := good_insert ⟨h.1, h.2.1⟩ i hi
  refine ⟨hg.1, hg.2, fun hwf => ?_, ?_⟩
  · rw [insert_eq]
    exact wellFormed_appendCode h.1.insert_open (h.2.2.1 hwf) [i] (Or.inr ⟨i, rfl⟩)
  · rw [insert_eq]
    exact closes_appendCode h.2.2.2 [i]
theorem compileAddress_tidy (cx : JITFunctionContext) (address : Dispatcher)
    (isFarAddress : Bool) (memoryType : TypeId) (ha : ∀ ty, Tidies cx (address ty)) :
    Tidies cx (compileAddress cx address isFarAddress memoryType) := by
  intro s v s' hinv h
  unfold compileAddress at h
  cases isFarAddress with
  | false =>
    simp only [Bool.false_eq_true, if_false] at h
    cases hd : address .I32 s with
    | error e => simp [hd] at h
    | ok r =>
      obtain ⟨a, s1⟩ := r
      simp only [hd] at h
      rw [snd_eq h]
      exact tidy_insert (tidy_insert (tidy_insert (tidy_insert
        (tidy_trans (tidy_refl hinv) (ha .I32) hd) _ (by rfl)) _ (by rfl)) _ (by rfl)) _ (by rfl)
  | true =>
    simp only [if_true] at h
    cases hd : address .I64 s with
    | error e => simp [hd] at h
    | ok r =>
      obtain ⟨a, s1⟩ := r
      simp only [hd] at h
      rw [snd_eq h]
      exact tidy_insert (tidy_insert (tidy_insert
        (tidy_trans (tidy_refl hinv) (ha .I64) hd) _ (by rfl)) _ (by rfl)) _ (by rfl)

theorem compileCall_tidy (cx : JITFunctionContext) (functionType : FunctionType)
    (function : Value) (args : List TypeId → EmitState → EmitResult (List Value))
    (ha : ∀ tys, Tidies cx (args tys)) :
    Tidies cx (compileCall functionType function args) := by
  intro s v s' hinv h
  unfold compileCall at h
  cases hd : args functionType.parameters s with
  | error e => simp [hd] at h
  | ok r =>
    obtain ⟨a, s1⟩ := r
    simp only [hd] at h
    rw [snd_eq h]
    exact tidy_insert (tidy_trans (tidy_refl hinv) (ha _) hd) _ (by rfl)

theorem visitLiteral_tidy (cx : JITFunctionContext) (type : TypeId) (value : Nat) :
    Tidies cx (visitLiteral type value) := by
  intro s v s' hinv h
  simp only [visitLiteral] at h
  rw [snd_eq h]
  exact tidy_refl hinv

theorem visitError_tidy (cx : JITFunctionContext) : Tidies cx visitError := by
  intro s v s' _ h
  simp [visitError] at h

theorem visitNop_tidy (cx : JITFunctionContext) : Tidies cx visitNop := by
  intro s v s' hinv h
  simp only [visitNop] at h
  rw [snd_eq h]
  exact tidy_refl hinv

theorem visitGetLocal_tidy (cx : JITFunctionContext) (variableIndex : Nat) :
    Tidies cx (visitGetLocal cx variableIndex) := by
  intro s v s' hinv h
  unfold visitGetLocal at h
  split at h
  · split at h
    · simp at h
    · rw [snd_eq h]
      exact tidy_insert (tidy_refl hinv) _ (by rfl)
  · simp at h

theorem visitSetLocal_tidy (cx : JITFunctionContext) (variableIndex : Nat)
    (value : Dispatcher) (hv : ∀ ty, Tidies cx (value ty)) :
    Tidies cx (visitSetLocal cx variableIndex value) := by
  intro s v s' hinv h
  unfold visitSetLocal at h
  split at h
  · simp at h
  · rename_i lv _
    cases hd : value lv.type s with
    | error e => simp [hd] at h
    | ok r =>
      obtain ⟨a, s1⟩ := r
      simp only [hd] at h
      split at h
      · simp at h
      · rw [snd_eq h]
        exact tidy_insert (tidy_trans (tidy_refl hinv) (hv _) hd) _ (by rfl)

theorem visitLoad_tidy (cx : JITFunctionContext) (type : TypeId) (op : LoadOp)
    (address : Dispatcher) (isFarAddress : Bool) (alignmentLog2 : Nat) (memoryType : TypeId)
    (ha : ∀ ty, Tidies cx (address ty)) :
    Tidies cx (visitLoad cx type op address isFarAddress alignmentLog2 memoryType) := by
  intro s v s' hinv h
  have hca := compileAddress_tidy cx address isFarAddress memoryType ha
  unfold visitLoad at h
  cases op <;> simp only at h
  · split at h
    · cases hc : compileAddress cx address isFarAddress memoryType s with
      | error e => simp [hc] at h
      | ok r =>
        obtain ⟨p, s2⟩ := r
        simp only [hc] at h
        rw [snd_eq h]
        exact tidy_insert (tidy_trans (tidy_refl hinv) hca hc) _ (by rfl)
    · simp at h
  · cases hc : compileAddress cx address isFarAddress memoryType s with
    | error e => simp [hc] at h
    | ok r =>
      obtain ⟨p, s2⟩ := r
      simp only [hc] at h
      have hg := tidy_insert (tidy_trans (tidy_refl hinv) hca hc)
        (.load p (some (1 <<< alignmentLog2))) rfl
      split at h
      · split at h
        · rw [snd_eq h]
          exact hg
        · rw [snd_eq h]
          exact tidy_insert hg _ (by rfl)
      · simp at h
  · cases hc : compileAddress cx address isFarAddress memoryType s with
    | error e => simp [hc] at h
    | ok r =>
      obtain ⟨p, s2⟩ := r
      simp only [hc] at h
      rw [snd_eq h]
      exact tidy_insert (tidy_insert (tidy_trans (tidy_refl hinv) hca hc) _ (by rfl)) _ (by rfl)
  · cases hc : compileAddress cx address isFarAddress memoryType s with
    | error e => simp [hc] at h
    | ok r =>
      obtain ⟨p, s2⟩ := r
      simp only [hc] at h
      rw [snd_eq h]
      exact tidy_insert (tidy_insert (tidy_trans (tidy_refl hinv) hca hc) _ (by rfl)) _ (by rfl)

theorem visitStore_tidy (cx : JITFunctionContext) (isIntClass : Bool) (address : Dispatcher)
    (isFarAddress : Bool) (alignmentLog2 : Nat) (value : Dispatcher)
    (valueType memoryType : TypeId) (ha : ∀ ty, Tidies cx (address ty))
    (hv : ∀ ty, Tidies cx (value ty)) :
    Tidies cx (visitStore cx isIntClass address isFarAddress alignmentLog2 value valueType
      memoryType) := by
  intro s v s' hinv h
  have hca := compileAddress_tidy cx address isFarAddress memoryType ha
  unfold visitStore at h
  cases hd : value valueType s with
  | error e => simp [hd] at h
  | ok r =>
    obtain ⟨v0, sv⟩ := r
    have hg0 := tidy_trans (tidy_refl hinv) (hv valueType) hd
    simp only [hd] at h
    cases isIntClass with
    | true =>
      simp only [if_true] at h
      split at h
      · simp at h
      · rename_i mv s2 htr
        have hg2 : Tidy cx s s2 := by
          split at htr
          · split at htr
            · rw [snd_eq htr]
              exact tidy_insert hg0 _ (by rfl)
            · simp at htr
          · rw [snd_eq htr]
            exact hg0
        cases hc : compileAddress cx address isFarAddress memoryType s2 with
        | error e => simp [hc] at h
        | ok r =>
          obtain ⟨p, s3⟩ := r
          simp only [hc] at h
          rw [snd_eq h]
          exact tidy_insert (tidy_trans hg2 hca hc) _ (by rfl)
    | false =>
      simp only [Bool.false_eq_true, if_false] at h
      cases hc : compileAddress cx address isFarAddress memoryType sv with
      | error e => simp [hc] at h
      | ok r =>
        obtain ⟨p, s3⟩ := r
        simp only [hc] at h
        rw [snd_eq h]
        exact tidy_insert (tidy_trans hg0 hca hc) _ (by rfl)


theorem visitCallDirect_tidy (cx : JITFunctionContext) (type : TypeId) (functionIndex : Nat)
    (parameters : List TypeId → EmitState → EmitResult (List Value))
    (hp : ∀ tys, Tidies cx (parameters tys)) :
    Tidies cx (visitCallDirect cx type functionIndex parameters) := by
  intro s v s' hinv h
  unfold visitCallDirect at h
  split at h
  · simp at h
  · split at h
    · exact compileCall_tidy cx _ _ parameters hp s v s' hinv h
    · simp at h

theorem visitCallImport_tidy (cx : JITFunctionContext) (type : TypeId) (functionIndex : Nat)
    (parameters : List TypeId → EmitState → EmitResult (List Value))
    (hp : ∀ tys, Tidies cx (parameters tys)) :
    Tidies cx (visitCallImport cx type functionIndex parameters) := by
  intro s v s' hinv h
  unfold visitCallImport at h
  split at h
  · simp at h
  · split at h
    · exact compileCall_tidy cx _ _ parameters hp s v s' hinv h
    · simp at h

theorem visitCallIndirect_tidy (cx : JITFunctionContext) (type : TypeId) (tableIndex : Nat)
    (functionIndex : Dispatcher)
    (parameters : List TypeId → EmitState → EmitResult (List Value))
    (hf : ∀ ty, Tidies cx (functionIndex ty)) (hp : ∀ tys, Tidies cx (parameters tys)) :
    Tidies cx (visitCallIndirect cx type tableIndex functionIndex parameters) := by
  intro s v s' hinv h
  unfold visitCallIndirect at h
  split at h
  · simp at h
  · split at h
    · simp at h
    · split at h
      · simp at h
      · cases hd : functionIndex .I32 s with
        | error e => simp [hd] at h
        | ok r =>
          obtain ⟨index, s1⟩ := r
          simp only [hd] at h
          exact tidy_trans (tidy_insert (tidy_insert (tidy_insert
            (tidy_trans (tidy_refl hinv) (hf .I32) hd) _ (by rfl)) _ (by rfl)) _ (by rfl))
            (compileCall_tidy cx _ _ parameters hp) h

theorem visitSequence_tidy (cx : JITFunctionContext) (type : TypeId)
    (voidExpression resultExpression : Dispatcher)
    (h1 : ∀ ty, Tidies cx (voidExpression ty)) (h2 : ∀ ty, Tidies cx (resultExpression ty)) :
    Tidies cx (visitSequence type voidExpression resultExpression) := by
  intro s v s' hinv h
  unfold visitSequence at h
  cases hd : voidExpression .Void s with
  | error e => simp [hd] at h
  | ok r =>
    obtain ⟨a, s1⟩ := r
    simp only [hd] at h
    exact tidy_trans (tidy_trans (tidy_refl hinv) (h1 .Void) hd) (h2 type) h

theorem visitDiscardResult_tidy (cx : JITFunctionContext)
    (expression : EmitState → EmitResult Value) (h1 : Tidies cx expression) :
    Tidies cx (visitDiscardResult expression) := by
  intro s v s' hinv h
  unfold visitDiscardResult at h
  cases hd : expression s with
  | error e => simp [hd] at h
  | ok r =>
    obtain ⟨a, s1⟩ := r
    simp only [hd] at h
    rw [snd_eq h]
    exact tidy_trans (tidy_refl hinv) h1 hd

theorem tidy_compileUnaryOp {cx : JITFunctionContext} {s s1 : EmitState}
    (h : Tidy cx s s1) (op : UnaryOp) (type : TypeId) (operand : Value) :
    Tidy cx s (compileUnaryOp op type operand s1).2 := by
  cases op <;> simp only [compileUnaryOp, compileIntAbs, compileIntrinsic] <;>
    first
      | exact tidy_insert h _ (by rfl)
      | exact tidy_insert (tidy_insert (tidy_insert h _ (by rfl)) _ (by rfl)) _ (by rfl)

theorem tidy_compileBinaryOp {cx : JITFunctionContext} {s s1 : EmitState}
    (h : Tidy cx s s1) (op : BinaryOp) (type : TypeId) (left right : Value) :
    Tidy cx s (compileBinaryOp op type left right s1).2 := by
  cases op <;> simp only [compileBinaryOp, compileIntrinsic2] <;>
    exact tidy_insert h _ (by rfl)

theorem tidy_compileCastOp {cx : JITFunctionContext} {s s1 : EmitState}
    (h : Tidy cx s s1) (op : CastOp) (type : TypeId) (source : Value) :
    Tidy cx s (compileCastOp op type source s1).2 := by
  cases op <;> simp only [compileCastOp] <;> exact tidy_insert h _ (by rfl)

theorem tidy_compileComparisonOp {cx : JITFunctionContext} {s s1 : EmitState}
    (h : Tidy cx s s1) (op : ComparisonOp) (type : TypeId) (left right : Value) :
    Tidy cx s (compileComparisonOp op type left right s1).2 := by
  cases op <;> simp only [compileComparisonOp] <;>
    first
      | exact tidy_insert h _ (by rfl)
      | (split <;> exact tidy_insert h _ (by rfl))

theorem visitUnary_tidy (cx : JITFunctionContext) (type : TypeId) (op : UnaryOp)
    (operand : Dispatcher) (h1 : ∀ ty, Tidies cx (operand ty)) :
    Tidies cx (visitUnary type op operand) := by
  intro s v s' hinv h
  unfold visitUnary at h
  cases hd : operand type s with
  | error e => simp [hd] at h
  | ok r =>
    obtain ⟨a, s1⟩ := r
    simp only [hd] at h
    rw [snd_eq h]
    exact tidy_compileUnaryOp (tidy_trans (tidy_refl hinv) (h1 type) hd) op type a

theorem visitBinary_tidy (cx : JITFunctionContext) (type : TypeId) (op : BinaryOp)
    (left right : Dispatcher) (h1 : ∀ ty, Tidies cx (left ty))
    (h2 : ∀ ty, Tidies cx (right ty)) : Tidies cx (visitBinary type op left right) := by
  intro s v s' hinv h
  obtain ⟨l, s1, r, s2, hl, hr, hc⟩ := visitBinary_code type op left right s s' v h
  have hs : s' = (compileBinaryOp op type l r s2).2 := by rw [← hc]
  rw [hs]
  exact tidy_compileBinaryOp (tidy_trans (tidy_trans (tidy_refl hinv) (h1 type) hl) (h2 type) hr)
    op type l r

theorem visitCast_tidy (cx : JITFunctionContext) (type : TypeId) (op : CastOp)
    (source : EmitState → EmitResult Value) (h1 : Tidies cx source) :
    Tidies cx (visitCast type op source) := by
  intro s v s' hinv h
  unfold visitCast at h
  cases hd : source s with
  | error e => simp [hd] at h
  | ok r =>
    obtain ⟨a, s1⟩ := r
    simp only [hd] at h
    rw [snd_eq h]
    exact tidy_compileCastOp (tidy_trans (tidy_refl hinv) h1 hd) op type a

theorem visitComparison_tidy (cx : JITFunctionContext) (op : ComparisonOp)
    (operandType : TypeId) (left right : Dispatcher) (h1 : ∀ ty, Tidies cx (left ty))
    (h2 : ∀ ty, Tidies cx (right ty)) :
    Tidies cx (visitComparison op operandType left right) := by
  intro s v s' hinv h
  unfold visitComparison at h
  cases hl : left operandType s with
  | error e => simp [hl] at h
  | ok r1 =>
    obtain ⟨l, s1⟩ := r1
    simp only [hl] at h
    cases hr : right operandType s1 with
    | error e => simp [hr] at h
    | ok r2 =>
      obtain ⟨r, s2⟩ := r2
      simp only [hr] at h
      rw [snd_eq h]
      exact tidy_compileComparisonOp
        (tidy_trans (tidy_trans (tidy_refl hinv) (h1 _) hl) (h2 _) hr) op operandType l r


/-- Ending the block at the insertion point, unless it is the unreachable block, and moving
the insertion point to the unreachable block is tidy. -/
theorem tidy_of_leave {cx : JITFunctionContext} {s s1 s2 : EmitState} (h : Tidy cx s s1)
    (hg : Inv cx s2 ∧ Rel cx s s2) (t : Inst) (ht : t.isTerminator = true)
    (hb : s2.blocks =
      (appendCode (if s1.insertBlock = cx.unreachableBlock then [] else [t]) s1).blocks)
    (hn : s2.numBlocks = s1.numBlocks) (hi : s2.insertBlock = cx.unreachableBlock) :
    Tidy cx s s2 := by
  refine ⟨hg.1, hg.2, fun hwf => ?_, ?_⟩
  · exact wellFormed_of_same hb (wellFormed_branchCode h.1.insert_open (h.2.2.1 hwf) _ t)
  · exact closes_of_same (closes_mono (closes_enter h.2.2.2 t ht cx.unreachableBlock)
      (fun b hb => hb.1)) hb hn hi

theorem visitReturn_tidy (cx : JITFunctionContext) (type : TypeId) (value : Dispatcher)
    (hv : ∀ ty, Tidies cx (value ty)) : Tidies cx (visitReturn cx type value) := by
  intro s v s' hinv h
  have hfr := visitReturn_frames cx type value (fun ty => (hv ty).to_frames) s v s' hinv h
  unfold visitReturn at h
  have hres : ∀ rv s1,
      (if cx.astFunction.type.returnType = .Void then (.ok (.null, s) : EmitResult Value)
        else value cx.astFunction.type.returnType s) = .ok (rv, s1) → Tidy cx s s1 := by
    intro rv s1 h1
    by_cases hvoid : cx.astFunction.type.returnType = .Void
    · simp only [hvoid, if_true] at h1
      rw [snd_eq h1]
      exact tidy_refl hinv
    · simp only [hvoid, if_false] at h1
      exact tidy_trans (tidy_refl hinv) (hv _) h1
  cases hr : (if cx.astFunction.type.returnType = .Void then (.ok (.null, s) : EmitResult Value)
        else value cx.astFunction.type.returnType s) with
  | error e => simp [hr] at h
  | ok r =>
    obtain ⟨rv, s1⟩ := r
    have hg := hres rv s1 hr
    simp only [hr] at h
    by_cases hu : s1.insertBlock = cx.unreachableBlock
    · simp only [hu, ne_eq, not_true_eq_false, if_false] at h
      rw [snd_eq h]
      exact hg
    · simp only [hu, ne_eq, not_false_eq_true, if_true] at h
      rw [snd_eq h] at hfr ⊢
      by_cases hvoid : cx.astFunction.type.returnType = .Void
      · simp only [hvoid, if_true, insert_eq] at hfr ⊢
        exact tidy_of_leave hg hfr (.ret none) rfl (by simp [hu]) rfl rfl
      · simp only [hvoid, if_false, insert_eq] at hfr ⊢
        exact tidy_of_leave hg hfr (.ret (some rv)) rfl (by simp [hu]) rfl rfl

theorem visitBranch_tidy (cx : JITFunctionContext) (type : TypeId)
    (branchTarget : BranchTarget) (value : Dispatcher) (hv : ∀ ty, Tidies cx (value ty)) :
    Tidies cx (visitBranch cx type branchTarget value) := by
  intro s v s' hinv h
  have hfr := visitBranch_frames cx type branchTarget value (fun ty => (hv ty).to_frames)
    s v s' hinv h
  unfold visitBranch at h
  cases hf : findTargetContext branchTarget s.branchContext with
  | none => simp [hf] at h
  | some p =>
    obtain ⟨depth, tc⟩ := p
    simp only [hf] at h
    have hres : ∀ rv s1,
        (if branchTarget.type = .Void then (.ok (.voidDummy, s) : EmitResult Value)
          else value tc.branchTarget.type s) = .ok (rv, s1) → Tidy cx s s1 := by
      intro rv s1 h1
      by_cases hvoid : branchTarget.type = .Void
      · simp only [hvoid, if_true] at h1
        rw [snd_eq h1]
        exact tidy_refl hinv
      · simp only [hvoid, if_false] at h1
        exact tidy_trans (tidy_refl hinv) (hv _) h1
    cases hr : (if branchTarget.type = .Void then (.ok (.voidDummy, s) : EmitResult Value)
          else value tc.branchTarget.type s) with
    | error e => simp [hr] at h
    | ok r =>
      obtain ⟨rv, s1⟩ := r
      have hg := hres rv s1 hr
      simp only [hr] at h
      rw [snd_eq h] at hfr ⊢
      by_cases hu : s1.insertBlock = cx.unreachableBlock
      · simp only [compileBranch, hu, if_true] at hfr ⊢
        exact tidy_of_leave hg hfr (.br tc.basicBlock) rfl (by simp [hu, appendCode_nil]) rfl rfl
      · simp only [compileBranch, hu, if_false, insert_eq] at hfr ⊢
        exact tidy_of_leave hg hfr (.br tc.basicBlock) rfl (by simp [hu]) rfl rfl

/-- The last steps of a label, a loop, a switch and an if-else: the insertion point is
moved to the empty successor block, where the phi node is created when the type is not
`void`. -/
theorem tidy_join {cx : JITFunctionContext} {s s9 s' : EmitState} {P : Nat → Prop}
    {v : Value} (type : TypeId) (edges : List (Value × Nat))
    (hfr : Inv cx s' ∧ Rel cx s s') (hwf : WellFormedBlocks cx s → WellFormedBlocks cx s9)
    (hc : ClosesBlocks cx P s s9) (hP : ∀ b, ¬ P b) (hempty : s9.blocks s9.insertBlock = [])
    (hfinal : (v, s') =
      if type = .Void then (.voidDummy, s9) else insert (.phi type edges) s9) :
    Tidy cx s s' := by
  have hc0 : ClosesBlocks cx (fun _ => False) s s9 := closes_mono hc (fun b hb => hP b hb)
  by_cases hty : type = .Void
  · simp only [hty, if_true, Prod.mk.injEq] at hfinal
    rw [hfinal.2] at hfr ⊢
    exact ⟨hfr.1, hfr.2, hwf, hc0⟩
  · simp only [hty, if_false] at hfinal
    have hs : s' = (insert (.phi type edges) s9).2 := by rw [← hfinal]
    rw [hs] at hfr ⊢
    refine ⟨hfr.1, hfr.2, fun h => ?_, ?_⟩
    · rw [insert_eq]
      refine wellFormed_appendCode ?_ (hwf h) _ (Or.inr ⟨_, rfl⟩)
      rintro - ⟨i, hi, -⟩
      rw [hempty] at hi
      simp at hi
    · rw [insert_eq]
      exact closes_appendCode hc0 _

theorem visitLabel_tidy (cx : JITFunctionContext) (type : TypeId) (endTarget : BranchTarget)
    (expression : Dispatcher) (hexp : ∀ ty, Tidies cx (expression ty)) :
    Tidies cx (visitLabel cx type endTarget expression) := by
  intro s v s' hinv h
  have hfr := visitLabel_frames cx type endTarget expression (fun ty => (hexp ty).to_frames)
    s v s' hinv h
  obtain ⟨value, s6, D, outer, hd, h5, hInv6, hRel6, heq, hD, hInv7, hRel7, hempty, hne, hlt,
    hfinal⟩ := visitLabel_facts cx type endTarget expression
      (fun ty => (hexp ty).to_frames) s v s' hinv h
  have hbody := hexp type _ value s6 h5 hd
  have c2 : ClosesBlocks cx _ s { s with numBlocks := s.numBlocks + 1 + 1 } :=
    closes_create (closes_refl cx s) 2
  have c5 : ClosesBlocks cx _ s (labelBodyState cx endTarget s) :=
    closes_of_same (closes_enter c2 (.br s.numBlocks) rfl s.numBlocks)
      (by rw [labelBodyState_eq]) (by rw [labelBodyState_eq]) (by rw [labelBodyState_eq])
  have c7 : ClosesBlocks cx _ s { s6 with branchContext := outer } :=
    closes_of_same (closes_trans c5 hbody.2.2.2 hRel6.step.blocks_extend) rfl rfl rfl
  have c9 := closes_enter c7 (.br (s.numBlocks + 1)) rfl (s.numBlocks + 1)
  rw [← compileBranch_snd] at c9
  refine tidy_join type _ hfr (fun hwf => ?_) c9 ?_ ?_ hfinal
  · refine wellFormed_of_same (setInsertPoint_blocks _ _) ?_
    rw [compileBranch_snd]
    refine wellFormed_branchCode hInv7.insert_open ?_ _ _
    refine wellFormed_of_same (s := s6) rfl (hbody.2.2.1 ?_)
    exact wellFormed_of_same (labelBodyState_blocks cx endTarget s)
      (wellFormed_branchCode hinv.insert_open hwf _ _)
  · rintro b ⟨⟨hb | hb, hL⟩, hS⟩
    · exact hb
    · omega
  · rw [setInsertPoint_insertBlock, setInsertPoint_blocks]
    exact (compileBranch_blocks_of_ne cx _ { s6 with branchContext := outer } _ hne).trans hempty

theorem visitLoop_tidy (cx : JITFunctionContext) (type : TypeId) (expression : Dispatcher)
    (breakTarget continueTarget : BranchTarget) (hexp : ∀ ty, Tidies cx (expression ty)) :
    Tidies cx (visitLoop cx type expression breakTarget continueTarget) := by
  intro s v s' hinv h
  have hfr := visitLoop_frames cx type expression breakTarget continueTarget
    (fun ty => (hexp ty).to_frames) s v s' hinv h
  obtain ⟨bodyValue, s5, Db, Dc, outer, hd, h5, hInv5, hRel5, heq, hDb, hDc, hInv7, hRel7,
    hempty, hne, hlt, hfinal⟩ := visitLoop_facts cx type expression breakTarget continueTarget
      (fun ty => (hexp ty).to_frames) s v s' hinv h
  have hbody := hexp .Void _ bodyValue s5 h5 hd
  have c2 : ClosesBlocks cx _ s { s with numBlocks := s.numBlocks + 1 + 1 } :=
    closes_create (closes_refl cx s) 2
  have c5 : ClosesBlocks cx _ s (loopBodyState cx breakTarget continueTarget s) :=
    closes_of_same (closes_enter c2 (.br s.numBlocks) rfl s.numBlocks)
      (by rw [loopBodyState_eq]) (by rw [loopBodyState_eq]) (by rw [loopBodyState_eq])
  have c7 : ClosesBlocks cx _ s { s5 with branchContext := outer } :=
    closes_of_same (closes_trans c5 hbody.2.2.2 hRel5.step.blocks_extend) rfl rfl rfl
  have c9 := closes_enter c7 (.br s.numBlocks) rfl (s.numBlocks + 1)
  rw [← compileBranch_snd] at c9
  refine tidy_join type _ hfr (fun hwf => ?_) c9 ?_ ?_ hfinal
  · refine wellFormed_of_same (setInsertPoint_blocks _ _) ?_
    rw [compileBranch_snd]
    refine wellFormed_branchCode hInv7.insert_open ?_ _ _
    refine wellFormed_of_same (s := s5) rfl (hbody.2.2.1 ?_)
    exact wellFormed_of_same (loopBodyState_blocks cx breakTarget continueTarget s)
      (wellFormed_branchCode hinv.insert_open hwf _ _)
  · rintro b ⟨⟨hb | hb, hL⟩, hS⟩
    · exact hb
    · omega
  · rw [setInsertPoint_insertBlock, setInsertPoint_blocks]
    exact (compileBranch_blocks_of_ne cx _ { s5 with branchContext := outer } _ hne).trans hempty

theorem visitIfElse_tidy (cx : JITFunctionContext) (type : TypeId)
    (condition thenExpression elseExpression : Dispatcher)
    (hc : ∀ ty, Tidies cx (condition ty)) (ht : ∀ ty, Tidies cx (thenExpression ty))
    (he : ∀ ty, Tidies cx (elseExpression ty)) :
    Tidies cx (visitIfElse cx type condition thenExpression elseExpression) := by
  intro s v s' hinv h
  have hfr := visitIfElse_frames cx type condition thenExpression elseExpression
    (fun ty => (hc ty).to_frames) (fun ty => (ht ty).to_frames) (fun ty => (he ty).to_frames)
    s v s' hinv h
  obtain ⟨cond, s1, trueValue, s6, falseValue, s8, hcd, hInv1, -, hInvT, -, hdT, hInv6, hRel6,
    hInvF, -, hdF, hInv8, hRel8, hn6, hn8, hempty, hne8, -, -, hfinal⟩ :=
    visitIfElse_facts cx type condition thenExpression elseExpression
      (fun ty => (hc ty).to_frames) (fun ty => (ht ty).to_frames)
      (fun ty => (he ty).to_frames) s v s' hinv h
  have hcond := hc .Bool s cond s1 hinv hcd
  have hthen := ht type _ trueValue s6 hInvT hdT
  have helse := he type _ falseValue s8 hInvF hdF
  have c4 : ClosesBlocks cx _ s { s1 with numBlocks := s1.numBlocks + 1 + 1 + 1 } :=
    closes_create hcond.2.2.2 3
  have cT := closes_enter c4 (.condBr cond s1.numBlocks (s1.numBlocks + 1)) rfl s1.numBlocks
  rw [← compileCondBranch_snd, ← thenArmState_eq] at cT
  have cF := closes_enter (closes_trans cT hthen.2.2.2 hRel6.step.blocks_extend)
    (.br (s1.numBlocks + 1 + 1)) rfl (s1.numBlocks + 1)
  rw [← compileBranch_snd] at cF
  have c9 := closes_enter (@closes_trans cx _ s (elseArmState cx s1 s6) s8 cF helse.2.2.2
    hRel8.step.blocks_extend) (.br (s1.numBlocks + 1 + 1)) rfl (s1.numBlocks + 1 + 1)
  rw [← compileBranch_snd] at c9
  refine tidy_join type _ hfr (fun hwf => ?_) c9 ?_ ?_ hfinal
  · refine wellFormed_of_same (setInsertPoint_blocks _ _) ?_
    rw [compileBranch_snd]
    refine wellFormed_branchCode hInv8.insert_open (helse.2.2.1 ?_) _ _
    unfold elseArmState
    refine wellFormed_of_same (setInsertPoint_blocks _ _) ?_
    rw [compileBranch_snd]
    refine wellFormed_branchCode hInv6.insert_open (hthen.2.2.1 ?_) _ _
    rw [thenArmState_eq]
    refine wellFormed_of_same (setInsertPoint_blocks _ _) ?_
    rw [compileCondBranch_snd]
    exact wellFormed_branchCode (s := { s1 with numBlocks := s1.numBlocks + 1 + 1 + 1 })
      hInv1.insert_open (wellFormed_of_same rfl (hcond.2.2.1 hwf)) _ _
  · rintro b ⟨⟨⟨hb | hb, hT⟩, hF⟩, hS⟩
    · exact hb
    · omega
  · rw [setInsertPoint_insertBlock, setInsertPoint_blocks]
    exact (compileBranch_blocks_of_ne cx _ s8 _ hne8).trans hempty
theorem finishSwitchArm_blocks (cx : JITFunctionContext) (type : TypeId) (isFinalArm : Bool)
    (next S : Nat) (armValue : Value) (s : EmitState) :
    (finishSwitchArm cx type isFinalArm next S armValue s).blocks =
      (appendCode (if s.insertBlock = cx.unreachableBlock then []
        else [.br (if isFinalArm = true then S else next)]) s).blocks ∧
    (finishSwitchArm cx type isFinalArm next S armValue s).numBlocks = s.numBlocks ∧
    (finishSwitchArm cx type isFinalArm next S armValue s).insertBlock = s.insertBlock := by
  rw [finishSwitchArm_eq]
  unfold armEndState
  by_cases hu : s.insertBlock = cx.unreachableBlock
  · simp [hu, appendCode_nil]
  · simp [hu]

theorem visitSwitch_tidy (cx : JITFunctionContext) (type : TypeId)
    (key : EmitState → EmitResult Value) (keyType : TypeId) (numArms : Nat)
    (armKeys : List Nat) (defaultArmIndex : Nat) (endTarget : BranchTarget)
    (arms : Nat → Nat → EmitState → EmitResult Unit) (hkey : Tidies cx key)
    (hkeys : armKeys.length ≤ numArms)
    (harms : ∀ A S s5 u s6, ArmsReady cx A S 0 s5 → A + numArms ≤ S →
      arms A S s5 = .ok (u, s6) → ArmsDone cx A S s5 s6)
    (htidy : ∀ A S s5 u s6, ArmsReady cx A S 0 s5 → A + numArms ≤ S →
      (s5.insertBlock ≠ cx.unreachableBlock → Terminated s5 s5.insertBlock) →
      arms A S s5 = .ok (u, s6) → ArmsTidy cx A 0 numArms s5 s6) :
    Tidies cx (visitSwitch type key keyType numArms armKeys defaultArmIndex endTarget arms) := by
  intro s v s' hinv h
  have hfr := visitSwitch_frames cx type key keyType numArms armKeys defaultArmIndex endTarget
    arms hkey.to_frames hkeys harms s v s' hinv h
  obtain ⟨value, s1, u, s6, D, outer, hk, -, h3, ha, hc, hvoid, hnonvoid⟩ :=
    visitSwitch_facts type key keyType numArms armKeys defaultArmIndex endTarget arms s v s' h
  have hkeyT := hkey s value s1 hinv hk
  have hready := armLoopState_ready cx value keyType numArms armKeys defaultArmIndex endTarget
    s s1 ⟨hkeyT.1, hkeyT.2.1⟩ hkeys h3
  have hdone5 : (armLoopState value keyType numArms armKeys defaultArmIndex endTarget
      s1).insertBlock ≠ cx.unreachableBlock →
      Terminated (armLoopState value keyType numArms armKeys defaultArmIndex endTarget s1)
        (armLoopState value keyType numArms armKeys defaultArmIndex endTarget
          s1).insertBlock := by
    intro _
    unfold armLoopState
    refine ⟨_, ?_, (rfl : (Inst.switch value (s1.numBlocks + defaultArmIndex)
      (switchCases keyType defaultArmIndex s1.numBlocks 0 armKeys)).isTerminator = true)⟩
    rw [appendCode_insertBlock, appendCode_blocks_self]
    simp
  have hD := harms _ _ _ u s6 hready (le_refl _) ha
  have hT := htidy _ _ _ u s6 hready (le_refl _) hdone5 ha
  have c3 := closes_create hkeyT.2.2.2 (numArms + 1)
  have c5 : ClosesBlocks cx _ s
      (armLoopState value keyType numArms armKeys defaultArmIndex endTarget s1) :=
    closes_of_same (closes_appendCode c3 [.switch value (s1.numBlocks + defaultArmIndex)
      (switchCases keyType defaultArmIndex s1.numBlocks 0 armKeys)]) rfl rfl rfl
  have c7 := @closes_move cx _ s { s6 with branchContext := outer }
    (closes_of_same (hT.closes _ s c5) rfl rfl rfl) hT.done (s1.numBlocks + numArms)
  have hfinal : (v, s') =
      if type = .Void then (.voidDummy, setInsertPoint (s1.numBlocks + numArms)
        { s6 with branchContext := outer })
      else insert (.phi type (phiIncoming D.results)) (setInsertPoint (s1.numBlocks + numArms)
        { s6 with branchContext := outer }) := by
    by_cases hty : type = .Void
    · obtain ⟨hv, hs⟩ := hvoid hty
      simp only [hty, if_true]
      rw [hv, hs]
    · obtain ⟨hv, hs⟩ := hnonvoid hty
      simp only [hty, if_false]
      rw [hv, hs]
      rfl
  refine tidy_join type (phiIncoming D.results) hfr (fun hwf => ?_) c7 ?_ hD.successor_empty
    hfinal
  · refine wellFormed_of_same (s := s6) rfl (hT.wellFormed ?_)
    exact wellFormed_of_same (s := appendCode [.switch value (s1.numBlocks + defaultArmIndex)
      (switchCases keyType defaultArmIndex s1.numBlocks 0 armKeys)] s1) rfl
      (wellFormed_appendCode hkeyT.1.insert_open (hkeyT.2.2.1 hwf) _ (Or.inr ⟨_, rfl⟩))
  · rintro b ⟨⟨hb | hb, hnot⟩, hS⟩
    · exact hb
    · omega
mutual
/-- The emission of an expression is tidy. -/
theorem dispatch_tidy (cx : JITFunctionContext) :
    ∀ (e : Expression) (ty : TypeId), Tidies cx (dispatch cx e ty)
  | .literal t value, _ => fun s v s' hinv h => visitLiteral_tidy cx t value s v s' hinv h
  | .error _, _ => fun s v s' hinv h => visitError_tidy cx s v s' hinv h
  | .getLocal i, _ => fun s v s' hinv h => visitGetLocal_tidy cx i s v s' hinv h
  | .setLocal i value, _ => fun s v s' hinv h =>
    visitSetLocal_tidy cx i _ (fun t => dispatch_tidy cx value t) s v s' hinv h
  | .load op address far align memoryType, ty => fun s v s' hinv h =>
    visitLoad_tidy cx ty op _ far align memoryType (fun t => dispatch_tidy cx address t)
      s v s' hinv h
  | .store isInt address far align value valueType memoryType, _ => fun s v s' hinv h =>
    visitStore_tidy cx isInt _ far align _ valueType memoryType
      (fun t => dispatch_tidy cx address t) (fun t => dispatch_tidy cx value t)
      s v s' hinv h
  | .callDirect f parameters, ty => fun s v s' hinv h =>
    visitCallDirect_tidy cx ty f _ (fun tys => dispatchArguments_tidy cx parameters tys)
      s v s' hinv h
  | .callImport f parameters, ty => fun s v s' hinv h =>
    visitCallImport_tidy cx ty f _ (fun tys => dispatchArguments_tidy cx parameters tys)
      s v s' hinv h
  | .callIndirect table f parameters, ty => fun s v s' hinv h =>
    visitCallIndirect_tidy cx ty table _ _ (fun t => dispatch_tidy cx f t)
      (fun tys => dispatchArguments_tidy cx parameters tys) s v s' hinv h
  | .switch key keyType arms defaultArmIndex endTarget, ty => fun s v s' hinv h =>
    visitSwitch_tidy cx ty _ keyType arms.numArms arms.keys defaultArmIndex endTarget _
      (dispatch_tidy cx key keyType) (le_of_eq arms.keys_length)
      (fun A S s5 u s6 hready hb hs =>
        visitSwitchArms_frames cx ty keyType defaultArmIndex arms.numArms A S arms 0 s5 u s6
          hready hb hs)
      (fun A S s5 u s6 hready hb hdone hs =>
        visitSwitchArms_tidy cx ty keyType defaultArmIndex arms.numArms A S arms 0 s5 u s6
          hready hb hdone hs)
      s v s' hinv h
  | .ifElse c t e, ty => fun s v s' hinv h =>
    visitIfElse_tidy cx ty _ _ _ (fun t' => dispatch_tidy cx c t')
      (fun t' => dispatch_tidy cx t t') (fun t' => dispatch_tidy cx e t') s v s' hinv h
  | .label endTarget e, ty => fun s v s' hinv h =>
    visitLabel_tidy cx ty endTarget _ (fun t => dispatch_tidy cx e t) s v s' hinv h
  | .sequence a b, ty => fun s v s' hinv h =>
    visitSequence_tidy cx ty _ _ (fun t => dispatch_tidy cx a t)
      (fun t => dispatch_tidy cx b t) s v s' hinv h
  | .ret value, ty => fun s v s' hinv h =>
    visitReturn_tidy cx ty _ (fun t => dispatch_tidy cx value t) s v s' hinv h
  | .loop e breakTarget continueTarget, ty => fun s v s' hinv h =>
    visitLoop_tidy cx ty _ breakTarget continueTarget (fun t => dispatch_tidy cx e t)
      s v s' hinv h
  | .branch target value, ty => fun s v s' hinv h =>
    visitBranch_tidy cx ty target _ (fun t => dispatch_tidy cx value t) s v s' hinv h
  | .nop, _ => fun s v s' hinv h => visitNop_tidy cx s v s' hinv h
  | .discardResult e t, _ => fun s v s' hinv h =>
    visitDiscardResult_tidy cx _ (dispatch_tidy cx e t) s v s' hinv h
  | .unary op operand, ty => fun s v s' hinv h =>
    visitUnary_tidy cx ty op _ (fun t => dispatch_tidy cx operand t) s v s' hinv h
  | .binary op l r, ty => fun s v s' hinv h =>
    visitBinary_tidy cx ty op _ _ (fun t => dispatch_tidy cx l t)
      (fun t => dispatch_tidy cx r t) s v s' hinv h
  | .cast op source sourceType, ty => fun s v s' hinv h =>
    visitCast_tidy cx ty op _ (dispatch_tidy cx source sourceType) s v s' hinv h
  | .comparison op operandType l r, _ => fun s v s' hinv h =>
    visitComparison_tidy cx op operandType _ _ (fun t => dispatch_tidy cx l t)
      (fun t => dispatch_tidy cx r t) s v s' hinv h
/-- The emission of the arguments of a call is tidy. -/
theorem dispatchArguments_tidy (cx : JITFunctionContext) :
    ∀ (l : ExpressionList) (tys : List TypeId), Tidies cx (dispatchArguments cx l tys)
  | .nil, [] => fun s v s' hinv h => by
    rw [dispatchArguments] at h
    rw [snd_eq h]
    exact tidy_refl hinv
  | .nil, _ :: _ => fun s v s' hinv h => by
    rw [dispatchArguments] at h
    simp at h
  | .cons arg rest, [] => fun s v s' hinv h => by
    rw [dispatchArguments] at h
    rw [snd_eq h]
    exact tidy_refl hinv
  | .cons arg rest, parameter :: parameters => fun s v s' hinv h => by
    rw [dispatchArguments] at h
    cases hd : dispatch cx arg parameter s with
    | error e => simp [hd] at h
    | ok r =>
      obtain ⟨a, s1⟩ := r
      simp only [hd] at h
      have h1 := dispatch_tidy cx arg parameter s a s1 hinv hd
      cases hr : dispatchArguments cx rest parameters s1 with
      | error e => simp [hr] at h
      | ok r2 =>
        obtain ⟨vs, s2⟩ := r2
        simp only [hr] at h
        rw [snd_eq h]
        exact tidy_trans h1 (dispatchArguments_tidy cx rest parameters) hr
/-- The arm loop of a switch, from an arm on, is tidy. -/
theorem visitSwitchArms_tidy (cx : JITFunctionContext) (type keyType : TypeId)
    (defaultArmIndex numArms A S : Nat) :
    ∀ (arms : SwitchArms) (i : Nat) (s : EmitState) (u : Unit) (s' : EmitState),
      ArmsReady cx A S i s → A + i + arms.numArms ≤ S →
      (s.insertBlock ≠ cx.unreachableBlock → Terminated s s.insertBlock) →
      visitSwitchArms cx type keyType defaultArmIndex numArms A S arms i s = .ok (u, s') →
      ArmsTidy cx A i arms.numArms s s'
  | .nil, i, s, u, s', _, _, hdone, h => by
    rw [visitSwitchArms] at h
    rw [snd_eq h]
    exact ⟨id, hdone, fun P s0 h0 => closes_mono h0 (fun b hb => ⟨hb, by
      simp only [SwitchArms.numArms]
      omega⟩)⟩
  | .cons key value rest, i, s, u, s', hready, hb, hdone, h => by
    rw [visitSwitchArms] at h
    have hb' : A + i + rest.numArms + 1 ≤ S := by
      simpa [SwitchArms.numArms, Nat.add_assoc] using hb
    by_cases hk : i ≠ defaultArmIndex ∧ isIntType keyType = false
    · simp [hk] at h
    · simp only [hk, if_false, decide_eq_true_eq] at h
      cases hd : dispatch cx value (if i + 1 = numArms then type else .Void)
          (setInsertPoint (A + i) s) with
      | error e => simp [hd] at h
      | ok r =>
        obtain ⟨armValue, s1⟩ := r
        simp only [hd] at h
        have hSlt := hready.successor_lt
        have hA : Inv cx (setInsertPoint (A + i) s) :=
          Inv.at_empty hready.inv0 (A + i) (by omega)
            (hready.reserved _ (le_refl _) (by omega))
        have ht1 := dispatch_tidy cx value _ _ armValue s1 hA hd
        obtain ⟨hready1, -⟩ := switchArm_step cx type (decide (i + 1 = numArms)) A S i _
          (dispatch_frames cx value _) s s1 armValue hready (by omega) hd
        obtain ⟨hfb, hfn, hfi⟩ := finishSwitchArm_blocks cx type (decide (i + 1 = numArms))
          (A + i + 1) S armValue s1
        have hdone2 : (finishSwitchArm cx type (decide (i + 1 = numArms)) (A + i + 1) S
            armValue s1).insertBlock ≠ cx.unreachableBlock →
            Terminated (finishSwitchArm cx type (decide (i + 1 = numArms)) (A + i + 1) S
              armValue s1) (finishSwitchArm cx type (decide (i + 1 = numArms)) (A + i + 1) S
                armValue s1).insertBlock := by
          rw [hfi]
          intro hu
          obtain ⟨t, ht, htt⟩ := terminated_branchCode s1
            (.br (if decide (i + 1 = numArms) = true then S else A + i + 1)) rfl hu
          exact ⟨t, by rw [hfb]; exact ht, htt⟩
        have hrec := visitSwitchArms_tidy cx type keyType defaultArmIndex numArms A S rest
          (i + 1) _ u s' hready1 (by omega) hdone2 h
        refine ⟨fun hwf => hrec.wellFormed (wellFormed_of_same hfb
          (wellFormed_branchCode ht1.1.insert_open
            (ht1.2.2.1 (wellFormed_of_same (s := s) rfl hwf)) _ _)), hrec.done,
          fun P s0 h0 => ?_⟩
        have c1 := closes_trans (closes_move h0 hdone (A + i)) ht1.2.2.2
          ht1.2.1.step.blocks_extend
        have c2 := closes_of_same (closes_appendCode c1
          (if s1.insertBlock = cx.unreachableBlock then []
            else [.br (if decide (i + 1 = numArms) = true then S else A + i + 1)])) hfb hfn hfi
        refine closes_mono (hrec.closes _ s0 c2) ?_
        rintro b ⟨⟨hP, hne⟩, hrest⟩
        refine ⟨hP, fun hin => ?_⟩
        simp only [SwitchArms.numArms] at hin
        omega
end
/-! ## Well-formed control flow of an emitted function -/

theorem endsInTerminator_split {code : List Inst} (h : EndsInTerminator code) :
    ∃ body t, code = body ++ [t] ∧ t.isTerminator = true ∧
      ∀ i ∈ body, i.isTerminator = false := by
  have hne : code ≠ [] := by
    rintro rfl
    simp [EndsInTerminator] at h
  have hsplit := List.dropLast_append_getLast hne
  rw [← hsplit] at h
  exact ⟨code.dropLast, code.getLast hne, hsplit.symm, (endsInTerminator_concat _ _).mp h⟩

theorem bodyEntry_shape (jitModule : JITModule) (astFunction : Function)
    (cx : JITFunctionContext) (s : EmitState)
    (h : bodyEntry jitModule astFunction = .ok (cx, s)) :
    cx.unreachableBlock = 0 ∧ s.numBlocks = 2 ∧ s.insertBlock = 1 := by
  rw [bodyEntry_eq] at h
  cases hr : emitArguments astFunction.parameterLocalIndices
      (localPointers 1 0 astFunction.locals) astFunction.type.parameters.length 0
      (appendCode (localsCode 1 0 astFunction.locals)
        (setInsertPoint 1 ⟨2, fun _ => [], 0, []⟩)) with
  | error e => simp [hr] at h
  | ok s4 =>
    simp only [hr, Except.ok.injEq, Prod.mk.injEq] at h
    obtain ⟨heq, -⟩ := emitArguments_eq _ _ _ _ _ _ hr
    rw [← h.1, ← h.2, heq]
    exact ⟨rfl, rfl, rfl⟩

/-- Every block of the state `emit` leaves, but for the unreachable block, is
well-formed. -/
theorem emitBody_blocks (jitModule : JITModule) (astFunction : Function)
    (cx : JITFunctionContext) (s : EmitState)
    (h : emitBody jitModule astFunction = .ok (cx, s)) :
    ∀ b, b < s.numBlocks → b ≠ cx.unreachableBlock → EndsInTerminator (s.blocks b) := by
  rw [emitBody_eq] at h
  cases hb : bodyEntry jitModule astFunction with
  | error e => simp [hb] at h
  | ok r =>
    obtain ⟨cx0, s4⟩ := r
    obtain ⟨hu0, hn4, hi4⟩ := bodyEntry_shape jitModule astFunction cx0 s4 hb
    have hinv4 := bodyEntry_inv jitModule astFunction cx0 s4 hb
    simp only [hb] at h
    cases hd : dispatch cx0 astFunction.expression astFunction.type.returnType s4 with
    | error e => simp [hd] at h
    | ok r2 =>
      obtain ⟨value, s5⟩ := r2
      simp only [hd] at h
      have ht := dispatch_tidy cx0 astFunction.expression astFunction.type.returnType s4 value
        s5 hinv4 hd
      have hwf4 : WellFormedBlocks cx0 s4 := by
        intro b hne hterm
        exfalso
        by_cases hb1 : b = s4.insertBlock
        · rw [hb1] at hterm hne
          exact hinv4.insert_open hne hterm
        · obtain ⟨i, hi, -⟩ := hterm
          rw [hinv4.inv0.fresh_empty b (by omega)] at hi
          simp at hi
      have hwf5 := ht.2.2.1 hwf4
      have hclosed : ∀ b, b < s5.numBlocks → b ≠ cx0.unreachableBlock → b ≠ s5.insertBlock →
          Terminated s5 b := by
        intro b hlt hne hnot
        by_contra hopen
        rcases ht.2.2.2 b ⟨hlt, hne, hopen⟩ with h1 | h1 | h1
        · exact hnot h1
        · exact h1
        · omega
      have hret : ∀ t : Inst, t.isTerminator = true → s5.insertBlock ≠ cx0.unreachableBlock →
          ∀ b, b < s5.numBlocks → b ≠ cx0.unreachableBlock →
            EndsInTerminator ((insert t s5).2.blocks b) := by
        intro t htt hu b hlt hne
        rw [insert_eq]
        refine wellFormed_appendCode ht.1.insert_open hwf5 [t] (Or.inr ⟨t, rfl⟩) b hne ?_
        by_cases hbi : b = s5.insertBlock
        · rw [hbi]
          exact ⟨t, by rw [appendCode_blocks_self]; simp, htt⟩
        · exact Terminated_mono (appendCode_extend [t] s5 b) (hclosed b hlt hne hbi)
      by_cases hu : s5.insertBlock = cx0.unreachableBlock
      · simp only [hu, ne_eq, not_true_eq_false, if_false, Except.ok.injEq,
          Prod.mk.injEq] at h
        rw [← h.1, ← h.2]
        intro b hlt hne
        exact hwf5 b hne (hclosed b hlt hne (by rw [hu]; exact hne))
      · simp only [hu, ne_eq, not_false_eq_true, if_true] at h
        by_cases hvoid : astFunction.type.returnType = .Void
        · simp only [hvoid, if_true, Except.ok.injEq, Prod.mk.injEq] at h
          rw [← h.1, ← h.2]
          exact hret _ rfl hu
        · simp only [hvoid, if_false, Except.ok.injEq, Prod.mk.injEq] at h
          rw [← h.1, ← h.2]
          exact hret _ rfl hu

/-- C28.  When `emit` completes for a function, every basic block that remains in the
function, that is every block but the erased unreachable block, is well-formed: its last
instruction is a terminator (a branch, a conditional branch, a switch or a return), and no
instruction before the last one is a terminator, so that nothing follows the terminator of
the block. -/
theorem emitted_blocks_end_in_one_terminator (jitModule : JITModule) (astFunction : Function)
    (blocks : List (Nat × List Inst)) (h : emit jitModule astFunction = .ok blocks) :
    ∀ p ∈ blocks, EndsInTerminator p.2 ∧
      ∃ body t, p.2 = body ++ [t] ∧ t.isTerminator = true ∧
        ∀ i ∈ body, i.isTerminator = false := by
  unfold emit at h
  cases hb : emitBody jitModule astFunction with
  | error e => simp [hb] at h
  | ok r =>
    obtain ⟨cx, s⟩ := r
    simp only [hb, Except.ok.injEq] at h
    intro p hp
    rw [← h] at hp
    simp only [eraseBlock, List.mem_map, List.mem_filter, List.mem_range,
      decide_eq_true_eq] at hp
    obtain ⟨b, ⟨hlt, hne⟩, hpb⟩ := hp
    rw [← hpb]
    have := emitBody_blocks jitModule astFunction cx s hb b hlt hne
    exact ⟨this, endsInTerminator_split this⟩

/-- C28 at a function whose body is a loop with an if-else and a branch out of the loop,
followed by a switch with a returning arm: the nine blocks that remain, blocks 1 to 9, are
well-formed; block 9, the join of the switch, holds the phi node and the return of the
function. -/
theorem emitted_blocks_end_in_one_terminator_witness :
    ∃ blocks, emit Example.jitModule Example.controlFlowFunction = .ok blocks ∧
      blocks.map Prod.fst = [1, 2, 3, 4, 5, 6, 7, 8, 9] ∧
      blocks.lookup 9 =
        some [.phi .I32 [(.literal .I32 2, 8)], .ret (some (.inst 9 0))] ∧
      ∀ p ∈ blocks, EndsInTerminator p.2 ∧
        ∃ body t, p.2 = body ++ [t] ∧ t.isTerminator = true ∧
          ∀ i ∈ body, i.isTerminator = false :=
  ⟨_, rfl, by decide, by decide,
    emitted_blocks_end_in_one_terminator Example.jitModule Example.controlFlowFunction _ rfl⟩

theorem collects_refl {cx : JITFunctionContext} {s : EmitState}
    (hu : s.insertBlock = cx.unreachableBlock) : Collects cx none s s :=
  ⟨hu, [], (appendCode_nil s).symm, by simp, by simp⟩

theorem Collects.insertBlock_eq {cx : JITFunctionContext} {g : Option (Inst → Bool)} {s s' : EmitState}
    (h : Collects cx g s s') : s'.insertBlock = cx.unreachableBlock := by
  obtain ⟨hu, code, hs, -, -⟩ := h
  rw [hs]
  exact hu

theorem Collects.weaken {cx : JITFunctionContext} {g : Option (Inst → Bool)} {s s' : EmitState}
    (h : Collects cx g s s') : Collects cx none s s' := by
  obtain ⟨hu, code, hs, hc, -⟩ := h
  exact ⟨hu, code, hs, hc, by simp⟩

theorem CollectsAll.weaken_all {α : Type} {cx : JITFunctionContext} {g : Option (Inst → Bool)}
    {d : EmitState → EmitResult α} (h : CollectsAll cx g d) : CollectsAll cx none d :=
  fun s v s' hu he => (h s v s' hu he).weaken

theorem collects_insert0 {cx : JITFunctionContext} {g : Option (Inst → Bool)}
    {s s1 : EmitState} (h : Collects cx g s s1) (i : Inst) (hi : i.isTerminator = false) :
    Collects cx none s (insert i s1).2 := by
  obtain ⟨hu, code, hs, hc, -⟩ := h
  refine ⟨hu, code ++ [i], ?_, ?_, by simp⟩
  · rw [insert_eq, hs, appendCode_append]
  · intro j hj
    simp only [List.mem_append, List.mem_singleton] at hj
    rcases hj with hj | hj
    · exact hc j hj
    · subst hj; exact hi

theorem collects_insert {cx : JITFunctionContext} {g : Option (Inst → Bool)}
    {kind : Inst → Bool} {s s1 : EmitState} (h : Collects cx g s s1) (i : Inst)
    (hi : (!i.isTerminator && kind i) = true) :
    Collects cx (some kind) s (insert i s1).2 := by
  simp only [Bool.and_eq_true, Bool.not_eq_true'] at hi
  obtain ⟨hu, code, hs, hc, -⟩ := collects_insert0 h i hi.1
  obtain ⟨-, code0, hs0, -, -⟩ := h
  refine ⟨hu, code0 ++ [i], ?_, ?_, ?_⟩
  · rw [insert_eq, hs0, appendCode_append]
  · intro j hj
    have hcode : code = code0 ++ [i] := by
      have h1 := congrArg (fun st => st.blocks s.insertBlock) hs
      rw [insert_eq, hs0, appendCode_append] at h1
      simp only [appendCode_blocks_self] at h1
      exact (List.append_cancel_left h1).symm
    exact hc j (hcode ▸ hj)
  · intro k hk
    simp only [Option.some.injEq] at hk
    subst hk
    exact ⟨code0, i, rfl, hi.2⟩

theorem collects_trans {α : Type} {cx : JITFunctionContext} {g g' : Option (Inst → Bool)}
    {s s1 s2 : EmitState} (h : Collects cx g s s1) {d : EmitState → EmitResult α}
    (hd : CollectsAll cx g' d) {v : α} (he : d s1 = .ok (v, s2)) : Collects cx g' s s2 := by
  obtain ⟨-, code2, hs2, hc2, hg2⟩ := hd s1 v s2 h.insertBlock_eq he
  obtain ⟨hu, code, hs, hc, -⟩ := h
  refine ⟨hu, code ++ code2, ?_, ?_, ?_⟩
  · rw [hs2, hs, appendCode_append]
  · intro j hj
    simp only [List.mem_append] at hj
    rcases hj with hj | hj
    · exact hc j hj
    · exact hc2 j hj
  · intro k hk
    obtain ⟨front, i, hfront, hi⟩ := hg2 k hk
    exact ⟨code ++ front, i, by rw [hfront, List.append_assoc], hi⟩

theorem setInsertPoint_self (s : EmitState) : setInsertPoint s.insertBlock s = s := rfl

theorem compileAddress_collects (cx : JITFunctionContext) (address : Dispatcher)
    (isFarAddress : Bool) (memoryType : TypeId) (ha : ∀ ty, CollectsAll cx none (address ty)) :
    CollectsAll cx none (compileAddress cx address isFarAddress memoryType) := by
  intro s v s' hu h
  unfold compileAddress at h
  cases isFarAddress with
  | false =>
    simp only [Bool.false_eq_true, if_false] at h
    cases hd : address .I32 s with
    | error e => simp [hd] at h
    | ok r =>
      obtain ⟨a, s1⟩ := r
      simp only [hd] at h
      rw [snd_eq h]
      exact collects_insert0 (collects_insert0 (collects_insert0 (collects_insert0
        (collects_trans (collects_refl hu) (ha .I32) hd) _ (by rfl)) _ (by rfl)) _ (by rfl)) _ (by rfl)
  | true =>
    simp only [if_true] at h
    cases hd : address .I64 s with
    | error e => simp [hd] at h
    | ok r =>
      obtain ⟨a, s1⟩ := r
      simp only [hd] at h
      rw [snd_eq h]
      exact collects_insert0 (collects_insert0 (collects_insert0
        (collects_trans (collects_refl hu) (ha .I64) hd) _ (by rfl)) _ (by rfl)) _ (by rfl)

theorem compileCall_collects (cx : JITFunctionContext) (functionType : FunctionType)
    (function : Value) (args : List TypeId → EmitState → EmitResult (List Value))
    (ha : ∀ tys, CollectsAll cx none (args tys)) :
    CollectsAll cx (some Inst.isCall) (compileCall functionType function args) := by
  intro s v s' hu h
  unfold compileCall at h
  cases hd : args functionType.parameters s with
  | error e => simp [hd] at h
  | ok r =>
    obtain ⟨a, s1⟩ := r
    simp only [hd] at h
    rw [snd_eq h]
    exact collects_insert (collects_trans (collects_refl hu) (ha _) hd) _ (by rfl)

theorem visitLiteral_collects (cx : JITFunctionContext) (type : TypeId) (value : Nat) :
    CollectsAll cx none (visitLiteral type value) := by
  intro s v s' hu h
  simp only [visitLiteral] at h
  rw [snd_eq h]
  exact collects_refl hu

theorem visitError_collects (cx : JITFunctionContext) : CollectsAll cx none visitError := by
  intro s v s' _ h
  simp [visitError] at h

theorem visitNop_collects (cx : JITFunctionContext) : CollectsAll cx none visitNop := by
  intro s v s' hu h
  simp only [visitNop] at h
  rw [snd_eq h]
  exact collects_refl hu

theorem visitGetLocal_collects (cx : JITFunctionContext) (variableIndex : Nat) :
    CollectsAll cx (some Inst.isLoad) (visitGetLocal cx variableIndex) := by
  intro s v s' hu h
  unfold visitGetLocal at h
  split at h
  · split at h
    · simp at h
    · rw [snd_eq h]
      exact collects_insert (collects_refl hu) _ (by rfl)
  · simp at h

theorem visitSetLocal_collects (cx : JITFunctionContext) (variableIndex : Nat)
    (value : Dispatcher) (hv : ∀ ty, CollectsAll cx none (value ty)) :
    CollectsAll cx (some Inst.isStore) (visitSetLocal cx variableIndex value) := by
  intro s v s' hu h
  unfold visitSetLocal at h
  split at h
  · simp at h
  · rename_i lv _
    cases hd : value lv.type s with
    | error e => simp [hd] at h
    | ok r =>
      obtain ⟨a, s1⟩ := r
      simp only [hd] at h
      split at h
      · simp at h
      · rw [snd_eq h]
        exact collects_insert (collects_trans (collects_refl hu) (hv _) hd) _ (by rfl)

theorem visitLoad_collects (cx : JITFunctionContext) (type : TypeId) (op : LoadOp)
    (address : Dispatcher) (isFarAddress : Bool) (alignmentLog2 : Nat) (memoryType : TypeId)
    (ha : ∀ ty, CollectsAll cx none (address ty)) :
    CollectsAll cx (some Inst.isLoadOrCast) (visitLoad cx type op address isFarAddress alignmentLog2 memoryType) := by
  intro s v s' hu h
  have hca := compileAddress_collects cx address isFarAddress memoryType ha
  unfold visitLoad at h
  cases op <;> simp only at h
  · split at h
    · cases hc : compileAddress cx address isFarAddress memoryType s with
      | error e => simp [hc] at h
      | ok r =>
        obtain ⟨p, s2⟩ := r
        simp only [hc] at h
        rw [snd_eq h]
        exact collects_insert (collects_trans (collects_refl hu) hca hc) _ (by rfl)
    · simp at h
  · cases hc : compileAddress cx address isFarAddress memoryType s with
    | error e => simp [hc] at h
    | ok r =>
      obtain ⟨p, s2⟩ := r
      simp only [hc] at h
      have hg : Collects cx (some Inst.isLoadOrCast) s
          (insert (.load p (some (1 <<< alignmentLog2))) s2).2 :=
        collects_insert (collects_trans (collects_refl hu) hca hc)
          (.load p (some (1 <<< alignmentLog2))) rfl
      split at h
      · split at h
        · rw [snd_eq h]
          exact hg
        · rw [snd_eq h]
          exact collects_insert hg _ (by rfl)
      · simp at h
  · cases hc : compileAddress cx address isFarAddress memoryType s with
    | error e => simp [hc] at h
    | ok r =>
      obtain ⟨p, s2⟩ := r
      simp only [hc] at h
      rw [snd_eq h]
      exact collects_insert (collects_insert0 (collects_trans (collects_refl hu) hca hc) _ (by rfl)) _ (by rfl)
  · cases hc : compileAddress cx address isFarAddress memoryType s with
    | error e => simp [hc] at h
    | ok r =>
      obtain ⟨p, s2⟩ := r
      simp only [hc] at h
      rw [snd_eq h]
      exact collects_insert (collects_insert0 (collects_trans (collects_refl hu) hca hc) _ (by rfl)) _ (by rfl)

theorem visitStore_collects (cx : JITFunctionContext) (isIntClass : Bool) (address : Dispatcher)
    (isFarAddress : Bool) (alignmentLog2 : Nat) (value : Dispatcher)
    (valueType memoryType : TypeId) (ha : ∀ ty, CollectsAll cx none (address ty))
    (hv : ∀ ty, CollectsAll cx none (value ty)) :
    CollectsAll cx (some Inst.isStore) (visitStore cx isIntClass address isFarAddress alignmentLog2 value valueType
      memoryType) := by
  intro s v s' hu h
  have hca := compileAddress_collects cx address isFarAddress memoryType ha
  unfold visitStore at h
  cases hd : value valueType s with
  | error e => simp [hd] at h
  | ok r =>
    obtain ⟨v0, sv⟩ := r
    have hg0 := collects_trans (collects_refl hu) (hv valueType) hd
    simp only [hd] at h
    cases isIntClass with
    | true =>
      simp only [if_true] at h
      split at h
      · simp at h
      · rename_i mv s2 htr
        have hg2 : Collects cx none s s2 := by
          split at htr
          · split at htr
            · rw [snd_eq htr]
              exact collects_insert0 hg0 _ (by rfl)
            · simp at htr
          · rw [snd_eq htr]
            exact hg0
        cases hc : compileAddress cx address isFarAddress memoryType s2 with
        | error e => simp [hc] at h
        | ok r =>
          obtain ⟨p, s3⟩ := r
          simp only [hc] at h
          rw [snd_eq h]
          exact collects_insert (collects_trans hg2 hca hc) _ (by rfl)
    | false =>
      simp only [Bool.false_eq_true, if_false] at h
      cases hc : compileAddress cx address isFarAddress memoryType sv with
      | error e => simp [hc] at h
      | ok r =>
        obtain ⟨p, s3⟩ := r
        simp only [hc] at h
        rw [snd_eq h]
        exact collects_insert (collects_trans hg0 hca hc) _ (by rfl)


theorem visitCallDirect_collects (cx : JITFunctionContext) (type : TypeId) (functionIndex : Nat)
    (parameters : List TypeId → EmitState → EmitResult (List Value))
    (hp : ∀ tys, CollectsAll cx none (parameters tys)) :
    CollectsAll cx (some Inst.isCall) (visitCallDirect cx type functionIndex parameters) := by
  intro s v s' hu h
  unfold visitCallDirect at h
  split at h
  · simp at h
  · split at h
    · exact compileCall_collects cx _ _ parameters hp s v s' hu h
    · simp at h

theorem visitCallImport_collects (cx : JITFunctionContext) (type : TypeId) (functionIndex : Nat)
    (parameters : List TypeId → EmitState → EmitResult (List Value))
    (hp : ∀ tys, CollectsAll cx none (parameters tys)) :
    CollectsAll cx (some Inst.isCall) (visitCallImport cx type functionIndex parameters) := by
  intro s v s' hu h
  unfold visitCallImport at h
  split at h
  · simp at h
  · split at h
    · exact compileCall_collects cx _ _ parameters hp s v s' hu h
    · simp at h

theorem visitCallIndirect_collects (cx : JITFunctionContext) (type : TypeId) (tableIndex : Nat)
    (functionIndex : Dispatcher)
    (parameters : List TypeId → EmitState → EmitResult (List Value))
    (hf : ∀ ty, CollectsAll cx none (functionIndex ty)) (hp : ∀ tys, CollectsAll cx none (parameters tys)) :
    CollectsAll cx (some Inst.isCall) (visitCallIndirect cx type tableIndex functionIndex parameters) := by
  intro s v s' hu h
  unfold visitCallIndirect at h
  split at h
  · simp at h
  · split at h
    · simp at h
    · split at h
      · simp at h
      · cases hd : functionIndex .I32 s with
        | error e => simp [hd] at h
        | ok r =>
          obtain ⟨index, s1⟩ := r
          simp only [hd] at h
          exact collects_trans (collects_insert0 (collects_insert0 (collects_insert0
            (collects_trans (collects_refl hu) (hf .I32) hd) _ (by rfl)) _ (by rfl)) _ (by rfl))
            (compileCall_collects cx _ _ parameters hp) h

theorem visitSequence_collects (cx : JITFunctionContext) (type : TypeId)
    (voidExpression resultExpression : Dispatcher)
    (h1 : ∀ ty, CollectsAll cx none (voidExpression ty)) (h2 : ∀ ty, CollectsAll cx none (resultExpression ty)) :
    CollectsAll cx none (visitSequence type voidExpression resultExpression) := by
  intro s v s' hu h
  unfold visitSequence at h
  cases hd : voidExpression .Void s with
  | error e => simp [hd] at h
  | ok r =>
    obtain ⟨a, s1⟩ := r
    simp only [hd] at h
    exact collects_trans (collects_trans (collects_refl hu) (h1 .Void) hd) (h2 type) h

theorem visitDiscardResult_collects (cx : JITFunctionContext)
    (expression : EmitState → EmitResult Value) (h1 : CollectsAll cx none expression) :
    CollectsAll cx none (visitDiscardResult expression) := by
  intro s v s' hu h
  unfold visitDiscardResult at h
  cases hd : expression s with
  | error e => simp [hd] at h
  | ok r =>
    obtain ⟨a, s1⟩ := r
    simp only [hd] at h
    rw [snd_eq h]
    exact collects_trans (collects_refl hu) h1 hd

theorem collects_compileUnaryOp {cx : JITFunctionContext} {g : Option (Inst → Bool)} {s s1 : EmitState}
    (h : Collects cx g s s1) (op : UnaryOp) (type : TypeId) (operand : Value) :
    Collects cx (some Inst.isArithmeticOrCall) s (compileUnaryOp op type operand s1).2 := by
  cases op <;> simp only [compileUnaryOp, compileIntAbs, compileIntrinsic] <;>
    first
      | exact collects_insert h _ (by rfl)
      | exact collects_insert (collects_insert0 (collects_insert0 h _ (by rfl)) _ (by rfl)) _ (by rfl)

theorem collects_compileBinaryOp {cx : JITFunctionContext} {g : Option (Inst → Bool)} {s s1 : EmitState}
    (h : Collects cx g s s1) (op : BinaryOp) (type : TypeId) (left right : Value) :
    Collects cx (some Inst.isArithmeticOrCall) s (compileBinaryOp op type left right s1).2 := by
  cases op <;> simp only [compileBinaryOp, compileIntrinsic2] <;>
    exact collects_insert h _ (by rfl)

theorem collects_compileCastOp {cx : JITFunctionContext} {g : Option (Inst → Bool)} {s s1 : EmitState}
    (h : Collects cx g s s1) (op : CastOp) (type : TypeId) (source : Value) :
    Collects cx (some Inst.isCast) s (compileCastOp op type source s1).2 := by
  cases op <;> simp only [compileCastOp] <;> exact collects_insert h _ (by rfl)

theorem collects_compileComparisonOp {cx : JITFunctionContext} {g : Option (Inst → Bool)} {s s1 : EmitState}
    (h : Collects cx g s s1) (op : ComparisonOp) (type : TypeId) (left right : Value) :
    Collects cx (some Inst.isCmp) s (compileComparisonOp op type left right s1).2 := by
  cases op <;> simp only [compileComparisonOp] <;>
    first
      | exact collects_insert h _ (by rfl)
      | (split <;> exact collects_insert h _ (by rfl))

theorem visitUnary_collects (cx : JITFunctionContext) (type : TypeId) (op : UnaryOp)
    (operand : Dispatcher) (h1 : ∀ ty, CollectsAll cx none (operand ty)) :
    CollectsAll cx (some Inst.isArithmeticOrCall) (visitUnary type op operand) := by
  intro s v s' hu h
  unfold visitUnary at h
  cases hd : operand type s with
  | error e => simp [hd] at h
  | ok r =>
    obtain ⟨a, s1⟩ := r
    simp only [hd] at h
    rw [snd_eq h]
    exact collects_compileUnaryOp (collects_trans (collects_refl hu) (h1 type) hd) op type a

theorem visitBinary_collects (cx : JITFunctionContext) (type : TypeId) (op : BinaryOp)
    (left right : Dispatcher) (h1 : ∀ ty, CollectsAll cx none (left ty))
    (h2 : ∀ ty, CollectsAll cx none (right ty)) : CollectsAll cx (some Inst.isArithmeticOrCall) (visitBinary type op left right) := by
  intro s v s' hu h
  obtain ⟨l, s1, r, s2, hl, hr, hc⟩ := visitBinary_code type op left right s s' v h
  have hs : s' = (compileBinaryOp op type l r s2).2 := by rw [← hc]
  rw [hs]
  exact collects_compileBinaryOp (collects_trans (collects_trans (collects_refl hu) (h1 type) hl) (h2 type) hr)
    op type l r

theorem visitCast_collects (cx : JITFunctionContext) (type : TypeId) (op : CastOp)
    (source : EmitState → EmitResult Value) (h1 : CollectsAll cx none source) :
    CollectsAll cx (some Inst.isCast) (visitCast type op source) := by
  intro s v s' hu h
  unfold visitCast at h
  cases hd : source s with
  | error e => simp [hd] at h
  | ok r =>
    obtain ⟨a, s1⟩ := r
    simp only [hd] at h
    rw [snd_eq h]
    exact collects_compileCastOp (collects_trans (collects_refl hu) h1 hd) op type a

theorem visitComparison_collects (cx : JITFunctionContext) (op : ComparisonOp)
    (operandType : TypeId) (left right : Dispatcher) (h1 : ∀ ty, CollectsAll cx none (left ty))
    (h2 : ∀ ty, CollectsAll cx none (right ty)) :
    CollectsAll cx (some Inst.isCmp) (visitComparison op operandType left right) := by
  intro s v s' hu h
  unfold visitComparison at h
  cases hl : left operandType s with
  | error e => simp [hl] at h
  | ok r1 =>
    obtain ⟨l, s1⟩ := r1
    simp only [hl] at h
    cases hr : right operandType s1 with
    | error e => simp [hr] at h
    | ok r2 =>
      obtain ⟨r, s2⟩ := r2
      simp only [hr] at h
      rw [snd_eq h]
      exact collects_compileComparisonOp
        (collects_trans (collects_trans (collects_refl hu) (h1 _) hl) (h2 _) hr) op operandType l r



theorem visitReturn_collects (cx : JITFunctionContext) (type : TypeId) (value : Dispatcher)
    (hv : ∀ ty, CollectsAll cx none (value ty)) :
    CollectsAll cx none (visitReturn cx type value) := by
  intro s v s' hu h
  unfold visitReturn at h
  by_cases hvoid : cx.astFunction.type.returnType = .Void
  · simp only [hvoid, if_true, hu, ne_eq, not_true_eq_false, if_false, Except.ok.injEq,
      Prod.mk.injEq] at h
    rw [← h.2]
    exact collects_refl hu
  · simp only [hvoid, if_false] at h
    cases hd : value cx.astFunction.type.returnType s with
    | error e => simp [hd] at h
    | ok r =>
      obtain ⟨rv, s1⟩ := r
      have h1 := collects_trans (collects_refl hu) (hv _) hd
      simp only [hd, h1.insertBlock_eq, ne_eq, not_true_eq_false, if_false, Except.ok.injEq,
        Prod.mk.injEq] at h
      rw [← h.2]
      exact h1

theorem visitBranch_collects (cx : JITFunctionContext) (type : TypeId)
    (branchTarget : BranchTarget) (value : Dispatcher)
    (hv : ∀ ty, CollectsAll cx none (value ty)) :
    CollectsAll cx none (visitBranch cx type branchTarget value) := by
  intro s v s' hu h
  unfold visitBranch at h
  cases hf : findTargetContext branchTarget s.branchContext with
  | none => simp [hf] at h
  | some p =>
    obtain ⟨depth, targetContext⟩ := p
    simp only [hf] at h
    have hend : ∀ (v1 : Value) (s1 : EmitState), Collects cx none s s1 →
        (Except.ok (Value.typedZero type, setInsertPoint cx.unreachableBlock
          (match (compileBranch cx targetContext.basicBlock s1).1 with
            | some b => { (compileBranch cx targetContext.basicBlock s1).2 with
                branchContext := addBranchResult ⟨b, v1⟩ depth
                  (compileBranch cx targetContext.basicBlock s1).2.branchContext }
            | none => (compileBranch cx targetContext.basicBlock s1).2)) :
          EmitResult Value) = .ok (v, s') → Collects cx none s s' := by
      intro v1 s1 h1 he
      have hu1 := h1.insertBlock_eq
      have hcb : compileBranch cx targetContext.basicBlock s1 = (none, s1) := by
        simp [compileBranch, hu1]
      simp only [hcb, Except.ok.injEq, Prod.mk.injEq] at he
      rw [← he.2, ← hu1, setInsertPoint_self]
      exact h1
    by_cases hvoid : branchTarget.type = .Void
    · simp only [hvoid, if_true] at h
      exact hend _ s (collects_refl hu) h
    · simp only [hvoid, if_false] at h
      cases hd : value targetContext.branchTarget.type s with
      | error e => simp [hd] at h
      | ok r =>
        obtain ⟨rv, s1⟩ := r
        simp only [hd] at h
        exact hend _ s1 (collects_trans (collects_refl hu) (hv _) hd) h

mutual
/-- An expression built without `Label`, `Loop`, `IfElse` and `Switch` that is emitted at the
unreachable block only collects instructions there. -/
theorem dispatch_collects (cx : JITFunctionContext) :
    ∀ (e : Expression), e.isStraightLine = true → ∀ (ty : TypeId),
      CollectsAll cx e.createdKind (dispatch cx e ty)
  | .literal t value, _, _ => fun s v s' hu h => visitLiteral_collects cx t value s v s' hu h
  | .error _, _, _ => fun s v s' hu h => visitError_collects cx s v s' hu h
  | .getLocal i, _, _ => fun s v s' hu h => visitGetLocal_collects cx i s v s' hu h
  | .setLocal i value, hsl, _ => by
    simp only [Expression.isStraightLine] at hsl
    exact fun s v s' hu h =>
      visitSetLocal_collects cx i _ (fun t => (dispatch_collects cx value hsl t).weaken_all)
        s v s' hu h
  | .load op address far align memoryType, hsl, ty => by
    simp only [Expression.isStraightLine] at hsl
    exact fun s v s' hu h =>
      visitLoad_collects cx ty op _ far align memoryType
        (fun t => (dispatch_collects cx address hsl t).weaken_all) s v s' hu h
  | .store isInt address far align value valueType memoryType, hsl, _ => by
    simp only [Expression.isStraightLine, Bool.and_eq_true] at hsl
    exact fun s v s' hu h =>
      visitStore_collects cx isInt _ far align _ valueType memoryType
        (fun t => (dispatch_collects cx address hsl.1 t).weaken_all)
        (fun t => (dispatch_collects cx value hsl.2 t).weaken_all) s v s' hu h
  | .callDirect f parameters, hsl, ty => by
    simp only [Expression.isStraightLine] at hsl
    exact fun s v s' hu h =>
      visitCallDirect_collects cx ty f _
        (fun tys => dispatchArguments_collects cx parameters hsl tys) s v s' hu h
  | .callImport f parameters, hsl, ty => by
    simp only [Expression.isStraightLine] at hsl
    exact fun s v s' hu h =>
      visitCallImport_collects cx ty f _
        (fun tys => dispatchArguments_collects cx parameters hsl tys) s v s' hu h
  | .callIndirect table f parameters, hsl, ty => by
    simp only [Expression.isStraightLine, Bool.and_eq_true] at hsl
    exact fun s v s' hu h =>
      visitCallIndirect_collects cx ty table _ _
        (fun t => (dispatch_collects cx f hsl.1 t).weaken_all)
        (fun tys => dispatchArguments_collects cx parameters hsl.2 tys) s v s' hu h
  | .switch _ _ _ _ _, hsl, _ => by simp [Expression.isStraightLine] at hsl
  | .ifElse _ _ _, hsl, _ => by simp [Expression.isStraightLine] at hsl
  | .label _ _, hsl, _ => by simp [Expression.isStraightLine] at hsl
  | .sequence a b, hsl, ty => by
    simp only [Expression.isStraightLine, Bool.and_eq_true] at hsl
    exact fun s v s' hu h =>
      visitSequence_collects cx ty _ _ (fun t => (dispatch_collects cx a hsl.1 t).weaken_all)
        (fun t => (dispatch_collects cx b hsl.2 t).weaken_all) s v s' hu h
  | .ret value, hsl, ty => by
    simp only [Expression.isStraightLine] at hsl
    exact fun s v s' hu h =>
      visitReturn_collects cx ty _ (fun t => (dispatch_collects cx value hsl t).weaken_all)
        s v s' hu h
  | .loop _ _ _, hsl, _ => by simp [Expression.isStraightLine] at hsl
  | .branch target value, hsl, ty => by
    simp only [Expression.isStraightLine] at hsl
    exact fun s v s' hu h =>
      visitBranch_collects cx ty target _ (fun t => (dispatch_collects cx value hsl t).weaken_all)
        s v s' hu h
  | .nop, _, _ => fun s v s' hu h => visitNop_collects cx s v s' hu h
  | .discardResult e t, hsl, _ => by
    simp only [Expression.isStraightLine] at hsl
    exact fun s v s' hu h =>
      visitDiscardResult_collects cx _ (dispatch_collects cx e hsl t).weaken_all s v s' hu h
  | .unary op operand, hsl, ty => by
    simp only [Expression.isStraightLine] at hsl
    exact fun s v s' hu h =>
      visitUnary_collects cx ty op _ (fun t => (dispatch_collects cx operand hsl t).weaken_all)
        s v s' hu h
  | .binary op l r, hsl, ty => by
    simp only [Expression.isStraightLine, Bool.and_eq_true] at hsl
    exact fun s v s' hu h =>
      visitBinary_collects cx ty op _ _ (fun t => (dispatch_collects cx l hsl.1 t).weaken_all)
        (fun t => (dispatch_collects cx r hsl.2 t).weaken_all) s v s' hu h
  | .cast op source sourceType, hsl, ty => by
    simp only [Expression.isStraightLine] at hsl
    exact fun s v s' hu h =>
      visitCast_collects cx ty op _ (dispatch_collects cx source hsl sourceType).weaken_all
        s v s' hu h
  | .comparison op operandType l r, hsl, _ => by
    simp only [Expression.isStraightLine, Bool.and_eq_true] at hsl
    exact fun s v s' hu h =>
      visitComparison_collects cx op operandType _ _
        (fun t => (dispatch_collects cx l hsl.1 t).weaken_all)
        (fun t => (dispatch_collects cx r hsl.2 t).weaken_all) s v s' hu h
/-- The arguments of a call, built without `Label`, `Loop`, `IfElse` and `Switch` and emitted
at the unreachable block, only collect instructions there. -/
theorem dispatchArguments_collects (cx : JITFunctionContext) :
    ∀ (l : ExpressionList), l.isStraightLine = true → ∀ (tys : List TypeId),
      CollectsAll cx none (dispatchArguments cx l tys)
  | .nil, _, [] => fun s v s' hu h => by
    rw [dispatchArguments] at h
    rw [snd_eq h]
    exact collects_refl hu
  | .nil, _, _ :: _ => fun s v s' hu h => by
    rw [dispatchArguments] at h
    simp at h
  | .cons arg rest, _, [] => fun s v s' hu h => by
    rw [dispatchArguments] at h
    rw [snd_eq h]
    exact collects_refl hu
  | .cons arg rest, hsl, parameter :: parameters => fun s v s' hu h => by
    simp only [ExpressionList.isStraightLine, Bool.and_eq_true] at hsl
    rw [dispatchArguments] at h
    cases hd : dispatch cx arg parameter s with
    | error e => simp [hd] at h
    | ok r =>
      obtain ⟨a, s1⟩ := r
      simp only [hd] at h
      have h1 := collects_trans (collects_refl hu)
        (dispatch_collects cx arg hsl.1 parameter).weaken_all hd
      cases hr : dispatchArguments cx rest parameters s1 with
      | error e => simp [hr] at h
      | ok r2 =>
        obtain ⟨vs, s2⟩ := r2
        simp only [hr] at h
        rw [snd_eq h]
        exact collects_trans h1 (dispatchArguments_collects cx rest hsl.2 parameters) hr
end
/-! ## The constructs that leave the unreachable block -/

/-- A label, a loop, an if-else or a switch ends with the insertion point at a block that
it created. -/
theorem join_ends_in_created_block (cx : JITFunctionContext) (e : Expression) (type : TypeId)
    (s : EmitState) (v : Value) (s' : EmitState) (hjoin : e.isJoin = true) (hinv : Inv cx s)
    (h : dispatch cx e type s = .ok (v, s')) : s.numBlocks ≤ s'.insertBlock := by
  cases e with
  | label endTarget body =>
    rw [dispatch] at h
    obtain ⟨value, s6, D, outer, -, -, -, -, -, -, -, -, -, -, -, hfinal⟩ :=
      visitLabel_facts cx type endTarget (fun ty st => dispatch cx body ty st)
        (fun t => dispatch_frames cx body t) s v s' hinv h
    have hib : s'.insertBlock = s.numBlocks + 1 := by
      have := congrArg (fun p => p.2.insertBlock) hfinal
      by_cases hty : type = .Void <;> simpa [hty] using this
    omega
  | loop body breakTarget continueTarget =>
    rw [dispatch] at h
    obtain ⟨bodyValue, s5, Db, Dc, outer, -, -, -, -, -, -, -, -, -, -, -, -, hfinal⟩ :=
      visitLoop_facts cx type (fun ty st => dispatch cx body ty st) breakTarget continueTarget
        (fun t => dispatch_frames cx body t) s v s' hinv h
    have hib : s'.insertBlock = s.numBlocks + 1 := by
      have := congrArg (fun p => p.2.insertBlock) hfinal
      by_cases hty : type = .Void <;> simpa [hty] using this
    omega
  | ifElse c t e =>
    rw [dispatch] at h
    obtain ⟨cond, s1, trueValue, s6, falseValue, s8, -, -, hRel1, -, -, -, -, -, -, -, -, -, -,
      -, -, -, -, -, -, hfinal⟩ :=
      visitIfElse_facts cx type (fun ty st => dispatch cx c ty st)
        (fun ty st => dispatch cx t ty st) (fun ty st => dispatch cx e ty st)
        (fun t' => dispatch_frames cx c t') (fun t' => dispatch_frames cx t t')
        (fun t' => dispatch_frames cx e t') s v s' hinv h
    have hib : s'.insertBlock = s1.numBlocks + 1 + 1 := by
      have := congrArg (fun p => p.2.insertBlock) hfinal
      by_cases hty : type = .Void <;> simpa [hty] using this
    have := hRel1.step.numBlocks_le
    omega
  | switch key keyType arms defaultArmIndex endTarget =>
    obtain ⟨value, s1, s6, D, outer, hk, -, -, -, -, hvoid, hnonvoid⟩ :=
      dispatch_switch_facts cx type key keyType arms defaultArmIndex endTarget s v s' h
    have hg1 := dispatch_frames cx key keyType s value s1 hinv hk
    have := hg1.2.step.numBlocks_le
    by_cases hty : type = .Void
    · rw [(hvoid hty).2]
      show s.numBlocks ≤ s1.numBlocks + arms.numArms
      omega
    · rw [(hnonvoid hty).2]
      show s.numBlocks ≤ s1.numBlocks + arms.numArms
      omega
  | _ => simp [Expression.isJoin] at hjoin

/-- The body of a label is emitted with the insertion point at the label block, which the
label created. -/
theorem label_body_in_created_block (cx : JITFunctionContext) (type : TypeId)
    (endTarget : BranchTarget) (body : Expression) (s : EmitState) (v : Value)
    (s' : EmitState) (hinv : Inv cx s)
    (h : dispatch cx (.label endTarget body) type s = .ok (v, s')) :
    ∃ value s6, dispatch cx body type (labelBodyState cx endTarget s) = .ok (value, s6) ∧
      (labelBodyState cx endTarget s).insertBlock = s.numBlocks ∧
      s.numBlocks ≠ cx.unreachableBlock := by
  rw [dispatch] at h
  obtain ⟨value, s6, D, outer, hd, -⟩ :=
    visitLabel_facts cx type endTarget (fun ty st => dispatch cx body ty st)
      (fun t => dispatch_frames cx body t) s v s' hinv h
  have := hinv.inv0.unreachable_lt
  exact ⟨value, s6, hd, labelBodyState_insertBlock cx endTarget s, by omega⟩

/-- The body of a loop is emitted with the insertion point at the loop block, which the
loop created. -/
theorem loop_body_in_created_block (cx : JITFunctionContext) (type : TypeId)
    (body : Expression) (breakTarget continueTarget : BranchTarget) (s : EmitState)
    (v : Value) (s' : EmitState) (hinv : Inv cx s)
    (h : dispatch cx (.loop body breakTarget continueTarget) type s = .ok (v, s')) :
    ∃ value s5,
      dispatch cx body .Void (loopBodyState cx breakTarget continueTarget s) =
        .ok (value, s5) ∧
      (loopBodyState cx breakTarget continueTarget s).insertBlock = s.numBlocks ∧
      s.numBlocks ≠ cx.unreachableBlock := by
  rw [dispatch] at h
  obtain ⟨value, s5, Db, Dc, outer, hd, -⟩ :=
    visitLoop_facts cx type (fun ty st => dispatch cx body ty st) breakTarget continueTarget
      (fun t => dispatch_frames cx body t) s v s' hinv h
  have := hinv.inv0.unreachable_lt
  exact ⟨value, s5, hd, loopBodyState_insertBlock cx breakTarget continueTarget s, by omega⟩

theorem thenArmState_insertBlock (cx : JITFunctionContext) (cond : Value) (s1 : EmitState) :
    (thenArmState cx cond s1).insertBlock = s1.numBlocks := rfl

theorem elseArmState_insertBlock (cx : JITFunctionContext) (s1 s6 : EmitState) :
    (elseArmState cx s1 s6).insertBlock = s1.numBlocks + 1 := rfl

/-- The arms of an if-else are emitted with the insertion point at the true block and at
the false block, which the if-else created. -/
theorem ifElse_arms_in_created_blocks (cx : JITFunctionContext) (type : TypeId)
    (c t e : Expression) (s : EmitState) (v : Value) (s' : EmitState) (hinv : Inv cx s)
    (h : dispatch cx (.ifElse c t e) type s = .ok (v, s')) :
    ∃ cond s1 trueValue s6 falseValue s8,
      dispatch cx c .Bool s = .ok (cond, s1) ∧ s.numBlocks ≤ s1.numBlocks ∧
      dispatch cx t type (thenArmState cx cond s1) = .ok (trueValue, s6) ∧
      (thenArmState cx cond s1).insertBlock = s1.numBlocks ∧
      dispatch cx e type (elseArmState cx s1 s6) = .ok (falseValue, s8) ∧
      (elseArmState cx s1 s6).insertBlock = s1.numBlocks + 1 ∧
      s1.numBlocks ≠ cx.unreachableBlock ∧ s1.numBlocks + 1 ≠ cx.unreachableBlock := by
  rw [dispatch] at h
  obtain ⟨cond, s1, trueValue, s6, falseValue, s8, hc, -, hRel1, -, -, ht, -, -, -, -, he, -⟩ :=
    visitIfElse_facts cx type (fun ty st => dispatch cx c ty st)
      (fun ty st => dispatch cx t ty st) (fun ty st => dispatch cx e ty st)
      (fun t' => dispatch_frames cx c t') (fun t' => dispatch_frames cx t t')
      (fun t' => dispatch_frames cx e t') s v s' hinv h
  have := hinv.inv0.unreachable_lt
  have := hRel1.step.numBlocks_le
  exact ⟨cond, s1, trueValue, s6, falseValue, s8, hc, by omega, ht,
    thenArmState_insertBlock cx cond s1, he, elseArmState_insertBlock cx s1 s6, by omega,
    by omega⟩

/-- A switch creates its switch instruction at the insertion point that the emission of the
key leaves, in the unreachable block if that is the unreachable block, and emits every arm
with the insertion point at the block of the arm, which the switch created. -/
theorem switch_instruction_and_arms (cx : JITFunctionContext) (type : TypeId)
    (key : Expression) (keyType : TypeId) (arms : SwitchArms) (defaultArmIndex : Nat)
    (endTarget : BranchTarget) (s : EmitState) (v : Value) (s' : EmitState)
    (hinv : Inv cx s)
    (h : dispatch cx (.switch key keyType arms defaultArmIndex endTarget) type s =
      .ok (v, s')) :
    ∃ value s1, dispatch cx key keyType s = .ok (value, s1) ∧ s.numBlocks ≤ s1.numBlocks ∧
      (s1.insertBlock = cx.unreachableBlock →
        ∃ rest, s'.blocks cx.unreachableBlock = s1.blocks cx.unreachableBlock ++
          [.switch value (s1.numBlocks + defaultArmIndex)
            (switchCases keyType defaultArmIndex s1.numBlocks 0 arms.keys)] ++ rest) ∧
      ∀ i e, arms.value? i = some e →
        s1.numBlocks + i ≠ cx.unreachableBlock ∧
        ∃ st armValue st1,
          dispatch cx e (if i + 1 = arms.numArms then type else .Void)
            (setInsertPoint (s1.numBlocks + i) st) = .ok (armValue, st1) := by
  obtain ⟨value, s1, s6, D, outer, hk, -, h3, hd, hc, hvoid, hnonvoid⟩ :=
    dispatch_switch_facts cx type key keyType arms defaultArmIndex endTarget s v s' h
  have hg1 := dispatch_frames cx key keyType s value s1 hinv hk
  have hle := hg1.2.step.numBlocks_le
  have hunr := hinv.inv0.unreachable_lt
  refine ⟨value, s1, hk, hle, ?_, ?_⟩
  · intro hu1
    have hready := armLoopState_ready cx value keyType arms.numArms arms.keys defaultArmIndex
      endTarget s s1 hg1 (le_of_eq arms.keys_length) h3
    have hdone := visitSwitchArms_frames cx type keyType defaultArmIndex arms.numArms
      s1.numBlocks (s1.numBlocks + arms.numArms) arms 0 _ () s6 hready (le_refl _) hd
    obtain ⟨rest, hrest⟩ := hdone.step.blocks_extend cx.unreachableBlock
    have harm : (armLoopState value keyType arms.numArms arms.keys defaultArmIndex endTarget
        s1).blocks cx.unreachableBlock = s1.blocks cx.unreachableBlock ++
          [.switch value (s1.numBlocks + defaultArmIndex)
            (switchCases keyType defaultArmIndex s1.numBlocks 0 arms.keys)] := by
      simp [armLoopState, appendCode, hu1]
    have hs6 : s'.blocks cx.unreachableBlock = s6.blocks cx.unreachableBlock := by
      by_cases hty : type = .Void
      · rw [(hvoid hty).2]
        rfl
      · rw [(hnonvoid hty).2, appendCode_blocks_of_ne]
        · rfl
        · show cx.unreachableBlock ≠ s1.numBlocks + arms.numArms
          omega
    exact ⟨rest, by rw [hs6, hrest, harm]⟩
  · intro i e he
    obtain ⟨st, armValue, st1, h1, -⟩ :=
      visitSwitchArms_round cx type keyType defaultArmIndex arms.numArms _ _ arms 0 _ _ _ hd
        i e he
    exact ⟨by omega, st, armValue, st1, by simpa using h1⟩

/-- The function `emit` erases the unreachable block and keeps the other blocks. -/
theorem emit_erases_unreachable_block (jitModule : JITModule) (astFunction : Function)
    (blocks : List (Nat × List Inst)) (h : emit jitModule astFunction = .ok blocks) :
    (∀ p ∈ blocks, p.1 ≠ initialUnreachableBlock) ∧
    ∃ cx0 s0, emitBody jitModule astFunction = .ok (cx0, s0) ∧
      cx0.unreachableBlock = initialUnreachableBlock ∧
      (∀ p ∈ blocks, p.2 = s0.blocks p.1) ∧
      ∀ b, b < s0.numBlocks → b ≠ initialUnreachableBlock → (b, s0.blocks b) ∈ blocks := by
  unfold emit at h
  cases hb : emitBody jitModule astFunction with
  | error e => simp [hb] at h
  | ok r =>
    obtain ⟨cx0, s0⟩ := r
    simp only [hb, Except.ok.injEq] at h
    have hu0 := emitBody_unreachableBlock jitModule astFunction cx0 s0 hb
    rw [hu0] at h
    subst h
    refine ⟨eraseBlock_not_mem _ s0, cx0, s0, rfl, hu0, ?_, ?_⟩
    · intro p hp
      simp only [eraseBlock, List.mem_map, List.mem_filter, List.mem_range] at hp
      obtain ⟨b, -, hpb⟩ := hp
      rw [← hpb]
    · intro b hlt hne
      simp only [eraseBlock, List.mem_map, List.mem_filter, List.mem_range,
        decide_eq_true_eq]
      exact ⟨b, ⟨hlt, hne⟩, rfl⟩

/-- The state of the examples in which the insertion point is the unreachable block
satisfies the invariant of the emitter. -/
theorem Example.unreachableState_inv : Inv Example.context Example.unreachableState := by
  refine ⟨⟨by decide, fun b _ => rfl, ?_, ?_⟩, by decide, ?_⟩
  · rintro b J ⟨i, hi, -⟩
    simp [Example.unreachableState] at hi
  · intro c hc
    simp [Example.unreachableState] at hc
  · intro hne
    exact absurd rfl hne
/-- C14 (as amended). What the emitter does while the insertion point is the unreachable
block; only branches and returns are suppressed there.  (1) `compileBranch` and
`compileCondBranch` create no instruction and hand back no block, and a `Return` of a
function without a return value creates no instruction.  (2) Any other instruction that is
created is appended to the unreachable block.  (3) An expression built without `Label`,
`Loop`, `IfElse` and `Switch` leaves the insertion point at the unreachable block, creates
no block and no terminator, and appends the instructions it creates to the unreachable
block and to no other block; the last of them is the load of a `GetLocal`, the store of a
`SetLocal` or `Store`, the load or the cast of the loaded value of a `Load`, the call of a
call, the arithmetic instruction or intrinsic call of a unary or binary operator, the cast
of a cast, the comparison of a comparison.  In a state with the invariant of the emitter:
(4) every expression leaves the blocks that existed before as they are, but for the
unreachable block, which it extends, and ends with the insertion point at the unreachable
block or at a block it created; (5) a `Label`, `Loop`, `IfElse` or `Switch` ends with the
insertion point at a block it created, which is not the unreachable block and is kept when
the unreachable block is erased, and which holds the phi node of the construct when the
type is not `void`; (6) the body of a `Label` or `Loop`, the arms of an `IfElse` and the
arms of a `Switch` are emitted with the insertion point at a block that the construct
created, not at the unreachable block, and (7) a `Switch` whose key leaves the insertion
point at the unreachable block appends its switch instruction to the unreachable block.
(8) The function `emit` erases the unreachable block: the finished function has no block
with its number, and holds every other block as it was emitted. -/
theorem unreachable_block_collects_and_is_erased (cx : JITFunctionContext) (s : EmitState)
    (hu : s.insertBlock = cx.unreachableBlock) :
    (∀ dest, compileBranch cx dest s = (none, s)) ∧
    (∀ condition trueDest falseDest,
      compileCondBranch cx condition trueDest falseDest s = (none, s)) ∧
    (∀ type value, cx.astFunction.type.returnType = .Void →
      visitReturn cx type value s = .ok (.typedZero type, s)) ∧
    (∀ i, (insert i s).2.insertBlock = cx.unreachableBlock ∧
      (insert i s).2.blocks cx.unreachableBlock = s.blocks cx.unreachableBlock ++ [i] ∧
      ∀ b, b ≠ cx.unreachableBlock → (insert i s).2.blocks b = s.blocks b) ∧
    (∀ e, e.isStraightLine = true → ∀ type v s', dispatch cx e type s = .ok (v, s') →
      s'.insertBlock = cx.unreachableBlock ∧ s'.numBlocks = s.numBlocks ∧
      ∃ code, s' = appendCode code s ∧
        s'.blocks cx.unreachableBlock = s.blocks cx.unreachableBlock ++ code ∧
        (∀ b, b ≠ cx.unreachableBlock → s'.blocks b = s.blocks b) ∧
        (∀ i ∈ code, i.isTerminator = false) ∧
        ∀ kind, e.createdKind = some kind → ∃ front i, code = front ++ [i] ∧ kind i = true) ∧
    (Inv cx s →
      (∀ e type v s', dispatch cx e type s = .ok (v, s') →
        (s'.insertBlock = cx.unreachableBlock ∨
          (s.numBlocks ≤ s'.insertBlock ∧ s'.insertBlock < s'.numBlocks)) ∧
        (∀ b, b < s.numBlocks → b ≠ cx.unreachableBlock → s'.blocks b = s.blocks b) ∧
        ∃ code, s'.blocks cx.unreachableBlock = s.blocks cx.unreachableBlock ++ code) ∧
      (∀ e, e.isJoin = true → ∀ type v s', dispatch cx e type s = .ok (v, s') →
        s.numBlocks ≤ s'.insertBlock ∧ s'.insertBlock < s'.numBlocks ∧
        s'.insertBlock ≠ cx.unreachableBlock ∧
        (s'.insertBlock, s'.blocks s'.insertBlock) ∈ eraseBlock cx.unreachableBlock s' ∧
        (type ≠ .Void → ∃ edges, s'.blocks s'.insertBlock = [.phi type edges])) ∧
      (∀ endTarget body type v s',
        dispatch cx (.label endTarget body) type s = .ok (v, s') →
        ∃ value s6, dispatch cx body type (labelBodyState cx endTarget s) = .ok (value, s6) ∧
          (labelBodyState cx endTarget s).insertBlock = s.numBlocks ∧
          s.numBlocks ≠ cx.unreachableBlock) ∧
      (∀ body breakTarget continueTarget type v s',
        dispatch cx (.loop body breakTarget continueTarget) type s = .ok (v, s') →
        ∃ value s5,
          dispatch cx body .Void (loopBodyState cx breakTarget continueTarget s) =
            .ok (value, s5) ∧
          (loopBodyState cx breakTarget continueTarget s).insertBlock = s.numBlocks ∧
          s.numBlocks ≠ cx.unreachableBlock) ∧
      (∀ c t e type v s', dispatch cx (.ifElse c t e) type s = .ok (v, s') →
        ∃ cond s1 trueValue s6 falseValue s8,
          dispatch cx c .Bool s = .ok (cond, s1) ∧ s.numBlocks ≤ s1.numBlocks ∧
          dispatch cx t type (thenArmState cx cond s1) = .ok (trueValue, s6) ∧
          (thenArmState cx cond s1).insertBlock = s1.numBlocks ∧
          dispatch cx e type (elseArmState cx s1 s6) = .ok (falseValue, s8) ∧
          (elseArmState cx s1 s6).insertBlock = s1.numBlocks + 1 ∧
          s1.numBlocks ≠ cx.unreachableBlock ∧ s1.numBlocks + 1 ≠ cx.unreachableBlock) ∧
      (∀ key keyType arms defaultArmIndex endTarget type v s',
        dispatch cx (.switch key keyType arms defaultArmIndex endTarget) type s =
          .ok (v, s') →
        ∃ value s1, dispatch cx key keyType s = .ok (value, s1) ∧
          s.numBlocks ≤ s1.numBlocks ∧
          (s1.insertBlock = cx.unreachableBlock →
            ∃ rest, s'.blocks cx.unreachableBlock = s1.blocks cx.unreachableBlock ++
              [.switch value (s1.numBlocks + defaultArmIndex)
                (switchCases keyType defaultArmIndex s1.numBlocks 0 arms.keys)] ++ rest) ∧
          ∀ i e, arms.value? i = some e →
            s1.numBlocks + i ≠ cx.unreachableBlock ∧
            ∃ st armValue st1,
              dispatch cx e (if i + 1 = arms.numArms then type else .Void)
                (setInsertPoint (s1.numBlocks + i) st) = .ok (armValue, st1))) ∧
    (∀ jitModule astFunction blocks, emit jitModule astFunction = .ok blocks →
      (∀ p ∈ blocks, p.1 ≠ initialUnreachableBlock) ∧
      ∃ cx0 s0, emitBody jitModule astFunction = .ok (cx0, s0) ∧
        cx0.unreachableBlock = initialUnreachableBlock ∧
        (∀ p ∈ blocks, p.2 = s0.blocks p.1) ∧
        ∀ b, b < s0.numBlocks → b ≠ initialUnreachableBlock → (b, s0.blocks b) ∈ blocks) := by
  refine ⟨?_, ?_, ?_, ?_, ?_, ?_, ?_⟩
  · intro dest
    simp [compileBranch, hu]
  · intro condition trueDest falseDest
    simp [compileCondBranch, hu]
  · intro type value hvoid
    simp [visitReturn, hvoid, hu]
  · intro i
    rw [insert_eq]
    refine ⟨hu, ?_, ?_⟩
    · rw [← hu]
      exact appendCode_blocks_self _ s
    · intro b hb
      exact appendCode_blocks_of_ne _ s b (by rw [hu]; exact hb)
  · intro e hsl type v s' h
    obtain ⟨-, code, hs, hc, hk⟩ := dispatch_collects cx e hsl type s v s' hu h
    refine ⟨by rw [hs]; exact hu, by rw [hs]; rfl, code, hs, ?_, ?_, hc, hk⟩
    · rw [hs, ← hu]
      exact appendCode_blocks_self _ s
    · intro b hb
      rw [hs]
      exact appendCode_blocks_of_ne _ s b (by rw [hu]; exact hb)
  · intro hinv
    refine ⟨?_, ?_, ?_, ?_, ?_, ?_⟩
    · intro e type v s' h
      obtain ⟨hinv', hrel⟩ := dispatch_frames cx e type s v s' hinv h
      refine ⟨?_, ?_, hrel.step.blocks_extend _⟩
      · rcases hrel.insertBlock_cases with h1 | h1 | h1
        · exact Or.inl (h1.trans hu)
        · exact Or.inl h1
        · exact Or.inr ⟨h1, hinv'.insertBlock_lt⟩
      · intro b hlt hne
        exact hrel.step.frozen b ⟨hlt, by rw [hu]; exact hne, hne⟩
    · intro e hjoin type v s' h
      obtain ⟨hinv', -⟩ := dispatch_frames cx e type s v s' hinv h
      have hle := join_ends_in_created_block cx e type s v s' hjoin hinv h
      have hunr := hinv.inv0.unreachable_lt
      have hne : s'.insertBlock ≠ cx.unreachableBlock := by omega
      refine ⟨hle, hinv'.insertBlock_lt, hne, ?_, ?_⟩
      · simp only [eraseBlock, List.mem_map, List.mem_filter, List.mem_range,
          decide_eq_true_eq]
        exact ⟨s'.insertBlock, ⟨hinv'.insertBlock_lt, hne⟩, rfl⟩
      · intro hty
        have hjoined : TypedJoin cx s' type v := by
          cases e with
          | label endTarget body => exact label_join cx type endTarget body s v s' hty hinv h
          | loop body breakTarget continueTarget =>
            exact loop_join cx type body breakTarget continueTarget s v s' hty hinv h
          | switch key keyType arms defaultArmIndex endTarget =>
            exact switch_join cx type key keyType arms defaultArmIndex endTarget s v s' hty
              hinv h
          | ifElse c t e => exact ifElse_join cx type c t e s v s' hty hinv h
          | _ => simp [Expression.isJoin] at hjoin
        obtain ⟨edges, -, hb, -⟩ := hjoined
        exact ⟨edges, hb⟩
    · intro endTarget body type v s' h
      exact label_body_in_created_block cx type endTarget body s v s' hinv h
    · intro body breakTarget continueTarget type v s' h
      exact loop_body_in_created_block cx type body breakTarget continueTarget s v s' hinv h
    · intro c t e type v s' h
      exact ifElse_arms_in_created_blocks cx type c t e s v s' hinv h
    · intro key keyType arms defaultArmIndex endTarget type v s' h
      exact switch_instruction_and_arms cx type key keyType arms defaultArmIndex endTarget
        s v s' hinv h
  · intro jitModule astFunction blocks h
    exact emit_erases_unreachable_block jitModule astFunction blocks h

/-- The amended C14 at the state of the examples in which the insertion point is the
unreachable block, block 0: the store of a sum to memory appends its instructions, the
last of which is the store, to block 0, and the label of the example function, emitted
there, ends at block 3, which it created. -/
theorem unreachable_block_collects_and_is_erased_witness :
    Example.unreachableState.insertBlock = Example.context.unreachableBlock ∧
    Inv Example.context Example.unreachableState ∧
    compileBranch Example.context 1 Example.unreachableState =
      (none, Example.unreachableState) ∧
    (∃ v s', dispatch Example.context
        (.store false (.literal .I32 8) false 2
          (.binary .intAdd (.literal .I64 2) (.literal .I64 3)) .I64 .I64) .I64
        Example.unreachableState = .ok (v, s') ∧
      s'.insertBlock = Example.context.unreachableBlock ∧
      ∃ code, s'.blocks Example.context.unreachableBlock =
          Example.unreachableState.blocks Example.context.unreachableBlock ++ code ∧
        ∃ front i, code = front ++ [i] ∧ i.isStore = true) ∧
    ∃ v s', dispatch Example.context
        (.label Example.targetV (.binary .intAdd (.literal .I64 2) (.literal .I64 3))) .I64
        Example.unreachableState = .ok (v, s') ∧
      s'.insertBlock = 3 ∧ s'.insertBlock ≠ Example.context.unreachableBlock := by
  have hall := unreachable_block_collects_and_is_erased Example.context
    Example.unreachableState rfl
  refine ⟨rfl, Example.unreachableState_inv, hall.1 1, ?_, ?_⟩
  · obtain ⟨h1, -, code, -, h2, -, -, h3⟩ := hall.2.2.2.2.1
      (.store false (.literal .I32 8) false 2
        (.binary .intAdd (.literal .I64 2) (.literal .I64 3)) .I64 .I64) rfl .I64 _ _ rfl
    exact ⟨_, _, rfl, h1, code, h2, h3 Inst.isStore rfl⟩
  · obtain ⟨-, -, h3, -⟩ := (hall.2.2.2.2.2.1 Example.unreachableState_inv).2.1
      (.label Example.targetV (.binary .intAdd (.literal .I64 2) (.literal .I64 3))) rfl
      .I64 _ _ rfl
    exact ⟨_, _, rfl, rfl, h3⟩

end LLVMJIT
